import Mathlib

/-!
# Context store of tanzu-plugin-runtime: a shallow embedding

The development follows `config/contexts.go` and `config/types/clientconfig.go`.
A YAML document is a tree of `Node`s; the Go code mutates the tree through
pointers, the embedding passes the tree explicitly and returns the new one.
Go `error` results are `Except Error`; a run-time panic (index out of range)
is the `Error.panic` value.
-/

namespace TanzuConfig

/-! ## yaml.v3 nodes -/

/-- Kind constants of yaml.v3 (`1 << iota`); `0` is the zero value of an unset `Key.Type`. -/
abbrev DocumentNode : Nat := 1
abbrev SequenceNode : Nat := 2
abbrev MappingNode : Nat := 4
abbrev ScalarNode : Nat := 8
abbrev AliasNode : Nat := 16

/-- The fields of `yaml.Node` that the configuration code reads or writes:
`Kind`, `Style`, `Value` and `Content`. -/
inductive Node where
  | mk (Kind : Nat) (Style : Nat) (Value : String) (Content : List Node)

namespace Node

def Kind : Node → Nat
  | mk k _ _ _ => k

def Style : Node → Nat
  | mk _ s _ _ => s

def Value : Node → String
  | mk _ _ v _ => v

def Content : Node → List Node
  | mk _ _ _ c => c

def setContent : Node → List Node → Node
  | mk k s v _, c => mk k s v c

def setValue : Node → String → Node
  | mk k s _ c, v => mk k s v c

def setStyle : Node → Nat → Node
  | mk k _ v c, s => mk k s v c

end Node

mutual
/-- Equality of two nodes is decidable. -/
def Node.decEq : (a b : Node) → Decidable (a = b)
  | .mk k1 s1 v1 c1, .mk k2 s2 v2 c2 =>
    if hk : k1 = k2 then
      if hs : s1 = s2 then
        if hv : v1 = v2 then
          match Node.decEqList c1 c2 with
          | isTrue hc => isTrue (by rw [hk, hs, hv, hc])
          | isFalse hc => isFalse (fun h => hc (Node.mk.inj h).2.2.2)
        else isFalse (fun h => hv (Node.mk.inj h).2.2.1)
      else isFalse (fun h => hs (Node.mk.inj h).2.1)
    else isFalse (fun h => hk (Node.mk.inj h).1)
/-- Equality of two lists of nodes is decidable. -/
def Node.decEqList : (as bs : List Node) → Decidable (as = bs)
  | [], [] => isTrue rfl
  | [], _ :: _ => isFalse (fun h => List.noConfusion h)
  | _ :: _, [] => isFalse (fun h => List.noConfusion h)
  | a :: as, b :: bs =>
    match Node.decEq a b with
    | isFalse h1 => isFalse (fun h => h1 (List.cons.inj h).1)
    | isTrue h1 =>
      match Node.decEqList as bs with
      | isFalse h2 => isFalse (fun h => h2 (List.cons.inj h).2)
      | isTrue h2 => isTrue (by rw [h1, h2])
end

instance : DecidableEq Node := Node.decEq

/-- Errors returned by the configuration API. `Errorf f a` is `fmt.Errorf(f, a)`
with one string argument, `Wrapf f e` is `fmt.Errorf(f, e.Error())`, `New text` is
`errors.New(text)`. -/
inductive Error where
  | Errorf (format : String) (arg : String)
  | Wrapf (format : String) (inner : Error)
  | New (text : String)
  | ErrNodeNotFound
  | panic (reason : String)
  | external (what : String)
deriving DecidableEq

/-! ## nodeutils -/

/-- Key of a path step: `nodeutils.Key` with its `Name` and its Go field `Type`, here
`Kind` (a yaml kind, `0` when unset). -/
structure Key where
  Name : String
  Kind : Nat
deriving DecidableEq

/-- Loop of `GetNodeIndex`, started at position `i`. -/
def GetNodeIndexFrom : List Node → String → Nat → Int
  | [], _, _ => -1
  | k :: rest, key, i =>
    if i % 2 = 0 ∧ k.Value = key then (i : Int) + 1 else GetNodeIndexFrom rest key (i + 1)

/-- Modelled from the spec: `nodeutils.GetNodeIndex`, whose source is not part of the
examined files: the index of the value node following the first even-positioned key
node whose `Value` equals `key`, or `-1`. -/
def GetNodeIndex (node : List Node) (key : String) : Int :=
  GetNodeIndexFrom node key 0

/-- Modelled from the spec: `nodeutils.CreateScalarNode`, a key scalar followed by a
value scalar, both with style `0`. -/
def CreateScalarNode (name value : String) : List Node :=
  [Node.mk ScalarNode 0 name [], Node.mk ScalarNode 0 value []]

/-- Modelled from the spec: `nodeutils.CreateMappingNode`, a key scalar followed by an
empty mapping. -/
def CreateMappingNode (name : String) : List Node :=
  [Node.mk ScalarNode 0 name [], Node.mk MappingNode 0 "" []]

/-- Modelled from the spec: `nodeutils.CreateSequenceNode`, a key scalar followed by an
empty sequence. -/
def CreateSequenceNode (name : String) : List Node :=
  [Node.mk ScalarNode 0 name [], Node.mk SequenceNode 0 "" []]

/-- Modelled from the spec: the node pair synthesized for a missing path step
("synthesizes an empty Mapping/Sequence of the expected kind"). -/
def createNode (key : Key) : List Node :=
  if key.Kind = MappingNode then CreateMappingNode key.Name
  else if key.Kind = SequenceNode then CreateSequenceNode key.Name
  else if key.Kind = ScalarNode then CreateScalarNode key.Name ""
  else []

/-- Child of a mapping node stored under `key`, if any. -/
def getNode (parent : Node) (key : String) : Option Node :=
  let index := GetNodeIndex parent.Content key
  if index = -1 then none else parent.Content.get? index.toNat

/-- Node reached from `n` by following child indices. -/
def nodeAt : Node → List Nat → Option Node
  | n, [] => some n
  | n, i :: p =>
    match n.Content.get? i with
    | none => none
    | some c => nodeAt c p

/-- Replace the node reached from `n` by following child indices (the effect of a
write through the pointer that `FindNode` returned). -/
def setNodeAt : Node → List Nat → Node → Node
  | _, [], new => new
  | n, i :: p, new =>
    match n.Content.get? i with
    | none => n
    | some c => n.setContent (n.Content.set i (setNodeAt c p new))

/-- Modelled from the spec: `nodeutils.FindNode` (section 4.2, Path Navigation), whose
source is not part of the examined files. It walks `keys` from `parent`; a missing
step is created when `forceCreate` is set; it fails when a step is absent and
`forceCreate` is unset, or when a step exists with a kind other than the expected
one. The result is the parent after any creation together with the index path of the
located node. -/
def FindNode : Node → Bool → List Key → Option (Node × List Nat)
  | parent, _, [] => some (parent, [])
  | parent, forceCreate, key :: keys =>
    let index := GetNodeIndex parent.Content key.Name
    if index ≠ -1 then
      match parent.Content.get? index.toNat with
      | none => none
      | some child =>
        if key.Kind ≠ 0 ∧ child.Kind ≠ key.Kind then none
        else
          match FindNode child forceCreate keys with
          | none => none
          | some (child1, path) =>
            some (parent.setContent (parent.Content.set index.toNat child1), index.toNat :: path)
    else if forceCreate then
      match createNode key with
      | [k, v] =>
        match FindNode v forceCreate keys with
        | none => none
        | some (v1, path) =>
          some (parent.setContent (parent.Content ++ [k, v1]), (parent.Content.length + 1) :: path)
      | _ => none
    else none

/-! ## Section keys -/

/-- Modelled from the spec: the key of the contexts section. -/
def KeyContexts : String := "contexts"

/-- Modelled from the spec: the key of the current-context section. -/
def KeyCurrentContext : String := "current-context"

/-- Modelled from the spec: the key of the servers section. -/
def KeyServers : String := "servers"

/-- Modelled from the spec: the key of the current-server scalar. -/
def KeyCurrentServer : String := "current-server"

/-! ## Typed entities (config/types) -/

/-- Target is a string type in Go. -/
abbrev Target := String

def TargetK8s : Target := "kubernetes"
def TargetTMC : Target := "mission-control"
def TargetGlobal : Target := "global"
def TargetUnknown : Target := ""

/-- Modelled from the spec: global options of a context (endpoint). -/
structure GlobalServer where
  Endpoint : String
deriving DecidableEq

/-- Modelled from the spec: cluster options of a context (endpoint, management-cluster flag). -/
structure ClusterServer where
  Endpoint : String
  IsManagementCluster : Bool
deriving DecidableEq

/-- Modelled from the spec: a discovery-source sub-entity, identified by its name. -/
structure PluginDiscovery where
  Name : String
  Image : String
deriving DecidableEq

/-- Modelled from the spec: the Context entity of section 3 (name, target, optional
cluster options, optional global options, discovery sources); the Go struct is
declared outside the examined files. -/
structure Context where
  Name : String
  Target : Target
  GlobalOpts : Option GlobalServer
  ClusterOpts : Option ClusterServer
  DiscoverySources : List PluginDiscovery
deriving DecidableEq

/-! ## Current-context pointer (config/contexts.go) -/

/-- Embedding of `setCurrentContext` (contexts.go, lines 352-372). -/
def setCurrentContext (node : Node) (ctx : Context) : Except Error (Bool × Node) :=
  match node.Content with
  | [] => .error (.panic "index out of range [0] with length 0")
  | root :: rest =>
    match FindNode root true [⟨KeyCurrentContext, MappingNode⟩] with
    | none => .error .ErrNodeNotFound
    | some (root1, path) =>
      match nodeAt root1 path with
      | none => .error .ErrNodeNotFound
      | some currentContextNode =>
        let index := GetNodeIndex currentContextNode.Content ctx.Target
        if index ≠ -1 then
          match currentContextNode.Content.get? index.toNat with
          | none => .error (.panic "index out of range")
          | some valueNode =>
            if valueNode.Value ≠ ctx.Name then
              let valueNode1 := (valueNode.setValue ctx.Name).setStyle 0
              let cc1 := currentContextNode.setContent
                (currentContextNode.Content.set index.toNat valueNode1)
              .ok (true, node.setContent (setNodeAt root1 path cc1 :: rest))
            else
              .ok (false, node.setContent (root1 :: rest))
        else
          let cc1 := currentContextNode.setContent
            (currentContextNode.Content ++ CreateScalarNode ctx.Target ctx.Name)
          .ok (true, node.setContent (setNodeAt root1 path cc1 :: rest))

/-- Embedding of `removeCurrentContext` (contexts.go, lines 374-393). -/
def removeCurrentContext (node : Node) (ctx : Context) : Except Error Node :=
  match node.Content with
  | [] => .error (.panic "index out of range [0] with length 0")
  | root :: rest =>
    match FindNode root false [⟨KeyCurrentContext, 0⟩] with
    | none => .ok node
    | some (root1, path) =>
      match nodeAt root1 path with
      | none => .ok node
      | some currentContextNode =>
        let targetNodeIndex := GetNodeIndex currentContextNode.Content ctx.Target
        if targetNodeIndex = -1 then .ok node
        else
          match currentContextNode.Content.get? targetNodeIndex.toNat with
          | none => .error (.panic "index out of range")
          | some valueNode =>
            if valueNode.Value = ctx.Name ∨ ctx.Name = "" then
              let targetNodeIndex1 := targetNodeIndex.toNat - 1
              let cc1 := currentContextNode.setContent
                (currentContextNode.Content.take targetNodeIndex1 ++
                  currentContextNode.Content.drop (targetNodeIndex1 + 2))
              .ok (node.setContent (setNodeAt root1 path cc1 :: rest))
            else .ok node

/-! ## Mapping contents as key/value pairs

Second, specification-level definitions: a mapping's `Content` read as a list of
key/value pairs. The code above never uses them; the theorems compare the two. -/

/-- Position of the first key node (even position) whose value equals `key`. -/
def keyIndex : List Node → String → Option Nat
  | [], _ => none
  | [k], key => if k.Value = key then some 0 else none
  | k :: _ :: rest, key => if k.Value = key then some 0 else (keyIndex rest key).map (· + 2)

/-- Value node stored under the first pair with key `key`. -/
def pairLookup : List Node → String → Option Node
  | [], _ => none
  | [_], _ => none
  | k :: v :: rest, key => if k.Value = key then some v else pairLookup rest key

/-- Apply `f` to the value node of the first pair with key `key`. -/
def pairUpdate : List Node → String → (Node → Node) → List Node
  | [], _, _ => []
  | [k], _, _ => [k]
  | k :: v :: rest, key, f =>
    if k.Value = key then k :: f v :: rest else k :: v :: pairUpdate rest key f

/-- Remove the first pair with key `key`, keeping all other pairs in order. -/
def pairErase : List Node → String → List Node
  | [], _ => []
  | [k], _ => [k]
  | k :: v :: rest, key =>
    if k.Value = key then rest else k :: v :: pairErase rest key

/-- The document with `f` applied to the root section stored under `key`. -/
def updateSection (node : Node) (key : String) (f : Node → Node) : Node :=
  match node.Content with
  | [] => node
  | root :: rest => node.setContent (root.setContent (pairUpdate root.Content key f) :: rest)

/-- The root section stored under `key`, if the document has one. -/
def sectionOf (node : Node) (key : String) : Option Node :=
  match node.Content with
  | [] => none
  | root :: _ => pairLookup root.Content key

/-- The name stored for `target` in the current-context section. -/
def currentContextOf (node : Node) (target : Target) : Option String :=
  match sectionOf node KeyCurrentContext with
  | none => none
  | some cc => (pairLookup cc.Content target).map Node.Value

/-- The document obtained when `setCurrentContext` has to create the section:
the new key and a mapping holding the single pair are appended to the root. -/
def withNewCurrentContext (node root : Node) (rest : List Node) (ctx : Context) : Node :=
  node.setContent (root.setContent (root.Content ++
    [Node.mk ScalarNode 0 KeyCurrentContext [],
     Node.mk MappingNode 0 "" (CreateScalarNode ctx.Target ctx.Name)]) :: rest)

/-! ## Typed configuration (config/types) -/

/-- ServerType is a string type in Go. -/
abbrev ServerType := String

/-- Modelled from the spec: the server type of a management cluster. -/
def ManagementClusterServerType : ServerType := "managementcluster"

/-- Modelled from the spec: the server type of a global server. -/
def GlobalServerType : ServerType := "global"

/-- Modelled from the spec: the deprecated Server mirror of section 3 (name, type,
endpoint); the Go struct is declared outside the examined files, its field `Type`
is `ServerType` here. -/
structure Server where
  Name : String
  ServerType : ServerType
  Endpoint : String
deriving DecidableEq

/-- Modelled from the spec: CLI options of the client options (version selector, edition). -/
structure CLIOptions where
  UnstableVersionSelector : String
  Edition : String
deriving DecidableEq

/-- Modelled from the spec: client options (CLI flags, per-plugin feature flags,
environment overrides). A Go map is an association list, `none` is the nil map. -/
structure ClientOptions where
  CLI : Option CLIOptions
  Features : Option (List (String × Option (List (String × String))))
  Env : Option (List (String × String))
deriving DecidableEq

/-- Modelled from the spec: the typed document of section 3; the Go struct is declared
outside the examined files. `CurrentContext` is the Go map from target to context
name, as an association list read by first match (the nil map is the empty list). -/
structure ClientConfig where
  KnownServers : List Server
  CurrentServer : String
  KnownContexts : List Context
  CurrentContext : List (Target × String)
  ClientOptions : Option ClientOptions
deriving DecidableEq

/-- Go map read `m[k]` on a string-valued map: the zero value when the key is absent. -/
def mapGet (m : List (String × String)) (k : String) : String :=
  match m.lookup k with
  | some v => v
  | none => ""

/-- Go map write `m[k] = v`. -/
def mapSet (m : List (String × String)) (k v : String) : List (String × String) :=
  (k, v) :: m.filter (fun p => p.1 ≠ k)

/-- Embedding of `ClientConfig.GetContext` (clientconfig.go, lines 102-110). -/
def ClientConfig.GetContext (c : ClientConfig) (name : String) : Except Error Context :=
  match c.KnownContexts.find? (fun ctx => ctx.Name = name) with
  | some ctx => .ok ctx
  | none => .error (.Errorf "could not find context %q" name)

/-- Embedding of `ClientConfig.HasContext` (clientconfig.go, lines 112-116). -/
def ClientConfig.HasContext (c : ClientConfig) (name : String) : Bool :=
  match c.GetContext name with
  | .ok _ => true
  | .error _ => false

/-- Embedding of `ClientConfig.GetCurrentContext` (clientconfig.go, lines 118-129). -/
def ClientConfig.GetCurrentContext (c : ClientConfig) (target : Target) : Except Error Context :=
  let ctxName := mapGet c.CurrentContext target
  if ctxName = "" then
    .error (.Errorf "no current context set for target %q" target)
  else
    match c.GetContext ctxName with
    | .error err => .error (.Wrapf "unable to get current context: %s" err)
    | .ok ctx => .ok ctx

/-! ## Conversions between nodes and typed entities -/

/-- Value of the scalar stored under `key`, the zero value when the key is absent. -/
def scalarField (content : List Node) (key : String) : String :=
  match pairLookup content key with
  | some v => v.Value
  | none => ""

def boolText (b : Bool) : String := if b then "true" else "false"

def scalarPair (key value : String) : List Node :=
  [Node.mk ScalarNode 0 key [], Node.mk ScalarNode 0 value []]

def encodeGlobalServer (g : GlobalServer) : Node :=
  Node.mk MappingNode 0 "" (scalarPair "endpoint" g.Endpoint)

def encodeClusterServer (c : ClusterServer) : Node :=
  Node.mk MappingNode 0 ""
    (scalarPair "endpoint" c.Endpoint ++
     scalarPair "isManagementCluster" (boolText c.IsManagementCluster))

def encodeDiscovery (d : PluginDiscovery) : Node :=
  Node.mk MappingNode 0 "" (scalarPair "name" d.Name ++ scalarPair "image" d.Image)

def KeyDiscoverySources : String := "discoverySources"

/-- Mapping node of a context: the scalars `name` and `target` always, an option
block when it is set, the discovery sources when there are any. -/
def encodeContext (c : Context) : Node :=
  Node.mk MappingNode 0 ""
    (scalarPair "name" c.Name ++ scalarPair "target" c.Target ++
     (match c.GlobalOpts with
      | some g => [Node.mk ScalarNode 0 "globalOpts" [], encodeGlobalServer g]
      | none => []) ++
     (match c.ClusterOpts with
      | some o => [Node.mk ScalarNode 0 "clusterOpts" [], encodeClusterServer o]
      | none => []) ++
     (match c.DiscoverySources with
      | [] => []
      | ds => [Node.mk ScalarNode 0 KeyDiscoverySources [],
               Node.mk SequenceNode 0 "" (ds.map encodeDiscovery)]))

/-- Modelled from the spec: `convertContextToNode`, whose source is not part of the
examined files: the document node whose single child is the mapping of the context. -/
def convertContextToNode (ctx : Context) : Except Error Node :=
  .ok (Node.mk DocumentNode 0 "" [encodeContext ctx])

def encodeServer (s : Server) : Node :=
  Node.mk MappingNode 0 ""
    (scalarPair "name" s.Name ++ scalarPair "type" s.ServerType ++
     scalarPair "endpoint" s.Endpoint)

/-- Modelled from the spec: `convertServerToNode`, whose source is not part of the
examined files. -/
def convertServerToNode (s : Server) : Except Error Node :=
  .ok (Node.mk DocumentNode 0 "" [encodeServer s])

def decodeGlobalServer (n : Node) : GlobalServer :=
  ⟨scalarField n.Content "endpoint"⟩

def decodeClusterServer (n : Node) : ClusterServer :=
  ⟨scalarField n.Content "endpoint",
   decide (scalarField n.Content "isManagementCluster" = "true")⟩

def decodeDiscovery (n : Node) : PluginDiscovery :=
  ⟨scalarField n.Content "name", scalarField n.Content "image"⟩

def decodeContext (n : Node) : Context :=
  { Name := scalarField n.Content "name"
    Target := scalarField n.Content "target"
    GlobalOpts := (pairLookup n.Content "globalOpts").map decodeGlobalServer
    ClusterOpts := (pairLookup n.Content "clusterOpts").map decodeClusterServer
    DiscoverySources :=
      match pairLookup n.Content KeyDiscoverySources with
      | some s => s.Content.map decodeDiscovery
      | none => [] }

def decodeServer (n : Node) : Server :=
  ⟨scalarField n.Content "name", scalarField n.Content "type",
   scalarField n.Content "endpoint"⟩

/-- Key/value pairs of a mapping of scalars. -/
def decodePairs : List Node → List (String × String)
  | [] => []
  | [_] => []
  | k :: v :: rest => (k.Value, v.Value) :: decodePairs rest

/-- Entries of a mapping of mappings of scalars (the feature flags). -/
def decodeFeatures : List Node → List (String × Option (List (String × String)))
  | [] => []
  | [_] => []
  | k :: v :: rest => (k.Value, some (decodePairs v.Content)) :: decodeFeatures rest

def decodeClientOptions (n : Node) : ClientOptions :=
  { CLI := (pairLookup n.Content "cli").map (fun c =>
      ⟨scalarField c.Content "unstableVersionSelector", scalarField c.Content "edition"⟩)
    Features := (pairLookup n.Content "features").map (fun f => decodeFeatures f.Content)
    Env := (pairLookup n.Content "env").map (fun e => decodePairs e.Content) }

/-- Items of the root section stored under `key` (empty when the section is absent). -/
def sectionItems (node : Node) (key : String) : List Node :=
  match sectionOf node key with
  | some s => s.Content
  | none => []

/-- Modelled from the spec: `convertNodeToClientConfig`, whose source is not part of
the examined files: the typed view of a document (section 3). Each section is read
by its key, each entity field by its key; an absent key gives the zero value. -/
def convertNodeToClientConfig (node : Node) : Except Error ClientConfig :=
  .ok { KnownServers := (sectionItems node KeyServers).map decodeServer
        CurrentServer :=
          match sectionOf node KeyCurrentServer with
          | some s => s.Value
          | none => ""
        KnownContexts := (sectionItems node KeyContexts).map decodeContext
        CurrentContext := decodePairs (sectionItems node KeyCurrentContext)
        ClientOptions := (sectionOf node "clientOptions").map decodeClientOptions }

/-! ## Reading contexts (config/contexts.go) -/

/-- Embedding of `getContext` (contexts.go, lines 248-259). -/
def getContext (node : Node) (name : String) : Except Error Context :=
  match convertNodeToClientConfig node with
  | .error err => .error err
  | .ok cfg =>
    match cfg.KnownContexts.find? (fun ctx => ctx.Name = name) with
    | some ctx => .ok ctx
    | none => .error (.Errorf "context %v not found" name)

/-- Embedding of `getCurrentContext` (contexts.go, lines 261-267). -/
def getCurrentContext (node : Node) (target : Target) : Except Error Context :=
  match convertNodeToClientConfig node with
  | .error err => .error err
  | .ok cfg => cfg.GetCurrentContext target

/-- Loop of `removeContext`: the entries kept, in order. -/
def removeContextLoop (name : String) : List Node → Except Error (List Node)
  | [] => .ok []
  | contextNode :: rest =>
    let index := GetNodeIndex contextNode.Content "name"
    if index ≠ -1 then
      match contextNode.Content.get? index.toNat with
      | none => .error (.panic "index out of range")
      | some valueNode =>
        if valueNode.Value = name then removeContextLoop name rest
        else
          match removeContextLoop name rest with
          | .error e => .error e
          | .ok contexts => .ok (contextNode :: contexts)
    else
      match removeContextLoop name rest with
      | .error e => .error e
      | .ok contexts => .ok (contextNode :: contexts)

/-- Embedding of `removeContext` (contexts.go, lines 396-414). -/
def removeContext (node : Node) (name : String) : Except Error Node :=
  match node.Content with
  | [] => .error (.panic "index out of range [0] with length 0")
  | root :: rest =>
    match FindNode root false [⟨KeyContexts, 0⟩] with
    | none => .ok node
    | some (root1, path) =>
      match nodeAt root1 path with
      | none => .ok node
      | some contextsNode =>
        match removeContextLoop name contextsNode.Content with
        | .error e => .error e
        | .ok contexts =>
          .ok (node.setContent (setNodeAt root1 path (contextsNode.setContent contexts) :: rest))

/-! ## Patch strategies and the merge/delete engine (nodeutils) -/

/-- Dotted path of a configuration key, as the list of its components:
`contexts.discoverySources` is `["contexts", "discoverySources"]`. -/
abbrev Path := List String

/-- Patch-strategy map: path to strategy (`replace` or `merge`). -/
abbrev PatchStrategies := List (Path × String)

def StrategyReplace : String := "replace"
def StrategyMerge : String := "merge"

/-- Strategy lookup along the reversed path: the exact path first, then each
shorter dotted prefix. -/
def strategyForRev (m : PatchStrategies) : List String → String
  | [] =>
    match m.lookup [] with
    | some s => s
    | none => StrategyMerge
  | x :: xs =>
    match m.lookup (x :: xs).reverse with
    | some s => s
    | none => strategyForRev m xs

/-- Modelled from the spec: `strategyFor` (section 4.3): an exact match wins,
otherwise the most specific configured dotted prefix, otherwise `merge`. -/
def strategyFor (m : PatchStrategies) (p : Path) : String :=
  strategyForRev m p.reverse

mutual
/-- Recursion of `DeleteNodes` on the existing node. -/
def deleteNode (m : PatchStrategies) : Node → Node → Path → Bool × Node
  | src, Node.mk k s v c, path =>
    if k = MappingNode ∧ src.Kind = MappingNode then
      let r := deletePairs m src c path
      (r.1, Node.mk k s v r.2)
    else (false, Node.mk k s v c)
/-- Recursion of `DeleteNodes` on the pairs of the existing mapping. -/
def deletePairs (m : PatchStrategies) : Node → List Node → Path → Bool × List Node
  | _, [], _ => (false, [])
  | _, [k], _ => (false, [k])
  | src, k :: v :: rest, path =>
    let r := deletePairs m src rest path
    match pairLookup src.Content k.Value with
    | some sv =>
      if strategyFor m (path ++ [k.Value]) = StrategyReplace then (true, r.2)
      else
        let d := deleteNode m sv v (path ++ [k.Value])
        (d.1 || r.1, k :: d.2 :: r.2)
    | none => (r.1, k :: v :: r.2)
end

/-- The top of `DeleteNodes`: when the incoming node and the existing node are equal
nothing is deleted and no change is reported; otherwise the replace paths of the
existing node that the incoming node specifies are deleted. -/
def deleteTop (m : PatchStrategies) (src dst : Node) (path : Path) : Bool × Node :=
  if src = dst then (false, dst) else deleteNode m src dst path

/-- Modelled from the spec: `nodeutils.DeleteNodes` (section 4.4, reconcile for
replace), whose source is not part of the examined files: every path of the
existing node whose strategy is `replace` is deleted from it when the incoming
node also specifies that path; `merge` paths are left untouched. Identical data is
left as it is and reports no change: on equal nodes the operation returns at once. -/
def DeleteNodes (src dst : Node) (patchStrategyKey : Path) (patchStrategies : PatchStrategies) :
    Except Error (Bool × Node) :=
  .ok (deleteTop patchStrategies src dst patchStrategyKey)

/-- Position of the first item of a sequence whose `name` equals `name`. -/
def itemIndex : List Node → String → Option Nat
  | [], _ => none
  | item :: rest, name =>
    match pairLookup item.Content "name" with
    | some n => if n.Value = name then some 0 else (itemIndex rest name).map (· + 1)
    | none => (itemIndex rest name).map (· + 1)

mutual
/-- Recursion of `MergeNodes` on the incoming node. -/
def mergeNode : Node → Node → Bool × Node
  | Node.mk sk ss sv sc, dst =>
    if sk ≠ dst.Kind then (true, Node.mk sk ss sv sc)
    else if sk = MappingNode then
      let r := mergePairs sc dst.Content
      (r.1, dst.setContent r.2)
    else if sk = SequenceNode then
      let r := mergeItems sc dst.Content
      (r.1, dst.setContent r.2)
    else if sk = ScalarNode then
      if dst.Value ≠ sv then (true, dst.setValue sv) else (false, dst)
    else (false, dst)
/-- Incoming pairs merged into the pairs of an existing mapping. -/
def mergePairs : List Node → List Node → Bool × List Node
  | [], dst => (false, dst)
  | [_], dst => (false, dst)
  | k :: v :: rest, dst =>
    match pairLookup dst k.Value with
    | none =>
      let r := mergePairs rest (dst ++ [k, v])
      (true, r.2)
    | some dv =>
      let d := mergeNode v dv
      let r := mergePairs rest (pairUpdate dst k.Value (fun _ => d.2))
      (d.1 || r.1, r.2)
/-- Incoming items merged into the items of an existing sequence, by name. -/
def mergeItems : List Node → List Node → Bool × List Node
  | [], dst => (false, dst)
  | item :: rest, dst =>
    match pairLookup item.Content "name" with
    | none =>
      let r := mergeItems rest (dst ++ [item])
      (true, r.2)
    | some n =>
      match itemIndex dst n.Value with
      | none =>
        let r := mergeItems rest (dst ++ [item])
        (true, r.2)
      | some i =>
        match dst.get? i with
        | none => mergeItems rest dst
        | some dv =>
          let d := mergeNode item dv
          let r := mergeItems rest (dst.set i d.2)
          (d.1 || r.1, r.2)
end

/-- Modelled from the spec: `nodeutils.MergeNodes` (section 4.4, merge), whose source
is not part of the examined files: a key the target lacks is appended; two mappings
are merged key by key; of two scalars the incoming one wins, with a change reported
only when the value differs; when the kinds disagree the incoming node replaces the
target; entities of two sequences are matched by `name`, updated in place when
present and appended when absent. -/
def MergeNodes (src dst : Node) : Except Error (Bool × Node) :=
  .ok (mergeNode src dst)

/-! ## Writing contexts (config/contexts.go) -/

/-- One discovery source reconciled with the items of the sequence: an item with
the same name is patched in place, otherwise the source is appended. -/
def setDiscoverySource (items : List Node) (d : PluginDiscovery) (patchStrategyKey : Path)
    (patchStrategies : PatchStrategies) : Except Error (Bool × List Node) :=
  let newNode := encodeDiscovery d
  match itemIndex items d.Name with
  | none => .ok (true, items ++ [newNode])
  | some i =>
    match items.get? i with
    | none => .ok (true, items ++ [newNode])
    | some existing =>
      match DeleteNodes newNode existing patchStrategyKey patchStrategies with
      | .error e => .error e
      | .ok (_, e1) =>
        match MergeNodes newNode e1 with
        | .error e => .error e
        | .ok (persist, e2) => .ok (persist, items.set i e2)

/-- Loop of `setDiscoverySources` over the incoming sources. -/
def setDiscoverySourcesLoop (patchStrategyKey : Path) (patchStrategies : PatchStrategies) :
    List PluginDiscovery → Bool → List Node → Except Error (Bool × List Node)
  | [], anyPersist, items => .ok (anyPersist, items)
  | d :: rest, anyPersist, items =>
    match setDiscoverySource items d patchStrategyKey patchStrategies with
    | .error e => .error e
    | .ok (persist, items1) =>
      setDiscoverySourcesLoop patchStrategyKey patchStrategies rest (anyPersist || persist) items1

/-- Modelled from the spec: `setDiscoverySources`, whose source is not part of the
examined files: the discovery-source sub-entities of an entity node, each
independently merged or patched by name. -/
def setDiscoverySources (node : Node) (discoverySources : List PluginDiscovery)
    (patchStrategyKey : Path) (patchStrategies : PatchStrategies) :
    Except Error (Bool × Node) :=
  match FindNode node true [⟨KeyDiscoverySources, SequenceNode⟩] with
  | none => .ok (false, node)
  | some (node1, path) =>
    match nodeAt node1 path with
    | none => .ok (false, node)
    | some discoverySourcesNode =>
      match setDiscoverySourcesLoop patchStrategyKey patchStrategies discoverySources false
          discoverySourcesNode.Content with
      | .error e => .error e
      | .ok (persist, items) =>
        .ok (persist, setNodeAt node1 path (discoverySourcesNode.setContent items))

/-- Local variables of the loop of `setContext`. -/
structure SetContextState where
  found : Bool
  persist : Bool
  persistDiscoverySources : Bool
  result : List Node

/-- Update of an existing context node by the incoming one (contexts.go, lines 318-339):
delete as per patch strategy, merge, set the discovery sources, merge again when they
changed. Returns the two persist flags and the updated node. -/
def patchContextNode (patchStrategies : PatchStrategies) (newContext : Node) (ctx : Context)
    (contextNode : Node) : Except Error (Bool × Bool × Node) :=
  match DeleteNodes newContext contextNode [KeyContexts] patchStrategies with
  | .error e => .error e
  | .ok (_, c1) =>
    match MergeNodes newContext c1 with
    | .error e => .error e
    | .ok (persist, c2) =>
      match setDiscoverySources c2 ctx.DiscoverySources [KeyContexts, KeyDiscoverySources]
          patchStrategies with
      | .error e => .error e
      | .ok (persistDiscoverySources, c3) =>
        if persistDiscoverySources then
          match MergeNodes newContext c3 with
          | .error e => .error e
          | .ok (_, c4) => .ok (persist, persistDiscoverySources, c4)
        else .ok (persist, persistDiscoverySources, c3)

/-- Loop of `setContext` over the entries of the contexts sequence (contexts.go,
lines 315-343). -/
def setContextLoop (patchStrategies : PatchStrategies) (newContext : Node) (ctx : Context) :
    List Node → SetContextState → Except Error SetContextState
  | [], st => .ok st
  | contextNode :: rest, st =>
    let index := GetNodeIndex contextNode.Content "name"
    if index ≠ -1 then
      match contextNode.Content.get? index.toNat with
      | none => .error (.panic "index out of range")
      | some nameNode =>
        if nameNode.Value = ctx.Name then
          match patchContextNode patchStrategies newContext ctx contextNode with
          | .error e => .error e
          | .ok (persist, persistDiscoverySources, c) =>
            setContextLoop patchStrategies newContext ctx rest
              ⟨true, persist, persistDiscoverySources, st.result ++ [c]⟩
        else
          setContextLoop patchStrategies newContext ctx rest
            { st with result := st.result ++ [contextNode] }
    else
      setContextLoop patchStrategies newContext ctx rest
        { st with result := st.result ++ [contextNode] }

/-- Embedding of `setContext` (contexts.go, lines 287-350). `metadata` is the result of
`GetConfigMetadataPatchStrategy`. -/
def setContext (metadata : Except Error PatchStrategies) (node : Node) (ctx : Context) :
    Except Error (Bool × Node) :=
  let patchStrategies : PatchStrategies :=
    match metadata with
    | .ok m => m
    | .error _ => []
  match convertContextToNode ctx with
  | .error e => .error e
  | .ok newContextNode =>
    match node.Content with
    | [] => .error (.panic "index out of range [0] with length 0")
    | root :: rest =>
      match FindNode root true [⟨KeyContexts, SequenceNode⟩] with
      | none => .ok (false, node)
      | some (root1, path) =>
        match nodeAt root1 path with
        | none => .ok (false, node)
        | some contextsNode =>
          match newContextNode.Content with
          | [] => .error (.panic "index out of range [0] with length 0")
          | newContext :: _ =>
            match setContextLoop patchStrategies newContext ctx contextsNode.Content
                ⟨false, false, false, []⟩ with
            | .error e => .error e
            | .ok st =>
              let result := if st.found then st.result else st.result ++ [newContext]
              let persist := if st.found then st.persist else true
              .ok (st.persistDiscoverySources || persist,
                node.setContent
                  (setNodeAt root1 path (contextsNode.setContent result) :: rest))

/-! ## Servers (legacy mirror) -/

/-- Modelled from the spec: `convertContextToServer`, whose source is not part of the
examined files: the Server mirror of a context, with the same name; its type is
management-cluster for a kubernetes context and global otherwise; its endpoint is
the one of the option block of the context. -/
def convertContextToServer (c : Context) : Server :=
  { Name := c.Name
    ServerType := if c.Target = TargetK8s then ManagementClusterServerType else GlobalServerType
    Endpoint :=
      if c.Target = TargetK8s then
        match c.ClusterOpts with
        | some o => o.Endpoint
        | none => ""
      else
        match c.GlobalOpts with
        | some g => g.Endpoint
        | none => "" }

/-- Update of an existing server node by the incoming one. -/
def patchServerNode (patchStrategies : PatchStrategies) (newServer serverNode : Node) :
    Except Error (Bool × Node) :=
  match DeleteNodes newServer serverNode [KeyServers] patchStrategies with
  | .error e => .error e
  | .ok (_, c1) => MergeNodes newServer c1

/-- Loop of `setServer` over the entries of the servers sequence. -/
def setServerLoop (patchStrategies : PatchStrategies) (newServer : Node) (s : Server) :
    List Node → SetContextState → Except Error SetContextState
  | [], st => .ok st
  | serverNode :: rest, st =>
    let index := GetNodeIndex serverNode.Content "name"
    if index ≠ -1 then
      match serverNode.Content.get? index.toNat with
      | none => .error (.panic "index out of range")
      | some nameNode =>
        if nameNode.Value = s.Name then
          match patchServerNode patchStrategies newServer serverNode with
          | .error e => .error e
          | .ok (persist, c) =>
            setServerLoop patchStrategies newServer s rest
              ⟨true, persist, false, st.result ++ [c]⟩
        else
          setServerLoop patchStrategies newServer s rest
            { st with result := st.result ++ [serverNode] }
    else
      setServerLoop patchStrategies newServer s rest
        { st with result := st.result ++ [serverNode] }

/-- Modelled from the spec: `setServer`, whose source is not part of the examined
files: the Server mirror is merged into the servers sequence the way `setContext`
merges a context into the contexts sequence. -/
def setServer (metadata : Except Error PatchStrategies) (node : Node) (s : Server) :
    Except Error (Bool × Node) :=
  let patchStrategies : PatchStrategies :=
    match metadata with
    | .ok m => m
    | .error _ => []
  match convertServerToNode s with
  | .error e => .error e
  | .ok newServerNode =>
    match node.Content with
    | [] => .error (.panic "index out of range [0] with length 0")
    | root :: rest =>
      match FindNode root true [⟨KeyServers, SequenceNode⟩] with
      | none => .ok (false, node)
      | some (root1, path) =>
        match nodeAt root1 path with
        | none => .ok (false, node)
        | some serversNode =>
          match newServerNode.Content with
          | [] => .error (.panic "index out of range [0] with length 0")
          | newServer :: _ =>
            match setServerLoop patchStrategies newServer s serversNode.Content
                ⟨false, false, false, []⟩ with
            | .error e => .error e
            | .ok st =>
              let result := if st.found then st.result else st.result ++ [newServer]
              let persist := if st.found then st.persist else true
              .ok (persist,
                node.setContent
                  (setNodeAt root1 path (serversNode.setContent result) :: rest))

/-- Modelled from the spec: `setCurrentServer`, whose source is not part of the
examined files: the legacy current-server scalar is written when it differs. -/
def setCurrentServer (node : Node) (name : String) : Except Error (Bool × Node) :=
  match node.Content with
  | [] => .error (.panic "index out of range [0] with length 0")
  | root :: rest =>
    match FindNode root true [⟨KeyCurrentServer, ScalarNode⟩] with
    | none => .error .ErrNodeNotFound
    | some (root1, path) =>
      match nodeAt root1 path with
      | none => .error .ErrNodeNotFound
      | some currentServerNode =>
        if currentServerNode.Value ≠ name then
          .ok (true, node.setContent
            (setNodeAt root1 path (currentServerNode.setValue name) :: rest))
        else .ok (false, node.setContent (root1 :: rest))

/-- Modelled from the spec: `removeServer`, whose source is not part of the examined
files: the mirrored Server entities with that name are removed. -/
def removeServer (node : Node) (name : String) : Except Error Node :=
  match node.Content with
  | [] => .error (.panic "index out of range [0] with length 0")
  | root :: rest =>
    match FindNode root false [⟨KeyServers, 0⟩] with
    | none => .ok node
    | some (root1, path) =>
      match nodeAt root1 path with
      | none => .ok node
      | some serversNode =>
        match removeContextLoop name serversNode.Content with
        | .error e => .error e
        | .ok servers =>
          .ok (node.setContent (setNodeAt root1 path (serversNode.setContent servers) :: rest))

/-- Modelled from the spec: `removeCurrentServer`, whose source is not part of the
examined files: the current-server scalar is cleared if it pointed at `name`. -/
def removeCurrentServer (node : Node) (name : String) : Except Error Node :=
  match node.Content with
  | [] => .error (.panic "index out of range [0] with length 0")
  | root :: rest =>
    match FindNode root false [⟨KeyCurrentServer, 0⟩] with
    | none => .ok node
    | some (root1, path) =>
      match nodeAt root1 path with
      | none => .ok node
      | some currentServerNode =>
        if currentServerNode.Value = name then
          .ok (node.setContent (setNodeAt root1 path (currentServerNode.setValue "") :: rest))
        else .ok node

/-! ## The backing store, the lock and the public API -/

/-- Observable steps of an operation on the backing store. -/
inductive Event where
  | lock
  | unlock
  | load (nextGen : Bool)
  | persist (nextGen : Bool) (succeeded : Bool)
deriving DecidableEq

/-- The environment of the configuration API: the two on-disk documents (legacy and
next-generation layout), the result of `UseUnifiedConfig` (the flag value and the
error returned with it, if any), the failure of the next load (if any), the outcomes of the coming persist attempts (`true` is a
failure; an exhausted list means success), the patch-strategy metadata, and the
trace of steps taken so far. -/
structure World where
  useUnifiedConfig : Bool × Option Error
  legacy : Node
  nextGen : Node
  loadError : Option Error
  persistFails : List Bool
  metadata : Except Error PatchStrategies
  trace : List Event

/-- The document of an empty configuration: a document node over an empty mapping. -/
def emptyDocument : Node :=
  Node.mk DocumentNode 0 "" [Node.mk MappingNode 0 "" []]

/-- The flag value used by loads and persists: resolution failures give `false`. -/
def World.unified (w : World) : Bool :=
  match w.useUnifiedConfig with
  | (b, none) => b
  | (_, some _) => false

/-- The persisted document of the layout in use. -/
def World.stored (w : World) : Node :=
  if w.unified then w.nextGen else w.legacy

def AcquireTanzuConfigLock (w : World) : World :=
  { w with trace := w.trace ++ [Event.lock] }

def ReleaseTanzuConfigLock (w : World) : World :=
  { w with trace := w.trace ++ [Event.unlock] }

/-- Modelled from the spec: the legacy loader `getMultiConfigNoLock`, whose source is
not part of the examined files. -/
def getMultiConfigNoLock (w : World) : World × Except Error Node :=
  let w1 := { w with trace := w.trace ++ [Event.load false] }
  match w.loadError with
  | some e => (w1, .error e)
  | none => (w1, .ok w.legacy)

/-- Modelled from the spec: the next-generation loader
`getClientConfigNextGenNodeNoLock`, whose source is not part of the examined files. -/
def getClientConfigNextGenNodeNoLock (w : World) : World × Except Error Node :=
  let w1 := { w with trace := w.trace ++ [Event.load true] }
  match w.loadError with
  | some e => (w1, .error e)
  | none => (w1, .ok w.nextGen)

/-- Embedding of `getClientConfigNodeNoLock` (clientconfig_factory.go, lines 33-45). -/
def getClientConfigNodeNoLock (w : World) : World × Except Error Node :=
  let useUnifiedConfig :=
    match w.useUnifiedConfig with
    | (b, none) => b
    | (_, some _) => false
  if useUnifiedConfig then getClientConfigNextGenNodeNoLock w
  else getMultiConfigNoLock w

/-- Modelled from the spec: the locking loaders `getMultiConfig` and
`getClientConfigNextGenNode`: the load inside its own lock window. -/
def withLock (load : World → World × Except Error Node) (w : World) :
    World × Except Error Node :=
  let r := load (AcquireTanzuConfigLock w)
  (ReleaseTanzuConfigLock r.1, r.2)

/-- Embedding of `getClientConfigNode` (clientconfig_factory.go, lines 20-31). -/
def getClientConfigNode (w : World) : World × Except Error Node :=
  let useUnifiedConfig :=
    match w.useUnifiedConfig with
    | (b, none) => b
    | (_, some _) => false
  if useUnifiedConfig then withLock getClientConfigNextGenNodeNoLock w
  else withLock getMultiConfigNoLock w

/-- Modelled from the spec: `persistConfig`, whose source is not part of the examined
files: the document replaces the stored one of the layout in use, or the attempt
fails and the store is left as it was. -/
def persistConfig (w : World) (node : Node) : World × Except Error Unit :=
  let failed :=
    match w.persistFails with
    | [] => false
    | b :: _ => b
  let w1 := { w with persistFails := w.persistFails.tail
                     trace := w.trace ++ [Event.persist w.unified (!failed)] }
  if failed then (w1, .error (.external "persist failed"))
  else if w.unified then ({ w1 with nextGen := node }, .ok ())
  else ({ w1 with legacy := node }, .ok ())

/-- Sequencing of a fallible step: an error ends the operation. -/
def andThen {α β : Type} (r : World × Except Error α)
    (f : World → α → World × Except Error β) : World × Except Error β :=
  match r with
  | (w, .error e) => (w, .error e)
  | (w, .ok a) => f w a

/-- The source idiom `if persist { err = persistConfig(node); ... }`. -/
def persistWhen (persist : Bool) (w : World) (node : Node) : World × Except Error Unit :=
  if persist then persistConfig w node else (w, .ok ())

/-- The part of `SetContext` that back-fills the server mirror of the context and
sets the current server (contexts.go, lines 67-95). -/
def backfillServer (w : World) (c : Context) (setCurrent : Bool) (node : Node) :
    World × Except Error Unit :=
  let s := convertContextToServer c
  andThen (w, setServer w.metadata node s) fun w r3 =>
  andThen (persistWhen r3.1 w r3.2) fun w _ =>
  if setCurrent ∧ s.ServerType = ManagementClusterServerType then
    andThen (w, setCurrentServer r3.2 s.Name) fun w r4 =>
    andThen (persistWhen r4.1 w r4.2) fun w _ => (w, .ok ())
  else (w, .ok ())

/-- The part of `SetContext` that sets the current context (contexts.go, lines 54-65);
it returns the document the rest of `SetContext` goes on with. -/
def makeCurrent (w : World) (c : Context) (setCurrent : Bool) (node : Node) :
    World × Except Error Node :=
  if setCurrent then
    andThen (w, setCurrentContext node c) fun w r2 =>
    andThen (persistWhen r2.1 w r2.2) fun w _ => (w, .ok r2.2)
  else (w, .ok node)

/-- Body of `SetContext` between acquiring and releasing the lock (contexts.go,
lines 38-95). -/
def SetContextLocked (w : World) (c : Context) (setCurrent : Bool) : World × Except Error Unit :=
  andThen (getClientConfigNodeNoLock w) fun w node =>
  andThen (w, setContext w.metadata node c) fun w r =>
  andThen (persistWhen r.1 w r.2) fun w _ =>
  andThen (makeCurrent w c setCurrent r.2) fun w node2 =>
  backfillServer w c setCurrent node2

/-- Embedding of `SetContext` (contexts.go, lines 34-96). -/
def SetContext (w : World) (c : Context) (setCurrent : Bool) : World × Except Error Unit :=
  let r := SetContextLocked (AcquireTanzuConfigLock w) c setCurrent
  (ReleaseTanzuConfigLock r.1, r.2)

/-- Embedding of `AddContext` (contexts.go, lines 27-29). -/
def AddContext (w : World) (c : Context) (setCurrent : Bool) : World × Except Error Unit :=
  SetContext w c setCurrent

/-- Body of `RemoveContext` between acquiring and releasing the lock (contexts.go,
lines 108-132). -/
def RemoveContextLocked (w : World) (name : String) : World × Except Error Unit :=
  andThen (getClientConfigNodeNoLock w) fun w node =>
  andThen (w, getContext node name) fun w ctx =>
  andThen (w, removeCurrentContext node ctx) fun w node1 =>
  andThen (w, removeContext node1 name) fun w node2 =>
  andThen (w, removeServer node2 name) fun w node3 =>
  andThen (w, removeCurrentServer node3 name) fun w node4 =>
  persistConfig w node4

/-- Embedding of `RemoveContext` (contexts.go, lines 104-133). -/
def RemoveContext (w : World) (name : String) : World × Except Error Unit :=
  let r := RemoveContextLocked (AcquireTanzuConfigLock w) name
  (ReleaseTanzuConfigLock r.1, r.2)

/-- Embedding of `DeleteContext` (contexts.go, lines 99-101). -/
def DeleteContext (w : World) (name : String) : World × Except Error Unit :=
  RemoveContext w name

/-- Embedding of `GetContext` (contexts.go, lines 17-24). -/
def GetContext (w : World) (name : String) : World × Except Error Context :=
  andThen (getClientConfigNode w) fun w node => (w, getContext node name)

/-- Embedding of `GetCurrentContext` (contexts.go, lines 142-149). -/
def GetCurrentContext (w : World) (target : Target) : World × Except Error Context :=
  andThen (getClientConfigNode w) fun w node => (w, getCurrentContext node target)

/-- Body of `SetCurrentContext` between acquiring and releasing the lock (contexts.go,
lines 178-209). -/
def SetCurrentContextLocked (w : World) (name : String) : World × Except Error Unit :=
  andThen (getClientConfigNodeNoLock w) fun w node =>
  andThen (w, getContext node name) fun w ctx =>
  andThen (w, setCurrentContext node ctx) fun w r =>
  andThen (persistWhen r.1 w r.2) fun w _ =>
  if ctx.Target = TargetK8s then
    andThen (w, setCurrentServer r.2 name) fun w r2 =>
    andThen (persistWhen r2.1 w r2.2) fun w _ => (w, .ok ())
  else (w, .ok ())

/-- Embedding of `SetCurrentContext` (contexts.go, lines 174-210). -/
def SetCurrentContext (w : World) (name : String) : World × Except Error Unit :=
  let r := SetCurrentContextLocked (AcquireTanzuConfigLock w) name
  (ReleaseTanzuConfigLock r.1, r.2)

/-- Body of `RemoveCurrentContext` between acquiring and releasing the lock
(contexts.go, lines 217-233). -/
def RemoveCurrentContextLocked (w : World) (target : Target) : World × Except Error Unit :=
  andThen (getClientConfigNodeNoLock w) fun w node =>
  andThen (w, getCurrentContext node target) fun w c =>
  andThen (w, removeCurrentContext node ⟨"", target, none, none, []⟩) fun w node1 =>
  andThen (w, removeCurrentServer node1 c.Name) fun w node2 =>
  persistConfig w node2

/-- Embedding of `RemoveCurrentContext` (contexts.go, lines 213-234). -/
def RemoveCurrentContext (w : World) (target : Target) : World × Except Error Unit :=
  let r := RemoveCurrentContextLocked (AcquireTanzuConfigLock w) target
  (ReleaseTanzuConfigLock r.1, r.2)

/-- A world with the given legacy document, no failures and no metadata entries. -/
def World.fresh (doc : Node) : World :=
  { useUnifiedConfig := (false, none)
    legacy := doc
    nextGen := emptyDocument
    loadError := none
    persistFails := []
    metadata := .ok []
    trace := [] }

/-! ## Specification-level views used by the theorems -/

/-- A mapping node with `new` stored under `key`: the value of the first pair with
that key is replaced, or a new pair is appended when there is none. -/
def putPair (parent : Node) (key : String) (new : Node) : Node :=
  match pairLookup parent.Content key with
  | some _ => parent.setContent (pairUpdate parent.Content key (fun _ => new))
  | none => parent.setContent (parent.Content ++ [Node.mk ScalarNode 0 key [], new])

/-- The document with `new` stored as the root section `key`. -/
def putSection (node : Node) (key : String) (new : Node) : Node :=
  match node.Content with
  | [] => node
  | root :: rest => node.setContent (putPair root key new :: rest)

/-- Name of a context entry of the contexts sequence. -/
def entryName (e : Node) : String := scalarField e.Content "name"

/-- Target of a context entry of the contexts sequence. -/
def entryTarget (e : Node) : String := scalarField e.Content "target"

/-- The entries of the contexts sequence whose `name` value differs from `name`. -/
def entriesWithout (name : String) (entries : List Node) : List Node :=
  entries.filter (fun e =>
    match pairLookup e.Content "name" with
    | some v => decide (v.Value ≠ name)
    | none => true)

/-- The current-pointer property of the claim: every name held by a current-context
entry is the name of an entry of the contexts sequence. -/
def PointersValid (doc : Node) : Prop :=
  ∀ t n, currentContextOf doc t = some n →
    ∃ e ∈ sectionItems doc KeyContexts, entryName e = n

/-- Calls of the two mutating operations of the claim. -/
inductive Op where
  | set (c : Context) (setCurrent : Bool)
  | remove (name : String)

/-- The world after one call, whether it succeeded or failed. -/
def applyOp (w : World) : Op → World
  | Op.set c setCurrent => (SetContext w c setCurrent).1
  | Op.remove name => (RemoveContext w name).1

/-- The world after a sequence of calls. -/
def runOps : World → List Op → World
  | w, [] => w
  | w, op :: ops => runOps (applyOp w op) ops

/-- A call that does not re-register an existing name with a different target. -/
def KeepsTarget (doc : Node) : Op → Prop
  | Op.set c _ => ∀ e ∈ sectionItems doc KeyContexts, entryName e = c.Name → entryTarget e = c.Target
  | Op.remove _ => True

/-- A sequence of calls none of which re-registers an existing name with a different
target, each judged on the document persisted when it is made. -/
def KeepsTargets : World → List Op → Prop
  | _, [] => True
  | w, op :: ops => KeepsTarget w.stored op ∧ KeepsTargets (applyOp w op) ops

instance (doc : Node) (op : Op) : Decidable (KeepsTarget doc op) := by
  cases op <;> unfold KeepsTarget <;> infer_instance

/-- Decision procedure of `KeepsTargets`, call by call. -/
def decKeepsTargets : (w : World) → (ops : List Op) → Decidable (KeepsTargets w ops)
  | _, [] => isTrue trivial
  | w, op :: ops => @instDecidableAnd _ _ _ (decKeepsTargets (applyOp w op) ops)

instance (w : World) (ops : List Op) : Decidable (KeepsTargets w ops) := decKeepsTargets w ops

/-- The document has a root mapping whose key/value pairs are complete. -/
def DocComplete (node : Node) : Prop :=
  match node.Content with
  | [] => False
  | root :: _ => root.Content.length % 2 = 0

instance (node : Node) : Decidable (DocComplete node) := by
  unfold DocComplete
  split <;> infer_instance

/-- The root section stored under `key`, when present, has kind `kind`. -/
def SectionKind (node : Node) (key : String) (kind : Nat) : Prop :=
  match sectionOf node key with
  | none => True
  | some s => s.Kind = kind

instance (node : Node) (key : String) (kind : Nat) : Decidable (SectionKind node key kind) := by
  unfold SectionKind
  split <;> infer_instance

/-- The root section stored under `key`, when present, has complete key/value pairs. -/
def SectionComplete (node : Node) (key : String) : Prop :=
  (sectionItems node key).length % 2 = 0

instance (node : Node) (key : String) : Decidable (SectionComplete node key) := by
  unfold SectionComplete
  infer_instance

/-- Every item of the root section stored under `key` has complete key/value pairs. -/
def EntriesComplete (node : Node) (key : String) : Prop :=
  ∀ e ∈ sectionItems node key, e.Content.length % 2 = 0

instance (node : Node) (key : String) : Decidable (EntriesComplete node key) := by
  unfold EntriesComplete
  infer_instance

/-- Every item of the root section stored under `key` carries a `name` key. -/
def EntriesNamed (node : Node) (key : String) : Prop :=
  ∀ e ∈ sectionItems node key, (pairLookup e.Content "name").isSome = true

instance (node : Node) (key : String) : Decidable (EntriesNamed node key) := by
  unfold EntriesNamed
  infer_instance

/-- No persist attempt among the events succeeded. -/
def NoPersistSucceeded (evs : List Event) : Prop :=
  ∀ ng, Event.persist ng true ∉ evs

instance (evs : List Event) : Decidable (NoPersistSucceeded evs) :=
  decidable_of_iff (Event.persist true true ∉ evs ∧ Event.persist false true ∉ evs)
    ⟨fun h ng => by cases ng <;> simp [h.1, h.2], fun h => ⟨h true, h false⟩⟩

/-- World `w2` is reached from world `w1` by steps of an operation: the trace is
extended, the environment parameters are the same, and the stored documents are the
same unless a persist attempt among the new events succeeded. -/
def Extends (w1 w2 : World) : Prop :=
  ∃ evs, w2.trace = w1.trace ++ evs ∧
    w2.useUnifiedConfig = w1.useUnifiedConfig ∧
    w2.metadata = w1.metadata ∧
    w2.loadError = w1.loadError ∧
    (NoPersistSucceeded evs → w2.legacy = w1.legacy ∧ w2.nextGen = w1.nextGen)

/-- The entry carries a `name` key whose value is `name`. -/
def nameIs (name : String) (e : Node) : Bool :=
  decide ((pairLookup e.Content "name").map Node.Value = some name)

/-- The patch strategies `setContext` works with: those of the metadata, or none when
the metadata cannot be read. -/
def strategiesOf (metadata : Except Error PatchStrategies) : PatchStrategies :=
  match metadata with
  | .ok m => m
  | .error _ => []

/-- The entry `e` after `patchContextNode`. -/
def patchOf (ps : PatchStrategies) (ctx : Context) (e : Node) : Node :=
  match patchContextNode ps (encodeContext ctx) ctx e with
  | .ok r => r.2.2
  | .error _ => e

/-- The contexts sequence after `setContext`: every entry named `ctx.Name` is patched in
place; when there is none, the encoded context is appended. -/
def contextsAfterSet (ps : PatchStrategies) (ctx : Context) (entries : List Node) : List Node :=
  if entries.any (nameIs ctx.Name) then
    entries.map (fun e => if nameIs ctx.Name e then patchOf ps ctx e else e)
  else entries ++ [encodeContext ctx]

/-- Document `node2` is `node1` with at most the root section `key` rewritten. -/
def OnlySection (key : String) (node1 node2 : Node) : Prop :=
  node2 = node1 ∨ ∃ x, node2 = putSection node1 key x

/-- Outcome predicate of a fallible step: `onOk` holds of a normal result and its
world, `onError` of the world of a failure. -/
def Outcome {α : Type} (r : World × Except Error α) (onOk : World → α → Prop)
    (onError : World → Prop) : Prop :=
  match r with
  | (w, .ok a) => onOk w a
  | (w, .error _) => onError w

/-- The two worlds have the same environment parameters. -/
def SameEnv (w1 w2 : World) : Prop :=
  w2.useUnifiedConfig = w1.useUnifiedConfig ∧ w2.metadata = w1.metadata ∧
  w2.loadError = w1.loadError

/-- Well-formedness of a document for the context operations: complete key/value
pairs in the root, in the context entries and in the current-context mapping; the
contexts section, when present, is a sequence and the current-context section, when
present, is a mapping. -/
def DocWellFormed (doc : Node) : Prop :=
  DocComplete doc ∧ SectionKind doc KeyContexts SequenceNode ∧
  EntriesComplete doc KeyContexts ∧ SectionKind doc KeyCurrentContext MappingNode ∧
  SectionComplete doc KeyCurrentContext

instance (doc : Node) : Decidable (DocWellFormed doc) := by
  unfold DocWellFormed
  infer_instance

/-- The invariant of the persisted document maintained by `SetContext` and
`RemoveContext`: the document is well-formed, every context entry carries a name,
names are pairwise different, the current-context mapping has pairwise different
targets, and every current-context pair points at an entry with that name and that
target. -/
def DocInv (doc : Node) : Prop :=
  DocWellFormed doc ∧ EntriesNamed doc KeyContexts ∧
  ((sectionItems doc KeyContexts).map entryName).Nodup ∧
  ((decodePairs (sectionItems doc KeyCurrentContext)).map Prod.fst).Nodup ∧
  ∀ p ∈ decodePairs (sectionItems doc KeyCurrentContext),
    ∃ e ∈ sectionItems doc KeyContexts, entryName e = p.2 ∧ entryTarget e = p.1

/-- The document holds an entry for the context: same name, same target. -/
def HasEntry (c : Context) (doc : Node) : Prop :=
  ∃ e ∈ sectionItems doc KeyContexts, entryName e = c.Name ∧ entryTarget e = c.Target

/-- One step of `mergePairs`: the pair `k`, `v` merged into the pairs `dst`. -/
def mergeStep (k v : Node) (dst : List Node) : List Node :=
  match pairLookup dst k.Value with
  | none => dst ++ [k, v]
  | some dv => pairUpdate dst k.Value (fun _ => (mergeNode v dv).2)

/-- The entry is a patched or encoded form of the context: complete pairs, and the
keys `name` and `target` hold the name and the target of the context. -/
def EntryOf (c : Context) (e : Node) : Prop :=
  e.Content.length % 2 = 0 ∧
  (pairLookup e.Content "name").map Node.Value = some c.Name ∧
  (pairLookup e.Content "target").map Node.Value = some c.Target

/-- The persisted state `SetContext c true` aims at, for a context whose name is new:
the entries `entries` followed by the encoded context, and the current-context entry
of its target holding its name. -/
def HoldsContext (entries : List Node) (c : Context) (doc : Node) : Prop :=
  DocComplete doc ∧ sectionItems doc KeyContexts = entries ++ [encodeContext c] ∧
  currentContextOf doc c.Target = some c.Name

/-! ## Concrete documents used as witnesses -/

/-- A document whose current-context entry for kubernetes holds the empty name. -/
def docEmptyPointer : Node :=
  Node.mk DocumentNode 0 "" [Node.mk MappingNode 0 ""
    [Node.mk ScalarNode 0 "current-context" [],
     Node.mk MappingNode 0 ""
       [Node.mk ScalarNode 0 "kubernetes" [], Node.mk ScalarNode 0 "" []]]]

/-- The current-context mapping of `docTwoContexts`. -/
def pointersTwoContexts : Node :=
  Node.mk MappingNode 0 ""
    [Node.mk ScalarNode 0 "kubernetes" [], Node.mk ScalarNode 0 "ctx1" [],
     Node.mk ScalarNode 0 "mission-control" [], Node.mk ScalarNode 0 "ctx2" []]

/-- A document with the contexts `ctx1` (kubernetes) and `ctx2` (mission-control), both
current for their targets. -/
def docTwoContexts : Node :=
  Node.mk DocumentNode 0 "" [Node.mk MappingNode 0 ""
    [Node.mk ScalarNode 0 "contexts" [],
     Node.mk SequenceNode 0 ""
       [Node.mk MappingNode 0 ""
          [Node.mk ScalarNode 0 "name" [], Node.mk ScalarNode 0 "ctx1" [],
           Node.mk ScalarNode 0 "target" [], Node.mk ScalarNode 0 "kubernetes" []],
        Node.mk MappingNode 0 ""
          [Node.mk ScalarNode 0 "name" [], Node.mk ScalarNode 0 "ctx2" [],
           Node.mk ScalarNode 0 "target" [], Node.mk ScalarNode 0 "mission-control" []]],
     Node.mk ScalarNode 0 "current-context" [],
     pointersTwoContexts]]

/-- The context `ctx1` of `docTwoContexts`. -/
def ctx1 : Context := ⟨"ctx1", TargetK8s, none, none, []⟩

/-- The typed view of `docTwoContexts`. -/
def cfgTwoContexts : ClientConfig :=
  { KnownServers := []
    CurrentServer := ""
    KnownContexts := [ctx1, ⟨"ctx2", TargetTMC, none, none, []⟩]
    CurrentContext := [("kubernetes", "ctx1"), ("mission-control", "ctx2")]
    ClientOptions := none }

/-- A document whose only context entry has a target and no `name` key. -/
def docNamelessContext : Node :=
  Node.mk DocumentNode 0 "" [Node.mk MappingNode 0 ""
    [Node.mk ScalarNode 0 "contexts" [],
     Node.mk SequenceNode 0 ""
       [Node.mk MappingNode 0 ""
          [Node.mk ScalarNode 0 "target" [], Node.mk ScalarNode 0 "kubernetes" []]]]]

/-- A store holding the empty document whose second persist attempt fails. -/
def worldSecondPersistFails : World :=
  { World.fresh emptyDocument with persistFails := [false, true] }

/-- A document holding the kubernetes context `ctx1` with global options. -/
def docWithGlobalOpts : Node :=
  Node.mk DocumentNode 0 "" [Node.mk MappingNode 0 ""
    [Node.mk ScalarNode 0 "contexts" [],
     Node.mk SequenceNode 0 ""
       [Node.mk MappingNode 0 ""
          [Node.mk ScalarNode 0 "name" [], Node.mk ScalarNode 0 "ctx1" [],
           Node.mk ScalarNode 0 "target" [], Node.mk ScalarNode 0 "kubernetes" [],
           Node.mk ScalarNode 0 "globalOpts" [],
           Node.mk MappingNode 0 ""
             [Node.mk ScalarNode 0 "endpoint" [], Node.mk ScalarNode 0 "https://old" []]]]]]

/-- The kubernetes context `ctx1` with cluster options and no global options. -/
def ctx1Cluster : Context :=
  ⟨"ctx1", TargetK8s, none, some ⟨"https://x", false⟩, []⟩

/-- The context read back after `ctx1Cluster` is set on `docWithGlobalOpts`. -/
def ctx1Merged : Context :=
  ⟨"ctx1", TargetK8s, some ⟨"https://old"⟩, some ⟨"https://x", false⟩, []⟩

/-- The context `ctx1` registered again, now with target mission-control. -/
def ctx1Retargeted : Context :=
  ⟨"ctx1", TargetTMC, some ⟨"https://x"⟩, none, []⟩

/-- The kubernetes context of the end-to-end scenario. -/
def ctxScenario : Context :=
  ⟨"ctx1", TargetK8s, some ⟨"https://x"⟩, none, []⟩


/-! ## The legacy configuration file (config/clientconfig_factory.go) -/

/-- The collaborators of `getClientConfigNoLock`: path resolution, the file system, the
YAML parser, and `convertClientConfigToNode` (whose source is not part of the examined
files: it returns the node it built, if any, together with its error, if any). -/
structure ConfigFile where
  ClientConfigPath : Except Error String
  ReadFile : String → Except Error String
  Unmarshal : String → Except Error Node
  convertClientConfigToNode : ClientConfig → Option Node × Option Error

/-- The zero value `&configtypes.ClientConfig{}`. -/
def ClientConfig.empty : ClientConfig :=
  { KnownServers := []
    CurrentServer := ""
    KnownContexts := []
    CurrentContext := []
    ClientOptions := none }

/-- Embedding of `newClientConfigNode` (clientconfig_factory.go, lines 78-87): the style
of the root is reset before the error of the conversion is looked at. -/
def newClientConfigNode (fs : ConfigFile) : Except Error Node :=
  match fs.convertClientConfigToNode ClientConfig.empty with
  | (none, _) => .error (.panic "invalid memory address or nil pointer dereference")
  | (some node, err) =>
    match node.Content with
    | [] => .error (.panic "index out of range [0] with length 0")
    | root :: rest =>
      match err with
      | some e => .error e
      | none => .ok (node.setContent (root.setStyle 0 :: rest))

/-- Embedding of `getClientConfigNoLock` (clientconfig_factory.go, lines 55-76). A panic
of `newClientConfigNode` unwinds through the caller: it is passed on as it is, only a
returned error is wrapped. -/
def getClientConfigNoLock (fs : ConfigFile) : Except Error Node :=
  match fs.ClientConfigPath with
  | .error err =>
    .error (.Wrapf "getClientConfigNodeNoLock: failed getting client config path" err)
  | .ok cfgPath =>
    let fresh : Except Error Node :=
      match newClientConfigNode fs with
      | .error (.panic reason) => .error (.panic reason)
      | .error err => .error (.Wrapf "failed to create new client config" err)
      | .ok node => .ok node
    match fs.ReadFile cfgPath with
    | .error _ => fresh
    | .ok bytes =>
      if bytes.length = 0 then fresh
      else
        match fs.Unmarshal bytes with
        | .error err =>
          .error (.Wrapf
            "getClientConfigNodeNoLock: failed to construct struct from config data" err)
        | .ok node =>
          match node.Content with
          | [] => .error (.panic "index out of range [0] with length 0")
          | root :: rest => .ok (node.setContent (root.setStyle 0 :: rest))

/-! ## Views used by the theorems on the public API -/

/-- The `name` value of an entry, when the entry carries a `name` key. -/
def nameKey (e : Node) : Option String :=
  (pairLookup e.Content "name").map Node.Value

/-- No two entries of the contexts sequence share a `name`. -/
def NamesUnique (doc : Node) : Prop :=
  ((sectionItems doc KeyContexts).filterMap nameKey).Nodup

instance (doc : Node) : Decidable (NamesUnique doc) := by
  unfold NamesUnique
  infer_instance

/-- The legacy current-server value of a document, as the typed view reads it: the
empty name when the document has no current-server key. -/
def currentServerOf (doc : Node) : String :=
  match sectionOf doc KeyCurrentServer with
  | some s => s.Value
  | none => ""

/-- The pointers of a document after a successful `SetCurrentContext` of a context with
target `target`, relative to the document `doc` before the call. -/
def PointerSet (doc : Node) (name : String) (target : Target) (doc1 : Node) : Prop :=
  currentContextOf doc1 target = some name ∧
  (∀ t, t ≠ target → currentContextOf doc1 t = currentContextOf doc t) ∧
  (target = TargetK8s → currentServerOf doc1 = name) ∧
  (target ≠ TargetK8s → currentServerOf doc1 = currentServerOf doc)

/-- The step is a document load or a persist attempt. -/
def Event.isStoreStep : Event → Bool
  | .load _ => true
  | .persist _ _ => true
  | .lock => false
  | .unlock => false

/-- The events `evs` of one call form a single lock window: the lock is taken first,
the document is loaded next, every further step is a load or a persist attempt, and
the lock is released last. -/
def SingleLockWindow (evs : List Event) : Prop :=
  ∃ nextGen steps, evs = Event.lock :: Event.load nextGen :: steps ++ [Event.unlock] ∧
    ∀ e ∈ steps, e.isStoreStep = true

/-- World `w2` is reached from `w1` by loads and persist attempts only. -/
def StoreSteps (w1 w2 : World) : Prop :=
  ∃ steps, w2.trace = w1.trace ++ steps ∧ ∀ e ∈ steps, e.isStoreStep = true

/-- A configuration file whose path resolves, with the given result of reading it; the
content does not parse, and the empty configuration converts to a flow-style empty
mapping. -/
def fileWith (read : Except Error String) : ConfigFile :=
  { ClientConfigPath := .ok "config.yaml"
    ReadFile := fun _ => read
    Unmarshal := fun _ => .error (.external "yaml: did not find expected key")
    convertClientConfigToNode := fun _ =>
      (some (Node.mk DocumentNode 0 "" [Node.mk MappingNode 32 "" []]), none) }


/-! ## Views used by the idempotence theorem -/

mutual
/-- Every mapping of the tree has complete key/value pairs. -/
def wellPaired : Node → Bool
  | Node.mk k _ _ c => (k != MappingNode || c.length % 2 == 0) && wellPairedList c
/-- Every node of the list is `wellPaired`. -/
def wellPairedList : List Node → Bool
  | [] => true
  | x :: xs => wellPaired x && wellPairedList xs
end

/-- Merging the node a second time into the result of merging it reports no change. -/
def MergeIdem (s : Node) : Prop :=
  ∀ d, wellPaired d = true → mergeNode s (mergeNode s d).2 = (false, (mergeNode s d).2)

/-- A merge of the node that reports no change leaves the target as it was. -/
def MergeStable (s : Node) : Prop :=
  ∀ d, (mergeNode s d).1 = false → (mergeNode s d).2 = d

/-- The node is a good source of merges. -/
def MergeGood (s : Node) : Prop :=
  wellPaired s = true ∧ MergeIdem s ∧ MergeStable s

/-- Every value of the key/value pairs satisfies `P`. -/
def PairsAll (P : Node → Prop) : List Node → Prop
  | [] => True
  | [_] => True
  | _ :: v :: rest => P v ∧ PairsAll P rest

/-- Every pair of `src` is present in `dst` with a value into which the value of the
pair merges without change. -/
def PairsSettled : List Node → List Node → Prop
  | [], _ => True
  | [_], _ => True
  | k :: v :: rest, dst =>
    (∃ dv, pairLookup dst k.Value = some dv ∧ mergeNode v dv = (false, dv)) ∧
    PairsSettled rest dst

/-- One step of `mergeItems`: the item merged into the items `dst`. -/
def itemStep (item : Node) (dst : List Node) : List Node :=
  match pairLookup item.Content "name" with
  | none => dst ++ [item]
  | some n =>
    match itemIndex dst n.Value with
    | none => dst ++ [item]
    | some i =>
      match dst.get? i with
      | none => dst
      | some dv => dst.set i (mergeNode item dv).2

/-- The item named `name` is present in `dst` under that name, as an item into which
`item` merges without change. -/
def SettledAt (item : Node) (name : String) (dst : List Node) : Prop :=
  ∃ i x, itemIndex dst name = some i ∧ dst.get? i = some x ∧ mergeNode item x = (false, x)

/-- Every discovery source is present in `dst` under its name, as an item into which
its node merges without change. -/
def SourcesSettled (ds : List PluginDiscovery) (dst : List Node) : Prop :=
  ∀ d ∈ ds, SettledAt (encodeDiscovery d) d.Name dst

/-- The entry is a mapping with complete pairs in which every pair of the mapping of
the context is settled. -/
def GoodEntry (c : Context) (x : Node) : Prop :=
  x.Kind = MappingNode ∧ x.Content.length % 2 = 0 ∧
  PairsSettled (encodeContext c).Content x.Content

/-- The persist flag `setContext` returns on a document whose contexts sequence holds
`entries`. -/
def contextsFlag (ps : PatchStrategies) (c : Context) (entries : List Node) : Bool :=
  match setContextLoop ps (encodeContext c) c entries ⟨false, false, false, []⟩ with
  | .ok st => st.persistDiscoverySources || (if st.found then st.persist else true)
  | .error _ => true

/-- The persist flag `setServer` returns on a document whose servers sequence holds
`entries`. -/
def serversFlag (ps : PatchStrategies) (s : Server) (entries : List Node) : Bool :=
  match setServerLoop ps (encodeServer s) s entries ⟨false, false, false, []⟩ with
  | .ok st => if st.found then st.persist else true
  | .error _ => true

/-- The entry `e` after the update of `setServer`: the replace paths are deleted, the
mirror is merged in. -/
def patchServerOf (ps : PatchStrategies) (s : Server) (e : Node) : Bool × Node :=
  mergeNode (encodeServer s) (deleteTop ps (encodeServer s) e [KeyServers]).2

/-- The servers sequence after `setServer`: every entry named `s.Name` is patched in
place; when there is none, the mirror is appended. -/
def serversAfterSet (ps : PatchStrategies) (s : Server) (entries : List Node) : List Node :=
  if entries.any (nameIs s.Name) then
    entries.map (fun e => if nameIs s.Name e then (patchServerOf ps s e).2 else e)
  else entries ++ [encodeServer s]

/-- The contexts section is settled for the context: a sequence of entries with
complete pairs, exactly one of them named as the context, on which `setContext`
reports no change. -/
def ContextsQuiet (ps : PatchStrategies) (c : Context) (x : Node) : Prop :=
  SectionKind x KeyContexts SequenceNode ∧ EntriesComplete x KeyContexts ∧
  ((sectionItems x KeyContexts).filter (nameIs c.Name)).length = 1 ∧
  contextsFlag ps c (sectionItems x KeyContexts) = false

/-- The current-context section is settled for the context: a mapping with complete
pairs whose entry for the target of the context holds its name. -/
def PointerQuiet (c : Context) (x : Node) : Prop :=
  SectionKind x KeyCurrentContext MappingNode ∧ SectionComplete x KeyCurrentContext ∧
  currentContextOf x c.Target = some c.Name

/-- The servers section is settled for the mirror of the context. -/
def ServersQuiet (ps : PatchStrategies) (c : Context) (x : Node) : Prop :=
  SectionKind x KeyServers SequenceNode ∧ EntriesComplete x KeyServers ∧
  serversFlag ps (convertContextToServer c) (sectionItems x KeyServers) = false

/-- The current-server value is settled for the mirror of the context. -/
def CurrentServerQuiet (c : Context) (x : Node) : Prop :=
  (convertContextToServer c).ServerType = ManagementClusterServerType →
    SectionKind x KeyCurrentServer ScalarNode ∧ currentServerOf x = c.Name

/-- The document is settled for the context: each of the four steps of `SetContext`
finds its section as it would leave it. -/
def SettledFor (ps : PatchStrategies) (c : Context) (x : Node) : Prop :=
  DocComplete x ∧ ContextsQuiet ps c x ∧ PointerQuiet c x ∧ ServersQuiet ps c x ∧
  CurrentServerQuiet c x

/-- The steps of `SetContext c true` on the document all report persist = false:
`setContext`, `setCurrentContext` on its result, `setServer` on that, and, for a
management-cluster mirror (the only case in which `SetContext` calls it),
`setCurrentServer` on the result of `setServer`. -/
def ReportsNoChange (md : Except Error PatchStrategies) (c : Context) (x : Node) : Prop :=
  ∃ y1 y3, setContext md x c = .ok (false, y1) ∧
    setCurrentContext y1 c = .ok (false, y1) ∧
    setServer md y1 (convertContextToServer c) = .ok (false, y3) ∧
    ((convertContextToServer c).ServerType = ManagementClusterServerType →
      ∃ y4, setCurrentServer y3 (convertContextToServer c).Name = .ok (false, y4))

/-- Well-formedness of a persisted document for `SetContext`: the document is
well-formed for the context operations and its servers section, when present, is a
sequence of entries with complete pairs. -/
def StoreWellFormed (doc : Node) : Prop :=
  DocWellFormed doc ∧ SectionKind doc KeyServers SequenceNode ∧
  EntriesComplete doc KeyServers

instance (doc : Node) : Decidable (StoreWellFormed doc) := by
  unfold StoreWellFormed
  infer_instance

/-- The document holds no context entry and no server entry with the name of the
context. -/
def FreshFor (c : Context) (doc : Node) : Prop :=
  (∀ e ∈ sectionItems doc KeyContexts, nameIs c.Name e = false) ∧
  (∀ e ∈ sectionItems doc KeyServers, nameIs c.Name e = false)

instance (c : Context) (doc : Node) : Decidable (FreshFor c doc) := by
  unfold FreshFor
  infer_instance

/-- Stage of `SetContext` after its first step: the contexts section is settled, the
other sections are those of the document `d0` the call started from. -/
def StageA (ps : PatchStrategies) (c : Context) (d0 x : Node) : Prop :=
  DocComplete x ∧ ContextsQuiet ps c x ∧
  ∀ K, K ≠ KeyContexts → sectionOf x K = sectionOf d0 K

/-- Stage of `SetContext` after its second step: the contexts and current-context
sections are settled, the other sections are those of `d0`. -/
def StageB (ps : PatchStrategies) (c : Context) (d0 x : Node) : Prop :=
  DocComplete x ∧ ContextsQuiet ps c x ∧ PointerQuiet c x ∧
  ∀ K, K ≠ KeyContexts → K ≠ KeyCurrentContext → sectionOf x K = sectionOf d0 K

/-- Stage of `SetContext` after its third step: the contexts, current-context and
servers sections are settled, the current-server section is that of `d0`. -/
def StageC (ps : PatchStrategies) (c : Context) (d0 x : Node) : Prop :=
  DocComplete x ∧ ContextsQuiet ps c x ∧ PointerQuiet c x ∧ ServersQuiet ps c x ∧
  sectionOf x KeyCurrentServer = sectionOf d0 KeyCurrentServer

/-- The entry holds the scalars and the option blocks of the context: read back as a
context, it has the name and the target of `c` and each option block that `c` sets,
with the values `c` gives it. -/
def HoldsOptionsOf (c : Context) (e : Node) : Prop :=
  (decodeContext e).Name = c.Name ∧ (decodeContext e).Target = c.Target ∧
  (∀ g, c.GlobalOpts = some g → (decodeContext e).GlobalOpts = some g) ∧
  (∀ o, c.ClusterOpts = some o → (decodeContext e).ClusterOpts = some o)

/-- The entry holds the discovery sources of the context: read back as a context,
every discovery source of `c` is among its discovery sources. -/
def HoldsSourcesOf (c : Context) (e : Node) : Prop :=
  ∀ d ∈ c.DiscoverySources, d ∈ (decodeContext e).DiscoverySources

/-- A store holding `docWithGlobalOpts` whose patch-strategy metadata replaces the
cluster options of a context. -/
def worldReplaceClusterOpts : World :=
  { World.fresh docWithGlobalOpts with
    metadata := .ok [([KeyContexts, "clusterOpts"], StrategyReplace)] }

/-- A store holding `docTwoContexts` whose patch-strategy metadata replaces every path
of a context. -/
def worldReplaceContexts : World :=
  { World.fresh docTwoContexts with
    metadata := .ok [([KeyContexts], StrategyReplace)] }

/-- The kubernetes management-cluster context `ctx3` with both option blocks and two
discovery sources. -/
def ctx3Full : Context :=
  ⟨"ctx3", TargetK8s, some ⟨"https://g"⟩, some ⟨"https://x", true⟩,
    [⟨"d1", "i1"⟩, ⟨"d2", "i2"⟩]⟩

/-- The kubernetes context `ctx1` with cluster options and two discovery sources. -/
def ctx1Sources : Context :=
  ⟨"ctx1", TargetK8s, none, some ⟨"https://x", false⟩, [⟨"d1", "i1"⟩, ⟨"d2", "i2"⟩]⟩

/-- The kubernetes context `ctx1` with two discovery sources of the same name. -/
def ctx1SameSources : Context :=
  ⟨"ctx1", TargetK8s, none, none, [⟨"d1", "i1"⟩, ⟨"d1", "i2"⟩]⟩


/-! ## Feature flags, editions and the typed current context (config/types/clientconfig.go) -/

/-- The standard edition (clientconfig.go, line 55). -/
def EditionStandard : String := "tkg"

/-- The community edition (clientconfig.go, line 57). -/
def EditionCommunity : String := "tce"

/-- Go's `strings.Split(s, ".")` on the characters of `s`: the parts between the dots,
in order; a string without a dot is its only part. -/
def splitDots : List Char → List (List Char)
  | [] => [[]]
  | c :: cs =>
    if c = '.' then [] :: splitDots cs
    else
      match splitDots cs with
      | [] => [[c]]
      | p :: ps => (c :: p) :: ps

/-- Go's `strings.Split(s, ".")`. -/
def stringsSplitDot (s : String) : List String :=
  (splitDots s.data).map String.mk

/-- Embedding of `ClientConfig.SplitFeaturePath` (clientconfig.go, lines 231-249): the
plugin name, the feature name and the error. -/
def ClientConfig.SplitFeaturePath (_c : ClientConfig) (featurePath : String) :
    String × String × Option Error :=
  match stringsSplitDot featurePath with
  | [featuresLiteral, plugin, flag] =>
    if featuresLiteral ≠ "features" then
      ("", "", some (.New ("unsupported feature config path parameter [" ++ featuresLiteral ++
        "] (was expecting 'features.<plugin>.<feature>')")))
    else (plugin, flag, none)
  | _ =>
    ("", "", some (.New ("unable to parse feature name config parameter into three parts [" ++
      featurePath ++ "]  (was expecting features.<plugin>.<feature>)")))

/-- Go's `strconv.ParseBool`: it accepts 1, t, T, TRUE, true, True, 0, f, F, FALSE,
false, False; any other value is a syntax error. -/
def ParseBool (str : String) : Except Error Bool :=
  if str = "1" ∨ str = "t" ∨ str = "T" ∨ str = "TRUE" ∨ str = "true" ∨ str = "True" then
    .ok true
  else if str = "0" ∨ str = "f" ∨ str = "F" ∨ str = "FALSE" ∨ str = "false" ∨
      str = "False" then
    .ok false
  else .error (.Errorf "strconv.ParseBool: parsing %q: invalid syntax" str)

/-- Go map read `Features[plugin]` on the map of feature maps: the nil map when the
key is absent. -/
def featureMap (features : List (String × Option (List (String × String))))
    (plugin : String) : Option (List (String × String)) :=
  match features.lookup plugin with
  | some m => m
  | none => none

/-- Embedding of `ClientConfig.IsConfigFeatureActivated` (clientconfig.go, lines
202-220): the boolean and the error. The error of a value that is no boolean is
`errors.New` of a message ending in the message of the parse error; it is kept as the
message up to there and the parse error. -/
def ClientConfig.IsConfigFeatureActivated (c : ClientConfig) (featurePath : String) :
    Bool × Option Error :=
  match c.SplitFeaturePath featurePath with
  | (_, _, some err) => (false, some err)
  | (plugin, flag, none) =>
    match c.ClientOptions with
    | none => (false, none)
    | some options =>
      match options.Features with
      | none => (false, none)
      | some features =>
        match featureMap features plugin with
        | none => (false, none)
        | some flags =>
          if mapGet flags flag = "" then (false, none)
          else
            match ParseBool (mapGet flags flag) with
            | .error err =>
              (false, some (.Wrapf ("error converting " ++ featurePath ++ " entry '" ++
                mapGet flags flag ++ "' to boolean value: %s") err))
            | .ok booleanValue => (booleanValue, none)

/-- The value stored for the flag of the plugin, as `IsConfigFeatureActivated` reads
it: the empty string when the client options, the feature maps, the map of the plugin
or the flag is absent. -/
def ClientConfig.featureValue (c : ClientConfig) (plugin flag : String) : String :=
  match c.ClientOptions with
  | none => ""
  | some options =>
    match options.Features with
    | none => ""
    | some features =>
      match featureMap features plugin with
      | none => ""
      | some flags => mapGet flags flag

/-- The client options after `if c.ClientOptions == nil` and `if c.ClientOptions.CLI ==
nil` of `SetEditionSelector` (clientconfig.go, lines 257-262). -/
def ClientConfig.optionsOrNew (c : ClientConfig) : TanzuConfig.ClientOptions :=
  match c.ClientOptions with
  | none => { CLI := none, Features := none, Env := none }
  | some options => options

/-- The CLI options after the two allocations of `SetEditionSelector`. -/
def ClientConfig.cliOrNew (c : ClientConfig) : CLIOptions :=
  match c.optionsOrNew.CLI with
  | none => { UnstableVersionSelector := "", Edition := "" }
  | some cli => cli

/-- Embedding of `ClientConfig.SetEditionSelector` (clientconfig.go, lines 251-269):
the receiver after the call. -/
def ClientConfig.SetEditionSelector (c : ClientConfig) (edition : String) : ClientConfig :=
  let options := c.optionsOrNew
  let cli := c.cliOrNew
  if edition = EditionCommunity ∨ edition = EditionStandard then
    { c with ClientOptions := some { options with CLI := some { cli with Edition := edition } } }
  else
    let cli1 : CLIOptions := { cli with UnstableVersionSelector := EditionStandard }
    { c with ClientOptions := some { options with CLI := some cli1 } }

/-- The edition of a configuration: the empty string when the options are absent. -/
def ClientConfig.edition (c : ClientConfig) : String :=
  match c.ClientOptions with
  | some options =>
    match options.CLI with
    | some cli => cli.Edition
    | none => ""
  | none => ""

/-- The unstable-version selector of a configuration: the empty string when the
options are absent. -/
def ClientConfig.unstableVersionSelector (c : ClientConfig) : String :=
  match c.ClientOptions with
  | some options =>
    match options.CLI with
    | some cli => cli.UnstableVersionSelector
    | none => ""
  | none => ""

/-- Embedding of `Context.IsManagementCluster` (clientconfig.go, lines 173-176), on a
non-nil context. -/
def Context.IsManagementCluster (c : Context) : Bool :=
  decide (c.Target = TargetK8s) &&
    match c.ClusterOpts with
    | some o => o.IsManagementCluster
    | none => false

/-- Embedding of `ClientConfig.SetCurrentContext` (clientconfig.go, lines 157-171): the
receiver after the call and the error. -/
def ClientConfig.SetCurrentContext (c : ClientConfig) (target : Target) (ctxName : String) :
    ClientConfig × Option Error :=
  let c1 := { c with CurrentContext := mapSet c.CurrentContext target ctxName }
  match c1.GetContext ctxName with
  | .error err => (c1, some err)
  | .ok ctx =>
    if ctx.IsManagementCluster = true ∨ ctx.Target = TargetTMC then
      ({ c1 with CurrentServer := ctxName }, none)
    else (c1, none)

/-! ## Endpoint of a context (config/contexts.go) -/

/-- Embedding of `EndpointFromContext` (contexts.go, lines 236-246), on a non-nil
context: reading the endpoint of an absent option block is a nil dereference. -/
def EndpointFromContext (s : Context) : Except Error String :=
  if s.Target = TargetK8s then
    match s.ClusterOpts with
    | none => .error (.panic "invalid memory address or nil pointer dereference")
    | some o => .ok o.Endpoint
  else if s.Target = TargetTMC then
    match s.GlobalOpts with
    | none => .error (.panic "invalid memory address or nil pointer dereference")
    | some g => .ok g.Endpoint
  else .error (.Errorf "unknown server type %q" s.Target)

/-! ## Concrete inputs -/

/-- The context built by `DefaultSetContextInputOptions` (context_test_helpers.go,
lines 15-46): target kubernetes, global options only. -/
def ctxDefaultInput (contextName : String) : Context :=
  ⟨contextName, TargetK8s, some ⟨"default-compatibility-test-endpoint"⟩, none, []⟩

/-- A mission-control context without global options. -/
def ctxTMCNoOpts : Context :=
  ⟨"tmc1", TargetTMC, none, none, []⟩

/-- The zero `yaml.Node`, which `yaml.Unmarshal` leaves untouched when the content holds
no document (whitespace or comments only). -/
def zeroNode : Node := Node.mk 0 0 "" []

/-- A configuration file holding a comment only: it is read, and the parser returns no
error and a node without children. -/
def fileCommentOnly : ConfigFile :=
  { ClientConfigPath := .ok "config.yaml"
    ReadFile := fun _ => .ok "# no settings yet\n"
    Unmarshal := fun _ => .ok zeroNode
    convertClientConfigToNode := fun _ => (some emptyDocument, none) }

/-- An unreadable configuration file for which `convertClientConfigToNode` fails and
returns no node. -/
def fileConvertFails : ConfigFile :=
  { ClientConfigPath := .ok "config.yaml"
    ReadFile := fun _ => .error (.external "no such file")
    Unmarshal := fun _ => .ok zeroNode
    convertClientConfigToNode := fun _ => (none, some (.external "marshal failed")) }

/-- A configuration with the unstable-version selector `none` and no edition. -/
def cfgSelectorNone : ClientConfig :=
  { ClientConfig.empty with
    ClientOptions := some { CLI := some { UnstableVersionSelector := "none", Edition := "" }
                            Features := none
                            Env := none } }

/-- A configuration with the feature flags of the plugin `management-cluster`. -/
def cfgFeatures : ClientConfig :=
  { ClientConfig.empty with
    ClientOptions := some
      { CLI := none
        Features := some [("management-cluster",
          some [("dual-stack", "true"), ("custom", "False"), ("broken", "yes"),
            ("empty", "")])]
        Env := none } }


@[simp] theorem Node.Content_mk (k s : Nat) (v : String) (c : List Node) :
    (Node.mk k s v c).Content = c := rfl
@[simp] theorem Node.Kind_mk (k s : Nat) (v : String) (c : List Node) :
    (Node.mk k s v c).Kind = k := rfl
@[simp] theorem Node.Value_mk (k s : Nat) (v : String) (c : List Node) :
    (Node.mk k s v c).Value = v := rfl
@[simp] theorem Node.setContent_Content (n : Node) : n.setContent n.Content = n := by
  cases n; rfl
@[simp] theorem Node.Content_setContent (n : Node) (c : List Node) : (n.setContent c).Content = c := by
  cases n; rfl
@[simp] theorem Node.Kind_setContent (n : Node) (c : List Node) : (n.setContent c).Kind = n.Kind := by
  cases n; rfl
@[simp] theorem Node.Value_setContent (n : Node) (c : List Node) : (n.setContent c).Value = n.Value := by
  cases n; rfl
@[simp] theorem Node.setContent_setContent (n : Node) (c d : List Node) :
    (n.setContent c).setContent d = n.setContent d := by
  cases n; rfl
@[simp] theorem Node.Value_setValue (n : Node) (v : String) : (n.setValue v).Value = v := by
  cases n; rfl
@[simp] theorem Node.Value_setStyle (n : Node) (s : Nat) : (n.setStyle s).Value = n.Value := by
  cases n; rfl

theorem GetNodeIndexFrom_even : ∀ (l : List Node) (key : String) (m : Nat),
    GetNodeIndexFrom l key (2 * m) =
      match keyIndex l key with
      | some j => ((j + 2 * m + 1 : Nat) : Int)
      | none => -1
  | [], key, m => by simp [GetNodeIndexFrom, keyIndex]
  | [k], key, m => by
    by_cases h : k.Value = key <;> simp [GetNodeIndexFrom, keyIndex, h]
  | k :: v :: rest, key, m => by
    have ih := GetNodeIndexFrom_even rest key (m + 1)
    have e : 2 * m + 1 + 1 = 2 * (m + 1) := by ring
    by_cases h : k.Value = key
    · simp [GetNodeIndexFrom, keyIndex, h]
    · simp only [GetNodeIndexFrom, keyIndex, h, and_false, if_false, e, ih]
      have h1 : ¬ ((2 * m + 1) % 2 = 0) := by omega
      simp only [h1, false_and, if_false]
      cases hk : keyIndex rest key with
      | none => simp
      | some j => simp; omega

theorem GetNodeIndex_eq (l : List Node) (key : String) :
    GetNodeIndex l key =
      match keyIndex l key with
      | some j => ((j + 1 : Nat) : Int)
      | none => -1 := by
  have := GetNodeIndexFrom_even l key 0
  simpa [GetNodeIndex] using this

theorem even_tail {a b : Node} {rest : List Node} (h : (a :: b :: rest).length % 2 = 0) :
    rest.length % 2 = 0 := by
  simp only [List.length_cons] at h; omega

theorem pairLookup_eq_get : ∀ (l : List Node) (key : String),
    pairLookup l key = (keyIndex l key).bind (fun j => l.get? (j + 1))
  | [], key => by simp [pairLookup, keyIndex]
  | [k], key => by by_cases h : k.Value = key <;> simp [pairLookup, keyIndex, h]
  | k :: v :: rest, key => by
    by_cases h : k.Value = key
    · simp [pairLookup, keyIndex, h]
    · simp only [pairLookup, keyIndex, h, if_false, pairLookup_eq_get rest key]
      cases keyIndex rest key <;> simp

theorem keyIndex_lt : ∀ (l : List Node) (key : String) (j : Nat),
    keyIndex l key = some j → l.length % 2 = 0 → j + 1 < l.length
  | [], key, j => by simp [keyIndex]
  | [k], key, j => by simp
  | k :: v :: rest, key, j => by
    by_cases h : k.Value = key
    · simp [keyIndex, h]; omega
    · simp only [keyIndex, h, if_false, Option.map_eq_some', List.length_cons]
      rintro ⟨a, ha, rfl⟩ hl
      have := keyIndex_lt rest key a ha (by omega)
      omega

theorem keyIndex_eq_none_iff : ∀ (l : List Node) (key : String),
    l.length % 2 = 0 → (keyIndex l key = none ↔ pairLookup l key = none)
  | [], key => by simp [keyIndex, pairLookup]
  | [k], key => by simp
  | k :: v :: rest, key => by
    intro hl
    by_cases h : k.Value = key
    · simp [keyIndex, pairLookup, h]
    · simp only [keyIndex, pairLookup, h, if_false, Option.map_eq_none']
      exact keyIndex_eq_none_iff rest key (even_tail hl)

theorem set_eq_pairUpdate : ∀ (l : List Node) (key : String) (j : Nat) (f : Node → Node) (v : Node),
    keyIndex l key = some j → l.get? (j + 1) = some v → l.set (j + 1) (f v) = pairUpdate l key f
  | [], key, j, f, v => by simp [keyIndex]
  | [k], key, j, f, v => by
    by_cases h : k.Value = key <;> simp [keyIndex, h]
  | k :: w :: rest, key, j, f, v => by
    by_cases h : k.Value = key
    · simp only [keyIndex, h, if_true, Option.some.injEq, pairUpdate]
      rintro rfl; simp; rintro rfl; rfl
    · simp only [keyIndex, h, if_false, Option.map_eq_some', pairUpdate]
      rintro ⟨a, ha, rfl⟩ hv
      have := set_eq_pairUpdate rest key a f v ha (by simpa using hv)
      simpa using this

theorem take_drop_eq_pairErase : ∀ (l : List Node) (key : String) (j : Nat),
    keyIndex l key = some j → l.length % 2 = 0 → l.take j ++ l.drop (j + 2) = pairErase l key
  | [], key, j => by simp [keyIndex]
  | [k], key, j => by simp
  | k :: w :: rest, key, j => by
    by_cases h : k.Value = key
    · simp only [keyIndex, h, if_true, Option.some.injEq, pairErase]
      rintro rfl _; simp
    · simp only [keyIndex, h, if_false, Option.map_eq_some', pairErase]
      rintro ⟨a, ha, rfl⟩ hl
      have := take_drop_eq_pairErase rest key a ha (even_tail hl)
      simpa using this

theorem pairUpdate_length : ∀ (l : List Node) (key : String) (f : Node → Node),
    (pairUpdate l key f).length = l.length
  | [], key, f => rfl
  | [k], key, f => rfl
  | k :: v :: rest, key, f => by
    by_cases h : k.Value = key <;> simp [pairUpdate, h, pairUpdate_length rest key f]

theorem pairLookup_pairUpdate : ∀ (l : List Node) (key key2 : String) (f : Node → Node),
    pairLookup (pairUpdate l key f) key2 =
      if key2 = key then (pairLookup l key).map f else pairLookup l key2
  | [], key, key2, f => by simp [pairLookup, pairUpdate]
  | [k], key, key2, f => by simp [pairLookup, pairUpdate]
  | k :: v :: rest, key, key2, f => by
    have ih := pairLookup_pairUpdate rest key key2 f
    by_cases h : k.Value = key
    · by_cases h2 : key2 = key
      · subst h2; simp [pairLookup, pairUpdate, h]
      · subst h
        have h4 : ¬ k.Value = key2 := fun e => h2 e.symm
        simp [pairLookup, pairUpdate, h2, h4]
    · by_cases h2 : key2 = key
      · subst h2; simp [pairLookup, pairUpdate, h, ih]
      · by_cases h3 : k.Value = key2 <;> simp [pairLookup, pairUpdate, h, h2, h3, ih]

theorem pairLookup_pairErase_ne : ∀ (l : List Node) (key key2 : String), key2 ≠ key →
    pairLookup (pairErase l key) key2 = pairLookup l key2
  | [], key, key2, _ => by simp [pairLookup, pairErase]
  | [k], key, key2, _ => by simp [pairLookup, pairErase]
  | k :: v :: rest, key, key2, hne => by
    have ih := pairLookup_pairErase_ne rest key key2 hne
    by_cases h : k.Value = key
    · subst h
      have h4 : ¬ k.Value = key2 := fun e => hne e.symm
      simp [pairLookup, pairErase, h4]
    · by_cases h3 : k.Value = key2
      · subst h3; simp [pairLookup, pairErase, h]
      · simp [pairLookup, pairErase, h, h3, ih]

theorem pairErase_sublist : ∀ (l : List Node) (key : String), (pairErase l key).Sublist l
  | [], key => by simp [pairErase]
  | [k], key => by simp [pairErase]
  | k :: v :: rest, key => by
    by_cases h : k.Value = key
    · simp only [pairErase, h, if_true]
      exact (List.sublist_cons_self v rest).trans (List.sublist_cons_self k _)
    · simp only [pairErase, h, if_false]
      exact ((pairErase_sublist rest key).cons₂ v).cons₂ k

theorem pairLookup_append_pair : ∀ (l : List Node) (k v : Node) (key : String),
    l.length % 2 = 0 →
    pairLookup (l ++ [k, v]) key =
      match pairLookup l key with
      | some w => some w
      | none => if k.Value = key then some v else none
  | [], k, v, key => by simp [pairLookup]
  | [a], k, v, key => by simp
  | a :: b :: rest, k, v, key => by
    intro hl
    have ih := pairLookup_append_pair rest k v key (even_tail hl)
    by_cases h : a.Value = key
    · simp [pairLookup, h]
    · simpa [pairLookup, h] using ih

theorem keyIndex_append_pair_none : ∀ (l : List Node) (k v : Node) (key : String),
    l.length % 2 = 0 → keyIndex l key = none →
    keyIndex (l ++ [k, v]) key = if k.Value = key then some l.length else none
  | [], k, v, key => by simp [keyIndex]
  | [a], k, v, key => by simp
  | a :: b :: rest, k, v, key => by
    intro hl
    by_cases h : a.Value = key
    · simp [keyIndex, h]
    · simp only [keyIndex, h, if_false, Option.map_eq_none', List.cons_append]
      intro hn
      have ih := keyIndex_append_pair_none rest k v key (even_tail hl) hn
      simp only [List.append_eq] at ih ⊢
      rw [ih]
      by_cases h2 : k.Value = key <;> simp [h2]

theorem keyIndex_append_pair_some : ∀ (l : List Node) (k v : Node) (key : String) (j : Nat),
    keyIndex l key = some j → l.length % 2 = 0 →
    keyIndex (l ++ [k, v]) key = some j
  | [], k, v, key, j => by simp [keyIndex]
  | [a], k, v, key, j => by simp
  | a :: b :: rest, k, v, key, j => by
    by_cases h : a.Value = key
    · simp only [keyIndex, h, if_true, List.cons_append]
      intro hj _; exact hj
    · simp only [keyIndex, h, if_false, Option.map_eq_some', List.cons_append]
      rintro ⟨c, hc, rfl⟩ hl
      exact ⟨c, keyIndex_append_pair_some rest k v key c hc (even_tail hl), rfl⟩


theorem list_set_get_self {α : Type} : ∀ (l : List α) (i : Nat) (a : α),
    l.get? i = some a → l.set i a = l
  | [], i, a => by simp
  | x :: xs, 0, a => by simp; intro h; exact h.symm
  | x :: xs, i + 1, a => by
    intro h
    simp only [List.set_cons_succ, List.cons.injEq, true_and]
    exact list_set_get_self xs i a (by simpa using h)

/-- FindNode on a one-step path, for a mapping with well-formed pairs. -/
theorem FindNode_single (parent : Node) (forceCreate : Bool) (key : Key)
    (hl : parent.Content.length % 2 = 0) :
    FindNode parent forceCreate [key] =
      match keyIndex parent.Content key.Name, pairLookup parent.Content key.Name with
      | some j, some child =>
        if key.Kind ≠ 0 ∧ child.Kind ≠ key.Kind then none else some (parent, [j + 1])
      | _, _ =>
        if forceCreate then
          match createNode key with
          | [k, v] =>
            some (parent.setContent (parent.Content ++ [k, v]), [parent.Content.length + 1])
          | _ => none
        else none := by
  have hg := GetNodeIndex_eq parent.Content key.Name
  have hp := pairLookup_eq_get parent.Content key.Name
  cases hk : keyIndex parent.Content key.Name with
  | none =>
    rw [hk] at hg hp
    simp only [Option.none_bind] at hp
    simp only [FindNode, hg, hp, ne_eq, not_true_eq_false, if_false]
  | some j =>
    rw [hk] at hg hp
    have hlt := keyIndex_lt _ _ _ hk hl
    simp only [Option.some_bind] at hp
    obtain ⟨child, hc⟩ : ∃ c, parent.Content.get? (j + 1) = some c := by
      cases h : parent.Content.get? (j + 1) with
      | none => rw [List.get?_eq_none] at h; omega
      | some c => exact ⟨c, rfl⟩
    rw [hc] at hp
    have hne : ((j + 1 : Nat) : Int) ≠ -1 := by omega
    simp only [FindNode, hg, hp, ne_eq, hne, not_false_eq_true, if_true, Int.toNat_ofNat, hc]
    split
    · rfl
    · simp [list_set_get_self _ _ _ hc]


theorem keyIndex_get_of_lookup {l : List Node} {key : String} {v : Node}
    (h : pairLookup l key = some v) :
    ∃ j, keyIndex l key = some j ∧ l.get? (j + 1) = some v := by
  rw [pairLookup_eq_get] at h
  cases hk : keyIndex l key with
  | none => simp [hk] at h
  | some j => exact ⟨j, rfl, by simpa [hk] using h⟩

theorem setNodeAt_single (root : Node) (i : Nat) (c new : Node)
    (h : root.Content.get? i = some c) :
    setNodeAt root [i] new = root.setContent (root.Content.set i new) := by
  simp only [setNodeAt, h]

theorem get?_append_pair {α : Type} : ∀ (l : List α) (a b : α),
    (l ++ [a, b]).get? (l.length + 1) = some b
  | [], a, b => rfl
  | x :: xs, a, b => by simpa using get?_append_pair xs a b

theorem set_append_pair {α : Type} : ∀ (l : List α) (a b c : α),
    (l ++ [a, b]).set (l.length + 1) c = l ++ [a, c]
  | [], a, b, c => rfl
  | x :: xs, a, b, c => by simp [set_append_pair xs a b c]

theorem nodeAt_single (root : Node) (i : Nat) : nodeAt root [i] = root.Content.get? i := by
  simp only [nodeAt]
  cases root.Content.get? i <;> rfl

theorem setCurrentContext_present (node root : Node) (rest : List Node) (ctx : Context) (cc : Node)
    (hdoc : node.Content = root :: rest)
    (hroot : root.Content.length % 2 = 0)
    (hsec : pairLookup root.Content KeyCurrentContext = some cc)
    (hkind : cc.Kind = MappingNode)
    (hcc : cc.Content.length % 2 = 0) :
    setCurrentContext node ctx =
      match pairLookup cc.Content ctx.Target with
      | some v =>
        if v.Value ≠ ctx.Name then
          .ok (true, updateSection node KeyCurrentContext (fun c =>
            c.setContent (pairUpdate c.Content ctx.Target
              (fun w => (w.setValue ctx.Name).setStyle 0))))
        else .ok (false, node)
      | none =>
        .ok (true, updateSection node KeyCurrentContext (fun c =>
          c.setContent (c.Content ++ CreateScalarNode ctx.Target ctx.Name))) := by
  obtain ⟨j, hj, hget⟩ := keyIndex_get_of_lookup hsec
  have hF := FindNode_single root true ⟨KeyCurrentContext, MappingNode⟩ hroot
  simp only [hj, hsec, hkind, ne_eq, not_true_eq_false, and_false, if_false] at hF
  have hg := GetNodeIndex_eq cc.Content ctx.Target
  simp only [setCurrentContext, hdoc, hF, nodeAt_single, hget, updateSection]
  cases hl : pairLookup cc.Content ctx.Target with
  | none =>
    have hk : keyIndex cc.Content ctx.Target = none := (keyIndex_eq_none_iff _ _ hcc).mpr hl
    rw [hk] at hg
    simp only [hg, ne_eq, not_true_eq_false, if_false, setNodeAt_single _ _ _ _ hget]
    rw [set_eq_pairUpdate root.Content KeyCurrentContext j
      (fun c => c.setContent (c.Content ++ CreateScalarNode ctx.Target ctx.Name)) cc hj hget]
  | some v =>
    obtain ⟨i, hi, hgi⟩ := keyIndex_get_of_lookup hl
    rw [hi] at hg
    have hne : ((i + 1 : Nat) : Int) ≠ -1 := by omega
    simp only [hg, ne_eq, hne, not_false_eq_true, if_true, Int.toNat_ofNat, hgi]
    by_cases hv : v.Value = ctx.Name
    · simp only [hv, not_true_eq_false, if_false]
      have : node.setContent (root :: rest) = node := by rw [← hdoc]; simp
      rw [this]
    · simp only [hv, not_false_eq_true, if_true, setNodeAt_single _ _ _ _ hget]
      rw [set_eq_pairUpdate cc.Content ctx.Target i
        (fun w => (w.setValue ctx.Name).setStyle 0) v hi hgi]
      rw [set_eq_pairUpdate root.Content KeyCurrentContext j
        (fun c => c.setContent (pairUpdate c.Content ctx.Target
          (fun w => (w.setValue ctx.Name).setStyle 0))) cc hj hget]

theorem setCurrentContext_absent (node root : Node) (rest : List Node) (ctx : Context)
    (hdoc : node.Content = root :: rest)
    (hroot : root.Content.length % 2 = 0)
    (hsec : pairLookup root.Content KeyCurrentContext = none) :
    setCurrentContext node ctx = .ok (true, withNewCurrentContext node root rest ctx) := by
  have hk : keyIndex root.Content KeyCurrentContext = none :=
    (keyIndex_eq_none_iff _ _ hroot).mpr hsec
  have hF := FindNode_single root true ⟨KeyCurrentContext, MappingNode⟩ hroot
  simp only [hk, hsec, createNode, CreateMappingNode, if_true] at hF
  have hget : (root.Content ++ [Node.mk ScalarNode 0 KeyCurrentContext [],
      Node.mk MappingNode 0 "" []]).get? (root.Content.length + 1)
      = some (Node.mk MappingNode 0 "" []) := get?_append_pair _ _ _
  simp only [setCurrentContext, hdoc, hF, nodeAt_single, Node.Content_setContent, hget]
  have hg : GetNodeIndex (Node.mk MappingNode 0 "" []).Content ctx.Target = -1 := by
    simp [GetNodeIndex, GetNodeIndexFrom, Node.Content]
  simp only [hg, ne_eq, not_true_eq_false, if_false, withNewCurrentContext]
  rw [setNodeAt_single _ _ _ _ (by simpa using hget)]
  simp only [Node.Content_setContent, Node.setContent_setContent, set_append_pair]
  rfl

theorem updateSection_Content (node root : Node) (rest : List Node) (key : String)
    (f : Node → Node) (hdoc : node.Content = root :: rest) :
    (updateSection node key f).Content =
      root.setContent (pairUpdate root.Content key f) :: rest := by
  simp [updateSection, hdoc]

theorem sectionOf_updateSection (node : Node) (key key2 : String) (f : Node → Node) :
    sectionOf (updateSection node key f) key2 =
      if key2 = key then (sectionOf node key).map f else sectionOf node key2 := by
  cases hc : node.Content with
  | nil => simp [sectionOf, updateSection, hc]
  | cons root rest =>
    simp [sectionOf, updateSection, hc, pairLookup_pairUpdate]

theorem pairLookup_CreateScalarNode (t n : String) :
    pairLookup (CreateScalarNode t n) t = some (Node.mk ScalarNode 0 n []) := by
  simp [CreateScalarNode, pairLookup, Node.Value]


theorem createNode_cases (K : String) (kd : Nat) :
    (∃ v, createNode ⟨K, kd⟩ = [Node.mk ScalarNode 0 K [], v] ∧ v.Content = [] ∧ v.Kind = kd
        ∧ v.Value = "") ∨
    createNode ⟨K, kd⟩ = [] := by
  unfold createNode
  by_cases h1 : kd = MappingNode
  · subst h1; left
    exact ⟨Node.mk MappingNode 0 "" [], by simp [CreateMappingNode], rfl, rfl, rfl⟩
  · by_cases h2 : kd = SequenceNode
    · subst h2; left
      exact ⟨Node.mk SequenceNode 0 "" [], by simp [CreateSequenceNode], rfl, rfl, rfl⟩
    · by_cases h3 : kd = ScalarNode
      · subst h3; left
        exact ⟨Node.mk ScalarNode 0 "" [], by simp [CreateScalarNode], rfl, rfl, rfl⟩
      · right; simp [h1, h2, h3]

/-- What a successful one-step `FindNode` returns, and what writing through the
returned pointer does. -/
theorem FindNode_focus (parent : Node) (fc : Bool) (K : String) (kd : Nat)
    (heven : parent.Content.length % 2 = 0) (p1 : Node) (path : List Nat)
    (h : FindNode parent fc [⟨K, kd⟩] = some (p1, path)) :
    ∃ sec, nodeAt p1 path = some sec ∧
      (∀ new, setNodeAt p1 path new = putPair parent K new) ∧
      p1 = putPair parent K sec ∧
      ((pairLookup parent.Content K = some sec ∧ ¬(kd ≠ 0 ∧ sec.Kind ≠ kd)) ∨
       (pairLookup parent.Content K = none ∧ fc = true ∧ sec.Content = [] ∧ sec.Kind = kd ∧
         sec.Value = "")) := by
  have hF := FindNode_single parent fc ⟨K, kd⟩ heven
  rw [h] at hF
  cases hl : pairLookup parent.Content K with
  | some sec =>
    obtain ⟨j, hj, hget⟩ := keyIndex_get_of_lookup hl
    simp only [hj, hl] at hF
    by_cases hk : kd ≠ 0 ∧ sec.Kind ≠ kd
    · simp [hk] at hF
    · simp only [hk, if_false, Option.some.injEq, Prod.mk.injEq] at hF
      obtain ⟨rfl, rfl⟩ := hF
      have hput : ∀ new, setNodeAt p1 [j + 1] new = putPair p1 K new := by
        intro new
        rw [setNodeAt_single _ _ _ _ hget, putPair, hl]
        simp only
        rw [set_eq_pairUpdate p1.Content K j (fun _ => new) sec hj hget]
      refine ⟨sec, by rw [nodeAt_single]; exact hget, hput, ?_, Or.inl ⟨rfl, hk⟩⟩
      rw [← hput sec, setNodeAt_single _ _ _ _ hget, list_set_get_self _ _ _ hget]
      simp
  | none =>
    have hk : keyIndex parent.Content K = none := (keyIndex_eq_none_iff _ _ heven).mpr hl
    simp only [hk, hl] at hF
    cases fc with
    | false => simp at hF
    | true =>
      simp only [if_true] at hF
      rcases createNode_cases K kd with ⟨v, hv, hvc, hvk, hvv⟩ | hv
      · rw [hv] at hF
        simp only [Option.some.injEq, Prod.mk.injEq] at hF
        obtain ⟨rfl, rfl⟩ := hF
        have hget : (parent.setContent (parent.Content ++ [Node.mk ScalarNode 0 K [], v])).Content.get?
            (parent.Content.length + 1) = some v := by
          rw [Node.Content_setContent]; exact get?_append_pair _ _ _
        refine ⟨v, by rw [nodeAt_single]; exact hget, ?_, ?_, Or.inr ⟨rfl, rfl, hvc, hvk, hvv⟩⟩
        · intro new
          rw [setNodeAt_single _ _ _ _ hget, putPair, hl]
          simp only [Node.Content_setContent, Node.setContent_setContent, set_append_pair]
        · rw [putPair, hl]
      · rw [hv] at hF; simp at hF

/-- When a one-step `FindNode` fails. -/
theorem FindNode_none (parent : Node) (fc : Bool) (K : String) (kd : Nat)
    (heven : parent.Content.length % 2 = 0)
    (h : FindNode parent fc [⟨K, kd⟩] = none) :
    (∃ sec, pairLookup parent.Content K = some sec ∧ kd ≠ 0 ∧ sec.Kind ≠ kd) ∨
    (pairLookup parent.Content K = none ∧ (fc = false ∨ createNode ⟨K, kd⟩ = [])) := by
  have hF := FindNode_single parent fc ⟨K, kd⟩ heven
  rw [h] at hF
  cases hl : pairLookup parent.Content K with
  | some sec =>
    obtain ⟨j, hj, hget⟩ := keyIndex_get_of_lookup hl
    simp only [hj, hl] at hF
    by_cases hk : kd ≠ 0 ∧ sec.Kind ≠ kd
    · exact Or.inl ⟨sec, rfl, hk⟩
    · simp [hk] at hF
  | none =>
    right
    refine ⟨rfl, ?_⟩
    have hk : keyIndex parent.Content K = none := (keyIndex_eq_none_iff _ _ heven).mpr hl
    simp only [hk, hl] at hF
    cases fc with
    | false => exact Or.inl rfl
    | true =>
      right
      rcases createNode_cases K kd with ⟨v, hv, _⟩ | hv
      · rw [hv] at hF; simp at hF
      · exact hv

theorem putPair_Content_length_even (parent : Node) (K : String) (new : Node)
    (heven : parent.Content.length % 2 = 0) :
    (putPair parent K new).Content.length % 2 = 0 := by
  unfold putPair
  cases pairLookup parent.Content K with
  | some _ => simp [pairUpdate_length, heven]
  | none => simp only [Node.Content_setContent, List.length_append, List.length_cons,
      List.length_nil]; omega

theorem pairLookup_putPair (parent : Node) (K K2 : String) (new : Node)
    (heven : parent.Content.length % 2 = 0) :
    pairLookup (putPair parent K new).Content K2 =
      if K2 = K then some new else pairLookup parent.Content K2 := by
  unfold putPair
  cases hl : pairLookup parent.Content K with
  | some v =>
    simp only [Node.Content_setContent, pairLookup_pairUpdate, hl, Option.map_some']
  | none =>
    simp only [Node.Content_setContent]
    rw [pairLookup_append_pair _ _ _ _ heven]
    by_cases h : K2 = K
    · subst h; simp [hl, Node.Value]
    · have h2 : ¬ K = K2 := fun e => h e.symm
      simp only [h, if_false, Node.Value, h2]
      cases pairLookup parent.Content K2 <;> rfl

@[simp] theorem putPair_Kind (parent : Node) (K : String) (new : Node) :
    (putPair parent K new).Kind = parent.Kind := by
  unfold putPair
  cases pairLookup parent.Content K <;> simp

theorem putSection_Content (node root : Node) (rest : List Node) (K : String) (new : Node)
    (hdoc : node.Content = root :: rest) :
    (putSection node K new).Content = putPair root K new :: rest := by
  simp [putSection, hdoc]

theorem sectionOf_putSection (node root : Node) (rest : List Node) (K K2 : String) (new : Node)
    (hdoc : node.Content = root :: rest) (heven : root.Content.length % 2 = 0) :
    sectionOf (putSection node K new) K2 =
      if K2 = K then some new else sectionOf node K2 := by
  simp only [sectionOf, putSection_Content node root rest K new hdoc, hdoc]
  exact pairLookup_putPair root K K2 new heven


theorem find?_eq_some_split {α : Type} (p : α → Bool) : ∀ (l : List α) (a : α),
    l.find? p = some a → ∃ pre post, l = pre ++ a :: post ∧ p a = true ∧ ∀ x ∈ pre, p x = false
  | [], a => by simp
  | x :: xs, a => by
    intro h
    by_cases hx : p x = true
    · simp only [List.find?, hx, Option.some.injEq] at h
      subst h
      exact ⟨[], xs, rfl, hx, by simp⟩
    · have hx2 : p x = false := by simpa using hx
      simp only [List.find?, hx2] at h
      obtain ⟨pre, post, rfl, hpa, hpre⟩ := find?_eq_some_split p xs a h
      refine ⟨x :: pre, post, rfl, hpa, ?_⟩
      intro y hy
      rcases List.mem_cons.mp hy with rfl | hy
      · exact hx2
      · exact hpre y hy

/-- C4: `getContext` on a document whose typed view is `cfg`: it succeeds exactly when
some known context has the name; a returned context is the first one with that name
in document order; when there is none the error is "context <name> not found". -/
theorem getContext_first_match (node : Node) (name : String) (cfg : ClientConfig)
    (hcfg : convertNodeToClientConfig node = .ok cfg) :
    ((∃ c, getContext node name = .ok c) ↔ ∃ c ∈ cfg.KnownContexts, c.Name = name) ∧
    (∀ c, getContext node name = .ok c →
      ∃ pre post, cfg.KnownContexts = pre ++ c :: post ∧ c.Name = name ∧
        ∀ x ∈ pre, x.Name ≠ name) ∧
    ((¬ ∃ c ∈ cfg.KnownContexts, c.Name = name) →
      getContext node name = .error (.Errorf "context %v not found" name)) := by
  have hg : getContext node name =
      match cfg.KnownContexts.find? (fun ctx => decide (ctx.Name = name)) with
      | some ctx => .ok ctx
      | none => .error (.Errorf "context %v not found" name) := by
    simp only [getContext, hcfg]
  cases hf : cfg.KnownContexts.find? (fun ctx => decide (ctx.Name = name)) with
  | none =>
    rw [hf] at hg
    have hnone : ∀ x ∈ cfg.KnownContexts, x.Name ≠ name := by
      intro x hx
      have := List.find?_eq_none.mp hf x hx
      simpa using this
    refine ⟨⟨?_, ?_⟩, ?_, fun _ => hg⟩
    · rintro ⟨c, hc⟩; rw [hg] at hc; cases hc
    · rintro ⟨c, hc, hn⟩; exact absurd hn (hnone c hc)
    · intro c hc; rw [hg] at hc; cases hc
  | some c0 =>
    rw [hf] at hg
    obtain ⟨pre, post, hsplit, hp, hpre⟩ := find?_eq_some_split _ _ _ hf
    have hn0 : c0.Name = name := by simpa using hp
    refine ⟨⟨fun _ => ⟨c0, ?_, hn0⟩, fun _ => ⟨c0, hg⟩⟩, ?_, ?_⟩
    · rw [hsplit]; simp
    · intro c hc
      rw [hg] at hc
      cases hc
      exact ⟨pre, post, hsplit, hn0, fun x hx => by simpa using hpre x hx⟩
    · intro hno
      exact absurd ⟨c0, by rw [hsplit]; simp, hn0⟩ hno

/-- C4, witness: reading `ctx2` from `docTwoContexts`; the context before it has
another name. -/
theorem getContext_first_match_witness :
    convertNodeToClientConfig docTwoContexts = .ok cfgTwoContexts ∧
    ((∃ c, getContext docTwoContexts "ctx2" = .ok c) ↔
      ∃ c ∈ cfgTwoContexts.KnownContexts, c.Name = "ctx2") ∧
    (∀ c, getContext docTwoContexts "ctx2" = .ok c →
      ∃ pre post, cfgTwoContexts.KnownContexts = pre ++ c :: post ∧ c.Name = "ctx2" ∧
        ∀ x ∈ pre, x.Name ≠ "ctx2") ∧
    ((¬ ∃ c ∈ cfgTwoContexts.KnownContexts, c.Name = "ctx2") →
      getContext docTwoContexts "ctx2" = .error (.Errorf "context %v not found" "ctx2")) :=
  ⟨rfl, getContext_first_match docTwoContexts "ctx2" cfgTwoContexts rfl⟩

/-- C5: `ClientConfig.GetCurrentContext`: the error "no current context set for target"
exactly when the map has no entry for the target or an empty one; otherwise the first
context with the stored name, or the wrapped error "unable to get current context". -/
theorem GetCurrentContext_cases (c : ClientConfig) (t : Target) :
    (c.GetCurrentContext t = .error (.Errorf "no current context set for target %q" t) ↔
      (c.CurrentContext.lookup t = none ∨ c.CurrentContext.lookup t = some "")) ∧
    (∀ n, c.CurrentContext.lookup t = some n → n ≠ "" →
      (∀ ctx, c.KnownContexts.find? (fun x => decide (x.Name = n)) = some ctx →
        c.GetCurrentContext t = .ok ctx) ∧
      ((∀ x ∈ c.KnownContexts, x.Name ≠ n) →
        c.GetCurrentContext t = .error (.Wrapf "unable to get current context: %s"
          (.Errorf "could not find context %q" n)))) := by
  constructor
  · constructor
    · intro h
      cases hl : c.CurrentContext.lookup t with
      | none => exact Or.inl rfl
      | some n =>
        right
        by_cases hn : n = ""
        · rw [hn]
        · exfalso
          simp only [ClientConfig.GetCurrentContext, mapGet, hl, hn, if_false,
            ClientConfig.GetContext] at h
          split at h <;> cases h
    · rintro (hl | hl) <;> simp [ClientConfig.GetCurrentContext, mapGet, hl]
  · intro n hl hn
    constructor
    · intro ctx hf
      simp [ClientConfig.GetCurrentContext, mapGet, hl, hn, ClientConfig.GetContext, hf]
    · intro hno
      have hf : c.KnownContexts.find? (fun x => decide (x.Name = n)) = none := by
        rw [List.find?_eq_none]
        intro x hx
        simpa using hno x hx
      simp [ClientConfig.GetCurrentContext, mapGet, hl, hn, ClientConfig.GetContext, hf]


theorem setCurrentContext_effect (node root : Node) (rest : List Node)
    (ctx : Context)
    (hdoc : node.Content = root :: rest)
    (hroot : root.Content.length % 2 = 0)
    (hsec : ∀ cc, pairLookup root.Content KeyCurrentContext = some cc →
      cc.Kind = MappingNode ∧ cc.Content.length % 2 = 0) :
    ∃ persist node1,
      setCurrentContext node ctx = .ok (persist, node1) ∧
      currentContextOf node1 ctx.Target = some ctx.Name ∧
      (persist = true ↔ currentContextOf node ctx.Target ≠ some ctx.Name) ∧
      (persist = false → node1 = node) ∧
      setCurrentContext node1 ctx = .ok (false, node1) := by
  cases hs : pairLookup root.Content KeyCurrentContext with
  | none =>
    have h1 := setCurrentContext_absent node root rest ctx hdoc hroot hs
    have hc1 : (withNewCurrentContext node root rest ctx).Content =
        root.setContent (root.Content ++ [Node.mk ScalarNode 0 KeyCurrentContext [],
          Node.mk MappingNode 0 "" (CreateScalarNode ctx.Target ctx.Name)]) :: rest := by
      simp [withNewCurrentContext]
    have hl1 : pairLookup (root.Content ++ [Node.mk ScalarNode 0 KeyCurrentContext [],
          Node.mk MappingNode 0 "" (CreateScalarNode ctx.Target ctx.Name)]) KeyCurrentContext
        = some (Node.mk MappingNode 0 "" (CreateScalarNode ctx.Target ctx.Name)) := by
      rw [pairLookup_append_pair _ _ _ _ hroot, hs]; simp [Node.Value]
    have hs1 : sectionOf (withNewCurrentContext node root rest ctx) KeyCurrentContext =
        some (Node.mk MappingNode 0 "" (CreateScalarNode ctx.Target ctx.Name)) := by
      simp only [sectionOf, hc1, Node.Content_setContent, hl1]
    have hcs : (Node.mk MappingNode 0 "" (CreateScalarNode ctx.Target ctx.Name)).Content =
        CreateScalarNode ctx.Target ctx.Name := rfl
    refine ⟨true, _, h1, ?_, ?_, ?_, ?_⟩
    · simp only [currentContextOf, hs1, hcs, pairLookup_CreateScalarNode]; rfl
    · simp [currentContextOf, sectionOf, hdoc, hs]
    · simp
    · have h2 := setCurrentContext_present _ _ rest ctx
        (Node.mk MappingNode 0 "" (CreateScalarNode ctx.Target ctx.Name)) hc1
        (by simp only [Node.Content_setContent, List.length_append, List.length_cons,
              List.length_nil]; omega)
        (by simpa using hl1) rfl (by simp [Node.Content, CreateScalarNode])
      rw [h2]
      simp only [hcs, pairLookup_CreateScalarNode]
      simp [Node.Value]
  | some cc =>
    obtain ⟨hkind, hcc⟩ := hsec cc hs
    have h1 := setCurrentContext_present node root rest ctx cc hdoc hroot hs hkind hcc
    cases hl : pairLookup cc.Content ctx.Target with
    | none =>
      rw [hl] at h1
      simp only at h1
      have hc1 := updateSection_Content node root rest KeyCurrentContext (fun c =>
          c.setContent (c.Content ++ CreateScalarNode ctx.Target ctx.Name)) hdoc
      have hl1 : pairLookup (cc.Content ++ CreateScalarNode ctx.Target ctx.Name) ctx.Target
          = some (Node.mk ScalarNode 0 ctx.Name []) := by
        have := pairLookup_append_pair cc.Content (Node.mk ScalarNode 0 ctx.Target [])
          (Node.mk ScalarNode 0 ctx.Name []) ctx.Target hcc
        rw [hl] at this
        simpa [CreateScalarNode, Node.Value] using this
      have hs0 : sectionOf node KeyCurrentContext = some cc := by
        simp only [sectionOf, hdoc, hs]
      refine ⟨true, _, h1, ?_, ?_, ?_, ?_⟩
      · simp only [currentContextOf, sectionOf_updateSection, hs0, if_true, Option.map_some',
          Node.Content_setContent, hl1]
        rfl
      · simp [currentContextOf, sectionOf, hdoc, hs, hl]
      · simp
      · have h2 := setCurrentContext_present _ _ rest ctx
          (cc.setContent (cc.Content ++ CreateScalarNode ctx.Target ctx.Name)) hc1
          (by simp [pairUpdate_length]; exact hroot)
          (by simp [pairLookup_pairUpdate, hs]) (by simpa using hkind)
          (by simp [CreateScalarNode]; omega)
        rw [h2]
        simp [hl1, Node.Value]
    | some v =>
      rw [hl] at h1
      simp only at h1
      by_cases hv : v.Value = ctx.Name
      · simp only [hv, ne_eq, not_true_eq_false, if_false] at h1
        refine ⟨false, node, h1, ?_, ?_, ?_, h1⟩
        · simp [currentContextOf, sectionOf, hdoc, hs, hl, hv]
        · simp [currentContextOf, sectionOf, hdoc, hs, hl, hv]
        · simp
      · simp only [hv, ne_eq, not_false_eq_true, if_true] at h1
        have hc1 := updateSection_Content node root rest KeyCurrentContext (fun c =>
          c.setContent (pairUpdate c.Content ctx.Target
            (fun w => (w.setValue ctx.Name).setStyle 0))) hdoc
        have hs0 : sectionOf node KeyCurrentContext = some cc := by
          simp only [sectionOf, hdoc, hs]
        refine ⟨true, _, h1, ?_, ?_, ?_, ?_⟩
        · simp only [currentContextOf, sectionOf_updateSection, hs0, if_true, Option.map_some',
            Node.Content_setContent, pairLookup_pairUpdate, hl]
          simp
        · simp [currentContextOf, sectionOf, hdoc, hs, hl, hv]
        · simp
        · have h2 := setCurrentContext_present _ _ rest ctx
            (cc.setContent (pairUpdate cc.Content ctx.Target
              (fun w => (w.setValue ctx.Name).setStyle 0))) hc1
            (by simp [pairUpdate_length]; exact hroot)
            (by simp [pairLookup_pairUpdate, hs]) (by simpa using hkind)
            (by simp [pairUpdate_length]; exact hcc)
          rw [h2]
          simp [pairLookup_pairUpdate, hl]

theorem hyps_of_complete (node : Node) (K : String) (hdoc : DocComplete node) :
    ∃ root rest, node.Content = root :: rest ∧ root.Content.length % 2 = 0 ∧
      (∀ s, pairLookup root.Content K = some s →
        (SectionKind node K s.Kind) ∧ sectionItems node K = s.Content) := by
  unfold DocComplete at hdoc
  cases hc : node.Content with
  | nil => simp [hc] at hdoc
  | cons root rest =>
    simp only [hc] at hdoc
    refine ⟨root, rest, rfl, hdoc, ?_⟩
    intro s hs
    simp [SectionKind, sectionItems, sectionOf, hc, hs]

theorem section_hyps (node root : Node) (rest : List Node) (K : String) (kd : Nat)
    (hdoc : node.Content = root :: rest)
    (hkind : SectionKind node K kd) (hcomp : SectionComplete node K) :
    ∀ s, pairLookup root.Content K = some s → s.Kind = kd ∧ s.Content.length % 2 = 0 := by
  intro s hs
  simp only [SectionKind, sectionOf, hdoc, hs] at hkind
  simp only [SectionComplete, sectionItems, sectionOf, hdoc, hs] at hcomp
  exact ⟨hkind, hcomp⟩

/-- C8: write-if-different. On a document with complete pairs whose current-context
section, when present, is a mapping, `setCurrentContext` succeeds; afterwards the
section maps `ctx.Target` to `ctx.Name`; the persist flag is true exactly when the
entry was absent or different before; a false flag leaves the document (values and
styles) as it was; a second application returns persist = false. -/
theorem setCurrentContext_write_if_different (node : Node) (ctx : Context)
    (hdoc : DocComplete node)
    (hkind : SectionKind node KeyCurrentContext MappingNode)
    (hcomp : SectionComplete node KeyCurrentContext) :
    ∃ persist node1,
      setCurrentContext node ctx = .ok (persist, node1) ∧
      currentContextOf node1 ctx.Target = some ctx.Name ∧
      (persist = true ↔ currentContextOf node ctx.Target ≠ some ctx.Name) ∧
      (persist = false → node1 = node) ∧
      setCurrentContext node1 ctx = .ok (false, node1) := by
  obtain ⟨root, rest, hc, hroot, _⟩ := hyps_of_complete node KeyCurrentContext hdoc
  exact setCurrentContext_effect node root rest ctx hc hroot
    (section_hyps node root rest _ _ hc hkind hcomp)

/-- C8, witness: making `ctx1` current in `docTwoContexts`. -/
theorem setCurrentContext_write_if_different_witness :
    (DocComplete docTwoContexts ∧
      SectionKind docTwoContexts KeyCurrentContext MappingNode ∧
      SectionComplete docTwoContexts KeyCurrentContext) ∧
    ∃ persist node1,
      setCurrentContext docTwoContexts ctx1 = .ok (persist, node1) ∧
      currentContextOf node1 ctx1.Target = some ctx1.Name ∧
      (persist = true ↔ currentContextOf docTwoContexts ctx1.Target ≠ some ctx1.Name) ∧
      (persist = false → node1 = docTwoContexts) ∧
      setCurrentContext node1 ctx1 = .ok (false, node1) :=
  ⟨⟨by decide, by decide, by decide⟩,
   setCurrentContext_write_if_different docTwoContexts ctx1 (by decide) (by decide) (by decide)⟩


theorem pairErase_split : ∀ (l : List Node) (t : String) (v : Node),
    pairLookup l t = some v →
    ∃ pre k post, l = pre ++ k :: v :: post ∧ k.Value = t ∧ pairLookup pre t = none ∧
      pre.length % 2 = 0 ∧ pairErase l t = pre ++ post
  | [], t, v => by simp [pairLookup]
  | [k], t, v => by simp [pairLookup]
  | k :: w :: rest, t, v => by
    by_cases h : k.Value = t
    · simp only [pairLookup, h, if_true, Option.some.injEq, pairErase]
      rintro rfl
      exact ⟨[], k, rest, rfl, h, rfl, rfl, rfl⟩
    · simp only [pairLookup, h, if_false, pairErase]
      intro hl
      obtain ⟨pre, k2, post, rfl, hk2, hpre, hev, her⟩ := pairErase_split rest t v hl
      refine ⟨k :: w :: pre, k2, post, rfl, hk2, ?_, ?_, ?_⟩
      · simp [pairLookup, h, hpre]
      · simp only [List.length_cons]; omega
      · simp [her]

theorem putPair_eq_of_lookup (parent : Node) (K : String) (sec new : Node)
    (h : pairLookup parent.Content K = some sec) :
    putPair parent K new = parent.setContent (pairUpdate parent.Content K (fun _ => new)) := by
  simp [putPair, h]

/-- What `removeCurrentContext` computes, on a document with complete pairs. -/
theorem removeCurrentContext_eq (node root : Node) (rest : List Node) (ctx : Context)
    (hdoc : node.Content = root :: rest)
    (hroot : root.Content.length % 2 = 0)
    (hcc : ∀ cc, pairLookup root.Content KeyCurrentContext = some cc →
      cc.Content.length % 2 = 0) :
    removeCurrentContext node ctx =
      match pairLookup root.Content KeyCurrentContext with
      | none => .ok node
      | some cc =>
        match pairLookup cc.Content ctx.Target with
        | none => .ok node
        | some v =>
          if v.Value = ctx.Name ∨ ctx.Name = "" then
            .ok (putSection node KeyCurrentContext
              (cc.setContent (pairErase cc.Content ctx.Target)))
          else .ok node := by
  cases hF : FindNode root false [⟨KeyCurrentContext, 0⟩] with
  | none =>
    rcases FindNode_none root false KeyCurrentContext 0 hroot hF with ⟨sec, _, h0, _⟩ | ⟨hl, _⟩
    · exact absurd rfl h0
    · simp [removeCurrentContext, hdoc, hF, hl]
  | some r =>
    obtain ⟨root1, path⟩ := r
    obtain ⟨cc, hat, hset, _, hcase⟩ := FindNode_focus root false KeyCurrentContext 0 hroot _ _ hF
    rcases hcase with ⟨hl, _⟩ | ⟨_, hfc, _⟩
    · have hev := hcc cc hl
      have hg := GetNodeIndex_eq cc.Content ctx.Target
      simp only [removeCurrentContext, hdoc, hF, hat, hl]
      cases hlt : pairLookup cc.Content ctx.Target with
      | none =>
        have hk : keyIndex cc.Content ctx.Target = none := (keyIndex_eq_none_iff _ _ hev).mpr hlt
        rw [hk] at hg
        simp [hg]
      | some v =>
        obtain ⟨i, hi, hgi⟩ := keyIndex_get_of_lookup hlt
        rw [hi] at hg
        have hne : ¬ (((i + 1 : Nat) : Int) = -1) := by omega
        simp only [hg, hne, if_false, Int.toNat_ofNat, hgi, Nat.add_sub_cancel]
        by_cases hv : v.Value = ctx.Name ∨ ctx.Name = ""
        · simp only [hv, if_true]
          rw [take_drop_eq_pairErase _ _ _ hi hev, hset, putSection, hdoc]
        · simp only [hv, if_false]
    · cases hfc

/-- C9: frame of `removeCurrentContext` on a document with complete pairs. If the entry
for `ctx.Target` holds `ctx.Name`, exactly that pair is removed: the other pairs stay,
in order, and every other target and every other section reads as before. If the
entry holds another name and `ctx.Name` is non-empty, or there is no entry, or no
section, the document is returned unchanged with a nil error. -/
theorem removeCurrentContext_frame (node : Node) (ctx : Context)
    (hdoc : DocComplete node)
    (hcomp : SectionComplete node KeyCurrentContext) :
    (∀ cc v, sectionOf node KeyCurrentContext = some cc →
      pairLookup cc.Content ctx.Target = some v → v.Value = ctx.Name →
      ∃ pre k post, cc.Content = pre ++ k :: v :: post ∧ k.Value = ctx.Target ∧
        pairLookup pre ctx.Target = none ∧
        removeCurrentContext node ctx =
          .ok (putSection node KeyCurrentContext (cc.setContent (pre ++ post))) ∧
        (∀ t, t ≠ ctx.Target → pairLookup (pre ++ post) t = pairLookup cc.Content t) ∧
        (∀ K, K ≠ KeyCurrentContext →
          sectionOf (putSection node KeyCurrentContext (cc.setContent (pre ++ post))) K =
            sectionOf node K)) ∧
    (∀ cc v, sectionOf node KeyCurrentContext = some cc →
      pairLookup cc.Content ctx.Target = some v → v.Value ≠ ctx.Name → ctx.Name ≠ "" →
      removeCurrentContext node ctx = .ok node) ∧
    (∀ cc, sectionOf node KeyCurrentContext = some cc →
      pairLookup cc.Content ctx.Target = none → removeCurrentContext node ctx = .ok node) ∧
    (sectionOf node KeyCurrentContext = none →
      removeCurrentContext node ctx = .ok node) := by
  obtain ⟨root, rest, hc, hroot, hsec⟩ := hyps_of_complete node KeyCurrentContext hdoc
  have hcc : ∀ cc, pairLookup root.Content KeyCurrentContext = some cc →
      cc.Content.length % 2 = 0 := by
    intro cc hl
    have := (hsec cc hl).2
    unfold SectionComplete at hcomp
    rw [this] at hcomp
    exact hcomp
  have heq := removeCurrentContext_eq node root rest ctx hc hroot hcc
  have hso : sectionOf node KeyCurrentContext = pairLookup root.Content KeyCurrentContext := by
    simp [sectionOf, hc]
  rw [hso]
  refine ⟨?_, ?_, ?_, ?_⟩
  · intro cc v hl hv hname
    obtain ⟨pre, k, post, hsplit, hk, hpre, _, her⟩ := pairErase_split _ _ _ hv
    refine ⟨pre, k, post, hsplit, hk, hpre, ?_, ?_, ?_⟩
    · rw [heq, hl]; simp only [hv, hname, true_or, if_true, her]
    · intro t ht
      rw [← her]; exact pairLookup_pairErase_ne _ _ _ ht
    · intro K hK
      rw [sectionOf_putSection node root rest _ _ _ hc hroot]
      simp [hK]
  · intro cc v hl hv hne hne2
    rw [heq, hl]; simp only [hv]
    simp [hne, hne2]
  · intro cc hl hv
    rw [heq, hl]; simp only [hv]
  · intro hl
    rw [heq, hl]

/-- C9, witness: removing the pointer of `ctx1` from `docTwoContexts`. -/
theorem removeCurrentContext_frame_witness :
    (DocComplete docTwoContexts ∧ SectionComplete docTwoContexts KeyCurrentContext) ∧
    ∃ pre k post,
      pointersTwoContexts.Content = pre ++ k :: Node.mk ScalarNode 0 "ctx1" [] :: post ∧
      k.Value = ctx1.Target ∧ pairLookup pre ctx1.Target = none ∧
      removeCurrentContext docTwoContexts ctx1 =
        .ok (putSection docTwoContexts KeyCurrentContext
          (pointersTwoContexts.setContent (pre ++ post))) ∧
      (∀ t, t ≠ ctx1.Target →
        pairLookup (pre ++ post) t = pairLookup pointersTwoContexts.Content t) ∧
      (∀ K, K ≠ KeyCurrentContext →
        sectionOf (putSection docTwoContexts KeyCurrentContext
          (pointersTwoContexts.setContent (pre ++ post))) K = sectionOf docTwoContexts K) :=
  ⟨⟨by decide, by decide⟩,
   (removeCurrentContext_frame docTwoContexts ctx1 (by decide) (by decide)).1
     pointersTwoContexts (Node.mk ScalarNode 0 "ctx1" []) rfl rfl rfl⟩


/-- C10, counterexample: the stored name for kubernetes is empty, the context to remove
is named `ctx1`; `removeCurrentContext` returns the document unchanged and the entry
is still there. -/
theorem removeCurrentContext_keeps_empty_pointer :
    currentContextOf docEmptyPointer TargetK8s = some "" ∧
    removeCurrentContext docEmptyPointer ctx1 = .ok docEmptyPointer ∧
    (removeCurrentContext docEmptyPointer ctx1).toOption.map
      (fun n => currentContextOf n TargetK8s) = some (some "") :=
  ⟨by decide, rfl, by decide⟩

/-- C10, amended: on a document with complete pairs whose current-context section has
an entry for `ctx.Target`, `removeCurrentContext` removes that pair whatever name is
stored when `ctx.Name` is empty (the empty name of the argument matches any stored
name); with an empty stored name and a non-empty `ctx.Name` the entry is kept. -/
theorem removeCurrentContext_empty_name (node : Node) (ctx : Context) (cc v : Node)
    (hdoc : DocComplete node)
    (hcomp : SectionComplete node KeyCurrentContext)
    (hsec : sectionOf node KeyCurrentContext = some cc)
    (hentry : pairLookup cc.Content ctx.Target = some v) :
    (ctx.Name = "" →
      ∃ pre k post, cc.Content = pre ++ k :: v :: post ∧ k.Value = ctx.Target ∧
        pairLookup pre ctx.Target = none ∧
        removeCurrentContext node ctx =
          .ok (putSection node KeyCurrentContext (cc.setContent (pre ++ post)))) ∧
    (v.Value = "" → ctx.Name ≠ "" → removeCurrentContext node ctx = .ok node) := by
  obtain ⟨root, rest, hc, hroot, hs⟩ := hyps_of_complete node KeyCurrentContext hdoc
  have hso : pairLookup root.Content KeyCurrentContext = some cc := by
    simpa [sectionOf, hc] using hsec
  have hcc : ∀ c, pairLookup root.Content KeyCurrentContext = some c →
      c.Content.length % 2 = 0 := by
    intro c hl
    have := (hs c hl).2
    unfold SectionComplete at hcomp
    rw [this] at hcomp
    exact hcomp
  have heq := removeCurrentContext_eq node root rest ctx hc hroot hcc
  rw [hso] at heq
  simp only [hentry] at heq
  constructor
  · intro hname
    obtain ⟨pre, k, post, hsplit, hk, hpre, _, her⟩ := pairErase_split _ _ _ hentry
    refine ⟨pre, k, post, hsplit, hk, hpre, ?_⟩
    rw [heq]; simp only [hname, or_true, if_true, her]
  · intro hv hname
    rw [heq]
    have : ¬ (v.Value = ctx.Name ∨ ctx.Name = "") := by
      rintro (h | h)
      · exact hname (h ▸ hv)
      · exact hname h
    simp only [this, if_false]

/-- C10, witness of the amended statement: an empty stored name and the argument
`ctx1`. -/
theorem removeCurrentContext_empty_name_witness :
    (DocComplete docEmptyPointer ∧ SectionComplete docEmptyPointer KeyCurrentContext) ∧
    ("" = "" → ctx1.Name ≠ "" →
      removeCurrentContext docEmptyPointer ctx1 = .ok docEmptyPointer) :=
  ⟨⟨by decide, by decide⟩,
   (removeCurrentContext_empty_name docEmptyPointer ctx1
     (Node.mk MappingNode 0 ""
       [Node.mk ScalarNode 0 "kubernetes" [], Node.mk ScalarNode 0 "" []])
     (Node.mk ScalarNode 0 "" []) (by decide) (by decide) rfl rfl).2⟩


theorem name_match_iff (e : Node) (he : e.Content.length % 2 = 0) :
    (GetNodeIndex e.Content "name" = -1 ∧ pairLookup e.Content "name" = none) ∨
    (∃ j v, GetNodeIndex e.Content "name" = ((j + 1 : Nat) : Int) ∧
      e.Content.get? (j + 1) = some v ∧ pairLookup e.Content "name" = some v) := by
  have hg := GetNodeIndex_eq e.Content "name"
  cases hl : pairLookup e.Content "name" with
  | none =>
    have hk : keyIndex e.Content "name" = none := (keyIndex_eq_none_iff _ _ he).mpr hl
    rw [hk] at hg
    exact Or.inl ⟨hg, rfl⟩
  | some v =>
    obtain ⟨j, hj, hget⟩ := keyIndex_get_of_lookup hl
    rw [hj] at hg
    exact Or.inr ⟨j, v, hg, hget, rfl⟩

theorem removeContextLoop_eq (name : String) : ∀ (entries : List Node),
    (∀ e ∈ entries, e.Content.length % 2 = 0) →
    removeContextLoop name entries = .ok (entriesWithout name entries)
  | [], _ => rfl
  | e :: rest, h => by
    have ih := removeContextLoop_eq name rest (fun x hx => h x (List.mem_cons_of_mem _ hx))
    rcases name_match_iff e (h e (List.mem_cons_self _ _)) with ⟨hg, hl⟩ | ⟨j, v, hg, hget, hl⟩
    · simp [removeContextLoop, hg, ih, entriesWithout, hl, List.filter_cons]
    · have hne : ¬ (((j + 1 : Nat) : Int) = -1) := by omega
      by_cases hv : v.Value = name
      · simp only [removeContextLoop, hg, ne_eq, hne, not_false_eq_true, if_true,
          Int.toNat_ofNat, hget, hv, ih]
        simp [entriesWithout, hl, List.filter_cons, hv]
      · simp only [removeContextLoop, hg, ne_eq, hne, not_false_eq_true, if_true,
          Int.toNat_ofNat, hget, hv, if_false, ih]
        simp [entriesWithout, hl, List.filter_cons, hv]

/-- What `removeContext` computes, on a document with complete pairs. -/
theorem removeContext_eq (node : Node) (name : String)
    (hdoc : DocComplete node) (hent : EntriesComplete node KeyContexts) :
    removeContext node name =
      match sectionOf node KeyContexts with
      | none => .ok node
      | some s =>
        .ok (putSection node KeyContexts (s.setContent (entriesWithout name s.Content))) := by
  obtain ⟨root, rest, hc, hroot, hs⟩ := hyps_of_complete node KeyContexts hdoc
  have hso : sectionOf node KeyContexts = pairLookup root.Content KeyContexts := by
    simp [sectionOf, hc]
  rw [hso]
  cases hF : FindNode root false [⟨KeyContexts, 0⟩] with
  | none =>
    rcases FindNode_none root false KeyContexts 0 hroot hF with ⟨sec, _, h0, _⟩ | ⟨hl, _⟩
    · exact absurd rfl h0
    · simp [removeContext, hc, hF, hl]
  | some r =>
    obtain ⟨root1, path⟩ := r
    obtain ⟨s, hat, hset, _, hcase⟩ := FindNode_focus root false KeyContexts 0 hroot _ _ hF
    rcases hcase with ⟨hl, _⟩ | ⟨_, hfc, _⟩
    · have hitems := (hs s hl).2
      have hev : ∀ e ∈ s.Content, e.Content.length % 2 = 0 := by
        intro e he
        exact hent e (by rw [hitems]; exact he)
      simp only [removeContext, hc, hF, hat, hl, removeContextLoop_eq name s.Content hev, hset,
        putSection]
    · cases hfc

theorem scalarField_decode_name (e : Node) : (decodeContext e).Name = entryName e := rfl

theorem entriesWithout_name_ne (name : String) (entries : List Node)
    (h : name ≠ "" ∨ ∀ e ∈ entries, (pairLookup e.Content "name").isSome = true) :
    ∀ e ∈ entriesWithout name entries, entryName e ≠ name := by
  intro e he
  simp only [entriesWithout, List.mem_filter] at he
  obtain ⟨hmem, hkeep⟩ := he
  cases hl : pairLookup e.Content "name" with
  | none =>
    rcases h with h | h
    · simp only [entryName, scalarField, hl]
      exact fun e => h e.symm
    · have := h e hmem
      simp [hl] at this
  | some v =>
    simp only [hl, decide_eq_true_eq] at hkeep
    simpa [entryName, scalarField, hl] using hkeep

theorem getContext_not_found_of (node : Node) (name : String)
    (h : ∀ e ∈ sectionItems node KeyContexts, entryName e ≠ name) :
    getContext node name = .error (.Errorf "context %v not found" name) := by
  have hf : ((sectionItems node KeyContexts).map decodeContext).find?
      (fun ctx => decide (ctx.Name = name)) = none := by
    rw [List.find?_eq_none]
    intro x hx
    obtain ⟨e, he, rfl⟩ := List.mem_map.mp hx
    simpa [scalarField_decode_name] using h e he
  simp only [getContext, convertNodeToClientConfig]
  rw [hf]

/-- C6, counterexample: the entry of `docNamelessContext` has no `name` key; after
`removeContext` with the empty name the entry is still there and `getContext` with
the empty name returns it. -/
theorem removeContext_then_getContext_found :
    (removeContext docNamelessContext "").toOption.map (fun n => getContext n "") =
      some (.ok ⟨"", "kubernetes", none, none, []⟩) := by
  rfl

/-- C6, amended: on a document with a contexts sequence and complete pairs,
`removeContext` leaves exactly the entries whose `name` value differs from `name`, in
their original order; a following `getContext` with that name fails with "context
<name> not found" when the name is non-empty or every entry carries a `name` key. -/
theorem removeContext_filters (node : Node) (name : String) (s : Node)
    (hdoc : DocComplete node) (hent : EntriesComplete node KeyContexts)
    (hsec : sectionOf node KeyContexts = some s) :
    ∃ node1, removeContext node name = .ok node1 ∧
      sectionOf node1 KeyContexts = some (s.setContent (entriesWithout name s.Content)) ∧
      sectionItems node1 KeyContexts = entriesWithout name s.Content ∧
      (entriesWithout name s.Content).Sublist s.Content ∧
      (name ≠ "" ∨ EntriesNamed node KeyContexts →
        getContext node1 name = .error (.Errorf "context %v not found" name)) := by
  obtain ⟨root, rest, hc, hroot, _⟩ := hyps_of_complete node KeyContexts hdoc
  have heq := removeContext_eq node name hdoc hent
  rw [hsec] at heq
  have hso := sectionOf_putSection node root rest KeyContexts KeyContexts
    (s.setContent (entriesWithout name s.Content)) hc hroot
  simp only [if_true] at hso
  have hitems : sectionItems (putSection node KeyContexts
      (s.setContent (entriesWithout name s.Content))) KeyContexts =
      entriesWithout name s.Content := by
    simp [sectionItems, hso]
  refine ⟨_, heq, hso, hitems, ?_, ?_⟩
  · exact List.filter_sublist _
  · intro h
    apply getContext_not_found_of
    rw [hitems]
    apply entriesWithout_name_ne
    rcases h with h | h
    · exact Or.inl h
    · right
      intro e he
      exact h e (by simp [sectionItems, hsec, he])

/-- C6, witness of the amended statement: removing `ctx1` from `docTwoContexts`. -/
theorem removeContext_filters_witness :
    (DocComplete docTwoContexts ∧ EntriesComplete docTwoContexts KeyContexts) ∧
    ∃ node1, removeContext docTwoContexts "ctx1" = .ok node1 ∧
      sectionItems node1 KeyContexts =
        [Node.mk MappingNode 0 ""
          [Node.mk ScalarNode 0 "name" [], Node.mk ScalarNode 0 "ctx2" [],
           Node.mk ScalarNode 0 "target" [], Node.mk ScalarNode 0 "mission-control" []]] ∧
      getContext node1 "ctx1" = .error (.Errorf "context %v not found" "ctx1") := by
  refine ⟨⟨by decide, by decide⟩, ?_⟩
  obtain ⟨node1, h1, _, h3, _, h5⟩ := removeContext_filters docTwoContexts "ctx1"
    (Node.mk SequenceNode 0 ""
       [Node.mk MappingNode 0 ""
          [Node.mk ScalarNode 0 "name" [], Node.mk ScalarNode 0 "ctx1" [],
           Node.mk ScalarNode 0 "target" [], Node.mk ScalarNode 0 "kubernetes" []],
        Node.mk MappingNode 0 ""
          [Node.mk ScalarNode 0 "name" [], Node.mk ScalarNode 0 "ctx2" [],
           Node.mk ScalarNode 0 "target" [], Node.mk ScalarNode 0 "mission-control" []]])
    (by decide) (by decide) rfl
  exact ⟨node1, h1, by rw [h3]; rfl, h5 (Or.inl (by decide))⟩


theorem getClientConfigNodeNoLock_eq (w : World) :
    getClientConfigNodeNoLock w =
      ({ w with trace := w.trace ++ [Event.load w.unified] },
        match w.loadError with
        | some e => .error e
        | none => .ok w.stored) := by
  unfold getClientConfigNodeNoLock World.stored World.unified getClientConfigNextGenNodeNoLock
    getMultiConfigNoLock
  rcases hu : w.useUnifiedConfig with ⟨b, err⟩
  cases err <;> cases b <;> cases hl : w.loadError <;> simp

/-- C2: when the persisted document holds no context with that name (and the load
succeeds), `RemoveContext` returns "context <name> not found", makes no persist
attempt (the trace gains the lock, the load and the unlock only) and leaves both
stored documents, hence every section, unchanged. -/
theorem RemoveContext_not_found (w : World) (name : String)
    (hload : w.loadError = none)
    (hno : ∀ c ∈ (sectionItems w.stored KeyContexts).map decodeContext, c.Name ≠ name) :
    (RemoveContext w name).2 = .error (.Errorf "context %v not found" name) ∧
    (RemoveContext w name).1.trace =
      w.trace ++ [Event.lock, Event.load w.unified, Event.unlock] ∧
    (RemoveContext w name).1.legacy = w.legacy ∧
    (RemoveContext w name).1.nextGen = w.nextGen := by
  have hg : getContext w.stored name = .error (.Errorf "context %v not found" name) := by
    apply getContext_not_found_of
    intro e he
    exact hno (decodeContext e) (List.mem_map_of_mem _ he)
  have hstored : (AcquireTanzuConfigLock w).stored = w.stored := rfl
  have hunif : (AcquireTanzuConfigLock w).unified = w.unified := rfl
  have hle : (AcquireTanzuConfigLock w).loadError = none := hload
  have h1 : getClientConfigNodeNoLock (AcquireTanzuConfigLock w) =
      ({ AcquireTanzuConfigLock w with
          trace := (AcquireTanzuConfigLock w).trace ++ [Event.load w.unified] },
        .ok w.stored) := by
    rw [getClientConfigNodeNoLock_eq]
    simp only [hle, hstored, hunif]
  have h2 : RemoveContextLocked (AcquireTanzuConfigLock w) name =
      ({ AcquireTanzuConfigLock w with
          trace := (AcquireTanzuConfigLock w).trace ++ [Event.load w.unified] },
        .error (.Errorf "context %v not found" name)) := by
    unfold RemoveContextLocked
    rw [h1]
    simp only [andThen, hg]
  unfold RemoveContext
  rw [h2]
  simp [ReleaseTanzuConfigLock, AcquireTanzuConfigLock]

/-- C2, witness: removing `ctx3` from a store holding `docTwoContexts`. -/
theorem RemoveContext_not_found_witness :
    (RemoveContext (World.fresh docTwoContexts) "ctx3").2 =
      .error (.Errorf "context %v not found" "ctx3") ∧
    (RemoveContext (World.fresh docTwoContexts) "ctx3").1.trace =
      [Event.lock, Event.load false, Event.unlock] :=
  have h := RemoveContext_not_found (World.fresh docTwoContexts) "ctx3" rfl (by decide)
  ⟨h.1, h.2.1⟩


theorem Extends_refl (w : World) : Extends w w :=
  ⟨[], by simp, rfl, rfl, rfl, fun _ => ⟨rfl, rfl⟩⟩

theorem Extends_trans {w1 w2 w3 : World} (h12 : Extends w1 w2) (h23 : Extends w2 w3) :
    Extends w1 w3 := by
  obtain ⟨e1, ht1, hu1, hm1, hl1, hs1⟩ := h12
  obtain ⟨e2, ht2, hu2, hm2, hl2, hs2⟩ := h23
  refine ⟨e1 ++ e2, by rw [ht2, ht1, List.append_assoc], hu2.trans hu1, hm2.trans hm1,
    hl2.trans hl1, ?_⟩
  intro hno
  have h1 : NoPersistSucceeded e1 := fun ng hm => hno ng (List.mem_append_left _ hm)
  have h2 : NoPersistSucceeded e2 := fun ng hm => hno ng (List.mem_append_right _ hm)
  exact ⟨(hs2 h2).1.trans (hs1 h1).1, (hs2 h2).2.trans (hs1 h1).2⟩

theorem Extends_lock (w : World) : Extends w (AcquireTanzuConfigLock w) :=
  ⟨[Event.lock], rfl, rfl, rfl, rfl, fun _ => ⟨rfl, rfl⟩⟩

theorem Extends_unlock (w : World) : Extends w (ReleaseTanzuConfigLock w) :=
  ⟨[Event.unlock], rfl, rfl, rfl, rfl, fun _ => ⟨rfl, rfl⟩⟩

theorem Extends_load (w : World) : Extends w (getClientConfigNodeNoLock w).1 := by
  rw [getClientConfigNodeNoLock_eq]
  exact ⟨[Event.load w.unified], rfl, rfl, rfl, rfl, fun _ => ⟨rfl, rfl⟩⟩

theorem Extends_persistConfig (w : World) (node : Node) :
    Extends w (persistConfig w node).1 := by
  unfold persistConfig
  cases hf : w.persistFails with
  | nil =>
    cases hu : w.unified
    · refine ⟨[Event.persist false true], by simp [hu], rfl, rfl, rfl, ?_⟩
      intro hno; exact absurd (List.mem_singleton.mpr rfl) (hno false)
    · refine ⟨[Event.persist true true], by simp [hu], rfl, rfl, rfl, ?_⟩
      intro hno; exact absurd (List.mem_singleton.mpr rfl) (hno true)
  | cons b bs =>
    cases b
    · cases hu : w.unified
      · refine ⟨[Event.persist false true], by simp [hu], rfl, rfl, rfl, ?_⟩
        intro hno; exact absurd (List.mem_singleton.mpr rfl) (hno false)
      · refine ⟨[Event.persist true true], by simp [hu], rfl, rfl, rfl, ?_⟩
        intro hno; exact absurd (List.mem_singleton.mpr rfl) (hno true)
    · exact ⟨[Event.persist w.unified false], by simp, rfl, rfl, rfl, fun _ => ⟨rfl, rfl⟩⟩

theorem Extends_persistWhen (p : Bool) (w : World) (node : Node) :
    Extends w (persistWhen p w node).1 := by
  unfold persistWhen
  cases p
  · exact Extends_refl w
  · exact Extends_persistConfig w node

theorem Extends_andThen {α β : Type} (w : World) (r : World × Except Error α)
    (f : World → α → World × Except Error β)
    (hr : Extends w r.1) (hf : ∀ w1 a, Extends w1 (f w1 a).1) :
    Extends w (andThen r f).1 := by
  obtain ⟨w1, res⟩ := r
  cases res with
  | error e => exact hr
  | ok a => exact Extends_trans hr (hf w1 a)

theorem Extends_pure {α β : Type} (w : World) (x : Except Error α)
    (f : World → α → World × Except Error β)
    (hf : ∀ w1 a, Extends w1 (f w1 a).1) :
    Extends w (andThen (w, x) f).1 :=
  Extends_andThen w (w, x) f (Extends_refl w) hf

theorem Extends_backfillServer (w : World) (c : Context) (setCurrent : Bool) (node : Node) :
    Extends w (backfillServer w c setCurrent node).1 := by
  unfold backfillServer
  refine Extends_pure _ _ _ ?_
  intro w5 r3
  refine Extends_andThen _ _ _ (Extends_persistWhen _ _ _) ?_
  intro w6 _
  split
  · refine Extends_pure _ _ _ ?_
    intro w7 r4
    refine Extends_andThen _ _ _ (Extends_persistWhen _ _ _) ?_
    intro w8 _
    exact Extends_refl _
  · exact Extends_refl _

theorem Extends_makeCurrent (w : World) (c : Context) (setCurrent : Bool) (node : Node) :
    Extends w (makeCurrent w c setCurrent node).1 := by
  unfold makeCurrent
  cases setCurrent
  · exact Extends_refl _
  · simp only [if_true]
    refine Extends_pure _ _ _ ?_
    intro w4 r2
    refine Extends_andThen _ _ _ (Extends_persistWhen _ _ _) ?_
    intro w5 _
    exact Extends_refl _

theorem Extends_SetContextLocked (w : World) (c : Context) (setCurrent : Bool) :
    Extends w (SetContextLocked w c setCurrent).1 := by
  unfold SetContextLocked
  refine Extends_andThen _ _ _ (Extends_load w) ?_
  intro w1 node
  refine Extends_pure _ _ _ ?_
  intro w2 r
  refine Extends_andThen _ _ _ (Extends_persistWhen _ _ _) ?_
  intro w3 _
  refine Extends_andThen _ _ _ (Extends_makeCurrent _ _ _ _) ?_
  intro w4 node2
  exact Extends_backfillServer _ _ _ _

theorem Extends_SetContext (w : World) (c : Context) (setCurrent : Bool) :
    Extends w (SetContext w c setCurrent).1 := by
  unfold SetContext
  exact Extends_trans (Extends_trans (Extends_lock w) (Extends_SetContextLocked _ c setCurrent))
    (Extends_unlock _)

/-- C3, counterexample: on an empty store whose second persist attempt fails,
`SetContext ctx1 true` returns an error although its first persist succeeded: the
persisted document now holds the context, it is not the one persisted before. -/
theorem SetContext_not_all_or_nothing :
    (SetContext worldSecondPersistFails ctx1 true).2 = .error (.external "persist failed") ∧
    (SetContext worldSecondPersistFails ctx1 true).1.trace =
      [Event.lock, Event.load false, Event.persist false true, Event.persist false false,
       Event.unlock] ∧
    (sectionItems worldSecondPersistFails.stored KeyContexts).length = 0 ∧
    (sectionItems (SetContext worldSecondPersistFails ctx1 true).1.stored KeyContexts).length
      = 1 :=
  ⟨rfl, by decide, by decide, by decide⟩

/-- C3, amended: the steps of `SetContext` extend the trace, and when none of its
persist attempts succeeded, in particular when it returns an error before any of them
succeeded, both stored documents are the ones persisted before the call. -/
theorem SetContext_unchanged_without_persist (w : World) (c : Context) (setCurrent : Bool) :
    ∃ evs, (SetContext w c setCurrent).1.trace = w.trace ++ evs ∧
      (NoPersistSucceeded evs →
        (SetContext w c setCurrent).1.legacy = w.legacy ∧
        (SetContext w c setCurrent).1.nextGen = w.nextGen ∧
        (SetContext w c setCurrent).1.stored = w.stored) := by
  obtain ⟨evs, ht, hu, _, _, hs⟩ := Extends_SetContext w c setCurrent
  refine ⟨evs, ht, fun hno => ⟨(hs hno).1, (hs hno).2, ?_⟩⟩
  simp only [World.stored, World.unified, hu, (hs hno).1, (hs hno).2]


theorem pairUpdate_const_of_lookup : ∀ (l : List Node) (K : String) (f : Node → Node) (sec : Node),
    pairLookup l K = some sec → pairUpdate l K f = pairUpdate l K (fun _ => f sec)
  | [], K, f, sec => by simp [pairLookup]
  | [k], K, f, sec => by simp [pairLookup]
  | k :: v :: rest, K, f, sec => by
    by_cases h : k.Value = K
    · simp only [pairLookup, h, if_true, Option.some.injEq, pairUpdate]
      rintro rfl; rfl
    · simp only [pairLookup, h, if_false, pairUpdate]
      intro hl
      rw [pairUpdate_const_of_lookup rest K f sec hl]

theorem pairUpdate_self_of_lookup : ∀ (l : List Node) (K : String) (sec : Node),
    pairLookup l K = some sec → pairUpdate l K (fun _ => sec) = l
  | [], K, sec => by simp [pairLookup]
  | [k], K, sec => by simp [pairLookup]
  | k :: v :: rest, K, sec => by
    by_cases h : k.Value = K
    · simp only [pairLookup, h, if_true, Option.some.injEq, pairUpdate]
      rintro rfl; rfl
    · simp only [pairLookup, h, if_false, pairUpdate]
      intro hl
      rw [pairUpdate_self_of_lookup rest K sec hl]

theorem updateSection_eq_putSection (node root : Node) (rest : List Node) (K : String)
    (f : Node → Node) (sec : Node) (hdoc : node.Content = root :: rest)
    (hl : pairLookup root.Content K = some sec) :
    updateSection node K f = putSection node K (f sec) := by
  simp only [updateSection, putSection, hdoc, putPair, hl]
  rw [pairUpdate_const_of_lookup _ _ _ _ hl]

theorem putSection_self (node root : Node) (rest : List Node) (K : String) (sec : Node)
    (hdoc : node.Content = root :: rest)
    (hl : pairLookup root.Content K = some sec) :
    putSection node K sec = node := by
  simp only [putSection, hdoc, putPair, hl]
  rw [pairUpdate_self_of_lookup _ _ _ hl, Node.setContent_Content, ← hdoc,
    Node.setContent_Content]

theorem DocComplete_putSection (node : Node) (K : String) (x : Node) (h : DocComplete node) :
    DocComplete (putSection node K x) := by
  unfold DocComplete at h ⊢
  cases hc : node.Content with
  | nil => simp [hc] at h
  | cons root rest =>
    simp only [hc] at h
    rw [putSection_Content node root rest K x hc]
    exact putPair_Content_length_even root K x h

theorem sectionOf_putSection_of_complete (node : Node) (K K2 : String) (x : Node)
    (h : DocComplete node) :
    sectionOf (putSection node K x) K2 = if K2 = K then some x else sectionOf node K2 := by
  unfold DocComplete at h
  cases hc : node.Content with
  | nil => simp [hc] at h
  | cons root rest =>
    simp only [hc] at h
    exact sectionOf_putSection node root rest K K2 x hc h

theorem OnlySection_complete {K : String} {n1 n2 : Node} (h : OnlySection K n1 n2)
    (hd : DocComplete n1) : DocComplete n2 := by
  rcases h with rfl | ⟨x, rfl⟩
  · exact hd
  · exact DocComplete_putSection _ _ _ hd

theorem OnlySection_sectionOf {K K2 : String} {n1 n2 : Node} (h : OnlySection K n1 n2)
    (hd : DocComplete n1) (hne : K2 ≠ K) : sectionOf n2 K2 = sectionOf n1 K2 := by
  rcases h with rfl | ⟨x, rfl⟩
  · rfl
  · rw [sectionOf_putSection_of_complete _ _ _ _ hd]; simp [hne]

/-- A write through the pointer of a successful one-step `FindNode` on the root
rewrites at most that section. -/
theorem focus_doc (node root : Node) (rest : List Node) (fc : Bool) (K : String) (kd : Nat)
    (hdoc : node.Content = root :: rest) (hroot : root.Content.length % 2 = 0)
    (root1 : Node) (path : List Nat)
    (hF : FindNode root fc [⟨K, kd⟩] = some (root1, path)) :
    ∃ sec, nodeAt root1 path = some sec ∧
      (∀ new, node.setContent (setNodeAt root1 path new :: rest) = putSection node K new) ∧
      node.setContent (root1 :: rest) = putSection node K sec ∧
      ((sectionOf node K = some sec ∧ ¬(kd ≠ 0 ∧ sec.Kind ≠ kd)) ∨
       (sectionOf node K = none ∧ fc = true ∧ sec.Content = [] ∧ sec.Kind = kd ∧
         sec.Value = "")) := by
  obtain ⟨sec, hat, hset, hp1, hcase⟩ := FindNode_focus root fc K kd hroot root1 path hF
  refine ⟨sec, hat, ?_, ?_, ?_⟩
  · intro new; rw [hset, putSection, hdoc]
  · rw [hp1, putSection, hdoc]
  · simpa [sectionOf, hdoc] using hcase


theorem root_of_complete (node : Node) (h : DocComplete node) :
    ∃ root rest, node.Content = root :: rest ∧ root.Content.length % 2 = 0 := by
  obtain ⟨root, rest, hc, hroot, _⟩ := hyps_of_complete node KeyContexts h
  exact ⟨root, rest, hc, hroot⟩

theorem setServer_shape (md : Except Error PatchStrategies) (node : Node) (s : Server)
    (hd : DocComplete node) (p : Bool) (node1 : Node)
    (h : setServer md node s = .ok (p, node1)) : OnlySection KeyServers node node1 := by
  obtain ⟨root, rest, hc, hroot⟩ := root_of_complete node hd
  simp only [setServer, convertServerToNode, hc] at h
  cases hF : FindNode root true [⟨KeyServers, SequenceNode⟩] with
  | none =>
    simp only [hF, Except.ok.injEq, Prod.mk.injEq] at h
    exact Or.inl h.2.symm
  | some r =>
    obtain ⟨root1, path⟩ := r
    obtain ⟨sec, hat, hset, _, _⟩ := focus_doc node root rest true KeyServers SequenceNode hc hroot
      root1 path hF
    simp only [hF, hat, Node.Content] at h
    split at h
    · cases h
    · simp only [Except.ok.injEq, Prod.mk.injEq] at h
      rw [hset] at h
      exact Or.inr ⟨_, h.2.symm⟩

theorem setCurrentServer_shape (node : Node) (name : String)
    (hd : DocComplete node) (p : Bool) (node1 : Node)
    (h : setCurrentServer node name = .ok (p, node1)) :
    OnlySection KeyCurrentServer node node1 := by
  obtain ⟨root, rest, hc, hroot⟩ := root_of_complete node hd
  simp only [setCurrentServer, hc] at h
  cases hF : FindNode root true [⟨KeyCurrentServer, ScalarNode⟩] with
  | none => simp [hF] at h
  | some r =>
    obtain ⟨root1, path⟩ := r
    obtain ⟨sec, hat, hset, hsame, _⟩ := focus_doc node root rest true KeyCurrentServer ScalarNode
      hc hroot root1 path hF
    simp only [hF, hat] at h
    split at h
    · simp only [Except.ok.injEq, Prod.mk.injEq] at h
      rw [hset] at h
      exact Or.inr ⟨_, h.2.symm⟩
    · simp only [Except.ok.injEq, Prod.mk.injEq] at h
      rw [hsame] at h
      exact Or.inr ⟨_, h.2.symm⟩

theorem removeServer_shape (node : Node) (name : String)
    (hd : DocComplete node) (node1 : Node)
    (h : removeServer node name = .ok node1) : OnlySection KeyServers node node1 := by
  obtain ⟨root, rest, hc, hroot⟩ := root_of_complete node hd
  simp only [removeServer, hc] at h
  cases hF : FindNode root false [⟨KeyServers, 0⟩] with
  | none =>
    simp only [hF, Except.ok.injEq] at h
    exact Or.inl h.symm
  | some r =>
    obtain ⟨root1, path⟩ := r
    obtain ⟨sec, hat, hset, _, _⟩ := focus_doc node root rest false KeyServers 0 hc hroot
      root1 path hF
    simp only [hF, hat] at h
    split at h
    · cases h
    · simp only [Except.ok.injEq] at h
      rw [hset] at h
      exact Or.inr ⟨_, h.symm⟩

theorem removeCurrentServer_shape (node : Node) (name : String)
    (hd : DocComplete node) (node1 : Node)
    (h : removeCurrentServer node name = .ok node1) :
    OnlySection KeyCurrentServer node node1 := by
  obtain ⟨root, rest, hc, hroot⟩ := root_of_complete node hd
  simp only [removeCurrentServer, hc] at h
  cases hF : FindNode root false [⟨KeyCurrentServer, 0⟩] with
  | none =>
    simp only [hF, Except.ok.injEq] at h
    exact Or.inl h.symm
  | some r =>
    obtain ⟨root1, path⟩ := r
    obtain ⟨sec, hat, hset, _, _⟩ := focus_doc node root rest false KeyCurrentServer 0 hc hroot
      root1 path hF
    simp only [hF, hat] at h
    split at h
    · simp only [Except.ok.injEq] at h
      rw [hset] at h
      exact Or.inr ⟨_, h.symm⟩
    · simp only [Except.ok.injEq] at h
      exact Or.inl h.symm

theorem decodePairs_lookup : ∀ (l : List Node) (t : String),
    (decodePairs l).lookup t = (pairLookup l t).map Node.Value
  | [], t => rfl
  | [k], t => rfl
  | k :: v :: rest, t => by
    by_cases h : k.Value = t
    · subst h; simp [decodePairs, pairLookup, List.lookup]
    · have h2 : (t == k.Value) = false := by
        simp only [beq_eq_false_iff_ne, ne_eq]; exact fun e => h e.symm
      simp [decodePairs, pairLookup, List.lookup, h, h2, decodePairs_lookup rest t]

theorem decodePairs_pairUpdate_value : ∀ (l : List Node) (t n : String) (q : String × String),
    q ∈ decodePairs (pairUpdate l t (fun w => (w.setValue n).setStyle 0)) →
    q = (t, n) ∨ q ∈ decodePairs l
  | [], t, n, q => by simp [pairUpdate, decodePairs]
  | [k], t, n, q => by simp [pairUpdate, decodePairs]
  | k :: v :: rest, t, n, q => by
    by_cases h : k.Value = t
    · simp only [pairUpdate, h, if_true, decodePairs, List.mem_cons, Node.Value_setStyle,
        Node.Value_setValue]
      rintro (hq | hq)
      · left; exact hq
      · right; right; exact hq
    · simp only [pairUpdate, h, if_false, decodePairs, List.mem_cons]
      rintro (hq | hq)
      · right; left; exact hq
      · rcases decodePairs_pairUpdate_value rest t n q hq with h1 | h1
        · left; exact h1
        · right; right; exact h1

theorem decodePairs_append_pair : ∀ (l : List Node) (k v : Node), l.length % 2 = 0 →
    decodePairs (l ++ [k, v]) = decodePairs l ++ [(k.Value, v.Value)]
  | [], k, v, _ => rfl
  | [a], k, v, h => by simp at h
  | a :: b :: rest, k, v, h => by
    simp [decodePairs, decodePairs_append_pair rest k v (even_tail h)]

theorem keys_pairUpdate : ∀ (l : List Node) (t : String) (f : Node → Node),
    (decodePairs (pairUpdate l t f)).map Prod.fst = (decodePairs l).map Prod.fst
  | [], t, f => rfl
  | [k], t, f => rfl
  | k :: v :: rest, t, f => by
    by_cases h : k.Value = t
    · simp [pairUpdate, h, decodePairs]
    · simp [pairUpdate, h, decodePairs, keys_pairUpdate rest t f]

theorem mem_keys_iff : ∀ (l : List Node) (t : String),
    t ∈ (decodePairs l).map Prod.fst ↔ (pairLookup l t).isSome = true
  | [], t => by simp [decodePairs, pairLookup]
  | [k], t => by simp [decodePairs, pairLookup]
  | k :: v :: rest, t => by
    by_cases h : k.Value = t
    · simp [decodePairs, pairLookup, h]
    · have h2 : ¬ t = k.Value := fun e => h e.symm
      simp [decodePairs, pairLookup, h, h2, mem_keys_iff rest t]

/-- What `setCurrentContext` returns on a document with complete pairs whose
current-context section, when present, is a mapping. -/
theorem setCurrentContext_shape (node : Node) (ctx : Context)
    (hd : DocComplete node)
    (hkind : SectionKind node KeyCurrentContext MappingNode)
    (hcomp : SectionComplete node KeyCurrentContext) :
    ∃ p cc1, setCurrentContext node ctx = .ok (p, putSection node KeyCurrentContext cc1) ∧
      cc1.Kind = MappingNode ∧ cc1.Content.length % 2 = 0 ∧
      (pairLookup cc1.Content ctx.Target).map Node.Value = some ctx.Name ∧
      (∀ q ∈ decodePairs cc1.Content,
        q = (ctx.Target, ctx.Name) ∨ q ∈ decodePairs (sectionItems node KeyCurrentContext)) ∧
      (p = false → putSection node KeyCurrentContext cc1 = node) ∧
      (((decodePairs (sectionItems node KeyCurrentContext)).map Prod.fst).Nodup →
        ((decodePairs cc1.Content).map Prod.fst).Nodup) := by
  obtain ⟨root, rest, hc, hroot⟩ := root_of_complete node hd
  have hsh := section_hyps node root rest _ _ hc hkind hcomp
  cases hs : pairLookup root.Content KeyCurrentContext with
  | none =>
    have h1 := setCurrentContext_absent node root rest ctx hc hroot hs
    have hput : withNewCurrentContext node root rest ctx =
        putSection node KeyCurrentContext
          (Node.mk MappingNode 0 "" (CreateScalarNode ctx.Target ctx.Name)) := by
      simp only [withNewCurrentContext, putSection, hc, putPair, hs]
    rw [hput] at h1
    refine ⟨true, _, h1, rfl, by simp [Node.Content, CreateScalarNode], ?_, ?_, by simp, ?_⟩
    · show (pairLookup (CreateScalarNode ctx.Target ctx.Name) ctx.Target).map Node.Value = _
      rw [pairLookup_CreateScalarNode]; rfl
    · intro q hq
      left
      simpa [Node.Content, CreateScalarNode, decodePairs, Node.Value] using hq
    · intro _
      simp [CreateScalarNode, decodePairs]
  | some cc =>
    obtain ⟨hk, hev⟩ := hsh cc hs
    have hitems : sectionItems node KeyCurrentContext = cc.Content := by
      simp [sectionItems, sectionOf, hc, hs]
    have h1 := setCurrentContext_present node root rest ctx cc hc hroot hs hk hev
    cases hl : pairLookup cc.Content ctx.Target with
    | none =>
      rw [hl] at h1
      simp only at h1
      rw [updateSection_eq_putSection node root rest _ _ cc hc hs] at h1
      refine ⟨true, _, h1, by simpa using hk, ?_, ?_, ?_, by simp, ?_⟩
      rotate_right
      · intro hnd
        rw [hitems] at hnd
        simp only [Node.Content_setContent, CreateScalarNode]
        rw [decodePairs_append_pair _ _ _ hev, List.map_append]
        refine List.Nodup.append hnd (by simp) ?_
        intro a ha hb
        simp only [List.map_cons, List.map_nil, Node.Value_mk, List.mem_singleton] at hb
        subst hb
        rw [mem_keys_iff, hl] at ha
        simp at ha
      · simp [CreateScalarNode]; omega
      · have := pairLookup_append_pair cc.Content (Node.mk ScalarNode 0 ctx.Target [])
          (Node.mk ScalarNode 0 ctx.Name []) ctx.Target hev
        rw [hl] at this
        simp only [Node.Content_setContent, CreateScalarNode]
        rw [this]
        simp [Node.Value]
      · intro q hq
        simp only [Node.Content_setContent, CreateScalarNode] at hq
        rw [decodePairs_append_pair _ _ _ hev] at hq
        rcases List.mem_append.mp hq with h2 | h2
        · right; rw [hitems]; exact h2
        · left; simpa [Node.Value] using h2
    | some v =>
      rw [hl] at h1
      simp only at h1
      by_cases hv : v.Value = ctx.Name
      · simp only [hv, ne_eq, not_true_eq_false, if_false] at h1
        have hself := putSection_self node root rest KeyCurrentContext cc hc hs
        refine ⟨false, cc, by rw [hself]; exact h1, hk, hev, by simp [hl, hv], ?_,
          fun _ => hself, ?_⟩
        · intro q hq
          right; rw [hitems]; exact hq
        · intro hnd; rw [hitems] at hnd; exact hnd
      · simp only [hv, ne_eq, not_false_eq_true, if_true] at h1
        rw [updateSection_eq_putSection node root rest _ _ cc hc hs] at h1
        refine ⟨true, _, h1, by simpa using hk, ?_, ?_, ?_, by simp, ?_⟩
        rotate_right
        · intro hnd
          rw [hitems] at hnd
          simp only [Node.Content_setContent, keys_pairUpdate]
          exact hnd
        · simp [pairUpdate_length, hev]
        · simp [pairLookup_pairUpdate, hl]
        · intro q hq
          simp only [Node.Content_setContent] at hq
          rcases decodePairs_pairUpdate_value _ _ _ _ hq with h2 | h2
          · left; exact h2
          · right; rw [hitems]; exact h2


theorem strategiesOf_eq (md : Except Error PatchStrategies) :
    (match md with
      | .ok m => m
      | .error _ => ([] : PatchStrategies)) = strategiesOf md := rfl

theorem setDiscoverySource_ok (items : List Node) (d : PluginDiscovery) (key : Path)
    (ps : PatchStrategies) : ∃ r, setDiscoverySource items d key ps = .ok r := by
  simp only [setDiscoverySource, DeleteNodes, MergeNodes]
  split
  · exact ⟨_, rfl⟩
  · split <;> exact ⟨_, rfl⟩

theorem setDiscoverySourcesLoop_ok (key : Path) (ps : PatchStrategies) :
    ∀ (ds : List PluginDiscovery) (b : Bool) (items : List Node),
    ∃ r, setDiscoverySourcesLoop key ps ds b items = .ok r
  | [], b, items => ⟨_, rfl⟩
  | d :: rest, b, items => by
    obtain ⟨r, hr⟩ := setDiscoverySource_ok items d key ps
    simp only [setDiscoverySourcesLoop, hr]
    exact setDiscoverySourcesLoop_ok key ps rest _ _

theorem setDiscoverySources_ok (node : Node) (ds : List PluginDiscovery) (key : Path)
    (ps : PatchStrategies) : ∃ r, setDiscoverySources node ds key ps = .ok r := by
  unfold setDiscoverySources
  cases FindNode node true [⟨KeyDiscoverySources, SequenceNode⟩] with
  | none => exact ⟨_, rfl⟩
  | some r =>
    obtain ⟨node1, path⟩ := r
    simp only
    cases nodeAt node1 path with
    | none => exact ⟨_, rfl⟩
    | some dsn =>
      obtain ⟨r, hr⟩ := setDiscoverySourcesLoop_ok key ps ds false dsn.Content
      simp only [hr]
      exact ⟨_, rfl⟩

theorem patchContextNode_ok (ps : PatchStrategies) (newContext : Node) (ctx : Context)
    (e : Node) : ∃ r, patchContextNode ps newContext ctx e = .ok r := by
  unfold patchContextNode
  simp only [DeleteNodes, MergeNodes]
  obtain ⟨r, hr⟩ := setDiscoverySources_ok (mergeNode newContext (deleteTop ps newContext e
    [KeyContexts]).2).2 ctx.DiscoverySources [KeyContexts, KeyDiscoverySources] ps
  rw [hr]
  simp only
  split <;> exact ⟨_, rfl⟩

theorem patchContextNode_eq (ps : PatchStrategies) (ctx : Context) (e : Node) :
    ∃ p pd, patchContextNode ps (encodeContext ctx) ctx e = .ok (p, pd, patchOf ps ctx e) := by
  obtain ⟨r, hr⟩ := patchContextNode_ok ps (encodeContext ctx) ctx e
  refine ⟨r.1, r.2.1, ?_⟩
  simp only [patchOf, hr]

theorem nameIs_iff (n : String) (e : Node) (he : e.Content.length % 2 = 0) :
    (nameIs n e = true ∧ ∃ j v, GetNodeIndex e.Content "name" = ((j + 1 : Nat) : Int) ∧
      e.Content.get? (j + 1) = some v ∧ v.Value = n) ∨
    (nameIs n e = false ∧ (GetNodeIndex e.Content "name" = -1 ∨
      ∃ j v, GetNodeIndex e.Content "name" = ((j + 1 : Nat) : Int) ∧
        e.Content.get? (j + 1) = some v ∧ v.Value ≠ n)) := by
  rcases name_match_iff e he with ⟨hg, hl⟩ | ⟨j, v, hg, hget, hl⟩
  · right; exact ⟨by simp [nameIs, hl], Or.inl hg⟩
  · by_cases hv : v.Value = n
    · left; exact ⟨by simp [nameIs, hl, hv], j, v, hg, hget, hv⟩
    · right; exact ⟨by simp [nameIs, hl, hv], Or.inr ⟨j, v, hg, hget, hv⟩⟩

/-- The loop of `setContext` on entries with complete pairs. -/
theorem setContextLoop_eq (ps : PatchStrategies) (ctx : Context) :
    ∀ (entries : List Node) (st : SetContextState),
    (∀ e ∈ entries, e.Content.length % 2 = 0) →
    ∃ st1, setContextLoop ps (encodeContext ctx) ctx entries st = .ok st1 ∧
      st1.result = st.result ++
        entries.map (fun e => if nameIs ctx.Name e then patchOf ps ctx e else e) ∧
      st1.found = (st.found || entries.any (nameIs ctx.Name)) ∧
      (entries.any (nameIs ctx.Name) = false →
        st1.persist = st.persist ∧
        st1.persistDiscoverySources = st.persistDiscoverySources)
  | [], st, _ => ⟨st, rfl, by simp, by simp, fun _ => ⟨rfl, rfl⟩⟩
  | e :: rest, st, h => by
    have hrest : ∀ x ∈ rest, x.Content.length % 2 = 0 :=
      fun x hx => h x (List.mem_cons_of_mem _ hx)
    rcases nameIs_iff ctx.Name e (h e (List.mem_cons_self _ _)) with
      ⟨hn, j, v, hg, hget, hv⟩ | ⟨hn, hg | ⟨j, v, hg, hget, hv⟩⟩
    · have hne : ¬ (((j + 1 : Nat) : Int) = -1) := by omega
      obtain ⟨p, pd, hp⟩ := patchContextNode_eq ps ctx e
      obtain ⟨st1, h1, h2, h3, _⟩ := setContextLoop_eq ps ctx rest
        ⟨true, p, pd, st.result ++ [patchOf ps ctx e]⟩ hrest
      refine ⟨st1, ?_, ?_, ?_, ?_⟩
      · simp only [setContextLoop, hg, ne_eq, hne, not_false_eq_true, if_true,
          Int.toNat_ofNat, hget, hv, hp, h1]
      · rw [h2]; simp [hn]
      · rw [h3]; simp [hn]
      · intro hany; simp [hn] at hany
    · obtain ⟨st1, h1, h2, h3, h4⟩ := setContextLoop_eq ps ctx rest
        { st with result := st.result ++ [e] } hrest
      refine ⟨st1, ?_, ?_, ?_, ?_⟩
      · simp only [setContextLoop, hg, ne_eq, not_true_eq_false, if_false, h1]
      · rw [h2]; simp [hn]
      · rw [h3]; simp [hn]
      · intro hany
        simp only [List.any_cons, hn, Bool.false_or] at hany
        exact h4 hany
    · have hne : ¬ (((j + 1 : Nat) : Int) = -1) := by omega
      obtain ⟨st1, h1, h2, h3, h4⟩ := setContextLoop_eq ps ctx rest
        { st with result := st.result ++ [e] } hrest
      refine ⟨st1, ?_, ?_, ?_, ?_⟩
      · simp only [setContextLoop, hg, ne_eq, hne, not_false_eq_true, if_true,
          Int.toNat_ofNat, hget, hv, if_false, h1]
      · rw [h2]; simp [hn]
      · rw [h3]; simp [hn]
      · intro hany
        simp only [List.any_cons, hn, Bool.false_or] at hany
        exact h4 hany

/-- What `setContext` returns on a document with complete pairs whose contexts
section, when present, is a sequence. -/
theorem setContext_shape (md : Except Error PatchStrategies) (node : Node) (ctx : Context)
    (hd : DocComplete node)
    (hkind : SectionKind node KeyContexts SequenceNode)
    (hent : EntriesComplete node KeyContexts) :
    ∃ p sec1, setContext md node ctx = .ok (p, putSection node KeyContexts sec1) ∧
      sec1.Kind = SequenceNode ∧
      sec1.Content = contextsAfterSet (strategiesOf md) ctx (sectionItems node KeyContexts) ∧
      ((sectionItems node KeyContexts).any (nameIs ctx.Name) = false → p = true) := by
  obtain ⟨root, rest, hc, hroot⟩ := root_of_complete node hd
  cases hF : FindNode root true [⟨KeyContexts, SequenceNode⟩] with
  | none =>
    exfalso
    rcases FindNode_none root true KeyContexts SequenceNode hroot hF with
      ⟨sec, hl, _, hk⟩ | ⟨_, h | h⟩
    · simp only [SectionKind, sectionOf, hc, hl] at hkind
      exact hk hkind
    · cases h
    · simp [createNode, CreateSequenceNode] at h
  | some r =>
    obtain ⟨root1, path⟩ := r
    obtain ⟨sec, hat, hset, _, hcase⟩ := focus_doc node root rest true KeyContexts SequenceNode
      hc hroot root1 path hF
    have hitems : sectionItems node KeyContexts = sec.Content := by
      rcases hcase with ⟨hs, _⟩ | ⟨hs, _, hcont, _⟩
      · simp [sectionItems, hs]
      · simp [sectionItems, hs, hcont]
    have hkd : sec.Kind = SequenceNode := by
      rcases hcase with ⟨hs, hk⟩ | ⟨_, _, _, hk, _⟩
      · simp only [SectionKind, hs] at hkind; exact hkind
      · exact hk
    have hev : ∀ e ∈ sec.Content, e.Content.length % 2 = 0 := by
      intro e he; exact hent e (by rw [hitems]; exact he)
    obtain ⟨st1, h1, h2, h3, h4⟩ := setContextLoop_eq (strategiesOf md) ctx sec.Content
      ⟨false, false, false, []⟩ hev
    have hunf : setContext md node ctx =
        .ok (st1.persistDiscoverySources || (if st1.found then st1.persist else true),
          putSection node KeyContexts (sec.setContent
            (if st1.found then st1.result else st1.result ++ [encodeContext ctx]))) := by
      simp only [setContext, convertContextToNode, hc, hF, hat, Node.Content_mk, hset]
      cases md with
      | ok m =>
        simp only [strategiesOf] at h1
        simp only [h1]
      | error e =>
        simp only [strategiesOf] at h1
        simp only [h1]
    refine ⟨_, _, hunf, by simpa using hkd, ?_, ?_⟩
    · simp only [Node.Content_setContent, contextsAfterSet, hitems, h3, Bool.false_or, h2,
        List.nil_append]
      cases hany : sec.Content.any (nameIs ctx.Name)
      · simp only [Bool.false_eq_true, if_false, List.append_left_inj]
        rw [List.map_congr_left, List.map_id]
        intro e he
        have : nameIs ctx.Name e = false := by
          have := List.any_eq_false.mp hany e he
          simpa using this
        simp [this]
      · simp
    · intro hany
      rw [hitems] at hany
      simp [h3, hany]


theorem SameEnv_refl (w : World) : SameEnv w w := ⟨rfl, rfl, rfl⟩

theorem SameEnv_trans {w1 w2 w3 : World} (h1 : SameEnv w1 w2) (h2 : SameEnv w2 w3) :
    SameEnv w1 w3 :=
  ⟨h2.1.trans h1.1, h2.2.1.trans h1.2.1, h2.2.2.trans h1.2.2⟩

theorem SameEnv_stored {w1 w2 : World} (h : SameEnv w1 w2) (hl : w2.legacy = w1.legacy)
    (hn : w2.nextGen = w1.nextGen) : w2.stored = w1.stored := by
  simp only [World.stored, World.unified, h.1, hl, hn]

theorem Outcome_andThen {α β : Type} (r : World × Except Error α)
    (f : World → α → World × Except Error β) (onOk : World → β → Prop)
    (onError : World → Prop)
    (h : Outcome r (fun w a => Outcome (f w a) onOk onError) onError) :
    Outcome (andThen r f) onOk onError := by
  obtain ⟨w, res⟩ := r
  cases res with
  | error e => exact h
  | ok a => exact h

theorem Outcome_pure {α β : Type} (w : World) (x : Except Error α)
    (f : World → α → World × Except Error β) (onOk : World → β → Prop)
    (onError : World → Prop)
    (herr : ∀ e, x = .error e → onError w)
    (hok : ∀ a, x = .ok a → Outcome (f w a) onOk onError) :
    Outcome (andThen (w, x) f) onOk onError := by
  cases x with
  | error e => exact herr e rfl
  | ok a => exact hok a rfl

theorem Outcome_load (w : World) (onOk : World → Node → Prop) (onError : World → Prop)
    (hok : w.loadError = none → ∀ w1, SameEnv w w1 → w1.stored = w.stored → onOk w1 w.stored)
    (herr : ∀ w1, SameEnv w w1 → w1.stored = w.stored → onError w1) :
    Outcome (getClientConfigNodeNoLock w) onOk onError := by
  rw [getClientConfigNodeNoLock_eq]
  cases hl : w.loadError with
  | some e => exact herr _ ⟨rfl, rfl, hl.symm⟩ rfl
  | none => exact hok hl _ ⟨rfl, rfl, hl.symm⟩ rfl

theorem Outcome_persistConfig (w : World) (node : Node) (onOk : World → Unit → Prop)
    (onError : World → Prop)
    (hok : ∀ w1, SameEnv w w1 → w1.stored = node → onOk w1 ())
    (herr : ∀ w1, SameEnv w w1 → w1.stored = w.stored → onError w1) :
    Outcome (persistConfig w node) onOk onError := by
  unfold persistConfig
  have hfail : ∀ tr pf, onError { w with persistFails := pf, trace := tr } :=
    fun tr pf => herr _ ⟨rfl, rfl, rfl⟩ rfl
  have hsucc1 : ∀ tr pf, w.unified = true →
      onOk { w with persistFails := pf, trace := tr, nextGen := node } () := by
    intro tr pf hu
    refine hok _ ⟨rfl, rfl, rfl⟩ ?_
    simp only [World.stored, World.unified] at hu ⊢
    simp [hu]
  have hsucc2 : ∀ tr pf, w.unified = false →
      onOk { w with persistFails := pf, trace := tr, legacy := node } () := by
    intro tr pf hu
    refine hok _ ⟨rfl, rfl, rfl⟩ ?_
    simp only [World.stored, World.unified] at hu ⊢
    simp [hu]
  cases hf : w.persistFails with
  | nil =>
    cases hu : w.unified
    · simpa [Outcome, hu] using hsucc2 _ _ hu
    · simpa [Outcome, hu] using hsucc1 _ _ hu
  | cons b bs =>
    cases b
    · cases hu : w.unified
      · simpa [Outcome, hu] using hsucc2 _ _ hu
      · simpa [Outcome, hu] using hsucc1 _ _ hu
    · simpa [Outcome] using hfail _ _

theorem Outcome_persistWhen (p : Bool) (w : World) (node : Node)
    (onOk : World → Unit → Prop) (onError : World → Prop)
    (hskip : p = false → onOk w ())
    (hok : p = true → ∀ w1, SameEnv w w1 → w1.stored = node → onOk w1 ())
    (herr : ∀ w1, SameEnv w w1 → w1.stored = w.stored → onError w1) :
    Outcome (persistWhen p w node) onOk onError := by
  unfold persistWhen
  cases p
  · exact hskip rfl
  · exact Outcome_persistConfig w node onOk onError (hok rfl) herr

theorem Outcome_result {α : Type} (r : World × Except Error α) (onOk : World → α → Prop)
    (onError : World → Prop) (h : Outcome r onOk onError) :
    (∀ a, r.2 = .ok a → onOk r.1 a) ∧ (∀ e, r.2 = .error e → onError r.1) := by
  obtain ⟨w, res⟩ := r
  cases res with
  | error e => exact ⟨fun a ha => (by cases ha), fun _ _ => h⟩
  | ok a => exact ⟨fun b hb => (by cases hb; exact h), fun e he => (by cases he)⟩

theorem Outcome_weaken {α : Type} (r : World × Except Error α) (onOk onOk2 : World → α → Prop)
    (onError onError2 : World → Prop) (h : Outcome r onOk onError)
    (h1 : ∀ w a, onOk w a → onOk2 w a) (h2 : ∀ w, onError w → onError2 w) :
    Outcome r onOk2 onError2 := by
  obtain ⟨w, res⟩ := r
  cases res with
  | error e => exact h2 _ h
  | ok a => exact h1 _ _ h


theorem decode_encode_discovery (d : PluginDiscovery) :
    decodeDiscovery (encodeDiscovery d) = d := by
  cases d
  simp [decodeDiscovery, encodeDiscovery, scalarField, scalarPair, pairLookup]

theorem decode_encode_global (g : GlobalServer) :
    decodeGlobalServer (encodeGlobalServer g) = g := by
  cases g
  simp [decodeGlobalServer, encodeGlobalServer, scalarField, scalarPair, pairLookup]

theorem decode_encode_cluster (o : ClusterServer) :
    decodeClusterServer (encodeClusterServer o) = o := by
  obtain ⟨e, b⟩ := o
  cases b <;>
    simp [decodeClusterServer, encodeClusterServer, scalarField, scalarPair, pairLookup,
      boolText]

theorem map_decode_encode_discovery (ds : List PluginDiscovery) :
    (ds.map encodeDiscovery).map decodeDiscovery = ds := by
  rw [List.map_map]
  conv_rhs => rw [← List.map_id ds]
  apply List.map_congr_left
  intro d _
  exact decode_encode_discovery d

theorem map_comp_decode_encode_discovery (ds : List PluginDiscovery) :
    ds.map (decodeDiscovery ∘ encodeDiscovery) = ds := by
  rw [← List.map_map]
  exact map_decode_encode_discovery ds

/-- The typed view of the encoded context is the context. -/
theorem decode_encode_context (c : Context) : decodeContext (encodeContext c) = c := by
  obtain ⟨n, t, g, o, ds⟩ := c
  cases g <;> cases o <;> cases ds <;>
    simp [decodeContext, encodeContext, scalarField, scalarPair, pairLookup,
      KeyDiscoverySources, decode_encode_global, decode_encode_cluster,
      map_decode_encode_discovery, decode_encode_discovery,
      map_comp_decode_encode_discovery]

theorem sectionItems_OnlySection {K K2 : String} {n1 n2 : Node} (h : OnlySection K n1 n2)
    (hd : DocComplete n1) (hne : K2 ≠ K) : sectionItems n2 K2 = sectionItems n1 K2 := by
  simp only [sectionItems, OnlySection_sectionOf h hd hne]

theorem currentContextOf_OnlySection {K : String} {n1 n2 : Node} (h : OnlySection K n1 n2)
    (hd : DocComplete n1) (hne : KeyCurrentContext ≠ K) (t : Target) :
    currentContextOf n2 t = currentContextOf n1 t := by
  simp only [currentContextOf, OnlySection_sectionOf h hd hne]

/-- The back-fill of the server mirror keeps every property of documents that
rewriting the servers and current-server sections keeps. -/
theorem backfillServer_outcome (B : Node → Prop)
    (hcomp : ∀ n, B n → DocComplete n)
    (hframe : ∀ K n1 n2, K = KeyServers ∨ K = KeyCurrentServer → B n1 →
      OnlySection K n1 n2 → B n2)
    (w : World) (c : Context) (setCurrent : Bool) (node : Node)
    (hs : B w.stored) (hn : B node) :
    Outcome (backfillServer w c setCurrent node) (fun w1 _ => B w1.stored)
      (fun w1 => B w1.stored) := by
  unfold backfillServer
  refine Outcome_pure _ _ _ _ _ (fun _ _ => hs) ?_
  rintro ⟨p3, n3⟩ h3
  have hB3 : B n3 := hframe _ _ _ (Or.inl rfl) hn
    (setServer_shape _ _ _ (hcomp _ hn) p3 n3 h3)
  have key : ∀ w2 : World, B w2.stored →
      Outcome (if setCurrent = true ∧
          (convertContextToServer c).ServerType = ManagementClusterServerType then
        andThen (w2, setCurrentServer n3 (convertContextToServer c).Name) fun w r4 =>
          andThen (persistWhen r4.1 w r4.2) fun w _ => (w, Except.ok ())
        else (w2, Except.ok ())) (fun w1 _ => B w1.stored) (fun w1 => B w1.stored) := by
    intro w2 hs2
    split
    · refine Outcome_pure _ _ _ _ _ (fun _ _ => hs2) ?_
      rintro ⟨p4, n4⟩ h4
      have hB4 : B n4 := hframe _ _ _ (Or.inr rfl) hB3
        (setCurrentServer_shape _ _ (hcomp _ hB3) p4 n4 h4)
      refine Outcome_andThen _ _ _ _ ?_
      refine Outcome_persistWhen _ _ _ _ _ (fun _ => hs2) ?_ ?_
      · intro _ w3 _ hst; show B w3.stored; rw [hst]; exact hB4
      · intro w3 _ hst; show B w3.stored; rw [hst]; exact hs2
    · exact hs2
  refine Outcome_andThen _ _ _ _ ?_
  refine Outcome_persistWhen _ _ _ _ _ (fun _ => key w hs) ?_ ?_
  · intro _ w2 _ hst
    exact key w2 (by rw [hst]; exact hB3)
  · intro w2 _ hst
    show B w2.stored
    rw [hst]; exact hs

theorem HoldsContext_frame (entries : List Node) (c : Context) (K : String) (n1 n2 : Node)
    (hK : K = KeyServers ∨ K = KeyCurrentServer) (h1 : HoldsContext entries c n1)
    (hon : OnlySection K n1 n2) : HoldsContext entries c n2 := by
  obtain ⟨hd, hi, hcur⟩ := h1
  have hne1 : KeyContexts ≠ K := by rcases hK with rfl | rfl <;> decide
  have hne2 : KeyCurrentContext ≠ K := by rcases hK with rfl | rfl <;> decide
  exact ⟨OnlySection_complete hon hd, by rw [sectionItems_OnlySection hon hd hne1, hi],
    by rw [currentContextOf_OnlySection hon hd hne2, hcur]⟩

theorem nameIs_entryName {n : String} {e : Node} (h : nameIs n e = true) : entryName e = n := by
  simp only [nameIs, decide_eq_true_eq] at h
  cases hl : pairLookup e.Content "name" with
  | none => simp [hl] at h
  | some v => simpa [entryName, scalarField, hl] using h

theorem any_nameIs_false_of_fresh (entries : List Node) (n : String)
    (h : ∀ e ∈ entries, entryName e ≠ n) : entries.any (nameIs n) = false := by
  rw [List.any_eq_false]
  intro e he hn
  exact h e he (nameIs_entryName hn)

theorem find?_append_fresh (entries : List Node) (c : Context)
    (h : ∀ e ∈ entries, entryName e ≠ c.Name) :
    ((entries ++ [encodeContext c]).map decodeContext).find?
      (fun x => decide (x.Name = c.Name)) = some c := by
  induction entries with
  | nil => simp [decode_encode_context]
  | cons e rest ih =>
    have he : ¬ (decodeContext e).Name = c.Name := h e (List.mem_cons_self _ _)
    simp only [List.cons_append, List.map_cons, List.find?_cons, he, decide_False]
    exact ih (fun x hx => h x (List.mem_cons_of_mem _ hx))

theorem reads_of_HoldsContext (entries : List Node) (c : Context) (doc : Node)
    (hname : c.Name ≠ "")
    (hfresh : ∀ e ∈ entries, entryName e ≠ c.Name)
    (h : HoldsContext entries c doc) :
    getCurrentContext doc c.Target = .ok c ∧ getContext doc c.Name = .ok c := by
  obtain ⟨_, hi, hcur⟩ := h
  have hfind := find?_append_fresh entries c hfresh
  have hget : mapGet (decodePairs (sectionItems doc KeyCurrentContext)) c.Target = c.Name := by
    simp only [mapGet, decodePairs_lookup]
    simp only [currentContextOf] at hcur
    cases hs : sectionOf doc KeyCurrentContext with
    | none => simp [hs] at hcur
    | some cc =>
      simp only [hs] at hcur
      simp only [sectionItems, hs, hcur]
  constructor
  · simp only [getCurrentContext, convertNodeToClientConfig, ClientConfig.GetCurrentContext,
      hget, hname, if_false, ClientConfig.GetContext, hi, hfind]
  · simp only [getContext, convertNodeToClientConfig, hi, hfind]

theorem wellFormed_after_contexts (node sec1 : Node) (h : DocWellFormed node) :
    DocComplete (putSection node KeyContexts sec1) ∧
    SectionKind (putSection node KeyContexts sec1) KeyCurrentContext MappingNode ∧
    SectionComplete (putSection node KeyContexts sec1) KeyCurrentContext ∧
    sectionItems (putSection node KeyContexts sec1) KeyContexts = sec1.Content := by
  obtain ⟨hd, _, _, hk, hc⟩ := h
  have hs : sectionOf (putSection node KeyContexts sec1) KeyCurrentContext =
      sectionOf node KeyCurrentContext := by
    rw [sectionOf_putSection_of_complete _ _ _ _ hd]
    simp [KeyCurrentContext, KeyContexts]
  have hs2 : sectionOf (putSection node KeyContexts sec1) KeyContexts = some sec1 := by
    rw [sectionOf_putSection_of_complete _ _ _ _ hd]
    simp
  refine ⟨DocComplete_putSection _ _ _ hd, ?_, ?_, ?_⟩
  · simpa only [SectionKind, hs] using hk
  · simpa only [SectionComplete, sectionItems, hs] using hc
  · simp only [sectionItems, hs2]

/-- `SetContext` of a context with a new name on a well-formed document, between the
lock and the unlock: when it succeeds, the persisted document holds the context as
last entry and as current context of its target. -/
theorem SetContextLocked_fresh (w : World) (c : Context)
    (hwf : DocWellFormed w.stored)
    (hfresh : ∀ e ∈ sectionItems w.stored KeyContexts, entryName e ≠ c.Name) :
    Outcome (SetContextLocked w c true)
      (fun w1 _ => HoldsContext (sectionItems w.stored KeyContexts) c w1.stored)
      (fun _ => True) := by
  unfold SetContextLocked
  refine Outcome_andThen _ _ _ _ ?_
  refine Outcome_load _ _ _ ?_ (fun _ _ _ => trivial)
  intro _ w1 _ _
  obtain ⟨p1, sec1, h1, _, hcont1, hp1⟩ := setContext_shape w1.metadata w.stored c hwf.1
    hwf.2.1 hwf.2.2.1
  have hany := any_nameIs_false_of_fresh _ _ hfresh
  have hp : p1 = true := hp1 hany
  simp only [contextsAfterSet, hany, Bool.false_eq_true, if_false] at hcont1
  obtain ⟨hd1, hk1, hc1, hi1⟩ := wellFormed_after_contexts w.stored sec1 hwf
  rw [hcont1] at hi1
  refine Outcome_pure _ _ _ _ _ (fun _ _ => trivial) ?_
  rintro ⟨p, n1⟩ hr
  rw [h1] at hr
  simp only [Except.ok.injEq, Prod.mk.injEq] at hr
  obtain ⟨rfl, rfl⟩ := hr
  refine Outcome_andThen _ _ _ _ ?_
  refine Outcome_persistWhen _ _ _ _ _ (fun hf => by simp [hp] at hf) ?_ (fun _ _ _ => trivial)
  intro _ w2 _ hs2
  refine Outcome_andThen _ _ _ _ ?_
  unfold makeCurrent
  simp only [if_true]
  obtain ⟨p2, cc1, h2, _, _, hlook2, _, hunch, _⟩ := setCurrentContext_shape
    (putSection w.stored KeyContexts sec1) c hd1 hk1 hc1
  have hB2 : HoldsContext (sectionItems w.stored KeyContexts) c
      (putSection (putSection w.stored KeyContexts sec1) KeyCurrentContext cc1) := by
    refine ⟨DocComplete_putSection _ _ _ hd1, ?_, ?_⟩
    · rw [← hi1]
      simp only [sectionItems]
      rw [sectionOf_putSection_of_complete _ _ _ _ hd1]
      simp [KeyCurrentContext, KeyContexts]
    · simp only [currentContextOf]
      rw [sectionOf_putSection_of_complete _ _ _ _ hd1]
      simpa using hlook2
  refine Outcome_pure _ _ _ _ _ (fun _ _ => trivial) ?_
  rintro ⟨p, n2⟩ hr
  rw [h2] at hr
  simp only [Except.ok.injEq, Prod.mk.injEq] at hr
  obtain ⟨rfl, rfl⟩ := hr
  have hrest : ∀ w3 : World, HoldsContext (sectionItems w.stored KeyContexts) c w3.stored →
      Outcome (backfillServer w3 c true
        (putSection (putSection w.stored KeyContexts sec1) KeyCurrentContext cc1))
        (fun w1 _ => HoldsContext (sectionItems w.stored KeyContexts) c w1.stored)
        (fun _ => True) := by
    intro w3 h3
    exact Outcome_weaken _ _ _ _ _
      (backfillServer_outcome (HoldsContext (sectionItems w.stored KeyContexts) c)
        (fun n hn => hn.1) (fun K n1 n2 hK hn hon => HoldsContext_frame _ c K n1 n2 hK hn hon)
        w3 c true _ h3 hB2)
      (fun _ _ h => h) (fun _ _ => trivial)
  refine Outcome_andThen _ _ _ _ ?_
  refine Outcome_persistWhen _ _ _ _ _ ?_ ?_ (fun _ _ _ => trivial)
  · intro hf
    apply hrest w2
    rw [hs2, ← hunch hf]
    exact hB2
  · intro _ w3 _ hs3
    apply hrest w3
    rw [hs3]
    exact hB2

theorem getClientConfigNode_result (w : World) :
    (getClientConfigNode w).2 =
      match w.loadError with
      | some e => .error e
      | none => .ok w.stored := by
  unfold getClientConfigNode withLock World.stored World.unified getClientConfigNextGenNodeNoLock
    getMultiConfigNoLock AcquireTanzuConfigLock
  rcases hu : w.useUnifiedConfig with ⟨b, err⟩
  cases err <;> cases b <;> cases hl : w.loadError <;> simp

theorem GetContext_result (w : World) (name : String) (hl : w.loadError = none) :
    (GetContext w name).2 = getContext w.stored name := by
  have h := getClientConfigNode_result w
  rw [hl] at h
  unfold GetContext
  generalize getClientConfigNode w = r at h
  obtain ⟨w1, res⟩ := r
  simp only at h
  subst h
  rfl

theorem GetCurrentContext_result (w : World) (t : Target) (hl : w.loadError = none) :
    (GetCurrentContext w t).2 = getCurrentContext w.stored t := by
  have h := getClientConfigNode_result w
  rw [hl] at h
  unfold GetCurrentContext
  generalize getClientConfigNode w = r at h
  obtain ⟨w1, res⟩ := r
  simp only at h
  subst h
  rfl

theorem SetContextLocked_load_error (w : World) (c : Context) (b : Bool) (e : Error)
    (hl : w.loadError = some e) : (SetContextLocked w c b).2 = .error e := by
  unfold SetContextLocked
  rw [getClientConfigNodeNoLock_eq]
  simp only [hl, andThen]

/-- C7, counterexample: `docWithGlobalOpts` already holds `ctx1` with global options;
after a successful `SetContext ctx1Cluster true` both reads return the merged context,
which keeps the stored global options and so differs from the context that was set. -/
theorem SetContext_then_get_merged :
    (SetContext (World.fresh docWithGlobalOpts) ctx1Cluster true).2 = .ok () ∧
    (GetCurrentContext (SetContext (World.fresh docWithGlobalOpts) ctx1Cluster true).1
      TargetK8s).2 = .ok ctx1Merged ∧
    (GetContext (SetContext (World.fresh docWithGlobalOpts) ctx1Cluster true).1 "ctx1").2
      = .ok ctx1Merged ∧
    ctx1Merged ≠ ctx1Cluster :=
  ⟨rfl, rfl, rfl, by decide⟩

/-- C7, amended: on a well-formed persisted document with no context named `c.Name`,
for a context `c` with a non-empty name (of any target, kubernetes included), after a
successful `SetContext c true` the call `GetCurrentContext c.Target` succeeds and
returns `c`, and `GetContext c.Name` returns the same context. -/
theorem SetContext_then_get (w : World) (c : Context)
    (hname : c.Name ≠ "")
    (hwf : DocWellFormed w.stored)
    (hfresh : ∀ e ∈ sectionItems w.stored KeyContexts, entryName e ≠ c.Name)
    (hok : (SetContext w c true).2 = .ok ()) :
    (GetCurrentContext (SetContext w c true).1 c.Target).2 = .ok c ∧
    (GetContext (SetContext w c true).1 c.Name).2 = .ok c := by
  have hstored : (AcquireTanzuConfigLock w).stored = w.stored := rfl
  have hout := SetContextLocked_fresh (AcquireTanzuConfigLock w) c (by rw [hstored]; exact hwf)
    (by rw [hstored]; exact hfresh)
  have hres := (Outcome_result _ _ _ hout).1 () hok
  rw [hstored] at hres
  have hload : w.loadError = none := by
    cases hl : w.loadError with
    | none => rfl
    | some e =>
      have := SetContextLocked_load_error (AcquireTanzuConfigLock w) c true e hl
      have hok2 : (SetContextLocked (AcquireTanzuConfigLock w) c true).2 = .ok () := hok
      rw [this] at hok2
      cases hok2
  obtain ⟨_, _, _, _, hle, _⟩ := Extends_SetContext w c true
  have hload1 : (SetContext w c true).1.loadError = none := by rw [hle, hload]
  have hst : (SetContext w c true).1.stored =
      (SetContextLocked (AcquireTanzuConfigLock w) c true).1.stored := rfl
  have hreads := reads_of_HoldsContext _ c _ hname hfresh hres
  rw [GetCurrentContext_result _ _ hload1, GetContext_result _ _ hload1, hst]
  exact hreads

/-- C7, witness of the amended statement: the end-to-end scenario on an empty store. -/
theorem SetContext_then_get_witness :
    (DocWellFormed (World.fresh emptyDocument).stored ∧
      (SetContext (World.fresh emptyDocument) ctxScenario true).2 = .ok ()) ∧
    (GetCurrentContext (SetContext (World.fresh emptyDocument) ctxScenario true).1
      ctxScenario.Target).2 = .ok ctxScenario ∧
    (GetContext (SetContext (World.fresh emptyDocument) ctxScenario true).1
      ctxScenario.Name).2 = .ok ctxScenario :=
  ⟨⟨by decide, rfl⟩,
   SetContext_then_get (World.fresh emptyDocument) ctxScenario (by decide) (by decide)
     (by decide) rfl⟩


theorem deletePairs_even (m : PatchStrategies) (src : Node) (path : Path) :
    ∀ (l : List Node), l.length % 2 = 0 → (deletePairs m src l path).2.length % 2 = 0
  | [], _ => by simp [deletePairs]
  | [k], h => by simp at h
  | k :: v :: rest, h => by
    have ih := deletePairs_even m src path rest (even_tail h)
    simp only [deletePairs]
    split
    · split
      · exact ih
      · simp only [List.length_cons]; omega
    · simp only [List.length_cons]; omega

theorem deleteNode_even (m : PatchStrategies) (src e : Node) (path : Path)
    (he : e.Content.length % 2 = 0) : (deleteNode m src e path).2.Content.length % 2 = 0 := by
  obtain ⟨k, s, v, c⟩ := e
  simp only [deleteNode]
  split
  · simp only [Node.Content_mk] at he ⊢
    exact deletePairs_even m src path c he
  · exact he

theorem deleteTop_even (m : PatchStrategies) (src e : Node) (path : Path)
    (he : e.Content.length % 2 = 0) : (deleteTop m src e path).2.Content.length % 2 = 0 := by
  unfold deleteTop
  split
  · exact he
  · exact deleteNode_even m src e path he

theorem mergePairs_cons (k v : Node) (rest dst : List Node) :
    (mergePairs (k :: v :: rest) dst).2 = (mergePairs rest (mergeStep k v dst)).2 := by
  simp only [mergePairs, mergeStep]
  split <;> rfl

theorem mergeStep_even (k v : Node) (dst : List Node) (h : dst.length % 2 = 0) :
    (mergeStep k v dst).length % 2 = 0 := by
  unfold mergeStep
  split
  · simp only [List.length_append, List.length_cons, List.length_nil]; omega
  · simp only [pairUpdate_length]; exact h

theorem mergeStep_lookup_other (k v : Node) (dst : List Node) (key : String)
    (h : dst.length % 2 = 0) (hne : k.Value ≠ key) :
    pairLookup (mergeStep k v dst) key = pairLookup dst key := by
  unfold mergeStep
  split
  · rw [pairLookup_append_pair _ _ _ _ h]
    simp only [hne, if_false]
    cases pairLookup dst key <;> rfl
  · rw [pairLookup_pairUpdate]
    simp [Ne.symm hne]

theorem mergePairs_even : ∀ (ps dst : List Node), dst.length % 2 = 0 →
    (mergePairs ps dst).2.length % 2 = 0
  | [], dst, h => by simpa [mergePairs] using h
  | [k], dst, h => by simpa [mergePairs] using h
  | k :: v :: rest, dst, h => by
    rw [mergePairs_cons]
    exact mergePairs_even rest _ (mergeStep_even k v dst h)

theorem mergePairs_lookup_other : ∀ (ps dst : List Node) (key : String),
    dst.length % 2 = 0 → key ∉ (decodePairs ps).map Prod.fst →
    pairLookup (mergePairs ps dst).2 key = pairLookup dst key
  | [], dst, key, _, _ => by simp [mergePairs]
  | [k], dst, key, _, _ => by simp [mergePairs]
  | k :: v :: rest, dst, key, h, hk => by
    simp only [decodePairs, List.map_cons, List.mem_cons, not_or] at hk
    rw [mergePairs_cons, mergePairs_lookup_other rest _ key (mergeStep_even k v dst h) hk.2]
    exact mergeStep_lookup_other k v dst key h (fun e => hk.1 e.symm)

theorem mergeNode_scalar_Value (s : Nat) (val : String) (dv : Node) :
    (mergeNode (Node.mk ScalarNode s val []) dv).2.Value = val := by
  simp only [mergeNode]
  split
  · rfl
  · simp only [show ¬ (ScalarNode = MappingNode) by decide,
      show ¬ (ScalarNode = SequenceNode) by decide, if_false, if_true]
    split
    · simp
    · rename_i h; simpa using h

theorem mergeStep_scalar (k : Node) (s : Nat) (val : String) (dst : List Node)
    (h : dst.length % 2 = 0) :
    (pairLookup (mergeStep k (Node.mk ScalarNode s val []) dst) k.Value).map Node.Value
      = some val := by
  unfold mergeStep
  split
  · rename_i hl
    rw [pairLookup_append_pair _ _ _ _ h, hl]
    simp
  · rename_i dv hl
    rw [pairLookup_pairUpdate]
    simp [hl, mergeNode_scalar_Value]

theorem mergePairs_scalar_head (k : Node) (s : Nat) (val : String) (rest dst : List Node)
    (h : dst.length % 2 = 0) (hk : k.Value ∉ (decodePairs rest).map Prod.fst) :
    (pairLookup (mergePairs (k :: Node.mk ScalarNode s val [] :: rest) dst).2 k.Value).map
      Node.Value = some val := by
  rw [mergePairs_cons, mergePairs_lookup_other rest _ _ (mergeStep_even _ _ _ h) hk]
  exact mergeStep_scalar k s val dst h

/-- The pairs of an encoded context after `name` and `target`. -/
theorem encodeContext_Content (c : Context) :
    ∃ tail, (encodeContext c).Content =
      Node.mk ScalarNode 0 "name" [] :: Node.mk ScalarNode 0 c.Name [] ::
      Node.mk ScalarNode 0 "target" [] :: Node.mk ScalarNode 0 c.Target [] :: tail ∧
      tail.length % 2 = 0 ∧
      "name" ∉ (decodePairs tail).map Prod.fst ∧
      "target" ∉ (decodePairs tail).map Prod.fst := by
  obtain ⟨n, t, g, o, ds⟩ := c
  refine ⟨_, rfl, ?_, ?_, ?_⟩ <;>
    cases g <;> cases o <;> cases ds <;>
    simp [decodePairs, KeyDiscoverySources]

theorem EntryOf_encodeContext (c : Context) : EntryOf c (encodeContext c) := by
  obtain ⟨tail, hc, hev, _, _⟩ := encodeContext_Content c
  refine ⟨?_, ?_, ?_⟩
  · rw [hc]; simp only [List.length_cons]; omega
  · rw [hc]; simp [pairLookup]
  · rw [hc]; simp [pairLookup]

theorem EntryOf_mergeNode (c : Context) (x : Node) (hx : x.Content.length % 2 = 0) :
    EntryOf c (mergeNode (encodeContext c) x).2 := by
  obtain ⟨tail, hc, hev, hn, ht⟩ := encodeContext_Content c
  have henc : encodeContext c = Node.mk MappingNode 0 "" (encodeContext c).Content := by
    simp [encodeContext]
  rw [henc]
  simp only [mergeNode]
  split
  · rw [← henc]; exact EntryOf_encodeContext c
  · simp only [if_true]
    rw [hc]
    refine ⟨?_, ?_, ?_⟩
    · simp only [Node.Content_setContent]
      exact mergePairs_even _ _ hx
    · simp only [Node.Content_setContent]
      have := mergePairs_scalar_head (Node.mk ScalarNode 0 "name" []) 0 c.Name
        (Node.mk ScalarNode 0 "target" [] :: Node.mk ScalarNode 0 c.Target [] :: tail)
        x.Content hx (by
          simp only [decodePairs, List.map_cons, List.mem_cons, not_or, Node.Value_mk]
          exact ⟨by decide, hn⟩)
      simpa using this
    · simp only [Node.Content_setContent]
      rw [mergePairs_cons]
      have := mergePairs_scalar_head (Node.mk ScalarNode 0 "target" []) 0 c.Target tail
        (mergeStep (Node.mk ScalarNode 0 "name" []) (Node.mk ScalarNode 0 c.Name []) x.Content)
        (mergeStep_even _ _ _ hx) (by simpa using ht)
      simpa using this

theorem EntryOf_setDiscoverySources (c : Context) (x : Node) (ds : List PluginDiscovery)
    (key : Path) (ps : PatchStrategies) (hx : EntryOf c x) (r : Bool × Node)
    (h : setDiscoverySources x ds key ps = .ok r) : EntryOf c r.2 := by
  obtain ⟨hev, hn, ht⟩ := hx
  unfold setDiscoverySources at h
  cases hF : FindNode x true [⟨KeyDiscoverySources, SequenceNode⟩] with
  | none =>
    simp only [hF, Except.ok.injEq] at h
    subst h
    exact ⟨hev, hn, ht⟩
  | some f =>
    obtain ⟨x1, path⟩ := f
    obtain ⟨sec, hat, hset, _, _⟩ := FindNode_focus x true KeyDiscoverySources SequenceNode hev
      x1 path hF
    simp only [hF, hat] at h
    split at h
    · cases h
    · simp only [Except.ok.injEq] at h
      subst h
      simp only [hset]
      refine ⟨putPair_Content_length_even _ _ _ hev, ?_, ?_⟩
      · rw [pairLookup_putPair _ _ _ _ hev]
        simpa [KeyDiscoverySources] using hn
      · rw [pairLookup_putPair _ _ _ _ hev]
        simpa [KeyDiscoverySources] using ht

/-- A patched entry holds the name and the target of the incoming context. -/
theorem EntryOf_patchOf (ps : PatchStrategies) (c : Context) (e : Node)
    (he : e.Content.length % 2 = 0) : EntryOf c (patchOf ps c e) := by
  have h1 := deleteTop_even ps (encodeContext c) e [KeyContexts] he
  have h2 := EntryOf_mergeNode c _ h1
  obtain ⟨r, hr⟩ := setDiscoverySources_ok (mergeNode (encodeContext c)
    (deleteTop ps (encodeContext c) e [KeyContexts]).2).2 c.DiscoverySources
    [KeyContexts, KeyDiscoverySources] ps
  have h3 := EntryOf_setDiscoverySources c _ _ _ _ h2 r hr
  have h4 := EntryOf_mergeNode c r.2 h3.1
  obtain ⟨pds, c3⟩ := r
  cases pds
  · simp only [patchOf, patchContextNode, DeleteNodes, MergeNodes, hr]
    exact h3
  · simp only [patchOf, patchContextNode, DeleteNodes, MergeNodes, hr]
    exact h4


theorem entryName_of_EntryOf {c : Context} {e : Node} (h : EntryOf c e) : entryName e = c.Name := by
  obtain ⟨_, hn, _⟩ := h
  cases hl : pairLookup e.Content "name" with
  | none => simp [hl] at hn
  | some v => simpa [entryName, scalarField, hl] using hn

theorem entryTarget_of_EntryOf {c : Context} {e : Node} (h : EntryOf c e) :
    entryTarget e = c.Target := by
  obtain ⟨_, _, ht⟩ := h
  cases hl : pairLookup e.Content "target" with
  | none => simp [hl] at ht
  | some v => simpa [entryTarget, scalarField, hl] using ht

theorem named_of_EntryOf {c : Context} {e : Node} (h : EntryOf c e) :
    (pairLookup e.Content "name").isSome = true := by
  obtain ⟨_, hn, _⟩ := h
  cases hl : pairLookup e.Content "name" with
  | none => simp [hl] at hn
  | some v => rfl

theorem nameIs_of_entryName {n : String} {e : Node}
    (hnamed : (pairLookup e.Content "name").isSome = true) (h : entryName e = n) :
    nameIs n e = true := by
  cases hl : pairLookup e.Content "name" with
  | none => simp [hl] at hnamed
  | some v =>
    simp only [entryName, scalarField, hl] at h
    simp [nameIs, hl, h]

/-- The invariant depends on the document only through its completeness and its
contexts and current-context sections. -/
theorem DocInv_of_sections (n1 n2 : Node) (hd : DocComplete n2)
    (h1 : sectionOf n2 KeyContexts = sectionOf n1 KeyContexts)
    (h2 : sectionOf n2 KeyCurrentContext = sectionOf n1 KeyCurrentContext)
    (h : DocInv n1) : DocInv n2 := by
  obtain ⟨⟨_, hk1, he1, hk2, hc2⟩, hnamed, hnd, hkeys, hptr⟩ := h
  have hi1 : sectionItems n2 KeyContexts = sectionItems n1 KeyContexts := by
    simp only [sectionItems, h1]
  have hi2 : sectionItems n2 KeyCurrentContext = sectionItems n1 KeyCurrentContext := by
    simp only [sectionItems, h2]
  refine ⟨⟨hd, ?_, ?_, ?_, ?_⟩, ?_, ?_, ?_, ?_⟩
  · simpa only [SectionKind, h1] using hk1
  · simpa only [EntriesComplete, hi1] using he1
  · simpa only [SectionKind, h2] using hk2
  · simpa only [SectionComplete, hi2] using hc2
  · simpa only [EntriesNamed, hi1] using hnamed
  · rw [hi1]; exact hnd
  · rw [hi2]; exact hkeys
  · rw [hi1, hi2]; exact hptr

theorem DocInv_frame (K : String) (n1 n2 : Node)
    (hK : K = KeyServers ∨ K = KeyCurrentServer) (h : DocInv n1)
    (hon : OnlySection K n1 n2) : DocInv n2 := by
  have hd := h.1.1
  have hne1 : KeyContexts ≠ K := by rcases hK with rfl | rfl <;> decide
  have hne2 : KeyCurrentContext ≠ K := by rcases hK with rfl | rfl <;> decide
  exact DocInv_of_sections n1 n2 (OnlySection_complete hon hd)
    (OnlySection_sectionOf hon hd hne1) (OnlySection_sectionOf hon hd hne2) h

theorem HasEntry_frame (c : Context) (K : String) (n1 n2 : Node)
    (hK : K = KeyServers ∨ K = KeyCurrentServer ∨ K = KeyCurrentContext)
    (hd : DocComplete n1) (h : HasEntry c n1)
    (hon : OnlySection K n1 n2) : HasEntry c n2 := by
  have hne1 : KeyContexts ≠ K := by rcases hK with rfl | rfl | rfl <;> decide
  unfold HasEntry
  rw [sectionItems_OnlySection hon hd hne1]
  exact h

theorem DocInv_emptyDocument : DocInv emptyDocument := by
  refine ⟨by decide, by decide, ?_, ?_, ?_⟩
  · simp [sectionItems, sectionOf, emptyDocument, pairLookup]
  · simp [sectionItems, sectionOf, emptyDocument, pairLookup, decodePairs]
  · intro p hp
    simp [sectionItems, sectionOf, emptyDocument, pairLookup, decodePairs] at hp

theorem mem_decodePairs_of_lookup : ∀ (l : List Node) (t : String) (v : Node),
    pairLookup l t = some v → (t, v.Value) ∈ decodePairs l
  | [], t, v => by simp [pairLookup]
  | [k], t, v => by simp [pairLookup]
  | k :: w :: rest, t, v => by
    by_cases h : k.Value = t
    · simp only [pairLookup, h, if_true, Option.some.injEq, decodePairs, List.mem_cons]
      rintro rfl; left; rfl
    · simp only [pairLookup, h, if_false, decodePairs, List.mem_cons]
      intro hl; right; exact mem_decodePairs_of_lookup rest t v hl

theorem PointersValid_of_DocInv (doc : Node) (h : DocInv doc) : PointersValid doc := by
  intro t n hcur
  obtain ⟨_, _, _, _, hptr⟩ := h
  simp only [currentContextOf] at hcur
  cases hs : sectionOf doc KeyCurrentContext with
  | none => simp [hs] at hcur
  | some cc =>
    simp only [hs] at hcur
    cases hl : pairLookup cc.Content t with
    | none => simp [hl] at hcur
    | some v =>
      simp only [hl, Option.map_some', Option.some.injEq] at hcur
      have hmem : (t, n) ∈ decodePairs (sectionItems doc KeyCurrentContext) := by
        simp only [sectionItems, hs]
        rw [← hcur]
        exact mem_decodePairs_of_lookup _ _ _ hl
      obtain ⟨e, he, hn, _⟩ := hptr (t, n) hmem
      exact ⟨e, he, hn⟩

/-- The entries after `setContext`, under the invariant and for a context that does
not change the target of an entry with its name. -/
theorem contextsAfterSet_inv (ps : PatchStrategies) (c : Context) (entries : List Node)
    (hev : ∀ e ∈ entries, e.Content.length % 2 = 0)
    (hnamed : ∀ e ∈ entries, (pairLookup e.Content "name").isSome = true)
    (hnd : (entries.map entryName).Nodup)
    (hkeep : ∀ e ∈ entries, entryName e = c.Name → entryTarget e = c.Target) :
    (∀ e ∈ contextsAfterSet ps c entries, e.Content.length % 2 = 0) ∧
    (∀ e ∈ contextsAfterSet ps c entries, (pairLookup e.Content "name").isSome = true) ∧
    ((contextsAfterSet ps c entries).map entryName).Nodup ∧
    (∃ e ∈ contextsAfterSet ps c entries, entryName e = c.Name ∧ entryTarget e = c.Target) ∧
    (∀ e ∈ entries, ∃ e1 ∈ contextsAfterSet ps c entries,
      entryName e1 = entryName e ∧ entryTarget e1 = entryTarget e) := by
  unfold contextsAfterSet
  cases hany : entries.any (nameIs c.Name) with
  | false =>
    simp only [Bool.false_eq_true, if_false]
    have hno : ∀ e ∈ entries, entryName e ≠ c.Name := by
      intro e he hn
      have h1 := nameIs_of_entryName (hnamed e he) hn
      have h2 := List.any_eq_false.mp hany e he
      exact h2 h1
    refine ⟨?_, ?_, ?_, ?_, ?_⟩
    · intro e he
      rcases List.mem_append.mp he with h | h
      · exact hev e h
      · rw [List.mem_singleton.mp h]; exact (EntryOf_encodeContext c).1
    · intro e he
      rcases List.mem_append.mp he with h | h
      · exact hnamed e h
      · rw [List.mem_singleton.mp h]; exact named_of_EntryOf (EntryOf_encodeContext c)
    · rw [List.map_append]
      refine List.Nodup.append hnd (by simp) ?_
      intro a ha hb
      simp only [List.map_cons, List.map_nil, List.mem_singleton] at hb
      obtain ⟨e, he, rfl⟩ := List.mem_map.mp ha
      rw [entryName_of_EntryOf (EntryOf_encodeContext c)] at hb
      exact hno e he hb
    · exact ⟨encodeContext c, by simp, entryName_of_EntryOf (EntryOf_encodeContext c),
        entryTarget_of_EntryOf (EntryOf_encodeContext c)⟩
    · intro e he
      exact ⟨e, List.mem_append_left _ he, rfl, rfl⟩
  | true =>
    simp only [if_true]
    have hsame : ∀ e ∈ entries,
        entryName (if nameIs c.Name e = true then patchOf ps c e else e) = entryName e ∧
        entryTarget (if nameIs c.Name e = true then patchOf ps c e else e) = entryTarget e := by
      intro e he
      by_cases hn : nameIs c.Name e = true
      · have hE := EntryOf_patchOf ps c e (hev e he)
        have hname := nameIs_entryName hn
        simp only [hn, if_true]
        exact ⟨by rw [entryName_of_EntryOf hE, hname],
          by rw [entryTarget_of_EntryOf hE, hkeep e he hname]⟩
      · have hf : nameIs c.Name e = false := by simpa using hn
        simp [hf]
    refine ⟨?_, ?_, ?_, ?_, ?_⟩
    · intro e1 he1
      obtain ⟨e, he, rfl⟩ := List.mem_map.mp he1
      by_cases hn : nameIs c.Name e = true
      · simp only [hn, if_true]; exact (EntryOf_patchOf ps c e (hev e he)).1
      · simp only [hn, if_false]; exact hev e he
    · intro e1 he1
      obtain ⟨e, he, rfl⟩ := List.mem_map.mp he1
      by_cases hn : nameIs c.Name e = true
      · simp only [hn, if_true]; exact named_of_EntryOf (EntryOf_patchOf ps c e (hev e he))
      · simp only [hn, if_false]; exact hnamed e he
    · rw [List.map_map]
      have : entries.map (entryName ∘ fun e =>
          if nameIs c.Name e = true then patchOf ps c e else e) = entries.map entryName := by
        apply List.map_congr_left
        intro e he
        exact (hsame e he).1
      rw [this]; exact hnd
    · obtain ⟨e, he, hn⟩ := List.any_eq_true.mp hany
      refine ⟨patchOf ps c e, ?_, ?_, ?_⟩
      · exact List.mem_map.mpr ⟨e, he, by simp [hn]⟩
      · exact entryName_of_EntryOf (EntryOf_patchOf ps c e (hev e he))
      · exact entryTarget_of_EntryOf (EntryOf_patchOf ps c e (hev e he))
    · intro e he
      exact ⟨_, List.mem_map.mpr ⟨e, he, rfl⟩, (hsame e he).1, (hsame e he).2⟩


theorem setContext_step (md : Except Error PatchStrategies) (node : Node) (c : Context)
    (hinv : DocInv node)
    (hkeep : ∀ e ∈ sectionItems node KeyContexts, entryName e = c.Name →
      entryTarget e = c.Target)
    (p : Bool) (n1 : Node) (h : setContext md node c = .ok (p, n1)) :
    DocInv n1 ∧ HasEntry c n1 := by
  obtain ⟨hwf, hnamed, hnd, hkeys, hptr⟩ := hinv
  obtain ⟨hd, hk1, he1, hk2, hc2⟩ := hwf
  obtain ⟨p1, sec1, h1, hkd, hcont, _⟩ := setContext_shape md node c hd hk1 he1
  rw [h1] at h
  simp only [Except.ok.injEq, Prod.mk.injEq] at h
  obtain ⟨_, rfl⟩ := h
  obtain ⟨a1, a2, a3, a4, a5⟩ := contextsAfterSet_inv (strategiesOf md) c
    (sectionItems node KeyContexts) he1 hnamed hnd hkeep
  have hs1 : sectionOf (putSection node KeyContexts sec1) KeyContexts = some sec1 := by
    rw [sectionOf_putSection_of_complete _ _ _ _ hd]; simp
  have hs2 : sectionOf (putSection node KeyContexts sec1) KeyCurrentContext =
      sectionOf node KeyCurrentContext := by
    rw [sectionOf_putSection_of_complete _ _ _ _ hd]
    simp [KeyCurrentContext, KeyContexts]
  have hi1 : sectionItems (putSection node KeyContexts sec1) KeyContexts =
      contextsAfterSet (strategiesOf md) c (sectionItems node KeyContexts) := by
    simp only [sectionItems, hs1, hcont]
  have hi2 : sectionItems (putSection node KeyContexts sec1) KeyCurrentContext =
      sectionItems node KeyCurrentContext := by
    simp only [sectionItems, hs2]
  refine ⟨⟨⟨DocComplete_putSection _ _ _ hd, ?_, ?_, ?_, ?_⟩, ?_, ?_, ?_, ?_⟩, ?_⟩
  · simp only [SectionKind, hs1]; exact hkd
  · simp only [EntriesComplete, hi1]; exact a1
  · simpa only [SectionKind, hs2] using hk2
  · simpa only [SectionComplete, hi2] using hc2
  · simp only [EntriesNamed, hi1]; exact a2
  · rw [hi1]; exact a3
  · rw [hi2]; exact hkeys
  · rw [hi1, hi2]
    intro q hq
    obtain ⟨e, he, hn, ht⟩ := hptr q hq
    obtain ⟨e1, he1m, hn1, ht1⟩ := a5 e he
    exact ⟨e1, he1m, hn1.trans hn, ht1.trans ht⟩
  · unfold HasEntry
    rw [hi1]; exact a4

theorem setCurrentContext_step (n : Node) (c : Context)
    (hinv : DocInv n) (hentry : HasEntry c n)
    (p : Bool) (n2 : Node) (h : setCurrentContext n c = .ok (p, n2)) :
    DocInv n2 ∧ HasEntry c n2 := by
  obtain ⟨hwf, hnamed, hnd, hkeys, hptr⟩ := hinv
  obtain ⟨hd, hk1, he1, hk2, hc2⟩ := hwf
  obtain ⟨p2, cc1, h2, hkd, hev, _, hsub, _, hnodup⟩ := setCurrentContext_shape n c hd hk2 hc2
  rw [h2] at h
  simp only [Except.ok.injEq, Prod.mk.injEq] at h
  obtain ⟨_, rfl⟩ := h
  have hs1 : sectionOf (putSection n KeyCurrentContext cc1) KeyContexts =
      sectionOf n KeyContexts := by
    rw [sectionOf_putSection_of_complete _ _ _ _ hd]
    simp [KeyCurrentContext, KeyContexts]
  have hs2 : sectionOf (putSection n KeyCurrentContext cc1) KeyCurrentContext = some cc1 := by
    rw [sectionOf_putSection_of_complete _ _ _ _ hd]; simp
  have hi1 : sectionItems (putSection n KeyCurrentContext cc1) KeyContexts =
      sectionItems n KeyContexts := by
    simp only [sectionItems, hs1]
  have hi2 : sectionItems (putSection n KeyCurrentContext cc1) KeyCurrentContext =
      cc1.Content := by
    simp only [sectionItems, hs2]
  refine ⟨⟨⟨DocComplete_putSection _ _ _ hd, ?_, ?_, ?_, ?_⟩, ?_, ?_, ?_, ?_⟩, ?_⟩
  · simpa only [SectionKind, hs1] using hk1
  · simpa only [EntriesComplete, hi1] using he1
  · simp only [SectionKind, hs2]; exact hkd
  · simp only [SectionComplete, hi2]; exact hev
  · simpa only [EntriesNamed, hi1] using hnamed
  · rw [hi1]; exact hnd
  · rw [hi2]; exact hnodup hkeys
  · rw [hi1, hi2]
    intro q hq
    rcases hsub q hq with rfl | hq2
    · exact hentry
    · exact hptr q hq2
  · unfold HasEntry
    rw [hi1]; exact hentry


theorem getContext_ok_entry (node : Node) (name : String) (ctx : Context)
    (h : getContext node name = .ok ctx) :
    ∃ e0 ∈ sectionItems node KeyContexts, entryName e0 = name ∧ ctx.Name = name ∧
      ctx.Target = entryTarget e0 := by
  simp only [getContext, convertNodeToClientConfig] at h
  cases hf : ((sectionItems node KeyContexts).map decodeContext).find?
      (fun x => decide (x.Name = name)) with
  | none => rw [hf] at h; cases h
  | some c0 =>
    rw [hf] at h
    simp only [Except.ok.injEq] at h
    subst h
    have hmem := List.mem_of_find?_eq_some hf
    have hp := List.find?_some hf
    obtain ⟨e0, he0, rfl⟩ := List.mem_map.mp hmem
    have hn : (decodeContext e0).Name = name := by simpa using hp
    exact ⟨e0, he0, hn, hn, rfl⟩

theorem pairErase_even : ∀ (l : List Node) (t : String), l.length % 2 = 0 →
    (pairErase l t).length % 2 = 0
  | [], t, _ => by simp [pairErase]
  | [k], t, h => by simp at h
  | k :: v :: rest, t, h => by
    by_cases hk : k.Value = t
    · simp only [pairErase, hk, if_true]; exact even_tail h
    · simp only [pairErase, hk, if_false, List.length_cons]
      have := pairErase_even rest t (even_tail h)
      omega

theorem decodePairs_pairErase_sublist : ∀ (l : List Node) (t : String),
    (decodePairs (pairErase l t)).Sublist (decodePairs l)
  | [], t => by simp [pairErase]
  | [k], t => by simp [pairErase]
  | k :: v :: rest, t => by
    by_cases hk : k.Value = t
    · simp only [pairErase, hk, if_true, decodePairs]
      exact List.sublist_cons_self _ _
    · simp only [pairErase, hk, if_false, decodePairs]
      exact (decodePairs_pairErase_sublist rest t).cons₂ _

theorem not_mem_keys_pairErase : ∀ (l : List Node) (t : String),
    ((decodePairs l).map Prod.fst).Nodup → t ∉ (decodePairs (pairErase l t)).map Prod.fst
  | [], t, _ => by simp [pairErase, decodePairs]
  | [k], t, _ => by simp [pairErase, decodePairs]
  | k :: v :: rest, t, h => by
    simp only [decodePairs, List.map_cons, List.nodup_cons] at h
    by_cases hk : k.Value = t
    · simp only [pairErase, hk, if_true]
      rw [← hk]; exact h.1
    · simp only [pairErase, hk, if_false, decodePairs, List.map_cons, List.mem_cons, not_or]
      exact ⟨fun e => hk e.symm, not_mem_keys_pairErase rest t h.2⟩

theorem not_mem_pairs_of_lookup_ne : ∀ (l : List Node) (t x : String) (v : Node),
    ((decodePairs l).map Prod.fst).Nodup → pairLookup l t = some v → v.Value ≠ x →
    (t, x) ∉ decodePairs l
  | [], t, x, v, _ => by simp [pairLookup]
  | [k], t, x, v, _ => by simp [pairLookup]
  | k :: w :: rest, t, x, v, h => by
    simp only [decodePairs, List.map_cons, List.nodup_cons] at h
    by_cases hk : k.Value = t
    · simp only [pairLookup, hk, if_true, Option.some.injEq, decodePairs, List.mem_cons,
        Prod.mk.injEq, true_and, not_or]
      rintro rfl hne
      refine ⟨fun e => hne e.symm, ?_⟩
      intro hmem
      apply h.1
      rw [hk]
      exact List.mem_map.mpr ⟨(t, x), hmem, rfl⟩
    · simp only [pairLookup, hk, if_false, decodePairs, List.mem_cons, Prod.mk.injEq, not_or]
      intro hl hne
      exact ⟨fun e => hk e.1.symm, not_mem_pairs_of_lookup_ne rest t x v h.2 hl hne⟩

theorem not_mem_pairs_of_not_mem_keys (l : List Node) (t x : String)
    (h : t ∉ (decodePairs l).map Prod.fst) : (t, x) ∉ decodePairs l :=
  fun hmem => h (List.mem_map.mpr ⟨(t, x), hmem, rfl⟩)

/-- The pointers after `removeCurrentContext`, under the invariant. -/
theorem removeCurrentContext_step (node : Node) (ctx : Context) (hinv : DocInv node)
    (n1 : Node) (h : removeCurrentContext node ctx = .ok n1) :
    DocComplete n1 ∧ sectionOf n1 KeyContexts = sectionOf node KeyContexts ∧
    SectionKind n1 KeyCurrentContext MappingNode ∧ SectionComplete n1 KeyCurrentContext ∧
    ((decodePairs (sectionItems n1 KeyCurrentContext)).map Prod.fst).Nodup ∧
    (∀ q ∈ decodePairs (sectionItems n1 KeyCurrentContext),
      q ∈ decodePairs (sectionItems node KeyCurrentContext)) ∧
    (ctx.Target, ctx.Name) ∉ decodePairs (sectionItems n1 KeyCurrentContext) := by
  obtain ⟨⟨hd, _, _, hk2, hc2⟩, _, _, hkeys, _⟩ := hinv
  obtain ⟨root, rest, hc, hroot, hsec⟩ := hyps_of_complete node KeyCurrentContext hd
  have hso : sectionOf node KeyCurrentContext = pairLookup root.Content KeyCurrentContext := by
    simp [sectionOf, hc]
  have hcc : ∀ cc, pairLookup root.Content KeyCurrentContext = some cc →
      cc.Content.length % 2 = 0 := fun cc hl =>
    (section_hyps node root rest _ _ hc hk2 hc2 cc hl).2
  have heq := removeCurrentContext_eq node root rest ctx hc hroot hcc
  rw [heq] at h
  have same : n1 = node →
      DocComplete n1 ∧ sectionOf n1 KeyContexts = sectionOf node KeyContexts ∧
      SectionKind n1 KeyCurrentContext MappingNode ∧ SectionComplete n1 KeyCurrentContext ∧
      ((decodePairs (sectionItems n1 KeyCurrentContext)).map Prod.fst).Nodup ∧
      (∀ q ∈ decodePairs (sectionItems n1 KeyCurrentContext),
        q ∈ decodePairs (sectionItems node KeyCurrentContext)) := by
    rintro rfl
    exact ⟨hd, rfl, hk2, hc2, hkeys, fun q hq => hq⟩
  cases hs : pairLookup root.Content KeyCurrentContext with
  | none =>
    simp only [hs, Except.ok.injEq] at h
    obtain ⟨a, b, c1, d, e, f⟩ := same h.symm
    refine ⟨a, b, c1, d, e, f, ?_⟩
    rw [← h]
    simp [sectionItems, hso, hs, decodePairs]
  | some cc =>
    have hitems : sectionItems node KeyCurrentContext = cc.Content := by
      simp [sectionItems, hso, hs]
    rw [hitems] at hkeys
    simp only [hs] at h
    cases hl : pairLookup cc.Content ctx.Target with
    | none =>
      simp only [hl, Except.ok.injEq] at h
      obtain ⟨a, b, c1, d, e, f⟩ := same h.symm
      refine ⟨a, b, c1, d, e, f, ?_⟩
      rw [← h, hitems]
      apply not_mem_pairs_of_not_mem_keys
      rw [mem_keys_iff, hl]; simp
    | some v =>
      simp only [hl] at h
      by_cases hcond : v.Value = ctx.Name ∨ ctx.Name = ""
      · simp only [hcond, if_true, Except.ok.injEq] at h
        subst h
        have hs2 : sectionOf (putSection node KeyCurrentContext
            (cc.setContent (pairErase cc.Content ctx.Target))) KeyCurrentContext =
            some (cc.setContent (pairErase cc.Content ctx.Target)) := by
          rw [sectionOf_putSection_of_complete _ _ _ _ hd]; simp
        have hi2 : sectionItems (putSection node KeyCurrentContext
            (cc.setContent (pairErase cc.Content ctx.Target))) KeyCurrentContext =
            pairErase cc.Content ctx.Target := by
          simp only [sectionItems, hs2, Node.Content_setContent]
        have hkcc : cc.Kind = MappingNode := (section_hyps node root rest _ _ hc hk2 hc2 cc hs).1
        refine ⟨DocComplete_putSection _ _ _ hd, ?_, ?_, ?_, ?_, ?_, ?_⟩
        · rw [sectionOf_putSection_of_complete _ _ _ _ hd]
          simp [KeyCurrentContext, KeyContexts]
        · simp only [SectionKind, hs2, Node.Kind_setContent]; exact hkcc
        · simp only [SectionComplete, hi2]
          exact pairErase_even _ _ (hcc cc hs)
        · rw [hi2]
          exact List.Nodup.sublist ((decodePairs_pairErase_sublist _ _).map _) hkeys
        · rw [hi2, hitems]
          intro q hq
          exact (decodePairs_pairErase_sublist _ _).subset hq
        · rw [hi2]
          exact not_mem_pairs_of_not_mem_keys _ _ _ (not_mem_keys_pairErase _ _ hkeys)
      · simp only [hcond, if_false, Except.ok.injEq] at h
        obtain ⟨a, b, c1, d, e, f⟩ := same h.symm
        refine ⟨a, b, c1, d, e, f, ?_⟩
        rw [← h, hitems]
        exact not_mem_pairs_of_lookup_ne _ _ _ v hkeys hl (fun e => hcond (Or.inl e))

/-- The steps of `RemoveContext` on the document keep the invariant. -/
theorem remove_step (node : Node) (name : String) (ctx : Context) (hinv : DocInv node)
    (hg : getContext node name = .ok ctx)
    (n1 : Node) (h1 : removeCurrentContext node ctx = .ok n1)
    (n2 : Node) (h2 : removeContext n1 name = .ok n2) : DocInv n2 := by
  obtain ⟨hd1, hsec, hk2, hc2, hkeys1, hsub, hnot⟩ := removeCurrentContext_step node ctx hinv n1 h1
  obtain ⟨⟨hd, hk1, he1, _, _⟩, hnamed, hnd, _, hptr⟩ := hinv
  obtain ⟨e0, he0, hn0, hcn, hct⟩ := getContext_ok_entry node name ctx hg
  have hitems : sectionItems n1 KeyContexts = sectionItems node KeyContexts := by
    simp only [sectionItems, hsec]
  have hent1 : EntriesComplete n1 KeyContexts := by
    simpa only [EntriesComplete, hitems] using he1
  rw [removeContext_eq n1 name hd1 hent1] at h2
  cases hs : sectionOf node KeyContexts with
  | none =>
    simp [sectionItems, hs] at he0
  | some s =>
    have hsi : sectionItems node KeyContexts = s.Content := by
      simp only [sectionItems, hs]
    rw [hsec, hs] at h2
    simp only [Except.ok.injEq] at h2
    subst h2
    have hs1 : sectionOf (putSection n1 KeyContexts
        (s.setContent (entriesWithout name s.Content))) KeyContexts =
        some (s.setContent (entriesWithout name s.Content)) := by
      rw [sectionOf_putSection_of_complete _ _ _ _ hd1]; simp
    have hs2 : sectionOf (putSection n1 KeyContexts
        (s.setContent (entriesWithout name s.Content))) KeyCurrentContext =
        sectionOf n1 KeyCurrentContext := by
      rw [sectionOf_putSection_of_complete _ _ _ _ hd1]
      simp [KeyCurrentContext, KeyContexts]
    have hi1 : sectionItems (putSection n1 KeyContexts
        (s.setContent (entriesWithout name s.Content))) KeyContexts =
        entriesWithout name s.Content := by
      simp only [sectionItems, hs1, Node.Content_setContent]
    have hi2 : sectionItems (putSection n1 KeyContexts
        (s.setContent (entriesWithout name s.Content))) KeyCurrentContext =
        sectionItems n1 KeyCurrentContext := by
      simp only [sectionItems, hs2]
    have hmem : ∀ e ∈ entriesWithout name s.Content, e ∈ sectionItems node KeyContexts := by
      intro e he
      rw [hsi]
      exact (List.mem_filter.mp he).1
    refine ⟨⟨DocComplete_putSection _ _ _ hd1, ?_, ?_, ?_, ?_⟩, ?_, ?_, ?_, ?_⟩
    · simp only [SectionKind, hs1, Node.Kind_setContent]
      simpa only [SectionKind, hs] using hk1
    · simp only [EntriesComplete, hi1]
      exact fun e he => he1 e (hmem e he)
    · simpa only [SectionKind, hs2] using hk2
    · simpa only [SectionComplete, hi2] using hc2
    · simp only [EntriesNamed, hi1]
      exact fun e he => hnamed e (hmem e he)
    · rw [hi1]
      rw [hsi] at hnd
      exact List.Nodup.sublist (List.Sublist.map _ (List.filter_sublist _)) hnd
    · rw [hi2]; exact hkeys1
    · rw [hi1, hi2]
      intro q hq
      obtain ⟨e, he, hn, ht⟩ := hptr q (hsub q hq)
      refine ⟨e, ?_, hn, ht⟩
      have hne : entryName e ≠ name := by
        intro hen
        have heq : e = e0 := List.inj_on_of_nodup_map hnd he he0 (hen.trans hn0.symm)
        apply hnot
        have hq2 : q = (ctx.Target, ctx.Name) := by
          rw [hct, hcn, ← heq, ← hen, hn, ht]
        rw [← hq2]; exact hq
      rw [hsi] at he
      simp only [entriesWithout, List.mem_filter]
      refine ⟨he, ?_⟩
      cases hl : pairLookup e.Content "name" with
      | none => rfl
      | some v =>
        simp only [decide_eq_true_eq]
        simpa [entryName, scalarField, hl] using hne

/-- `SetContext` between the lock and the unlock keeps the invariant of the persisted
document, whether it succeeds or fails, when it does not change the target of an
existing name. -/
theorem SetContextLocked_inv (w : World) (c : Context) (b : Bool)
    (hinv : DocInv w.stored) (hkeep : KeepsTarget w.stored (Op.set c b)) :
    Outcome (SetContextLocked w c b) (fun w1 _ => DocInv w1.stored)
      (fun w1 => DocInv w1.stored) := by
  unfold SetContextLocked
  refine Outcome_andThen _ _ _ _ ?_
  refine Outcome_load _ _ _ ?_ (fun w1 _ hs => by show DocInv w1.stored; rw [hs]; exact hinv)
  intro _ w1 _ hs1
  have hinv1 : DocInv w1.stored := by rw [hs1]; exact hinv
  refine Outcome_pure _ _ _ _ _ (fun _ _ => hinv1) ?_
  rintro ⟨p, n1⟩ hr
  obtain ⟨hI1, hE1⟩ := setContext_step _ _ _ hinv hkeep p n1 hr
  have hrest : ∀ w2 : World, DocInv w2.stored →
      Outcome (andThen (makeCurrent w2 c b n1) fun w node2 => backfillServer w c b node2)
        (fun w1 _ => DocInv w1.stored) (fun w1 => DocInv w1.stored) := by
    intro w2 h2
    have hback : ∀ (w3 : World) (n : Node), DocInv w3.stored → DocInv n →
        Outcome (backfillServer w3 c b n) (fun w1 _ => DocInv w1.stored)
          (fun w1 => DocInv w1.stored) := fun w3 n h3 hn =>
      backfillServer_outcome DocInv (fun n hn => hn.1.1)
        (fun K n1 n2 hK hn hon => DocInv_frame K n1 n2 hK hn hon) w3 c b n h3 hn
    refine Outcome_andThen _ _ _ _ ?_
    unfold makeCurrent
    cases b with
    | false => exact hback w2 n1 h2 hI1
    | true =>
      simp only [if_true]
      refine Outcome_pure _ _ _ _ _ (fun _ _ => h2) ?_
      rintro ⟨p2, n2⟩ hr2
      obtain ⟨hI2, _⟩ := setCurrentContext_step n1 c hI1 hE1 p2 n2 hr2
      refine Outcome_andThen _ _ _ _ ?_
      refine Outcome_persistWhen _ _ _ _ _ (fun _ => hback w2 n2 h2 hI2) ?_ ?_
      · intro _ w3 _ hs3
        exact hback w3 n2 (by rw [hs3]; exact hI2) hI2
      · intro w3 _ hs3
        show DocInv w3.stored
        rw [hs3]; exact h2
  refine Outcome_andThen _ _ _ _ ?_
  refine Outcome_persistWhen _ _ _ _ _ (fun _ => hrest w1 hinv1) ?_ ?_
  · intro _ w2 _ hs2
    exact hrest w2 (by rw [hs2]; exact hI1)
  · intro w2 _ hs2
    show DocInv w2.stored
    rw [hs2]; exact hinv1

/-- `RemoveContext` between the lock and the unlock keeps the invariant of the
persisted document, whether it succeeds or fails. -/
theorem RemoveContextLocked_inv (w : World) (name : String) (hinv : DocInv w.stored) :
    Outcome (RemoveContextLocked w name) (fun w1 _ => DocInv w1.stored)
      (fun w1 => DocInv w1.stored) := by
  unfold RemoveContextLocked
  refine Outcome_andThen _ _ _ _ ?_
  refine Outcome_load _ _ _ ?_ (fun w1 _ hs => by show DocInv w1.stored; rw [hs]; exact hinv)
  intro _ w1 _ hs1
  have hinv1 : DocInv w1.stored := by rw [hs1]; exact hinv
  refine Outcome_pure _ _ _ _ _ (fun _ _ => hinv1) ?_
  intro ctx hg
  refine Outcome_pure _ _ _ _ _ (fun _ _ => hinv1) ?_
  intro n1 h1
  refine Outcome_pure _ _ _ _ _ (fun _ _ => hinv1) ?_
  intro n2 h2
  have hI2 : DocInv n2 := remove_step w.stored name ctx hinv hg n1 h1 n2 h2
  refine Outcome_pure _ _ _ _ _ (fun _ _ => hinv1) ?_
  intro n3 h3
  have hI3 : DocInv n3 := DocInv_frame _ _ _ (Or.inl rfl) hI2
    (removeServer_shape _ _ hI2.1.1 n3 h3)
  refine Outcome_pure _ _ _ _ _ (fun _ _ => hinv1) ?_
  intro n4 h4
  have hI4 : DocInv n4 := DocInv_frame _ _ _ (Or.inr rfl) hI3
    (removeCurrentServer_shape _ _ hI3.1.1 n4 h4)
  refine Outcome_persistConfig _ _ _ _ ?_ ?_
  · intro w2 _ hs2
    show DocInv w2.stored
    rw [hs2]; exact hI4
  · intro w2 _ hs2
    show DocInv w2.stored
    rw [hs2]; exact hinv1

/-- One call of `SetContext` or `RemoveContext` keeps the invariant of the persisted
document. -/
theorem applyOp_inv (w : World) (op : Op) (hinv : DocInv w.stored)
    (hkeep : KeepsTarget w.stored op) : DocInv (applyOp w op).stored := by
  cases op with
  | set c b =>
    have h := SetContextLocked_inv (AcquireTanzuConfigLock w) c b hinv hkeep
    have hr := Outcome_result _ _ _ h
    show DocInv (ReleaseTanzuConfigLock (SetContextLocked (AcquireTanzuConfigLock w) c b).1).stored
    cases hres : (SetContextLocked (AcquireTanzuConfigLock w) c b).2 with
    | ok a => exact hr.1 a hres
    | error e => exact hr.2 e hres
  | remove name =>
    have h := RemoveContextLocked_inv (AcquireTanzuConfigLock w) name hinv
    have hr := Outcome_result _ _ _ h
    show DocInv (ReleaseTanzuConfigLock (RemoveContextLocked (AcquireTanzuConfigLock w) name).1).stored
    cases hres : (RemoveContextLocked (AcquireTanzuConfigLock w) name).2 with
    | ok a => exact hr.1 a hres
    | error e => exact hr.2 e hres

/-- A sequence of calls keeps the invariant of the persisted document. -/
theorem runOps_inv : ∀ (ops : List Op) (w : World), DocInv w.stored → KeepsTargets w ops →
    DocInv (runOps w ops).stored
  | [], _, hinv, _ => hinv
  | op :: ops, w, hinv, hkeep =>
    runOps_inv ops (applyOp w op) (applyOp_inv w op hinv hkeep.1) hkeep.2


/-- C1, counterexample: on the empty document, `SetContext` of `ctx1` for kubernetes as
current, then `SetContext` of `ctx1` for mission-control as current, then
`RemoveContext` of `ctx1`. All three calls succeed; the contexts sequence is then
empty, and the current-context entry of kubernetes still holds `ctx1`. -/
theorem pointer_dangles_after_retarget :
    currentContextOf (runOps (World.fresh emptyDocument)
      [Op.set ctxScenario true, Op.set ctx1Retargeted true, Op.remove "ctx1"]).stored
      TargetK8s = some "ctx1" ∧
    sectionItems (runOps (World.fresh emptyDocument)
      [Op.set ctxScenario true, Op.set ctx1Retargeted true, Op.remove "ctx1"]).stored
      KeyContexts = [] ∧
    ¬ PointersValid (runOps (World.fresh emptyDocument)
      [Op.set ctxScenario true, Op.set ctx1Retargeted true, Op.remove "ctx1"]).stored := by
  have h1 : currentContextOf (runOps (World.fresh emptyDocument)
      [Op.set ctxScenario true, Op.set ctx1Retargeted true, Op.remove "ctx1"]).stored
      TargetK8s = some "ctx1" := by decide
  have h2 : sectionItems (runOps (World.fresh emptyDocument)
      [Op.set ctxScenario true, Op.set ctx1Retargeted true, Op.remove "ctx1"]).stored
      KeyContexts = [] := by rfl
  refine ⟨h1, h2, ?_⟩
  intro h
  obtain ⟨e, he, _⟩ := h TargetK8s "ctx1" h1
  rw [h2] at he
  cases he

/-- C1 (amended): starting from an empty document, after every finite sequence of
successful or failed `SetContext` and `RemoveContext` calls in which no `SetContext`
re-registers an existing name with a different target, for every target whose
current-context entry holds a name, a context with that name exists in the contexts
sequence. -/
theorem pointers_valid_of_keeps_targets (w : World) (ops : List Op)
    (hempty : w.stored = emptyDocument) (hkeep : KeepsTargets w ops) :
    PointersValid (runOps w ops).stored :=
  PointersValid_of_DocInv _
    (runOps_inv ops w (by rw [hempty]; exact DocInv_emptyDocument) hkeep)

/-- C1, witness: on a store whose second persist attempt fails, `ctx1` is set for
kubernetes as current, set again with cluster options, removed, and set again. -/
theorem pointers_valid_of_keeps_targets_witness :
    KeepsTargets worldSecondPersistFails
      [Op.set ctxScenario true, Op.set ctx1Cluster true, Op.remove "ctx1",
       Op.set ctx1Retargeted true] ∧
    PointersValid (runOps worldSecondPersistFails
      [Op.set ctxScenario true, Op.set ctx1Cluster true, Op.remove "ctx1",
       Op.set ctx1Retargeted true]).stored :=
  ⟨by decide, pointers_valid_of_keeps_targets worldSecondPersistFails _ rfl (by decide)⟩


theorem sections_after_putSection (node : Node) (K : String) (sec : Node)
    (hd : DocComplete node) :
    sectionOf (putSection node K sec) K = some sec ∧
    sectionItems (putSection node K sec) K = sec.Content := by
  have h : sectionOf (putSection node K sec) K = some sec := by
    rw [sectionOf_putSection_of_complete _ _ _ _ hd]; simp
  exact ⟨h, by simp only [sectionItems, h]⟩

theorem any_nameIs_false (name : String) (entries : List Node)
    (h : ∀ e ∈ entries, nameIs name e = false) : entries.any (nameIs name) = false := by
  rw [List.any_eq_false]
  intro e he
  simp [h e he]

/-- C11: on a document with complete pairs whose contexts section, when present, is a
sequence, and in which no entry of the contexts sequence has `name` equal to
`ctx.Name`, `setContext` returns persist = true, and the contexts sequence afterwards
is the original sequence followed by one new entry, the mapping of `ctx` (which reads
back as `ctx`); the contexts section is a sequence afterwards, also when the document
had none. -/
theorem setContext_appends_new (md : Except Error PatchStrategies) (node : Node)
    (ctx : Context) (hd : DocComplete node)
    (hkind : SectionKind node KeyContexts SequenceNode)
    (hent : EntriesComplete node KeyContexts)
    (hnew : ∀ e ∈ sectionItems node KeyContexts, nameIs ctx.Name e = false) :
    ∃ node1, setContext md node ctx = .ok (true, node1) ∧
      sectionItems node1 KeyContexts = sectionItems node KeyContexts ++ [encodeContext ctx] ∧
      (sectionOf node1 KeyContexts).map Node.Kind = some SequenceNode ∧
      decodeContext (encodeContext ctx) = ctx := by
  obtain ⟨p, sec1, h1, hk, hcont, hp⟩ := setContext_shape md node ctx hd hkind hent
  have hany := any_nameIs_false ctx.Name _ hnew
  obtain ⟨hs, hi⟩ := sections_after_putSection node KeyContexts sec1 hd
  refine ⟨putSection node KeyContexts sec1, ?_, ?_, ?_, decode_encode_context ctx⟩
  · rw [h1, hp hany]
  · rw [hi, hcont]
    simp only [contextsAfterSet, hany, Bool.false_eq_true, if_false]
  · rw [hs]; simp [hk]

/-- C11, witness: `ctx3` is set on `docTwoContexts`, and on the empty document. -/
theorem setContext_appends_new_witness :
    (∃ node1, setContext (.ok []) docTwoContexts ⟨"ctx3", TargetK8s, none, none, []⟩ =
        .ok (true, node1) ∧
      sectionItems node1 KeyContexts = sectionItems docTwoContexts KeyContexts ++
        [encodeContext ⟨"ctx3", TargetK8s, none, none, []⟩]) ∧
    (∃ node1, setContext (.ok []) emptyDocument ⟨"ctx3", TargetK8s, none, none, []⟩ =
        .ok (true, node1) ∧
      sectionItems node1 KeyContexts = [encodeContext ⟨"ctx3", TargetK8s, none, none, []⟩]) := by
  obtain ⟨n1, h1, h2, _⟩ := setContext_appends_new (.ok []) docTwoContexts
    ⟨"ctx3", TargetK8s, none, none, []⟩ (by decide) (by decide) (by decide) (by decide)
  obtain ⟨n2, h3, h4, _⟩ := setContext_appends_new (.ok []) emptyDocument
    ⟨"ctx3", TargetK8s, none, none, []⟩ (by decide) (by decide) (by decide) (by decide)
  exact ⟨⟨n1, h1, h2⟩, ⟨n2, h3, h4⟩⟩

theorem setContext_kind_mismatch (md : Except Error PatchStrategies) (node : Node)
    (ctx : Context) (hd : DocComplete node)
    (hkind : ¬ SectionKind node KeyContexts SequenceNode) :
    setContext md node ctx = .ok (false, node) := by
  obtain ⟨root, rest, hc, hroot⟩ := root_of_complete node hd
  cases hs : pairLookup root.Content KeyContexts with
  | none => simp [SectionKind, sectionOf, hc, hs] at hkind
  | some sec =>
    simp only [SectionKind, sectionOf, hc, hs] at hkind
    obtain ⟨j, hj, _⟩ := keyIndex_get_of_lookup hs
    have hF : FindNode root true [⟨KeyContexts, SequenceNode⟩] = none := by
      rw [FindNode_single root true ⟨KeyContexts, SequenceNode⟩ hroot]
      simp only [hj, hs]
      simp [hkind]
    simp only [setContext, convertContextToNode, hc, hF]

theorem nameKey_eq_iff (name : String) (e : Node) :
    nameKey e = some name ↔ nameIs name e = true := by
  simp [nameKey, nameIs]

theorem filterMap_nameKey_contextsAfterSet (ps : PatchStrategies) (c : Context)
    (entries : List Node) (hev : ∀ e ∈ entries, e.Content.length % 2 = 0) :
    (contextsAfterSet ps c entries).filterMap nameKey =
      if entries.any (nameIs c.Name) then entries.filterMap nameKey
      else entries.filterMap nameKey ++ [c.Name] := by
  unfold contextsAfterSet
  cases hany : entries.any (nameIs c.Name) with
  | false =>
    have := (EntryOf_encodeContext c).2.1
    simp [nameKey, this]
  | true =>
    simp only [if_true, List.filterMap_map]
    apply List.filterMap_congr
    intro e he
    by_cases hn : nameIs c.Name e = true
    · have hE := EntryOf_patchOf ps c e (hev e he)
      simp only [Function.comp, hn, if_true]
      rw [(nameKey_eq_iff c.Name e).mpr hn]
      exact hE.2.1
    · simp [Function.comp, hn]

/-- C13: name uniqueness is kept. On a document with complete pairs in which no two
entries of the contexts sequence share a `name`, no two entries share a `name` after
`setContext` for any context, and after `removeContext` for any name. -/
theorem names_unique_preserved (md : Except Error PatchStrategies) (node : Node)
    (ctx : Context) (name : String) (hd : DocComplete node)
    (hent : EntriesComplete node KeyContexts) (hu : NamesUnique node) :
    (∀ p node1, setContext md node ctx = .ok (p, node1) → NamesUnique node1) ∧
    (∀ node1, removeContext node name = .ok node1 → NamesUnique node1) := by
  constructor
  · intro p node1 h
    by_cases hkind : SectionKind node KeyContexts SequenceNode
    · obtain ⟨p1, sec1, h1, _, hcont, _⟩ := setContext_shape md node ctx hd hkind hent
      rw [h1] at h
      simp only [Except.ok.injEq, Prod.mk.injEq] at h
      obtain ⟨_, rfl⟩ := h
      obtain ⟨_, hi⟩ := sections_after_putSection node KeyContexts sec1 hd
      unfold NamesUnique at hu ⊢
      rw [hi, hcont, filterMap_nameKey_contextsAfterSet _ _ _ hent]
      cases hany : (sectionItems node KeyContexts).any (nameIs ctx.Name) with
      | true => simpa using hu
      | false =>
        simp only [Bool.false_eq_true, if_false]
        refine List.Nodup.append hu (by simp) ?_
        intro a ha hb
        simp only [List.mem_singleton] at hb
        subst hb
        obtain ⟨e, he, hk⟩ := List.mem_filterMap.mp ha
        have h1 := (nameKey_eq_iff _ e).mp hk
        have h2 := List.any_eq_false.mp hany e he
        exact h2 h1
    · rw [setContext_kind_mismatch md node ctx hd hkind] at h
      simp only [Except.ok.injEq, Prod.mk.injEq] at h
      rw [← h.2]; exact hu
  · intro node1 h
    rw [removeContext_eq node name hd hent] at h
    cases hs : sectionOf node KeyContexts with
    | none =>
      simp only [hs, Except.ok.injEq] at h
      rw [← h]; exact hu
    | some s =>
      simp only [hs, Except.ok.injEq] at h
      subst h
      obtain ⟨_, hi⟩ := sections_after_putSection node KeyContexts
        (s.setContent (entriesWithout name s.Content)) hd
      unfold NamesUnique at hu ⊢
      rw [hi]
      simp only [sectionItems, hs] at hu
      simp only [Node.Content_setContent, entriesWithout]
      exact List.Nodup.sublist (List.Sublist.filterMap _ (List.filter_sublist _)) hu

/-- C13, witness: `ctx1` is set again on `docTwoContexts`, and `ctx2` is removed. -/
theorem names_unique_preserved_witness :
    NamesUnique docTwoContexts ∧
    (∀ p node1, setContext (.ok []) docTwoContexts ctx1Cluster = .ok (p, node1) →
      NamesUnique node1) ∧
    (∀ node1, removeContext docTwoContexts "ctx2" = .ok node1 → NamesUnique node1) :=
  ⟨by decide, names_unique_preserved (.ok []) docTwoContexts ctx1Cluster "ctx2" (by decide)
    (by decide) (by decide)⟩


theorem setCurrentContext_kind_mismatch (node : Node) (ctx : Context) (hd : DocComplete node)
    (hkind : ¬ SectionKind node KeyCurrentContext MappingNode) :
    setCurrentContext node ctx = .error .ErrNodeNotFound := by
  obtain ⟨root, rest, hc, hroot⟩ := root_of_complete node hd
  cases hs : pairLookup root.Content KeyCurrentContext with
  | none => simp [SectionKind, sectionOf, hc, hs] at hkind
  | some sec =>
    simp only [SectionKind, sectionOf, hc, hs] at hkind
    obtain ⟨j, hj, _⟩ := keyIndex_get_of_lookup hs
    have hF : FindNode root true [⟨KeyCurrentContext, MappingNode⟩] = none := by
      rw [FindNode_single root true ⟨KeyCurrentContext, MappingNode⟩ hroot]
      simp only [hj, hs]
      simp [hkind]
    simp only [setCurrentContext, hc, hF]

/-- The pointers of the other targets after `setCurrentContext`. -/
theorem setCurrentContext_other_targets (node : Node) (ctx : Context)
    (hd : DocComplete node)
    (hkind : SectionKind node KeyCurrentContext MappingNode)
    (hcomp : SectionComplete node KeyCurrentContext)
    (p : Bool) (node1 : Node) (h : setCurrentContext node ctx = .ok (p, node1)) :
    ∀ t, t ≠ ctx.Target → currentContextOf node1 t = currentContextOf node t := by
  intro t ht
  obtain ⟨root, rest, hc, hroot⟩ := root_of_complete node hd
  have hsh := section_hyps node root rest _ _ hc hkind hcomp
  cases hs : pairLookup root.Content KeyCurrentContext with
  | none =>
    rw [setCurrentContext_absent node root rest ctx hc hroot hs] at h
    simp only [Except.ok.injEq, Prod.mk.injEq] at h
    obtain ⟨_, rfl⟩ := h
    have hl1 : pairLookup (root.Content ++ [Node.mk ScalarNode 0 KeyCurrentContext [],
          Node.mk MappingNode 0 "" (CreateScalarNode ctx.Target ctx.Name)]) KeyCurrentContext
        = some (Node.mk MappingNode 0 "" (CreateScalarNode ctx.Target ctx.Name)) := by
      rw [pairLookup_append_pair _ _ _ _ hroot, hs]; simp [Node.Value]
    simp only [currentContextOf, sectionOf, withNewCurrentContext, Node.Content_setContent,
      hl1, hc, hs, Option.map_some', Option.map_none', Node.Content_mk]
    simp [CreateScalarNode, pairLookup, Node.Value, Ne.symm ht]
  | some cc =>
    obtain ⟨hk, hev⟩ := hsh cc hs
    have hs0 : sectionOf node KeyCurrentContext = some cc := by
      simp only [sectionOf, hc, hs]
    rw [setCurrentContext_present node root rest ctx cc hc hroot hs hk hev] at h
    cases hl : pairLookup cc.Content ctx.Target with
    | none =>
      simp only [hl, Except.ok.injEq, Prod.mk.injEq] at h
      obtain ⟨_, rfl⟩ := h
      simp only [currentContextOf, sectionOf_updateSection, hs0, if_true, Option.map_some',
        Node.Content_setContent, CreateScalarNode]
      rw [pairLookup_append_pair _ _ _ _ hev]
      cases pairLookup cc.Content t <;> simp [Node.Value, Ne.symm ht]
    | some v =>
      simp only [hl] at h
      by_cases hv : v.Value = ctx.Name
      · simp only [hv, ne_eq, not_true_eq_false, if_false, Except.ok.injEq, Prod.mk.injEq] at h
        rw [← h.2]
      · simp only [hv, ne_eq, not_false_eq_true, if_true, Except.ok.injEq, Prod.mk.injEq] at h
        obtain ⟨_, rfl⟩ := h
        simp only [currentContextOf, sectionOf_updateSection, hs0, if_true, Option.map_some',
          Node.Content_setContent, pairLookup_pairUpdate]
        rw [if_neg ht]

/-- The current-server value after `setCurrentServer`. -/
theorem setCurrentServer_value (node : Node) (name : String) (hd : DocComplete node)
    (p : Bool) (node1 : Node) (h : setCurrentServer node name = .ok (p, node1)) :
    currentServerOf node1 = name ∧ (p = false → currentServerOf node = name) := by
  obtain ⟨root, rest, hc, hroot⟩ := root_of_complete node hd
  simp only [setCurrentServer, hc] at h
  cases hF : FindNode root true [⟨KeyCurrentServer, ScalarNode⟩] with
  | none => simp [hF] at h
  | some r =>
    obtain ⟨root1, path⟩ := r
    obtain ⟨sec, hat, hset, hsame, hcase⟩ := focus_doc node root rest true KeyCurrentServer
      ScalarNode hc hroot root1 path hF
    simp only [hF, hat] at h
    have hval : currentServerOf node = sec.Value := by
      rcases hcase with ⟨hs, _⟩ | ⟨hs, _, _, _, hv⟩
      · simp [currentServerOf, hs]
      · simp [currentServerOf, hs, hv]
    split at h
    · simp only [Except.ok.injEq, Prod.mk.injEq] at h
      obtain ⟨rfl, rfl⟩ := h
      rw [hset]
      refine ⟨?_, by simp⟩
      simp [currentServerOf, (sections_after_putSection node KeyCurrentServer _ hd).1]
    · rename_i hv
      simp only [ne_eq, not_not] at hv
      simp only [Except.ok.injEq, Prod.mk.injEq] at h
      obtain ⟨rfl, rfl⟩ := h
      rw [hsame]
      refine ⟨?_, fun _ => by rw [hval, hv]⟩
      simp [currentServerOf, (sections_after_putSection node KeyCurrentServer _ hd).1, hv]

theorem currentServerOf_OnlySection {K : String} {n1 n2 : Node} (h : OnlySection K n1 n2)
    (hd : DocComplete n1) (hne : KeyCurrentServer ≠ K) :
    currentServerOf n2 = currentServerOf n1 := by
  simp only [currentServerOf, OnlySection_sectionOf h hd hne]

/-- C15: when the persisted document holds no context with that name (and the load
succeeds), `SetCurrentContext` returns "context <name> not found", makes no persist
attempt (the trace gains the lock, the load and the unlock only) and leaves both
stored documents unchanged, hence the current-context mapping and the current-server
value. -/
theorem SetCurrentContext_not_found (w : World) (name : String)
    (hload : w.loadError = none)
    (hno : ∀ c ∈ (sectionItems w.stored KeyContexts).map decodeContext, c.Name ≠ name) :
    (SetCurrentContext w name).2 = .error (.Errorf "context %v not found" name) ∧
    (SetCurrentContext w name).1.trace =
      w.trace ++ [Event.lock, Event.load w.unified, Event.unlock] ∧
    (SetCurrentContext w name).1.legacy = w.legacy ∧
    (SetCurrentContext w name).1.nextGen = w.nextGen ∧
    (∀ t, currentContextOf (SetCurrentContext w name).1.stored t = currentContextOf w.stored t) ∧
    currentServerOf (SetCurrentContext w name).1.stored = currentServerOf w.stored := by
  have hg : getContext w.stored name = .error (.Errorf "context %v not found" name) := by
    apply getContext_not_found_of
    intro e he
    exact hno (decodeContext e) (List.mem_map_of_mem _ he)
  have hstored : (AcquireTanzuConfigLock w).stored = w.stored := rfl
  have hunif : (AcquireTanzuConfigLock w).unified = w.unified := rfl
  have hle : (AcquireTanzuConfigLock w).loadError = none := hload
  have h1 : getClientConfigNodeNoLock (AcquireTanzuConfigLock w) =
      ({ AcquireTanzuConfigLock w with
          trace := (AcquireTanzuConfigLock w).trace ++ [Event.load w.unified] },
        .ok w.stored) := by
    rw [getClientConfigNodeNoLock_eq]
    simp only [hle, hstored, hunif]
  have h2 : SetCurrentContextLocked (AcquireTanzuConfigLock w) name =
      ({ AcquireTanzuConfigLock w with
          trace := (AcquireTanzuConfigLock w).trace ++ [Event.load w.unified] },
        .error (.Errorf "context %v not found" name)) := by
    unfold SetCurrentContextLocked
    rw [h1]
    simp only [andThen, hg]
  have h3 : SetCurrentContext w name =
      (ReleaseTanzuConfigLock { AcquireTanzuConfigLock w with
          trace := (AcquireTanzuConfigLock w).trace ++ [Event.load w.unified] },
        .error (.Errorf "context %v not found" name)) := by
    unfold SetCurrentContext
    rw [h2]
  rw [h3]
  refine ⟨rfl, ?_, rfl, rfl, fun _ => rfl, rfl⟩
  simp [ReleaseTanzuConfigLock, AcquireTanzuConfigLock]

/-- C15, witness: making `ctx3` current on a store holding `docTwoContexts`. -/
theorem SetCurrentContext_not_found_witness :
    (SetCurrentContext (World.fresh docTwoContexts) "ctx3").2 =
      .error (.Errorf "context %v not found" "ctx3") ∧
    (SetCurrentContext (World.fresh docTwoContexts) "ctx3").1.trace =
      [Event.lock, Event.load false, Event.unlock] ∧
    (SetCurrentContext (World.fresh docTwoContexts) "ctx3").1.legacy = docTwoContexts :=
  have h := SetCurrentContext_not_found (World.fresh docTwoContexts) "ctx3" rfl (by decide)
  ⟨h.1, h.2.1, h.2.2.1⟩

theorem SetCurrentContextLocked_outcome (w : World) (name : String) (ctx : Context)
    (hd : DocComplete w.stored) (hcomp : SectionComplete w.stored KeyCurrentContext)
    (hctx : getContext w.stored name = .ok ctx) :
    Outcome (SetCurrentContextLocked w name)
      (fun w1 _ => PointerSet w.stored name ctx.Target w1.stored) (fun _ => True) := by
  have hname : ctx.Name = name := by
    obtain ⟨_, _, _, h, _⟩ := getContext_ok_entry _ _ _ hctx
    exact h
  unfold SetCurrentContextLocked
  refine Outcome_andThen _ _ _ _ ?_
  refine Outcome_load _ _ _ ?_ (fun _ _ _ => trivial)
  intro _ w1 _ hs1
  refine Outcome_pure _ _ _ _ _ (fun _ _ => trivial) ?_
  intro c hc
  rw [hctx] at hc
  simp only [Except.ok.injEq] at hc
  subst hc
  refine Outcome_pure _ _ _ _ _ (fun _ _ => trivial) ?_
  rintro ⟨p, n1⟩ h1
  by_cases hkind : SectionKind w.stored KeyCurrentContext MappingNode
  swap
  · rw [setCurrentContext_kind_mismatch _ _ hd hkind] at h1
    cases h1
  have hother := setCurrentContext_other_targets _ _ hd hkind hcomp p n1 h1
  obtain ⟨p0, cc1, h0, _, _, hlook, _, hunch, _⟩ := setCurrentContext_shape w.stored ctx hd
    hkind hcomp
  rw [h0] at h1
  simp only [Except.ok.injEq, Prod.mk.injEq] at h1
  obtain ⟨rfl, rfl⟩ := h1
  have hd1 : DocComplete (putSection w.stored KeyCurrentContext cc1) :=
    DocComplete_putSection _ _ _ hd
  have hon : OnlySection KeyCurrentContext w.stored (putSection w.stored KeyCurrentContext cc1) :=
    Or.inr ⟨cc1, rfl⟩
  have hcur : currentContextOf (putSection w.stored KeyCurrentContext cc1) ctx.Target =
      some name := by
    simp only [currentContextOf, (sections_after_putSection _ KeyCurrentContext cc1 hd).1]
    rw [← hname]; exact hlook
  have hsrv : currentServerOf (putSection w.stored KeyCurrentContext cc1) =
      currentServerOf w.stored :=
    currentServerOf_OnlySection hon hd (by decide)
  have hrest : ∀ w2 : World, w2.stored = putSection w.stored KeyCurrentContext cc1 →
      Outcome (if ctx.Target = TargetK8s then
          andThen (w2, setCurrentServer (putSection w.stored KeyCurrentContext cc1) name)
            fun w r2 => andThen (persistWhen r2.1 w r2.2) fun w _ => (w, Except.ok ())
        else (w2, Except.ok ()))
        (fun w1 _ => PointerSet w.stored name ctx.Target w1.stored) (fun _ => True) := by
    intro w2 hs2
    split
    · rename_i hk8s
      refine Outcome_pure _ _ _ _ _ (fun _ _ => trivial) ?_
      rintro ⟨p2, n2⟩ h2
      obtain ⟨hv2, hv1⟩ := setCurrentServer_value _ _ hd1 p2 n2 h2
      have hon2 := setCurrentServer_shape _ _ hd1 p2 n2 h2
      refine Outcome_andThen _ _ _ _ ?_
      refine Outcome_persistWhen _ _ _ _ _ ?_ ?_ (fun _ _ _ => trivial)
      · intro hp
        show PointerSet _ _ _ w2.stored
        rw [hs2]
        exact ⟨hcur, hother, fun _ => hv1 hp, fun h => absurd hk8s h⟩
      · intro _ w3 _ hs3
        show PointerSet _ _ _ w3.stored
        rw [hs3]
        refine ⟨?_, ?_, fun _ => hv2, fun h => absurd hk8s h⟩
        · rw [currentContextOf_OnlySection hon2 hd1 (by decide)]; exact hcur
        · intro t ht
          rw [currentContextOf_OnlySection hon2 hd1 (by decide)]; exact hother t ht
    · rename_i hk8s
      show PointerSet _ _ _ w2.stored
      rw [hs2]
      exact ⟨hcur, hother, fun h => absurd h hk8s, fun _ => hsrv⟩
  refine Outcome_andThen _ _ _ _ ?_
  refine Outcome_persistWhen _ _ _ _ _ ?_ ?_ (fun _ _ _ => trivial)
  · intro hp
    exact hrest w1 (by rw [hs1, hunch hp])
  · intro _ w2 _ hs2
    exact hrest w2 hs2

/-- C16: on a persisted document with complete pairs that holds a context named `name`
with target `ctx.Target`, a successful `SetCurrentContext` leaves the current-context
entry of that target equal to `name` and the entry of every other target unchanged;
the legacy current-server is `name` afterwards when the target is kubernetes, and is
unchanged for every other target. -/
theorem SetCurrentContext_sets_pointer (w : World) (name : String) (ctx : Context)
    (hd : DocComplete w.stored) (hcomp : SectionComplete w.stored KeyCurrentContext)
    (hctx : getContext w.stored name = .ok ctx)
    (hok : (SetCurrentContext w name).2 = .ok ()) :
    currentContextOf (SetCurrentContext w name).1.stored ctx.Target = some name ∧
    (∀ t, t ≠ ctx.Target →
      currentContextOf (SetCurrentContext w name).1.stored t = currentContextOf w.stored t) ∧
    (ctx.Target = TargetK8s → currentServerOf (SetCurrentContext w name).1.stored = name) ∧
    (ctx.Target ≠ TargetK8s →
      currentServerOf (SetCurrentContext w name).1.stored = currentServerOf w.stored) := by
  have h := SetCurrentContextLocked_outcome (AcquireTanzuConfigLock w) name ctx hd hcomp hctx
  exact (Outcome_result _ _ _ h).1 () hok

/-- C16, witness: `ctx2` (mission-control) is made current on a store holding
`docTwoContexts`, and `ctx1` (kubernetes) likewise. -/
theorem SetCurrentContext_sets_pointer_witness :
    (currentContextOf (SetCurrentContext (World.fresh docTwoContexts) "ctx1").1.stored
        TargetK8s = some "ctx1" ∧
      currentServerOf (SetCurrentContext (World.fresh docTwoContexts) "ctx1").1.stored =
        "ctx1") ∧
    getContext docTwoContexts "ctx1" = .ok ctx1 :=
  have h := SetCurrentContext_sets_pointer (World.fresh docTwoContexts) "ctx1" ctx1
    (by decide) (by decide) rfl rfl
  ⟨⟨h.1, h.2.2.1 rfl⟩, rfl⟩


theorem StoreSteps_refl (w : World) : StoreSteps w w :=
  ⟨[], by simp, by simp⟩

theorem StoreSteps_trans {w1 w2 w3 : World} (h12 : StoreSteps w1 w2) (h23 : StoreSteps w2 w3) :
    StoreSteps w1 w3 := by
  obtain ⟨e1, ht1, hs1⟩ := h12
  obtain ⟨e2, ht2, hs2⟩ := h23
  refine ⟨e1 ++ e2, by rw [ht2, ht1, List.append_assoc], ?_⟩
  intro e he
  rcases List.mem_append.mp he with h | h
  · exact hs1 e h
  · exact hs2 e h

theorem StoreSteps_persistConfig (w : World) (node : Node) :
    StoreSteps w (persistConfig w node).1 := by
  unfold persistConfig
  have key : ∀ b, ∀ e ∈ [Event.persist w.unified b], e.isStoreStep = true := by
    intro b e he
    rw [List.mem_singleton.mp he]; rfl
  cases hf : w.persistFails with
  | nil =>
    cases hu : w.unified
    · exact ⟨[Event.persist false true], by simp [hu], by simpa [hu] using key true⟩
    · exact ⟨[Event.persist true true], by simp [hu], by simpa [hu] using key true⟩
  | cons b bs =>
    cases b
    · cases hu : w.unified
      · exact ⟨[Event.persist false true], by simp [hu], by simpa [hu] using key true⟩
      · exact ⟨[Event.persist true true], by simp [hu], by simpa [hu] using key true⟩
    · exact ⟨[Event.persist w.unified false], by simp, key false⟩

theorem StoreSteps_persistWhen (p : Bool) (w : World) (node : Node) :
    StoreSteps w (persistWhen p w node).1 := by
  unfold persistWhen
  cases p
  · exact StoreSteps_refl w
  · exact StoreSteps_persistConfig w node

theorem StoreSteps_andThen {α β : Type} (w : World) (r : World × Except Error α)
    (f : World → α → World × Except Error β)
    (hr : StoreSteps w r.1) (hf : ∀ w1 a, StoreSteps w1 (f w1 a).1) :
    StoreSteps w (andThen r f).1 := by
  obtain ⟨w1, res⟩ := r
  cases res with
  | error e => exact hr
  | ok a => exact StoreSteps_trans hr (hf w1 a)

theorem StoreSteps_pure {α β : Type} (w : World) (x : Except Error α)
    (f : World → α → World × Except Error β)
    (hf : ∀ w1 a, StoreSteps w1 (f w1 a).1) :
    StoreSteps w (andThen (w, x) f).1 :=
  StoreSteps_andThen w (w, x) f (StoreSteps_refl w) hf

/-- A body that loads the document first and then takes only store steps, run between
`AcquireTanzuConfigLock` and `ReleaseTanzuConfigLock`, is a single lock window. -/
theorem window_of_body {α : Type} (w : World) (f : World → Node → World × Except Error α)
    (hf : ∀ w1 node, StoreSteps w1 (f w1 node).1) :
    ∃ evs, (ReleaseTanzuConfigLock
        (andThen (getClientConfigNodeNoLock (AcquireTanzuConfigLock w)) f).1).trace =
      w.trace ++ evs ∧ SingleLockWindow evs := by
  have hunif : (AcquireTanzuConfigLock w).unified = w.unified := rfl
  have htr : (AcquireTanzuConfigLock w).trace = w.trace ++ [Event.lock] := rfl
  generalize AcquireTanzuConfigLock w = w0 at hunif htr ⊢
  rw [getClientConfigNodeNoLock_eq]
  cases w0.loadError with
  | some e =>
    refine ⟨[Event.lock, Event.load w.unified, Event.unlock], ?_, w.unified, [], rfl, by simp⟩
    simp [andThen, ReleaseTanzuConfigLock, htr, hunif]
  | none =>
    obtain ⟨steps, ht, hs⟩ := hf { w0 with loadError := none
                                           trace := w0.trace ++ [Event.load w0.unified] }
      w0.stored
    refine ⟨Event.lock :: Event.load w.unified :: steps ++ [Event.unlock], ?_,
      w.unified, steps, rfl, hs⟩
    simp only [andThen, ReleaseTanzuConfigLock]
    rw [ht]
    simp [htr, hunif]

theorem StoreSteps_backfillServer (w : World) (c : Context) (setCurrent : Bool) (node : Node) :
    StoreSteps w (backfillServer w c setCurrent node).1 := by
  unfold backfillServer
  refine StoreSteps_pure _ _ _ ?_
  intro w5 r3
  refine StoreSteps_andThen _ _ _ (StoreSteps_persistWhen _ _ _) ?_
  intro w6 _
  split
  · refine StoreSteps_pure _ _ _ ?_
    intro w7 r4
    refine StoreSteps_andThen _ _ _ (StoreSteps_persistWhen _ _ _) ?_
    intro w8 _
    exact StoreSteps_refl _
  · exact StoreSteps_refl _

theorem StoreSteps_makeCurrent (w : World) (c : Context) (setCurrent : Bool) (node : Node) :
    StoreSteps w (makeCurrent w c setCurrent node).1 := by
  unfold makeCurrent
  cases setCurrent
  · exact StoreSteps_refl _
  · simp only [if_true]
    refine StoreSteps_pure _ _ _ ?_
    intro w4 r2
    refine StoreSteps_andThen _ _ _ (StoreSteps_persistWhen _ _ _) ?_
    intro w5 _
    exact StoreSteps_refl _

/-- C17: single lock window. In every execution of `SetContext`, `RemoveContext`,
`SetCurrentContext` and `RemoveCurrentContext`, whatever it returns, the events of the
call are: the lock, then the load of the document, then loads and persist attempts
only, then the unlock; so the lock is taken once before the load, every load and every
persist attempt lies inside the window, and the lock is released once at the end. -/
theorem single_lock_window (w : World) (c : Context) (setCurrent : Bool) (name : String)
    (target : Target) :
    (∃ evs, (SetContext w c setCurrent).1.trace = w.trace ++ evs ∧ SingleLockWindow evs) ∧
    (∃ evs, (RemoveContext w name).1.trace = w.trace ++ evs ∧ SingleLockWindow evs) ∧
    (∃ evs, (SetCurrentContext w name).1.trace = w.trace ++ evs ∧ SingleLockWindow evs) ∧
    (∃ evs, (RemoveCurrentContext w target).1.trace = w.trace ++ evs ∧
      SingleLockWindow evs) := by
  refine ⟨?_, ?_, ?_, ?_⟩
  · unfold SetContext SetContextLocked
    apply window_of_body
    intro w1 node
    refine StoreSteps_pure _ _ _ ?_
    intro w2 r
    refine StoreSteps_andThen _ _ _ (StoreSteps_persistWhen _ _ _) ?_
    intro w3 _
    refine StoreSteps_andThen _ _ _ (StoreSteps_makeCurrent _ _ _ _) ?_
    intro w4 node2
    exact StoreSteps_backfillServer _ _ _ _
  · unfold RemoveContext RemoveContextLocked
    apply window_of_body
    intro w1 node
    refine StoreSteps_pure _ _ _ ?_
    intro w2 ctx
    refine StoreSteps_pure _ _ _ ?_
    intro w3 n1
    refine StoreSteps_pure _ _ _ ?_
    intro w4 n2
    refine StoreSteps_pure _ _ _ ?_
    intro w5 n3
    refine StoreSteps_pure _ _ _ ?_
    intro w6 n4
    exact StoreSteps_persistConfig _ _
  · unfold SetCurrentContext SetCurrentContextLocked
    apply window_of_body
    intro w1 node
    refine StoreSteps_pure _ _ _ ?_
    intro w2 ctx
    refine StoreSteps_pure _ _ _ ?_
    intro w3 r
    refine StoreSteps_andThen _ _ _ (StoreSteps_persistWhen _ _ _) ?_
    intro w4 _
    split
    · refine StoreSteps_pure _ _ _ ?_
      intro w5 r2
      refine StoreSteps_andThen _ _ _ (StoreSteps_persistWhen _ _ _) ?_
      intro w6 _
      exact StoreSteps_refl _
    · exact StoreSteps_refl _
  · unfold RemoveCurrentContext RemoveCurrentContextLocked
    apply window_of_body
    intro w1 node
    refine StoreSteps_pure _ _ _ ?_
    intro w2 ctx
    refine StoreSteps_pure _ _ _ ?_
    intro w3 n1
    refine StoreSteps_pure _ _ _ ?_
    intro w4 n2
    exact StoreSteps_persistConfig _ _


/-- C18: when the path of the config file resolves and the file cannot be read or has
zero length, `getClientConfigNoLock` returns no error and yields the document of
`newClientConfigNode`: the node that `convertClientConfigToNode` builds for the empty
`ClientConfig`, with the style of its root set to 0. -/
theorem getClientConfigNoLock_unreadable (fs : ConfigFile) (path : String)
    (node root : Node) (rest : List Node)
    (hpath : fs.ClientConfigPath = .ok path)
    (hread : (∃ e, fs.ReadFile path = .error e) ∨
      (∃ bytes, fs.ReadFile path = .ok bytes ∧ bytes.length = 0))
    (hconv : fs.convertClientConfigToNode ClientConfig.empty = (some node, none))
    (hnode : node.Content = root :: rest) :
    getClientConfigNoLock fs = .ok (node.setContent (root.setStyle 0 :: rest)) ∧
    newClientConfigNode fs = .ok (node.setContent (root.setStyle 0 :: rest)) ∧
    (root.setStyle 0).Style = 0 := by
  have hnew : newClientConfigNode fs = .ok (node.setContent (root.setStyle 0 :: rest)) := by
    simp only [newClientConfigNode, hconv, hnode]
  refine ⟨?_, hnew, ?_⟩
  · rcases hread with ⟨e, he⟩ | ⟨bytes, hb, hlen⟩
    · simp only [getClientConfigNoLock, hpath, he, hnew]
    · simp only [getClientConfigNoLock, hpath, hb, hlen, hnew, if_true]
  · obtain ⟨k, s, v, c⟩ := root
    rfl

/-- C18, witness: a missing file, and a file of zero length; the result is the empty
document. -/
theorem getClientConfigNoLock_unreadable_witness :
    getClientConfigNoLock (fileWith (.error (.external "no such file"))) = .ok emptyDocument ∧
    getClientConfigNoLock (fileWith (.ok "")) = .ok emptyDocument :=
  ⟨(getClientConfigNoLock_unreadable (fileWith (.error (.external "no such file")))
      "config.yaml" _ _ _ rfl (Or.inl ⟨_, rfl⟩) rfl rfl).1,
   (getClientConfigNoLock_unreadable (fileWith (.ok "")) "config.yaml" _ _ _ rfl
      (Or.inr ⟨"", rfl, rfl⟩) rfl rfl).1⟩

/-- C19, counterexample: the file holds `a: b: c`, which does not parse; the call
returns the wrapped parse error, not a fresh empty document. -/
theorem getClientConfigNoLock_malformed_fails :
    (fileWith (.ok "a: b: c")).Unmarshal "a: b: c" =
      .error (.external "yaml: did not find expected key") ∧
    getClientConfigNoLock (fileWith (.ok "a: b: c")) =
      .error (.Wrapf "getClientConfigNodeNoLock: failed to construct struct from config data"
        (.external "yaml: did not find expected key")) ∧
    getClientConfigNoLock (fileWith (.ok "a: b: c")) ≠ .ok emptyDocument := by
  refine ⟨rfl, rfl, ?_⟩
  intro h
  cases h

/-- C19 (amended): for every backing file whose non-empty content cannot be parsed,
`getClientConfigNoLock` does not recover: it returns no document and the parse error
wrapped as "getClientConfigNodeNoLock: failed to construct struct from config data". -/
theorem getClientConfigNoLock_malformed (fs : ConfigFile) (path bytes : String) (e : Error)
    (hpath : fs.ClientConfigPath = .ok path)
    (hread : fs.ReadFile path = .ok bytes) (hlen : bytes.length ≠ 0)
    (hparse : fs.Unmarshal bytes = .error e) :
    getClientConfigNoLock fs =
      .error (.Wrapf "getClientConfigNodeNoLock: failed to construct struct from config data"
        e) := by
  simp only [getClientConfigNoLock, hpath, hread, hlen, if_false, hparse]

/-- C19, witness: the file holding `a: b: c`. -/
theorem getClientConfigNoLock_malformed_witness :
    getClientConfigNoLock (fileWith (.ok "a: b: c")) =
      .error (.Wrapf "getClientConfigNodeNoLock: failed to construct struct from config data"
        (.external "yaml: did not find expected key")) :=
  getClientConfigNoLock_malformed (fileWith (.ok "a: b: c")) "config.yaml" "a: b: c" _ rfl rfl
    (by decide) rfl

/-- C20: for `getClientConfigNodeNoLock` and for `getClientConfigNode`, the
next-generation loader is used when `UseUnifiedConfig` returns true with no error, and
only then; when it returns an error, whatever boolean comes with it, or false, the
legacy loader is used, and what is returned is the result of that loader (the flag
error is not propagated). -/
theorem loader_by_flag (w : World) :
    getClientConfigNodeNoLock w =
      (match w.useUnifiedConfig with
       | (true, none) => getClientConfigNextGenNodeNoLock w
       | (false, none) => getMultiConfigNoLock w
       | (_, some _) => getMultiConfigNoLock w) ∧
    getClientConfigNode w =
      (match w.useUnifiedConfig with
       | (true, none) => withLock getClientConfigNextGenNodeNoLock w
       | (false, none) => withLock getMultiConfigNoLock w
       | (_, some _) => withLock getMultiConfigNoLock w) ∧
    ((getClientConfigNodeNoLock w).1.trace = w.trace ++ [Event.load true] ↔
      w.useUnifiedConfig = (true, none)) ∧
    ((getClientConfigNode w).1.trace = w.trace ++ [Event.lock, Event.load true, Event.unlock] ↔
      w.useUnifiedConfig = (true, none)) := by
  unfold getClientConfigNodeNoLock getClientConfigNode
  rcases hu : w.useUnifiedConfig with ⟨b, err⟩
  cases err <;> cases b <;>
    simp [withLock, getClientConfigNextGenNodeNoLock, getMultiConfigNoLock,
      AcquireTanzuConfigLock, ReleaseTanzuConfigLock] <;>
    cases w.loadError <;> simp


theorem lookup_mem {α β : Type} [BEq α] : ∀ (m : List (α × β)) (k : α) (v : β),
    m.lookup k = some v → ∃ k1, (k1, v) ∈ m
  | [], k, v, h => by simp at h
  | (a, b) :: rest, k, v, h => by
    simp only [List.lookup] at h
    split at h
    · simp only [Option.some.injEq] at h
      subst h
      exact ⟨a, List.mem_cons_self _ _⟩
    · obtain ⟨k1, hk⟩ := lookup_mem rest k v h
      exact ⟨k1, List.mem_cons_of_mem _ hk⟩

theorem deleteTop_self (ps : PatchStrategies) (src : Node) (path : Path) :
    deleteTop ps src src path = (false, src) := by
  simp [deleteTop]

theorem wellPairedList_iff : ∀ (l : List Node),
    wellPairedList l = true ↔ ∀ x ∈ l, wellPaired x = true
  | [] => by simp [wellPairedList]
  | x :: xs => by simp [wellPairedList, wellPairedList_iff xs]

theorem wellPaired_iff (n : Node) :
    wellPaired n = true ↔
      (n.Kind = MappingNode → n.Content.length % 2 = 0) ∧ ∀ x ∈ n.Content, wellPaired x = true := by
  obtain ⟨k, s, v, c⟩ := n
  simp only [wellPaired, Bool.and_eq_true, Bool.or_eq_true, bne_iff_ne, ne_eq, beq_iff_eq,
    wellPairedList_iff, Node.Kind_mk, Node.Content_mk]
  constructor
  · rintro ⟨h1, h2⟩
    exact ⟨fun hk => by rcases h1 with h | h; exact absurd hk h; exact h, h2⟩
  · rintro ⟨h1, h2⟩
    refine ⟨?_, h2⟩
    by_cases hk : k = MappingNode
    · exact Or.inr (h1 hk)
    · exact Or.inl hk

theorem wellPaired_setContent (n : Node) (c : List Node)
    (hc : n.Kind = MappingNode → c.length % 2 = 0) (hall : ∀ x ∈ c, wellPaired x = true) :
    wellPaired (n.setContent c) = true := by
  rw [wellPaired_iff]
  simpa using ⟨hc, hall⟩

theorem wellPaired_setValue (n : Node) (v : String) (h : wellPaired n = true) :
    wellPaired (n.setValue v) = true := by
  obtain ⟨k, s, v0, c⟩ := n
  exact h

theorem pairLookup_mem : ∀ (l : List Node) (key : String) (v : Node),
    pairLookup l key = some v → v ∈ l
  | [], key, v, h => by simp [pairLookup] at h
  | [k], key, v, h => by simp [pairLookup] at h
  | k :: w :: rest, key, v, h => by
    by_cases hk : k.Value = key
    · simp only [pairLookup, hk, if_true, Option.some.injEq] at h
      subst h; simp
    · simp only [pairLookup, hk, if_false] at h
      have := pairLookup_mem rest key v h
      simp [this]

theorem mem_pairUpdate : ∀ (l : List Node) (key : String) (f : Node → Node) (x : Node),
    x ∈ pairUpdate l key f → x ∈ l ∨ ∃ v, pairLookup l key = some v ∧ x = f v
  | [], key, f, x, h => by simp [pairUpdate] at h
  | [k], key, f, x, h => by left; simpa [pairUpdate] using h
  | k :: w :: rest, key, f, x, h => by
    by_cases hk : k.Value = key
    · simp only [pairUpdate, hk, if_true, List.mem_cons] at h
      rcases h with h | h | h
      · left; simp [h]
      · right; exact ⟨w, by simp [pairLookup, hk], h⟩
      · left; simp [h]
    · simp only [pairUpdate, hk, if_false, List.mem_cons] at h
      rcases h with h | h | h
      · left; simp [h]
      · left; simp [h]
      · rcases mem_pairUpdate rest key f x h with h1 | ⟨v, hv, hx⟩
        · left; simp [h1]
        · right; exact ⟨v, by simp [pairLookup, hk, hv], hx⟩

theorem itemIndex_get : ∀ (l : List Node) (name : String) (i : Nat),
    itemIndex l name = some i →
    ∃ x n, l.get? i = some x ∧ pairLookup x.Content "name" = some n ∧ n.Value = name
  | [], name, i, h => by simp [itemIndex] at h
  | item :: rest, name, i, h => by
    simp only [itemIndex] at h
    cases hl : pairLookup item.Content "name" with
    | none =>
      simp only [hl, Option.map_eq_some'] at h
      obtain ⟨j, hj, rfl⟩ := h
      obtain ⟨x, n, hx, hn⟩ := itemIndex_get rest name j hj
      exact ⟨x, n, by simpa using hx, hn⟩
    | some n =>
      simp only [hl] at h
      by_cases hv : n.Value = name
      · simp only [hv, if_true, Option.some.injEq] at h
        subst h
        exact ⟨item, n, rfl, hl, hv⟩
      · simp only [hv, if_false, Option.map_eq_some'] at h
        obtain ⟨j, hj, rfl⟩ := h
        obtain ⟨x, n1, hx, hn⟩ := itemIndex_get rest name j hj
        exact ⟨x, n1, by simpa using hx, hn⟩

mutual
theorem wellPaired_mergeNode :
    ∀ (s d : Node), wellPaired s = true → wellPaired d = true →
      wellPaired (mergeNode s d).2 = true
  | Node.mk sk ss sv sc, d, hs, hd => by
    simp only [mergeNode]
    split
    · exact hs
    · rename_i hk
      simp only [ne_eq, not_not] at hk
      have hsc : ∀ x ∈ sc, wellPaired x = true := ((wellPaired_iff _).mp hs).2
      have hdc := (wellPaired_iff d).mp hd
      split
      · rename_i hm
        have hdk : d.Kind = MappingNode := by rw [← hk]; exact hm
        have := wellPaired_mergePairs sc d.Content hsc hdc.2 (hdc.1 hdk)
        exact wellPaired_setContent _ _ (fun _ => this.1) this.2
      · split
        · rename_i hm hq
          have hdk : ¬ d.Kind = MappingNode := by rw [← hk]; exact hm
          have := wellPaired_mergeItems sc d.Content hsc hdc.2
          exact wellPaired_setContent _ _ (fun h => absurd h hdk) this
        · split
          · split
            · exact wellPaired_setValue _ _ hd
            · exact hd
          · exact hd
theorem wellPaired_mergePairs :
    ∀ (sc dst : List Node), (∀ x ∈ sc, wellPaired x = true) →
      (∀ x ∈ dst, wellPaired x = true) → dst.length % 2 = 0 →
      (mergePairs sc dst).2.length % 2 = 0 ∧ ∀ x ∈ (mergePairs sc dst).2, wellPaired x = true
  | [], dst, _, hd, he => ⟨he, hd⟩
  | [_], dst, _, hd, he => ⟨he, hd⟩
  | k :: v :: rest, dst, hs, hd, he => by
    have hk : wellPaired k = true := hs k (by simp)
    have hv : wellPaired v = true := hs v (by simp)
    have hrest : ∀ x ∈ rest, wellPaired x = true := fun x hx => hs x (by simp [hx])
    simp only [mergePairs]
    split
    · refine wellPaired_mergePairs rest (dst ++ [k, v]) hrest ?_ ?_
      · intro x hx
        rcases List.mem_append.mp hx with h | h
        · exact hd x h
        · simp only [List.mem_cons, List.mem_singleton, List.not_mem_nil, or_false] at h
          rcases h with rfl | rfl
          · exact hk
          · exact hv
      · simp only [List.length_append, List.length_cons, List.length_nil]; omega
    · rename_i dv hl
      refine wellPaired_mergePairs rest _ hrest ?_ ?_
      · intro x hx
        rcases mem_pairUpdate _ _ _ _ hx with h | ⟨w, _, rfl⟩
        · exact hd x h
        · exact wellPaired_mergeNode v dv hv (hd dv (pairLookup_mem _ _ _ hl))
      · rw [pairUpdate_length]; exact he
theorem wellPaired_mergeItems :
    ∀ (items dst : List Node), (∀ x ∈ items, wellPaired x = true) →
      (∀ x ∈ dst, wellPaired x = true) →
      ∀ x ∈ (mergeItems items dst).2, wellPaired x = true
  | [], dst, _, hd => hd
  | item :: rest, dst, hs, hd => by
    have hi : wellPaired item = true := hs item (by simp)
    have hrest : ∀ x ∈ rest, wellPaired x = true := fun x hx => hs x (by simp [hx])
    have happ : ∀ x ∈ dst ++ [item], wellPaired x = true := by
      intro x hx
      rcases List.mem_append.mp hx with h | h
      · exact hd x h
      · rw [List.mem_singleton.mp h]; exact hi
    simp only [mergeItems]
    split
    · exact wellPaired_mergeItems rest _ hrest happ
    · split
      · exact wellPaired_mergeItems rest _ hrest happ
      · split
        · exact wellPaired_mergeItems rest _ hrest hd
        · rename_i n hn i hi2 dv hget
          refine wellPaired_mergeItems rest _ hrest ?_
          intro x hx
          rcases List.mem_or_eq_of_mem_set hx with h | h
          · exact hd x h
          · rw [h]
            exact wellPaired_mergeNode item dv hi (hd dv (List.get?_mem hget))
end


theorem mergeNode_kind_ne (s d : Node) (h : s.Kind ≠ d.Kind) : mergeNode s d = (true, s) := by
  obtain ⟨sk, ss, sv, sc⟩ := s
  simp only [Node.Kind_mk] at h
  simp only [mergeNode, ne_eq, h, not_false_eq_true, if_true]

theorem mergeNode_mapping (s d : Node) (hs : s.Kind = MappingNode) (hd : d.Kind = MappingNode) :
    mergeNode s d =
      ((mergePairs s.Content d.Content).1, d.setContent (mergePairs s.Content d.Content).2) := by
  obtain ⟨sk, ss, sv, sc⟩ := s
  simp only [Node.Kind_mk] at hs
  subst hs
  simp only [mergeNode, hd, ne_eq, not_true_eq_false, if_false, if_true, Node.Content_mk]

theorem mergeNode_sequence (s d : Node) (hs : s.Kind = SequenceNode)
    (hd : d.Kind = SequenceNode) :
    mergeNode s d =
      ((mergeItems s.Content d.Content).1, d.setContent (mergeItems s.Content d.Content).2) := by
  obtain ⟨sk, ss, sv, sc⟩ := s
  simp only [Node.Kind_mk] at hs
  subst hs
  simp only [mergeNode, hd, ne_eq, not_true_eq_false, if_false, if_true, Node.Content_mk,
    show ¬ (SequenceNode = MappingNode) by decide]

theorem mergeNode_scalar (s d : Node) (hs : s.Kind = ScalarNode) (hd : d.Kind = ScalarNode) :
    mergeNode s d = if d.Value ≠ s.Value then (true, d.setValue s.Value) else (false, d) := by
  obtain ⟨sk, ss, sv, sc⟩ := s
  simp only [Node.Kind_mk] at hs
  subst hs
  simp only [mergeNode, hd, ne_eq, not_true_eq_false, if_false, if_true, Node.Value_mk,
    show ¬ (ScalarNode = MappingNode) by decide, show ¬ (ScalarNode = SequenceNode) by decide]

theorem Node.Kind_setValue (n : Node) (v : String) : (n.setValue v).Kind = n.Kind := by
  cases n; rfl

theorem mergeNode_self_of_idem (s : Node) (h : MergeIdem s) : mergeNode s s = (false, s) := by
  have hk : s.Kind ≠ (Node.mk (s.Kind + 1) 0 "" []).Kind := by simp
  have hw : wellPaired (Node.mk (s.Kind + 1) 0 "" []) = true := by
    simp [wellPaired, wellPairedList]
  have := h _ hw
  rw [mergeNode_kind_ne s _ hk] at this
  exact this

theorem MergeGood_scalar (s : Node) (hk : s.Kind = ScalarNode) (hc : s.Content = []) :
    MergeGood s := by
  refine ⟨?_, ?_, ?_⟩
  · rw [wellPaired_iff]
    simp [hk, hc]
  · intro d _
    by_cases hd : s.Kind = d.Kind
    · have hdk : d.Kind = ScalarNode := by rw [← hd]; exact hk
      rw [mergeNode_scalar s d hk hdk]
      by_cases hv : d.Value = s.Value
      · simp only [hv, ne_eq, not_true_eq_false, if_false]
        rw [mergeNode_scalar s d hk hdk]
        simp [hv]
      · simp only [hv, ne_eq, not_false_eq_true, if_true]
        rw [mergeNode_scalar s _ hk (by rw [Node.Kind_setValue]; exact hdk)]
        simp
    · rw [mergeNode_kind_ne s d hd]
      rw [mergeNode_scalar s s hk hk]
      simp
  · intro d hf
    by_cases hd : s.Kind = d.Kind
    · have hdk : d.Kind = ScalarNode := by rw [← hd]; exact hk
      rw [mergeNode_scalar s d hk hdk] at hf ⊢
      by_cases hv : d.Value = s.Value
      · simp [hv]
      · simp [hv] at hf
    · rw [mergeNode_kind_ne s d hd] at hf
      cases hf

theorem PairsAll_imp {P Q : Node → Prop} (h : ∀ x, P x → Q x) :
    ∀ (l : List Node), PairsAll P l → PairsAll Q l
  | [], _ => trivial
  | [_], _ => trivial
  | _ :: v :: rest, hp => ⟨h v hp.1, PairsAll_imp h rest hp.2⟩

theorem PairsSettled_merge : ∀ (sc dst : List Node), PairsSettled sc dst →
    mergePairs sc dst = (false, dst)
  | [], dst, _ => rfl
  | [_], dst, _ => rfl
  | k :: v :: rest, dst, h => by
    obtain ⟨⟨dv, hl, hm⟩, hrest⟩ := h
    simp only [mergePairs, hl, hm, pairUpdate_self_of_lookup dst k.Value dv hl,
      PairsSettled_merge rest dst hrest, Bool.or_self]

theorem PairsSettled_append : ∀ (sc dst : List Node) (k v : Node), PairsSettled sc dst →
    dst.length % 2 = 0 → PairsSettled sc (dst ++ [k, v])
  | [], dst, k, v, _, _ => trivial
  | [_], dst, k, v, _, _ => trivial
  | a :: b :: rest, dst, k, v, h, he => by
    obtain ⟨⟨dv, hl, hm⟩, hrest⟩ := h
    refine ⟨⟨dv, ?_, hm⟩, PairsSettled_append rest dst k v hrest he⟩
    rw [pairLookup_append_pair _ _ _ _ he, hl]

theorem PairsSettled_congr : ∀ (sc dst dst2 : List Node),
    (∀ key ∈ (decodePairs sc).map Prod.fst, pairLookup dst2 key = pairLookup dst key) →
    PairsSettled sc dst → PairsSettled sc dst2
  | [], _, _, _, _ => trivial
  | [_], _, _, _, _ => trivial
  | a :: b :: rest, dst, dst2, hk, h => by
    obtain ⟨⟨dv, hl, hm⟩, hrest⟩ := h
    refine ⟨⟨dv, ?_, hm⟩, PairsSettled_congr rest dst dst2 ?_ hrest⟩
    · rw [hk a.Value (by simp [decodePairs]), hl]
    · intro key hkey
      exact hk key (by simp only [decodePairs, List.map_cons, List.mem_cons]; exact Or.inr hkey)

theorem mergePairs_stable : ∀ (sc dst : List Node), PairsAll MergeStable sc →
    (mergePairs sc dst).1 = false → (mergePairs sc dst).2 = dst
  | [], dst, _, _ => rfl
  | [_], dst, _, _ => rfl
  | k :: v :: rest, dst, hp, hf => by
    simp only [mergePairs] at hf ⊢
    cases hl : pairLookup dst k.Value with
    | none => simp [hl] at hf
    | some dv =>
      simp only [hl, Bool.or_eq_false_iff] at hf ⊢
      have h1 := hp.1 dv hf.1
      rw [h1, pairUpdate_self_of_lookup dst k.Value dv hl] at hf ⊢
      exact mergePairs_stable rest dst hp.2 hf.2

theorem wellPaired_mergeStep (k v : Node) (dst : List Node)
    (hk : wellPaired k = true) (hv : wellPaired v = true)
    (hd : ∀ x ∈ dst, wellPaired x = true) :
    ∀ x ∈ mergeStep k v dst, wellPaired x = true := by
  intro x hx
  unfold mergeStep at hx
  split at hx
  · rcases List.mem_append.mp hx with h | h
    · exact hd x h
    · simp only [List.mem_cons, List.mem_singleton, List.not_mem_nil, or_false] at h
      rcases h with rfl | rfl
      · exact hk
      · exact hv
  · rename_i dv hl
    rcases mem_pairUpdate _ _ _ _ hx with h | ⟨w, _, rfl⟩
    · exact hd x h
    · exact wellPaired_mergeNode v dv hv (hd dv (pairLookup_mem _ _ _ hl))

theorem PairsSettled_post : ∀ (sc dst : List Node),
    (∀ x ∈ sc, wellPaired x = true) → ((decodePairs sc).map Prod.fst).Nodup →
    PairsAll MergeGood sc → (∀ x ∈ dst, wellPaired x = true) → dst.length % 2 = 0 →
    PairsSettled sc (mergePairs sc dst).2
  | [], _, _, _, _, _, _ => trivial
  | [_], _, _, _, _, _, _ => trivial
  | k :: v :: rest, dst, hw, hnd, hp, hd, he => by
    have hk : wellPaired k = true := hw k (by simp)
    have hv : wellPaired v = true := hw v (by simp)
    have hrest : ∀ x ∈ rest, wellPaired x = true := fun x hx => hw x (by simp [hx])
    simp only [decodePairs, List.map_cons, List.nodup_cons] at hnd
    have e1 := mergeStep_even k v dst he
    have w1 := wellPaired_mergeStep k v dst hk hv hd
    have ih := PairsSettled_post rest (mergeStep k v dst) hrest hnd.2 hp.2 w1 e1
    rw [mergePairs_cons]
    refine ⟨?_, ih⟩
    rw [mergePairs_lookup_other rest _ k.Value e1 hnd.1]
    unfold mergeStep
    cases hl : pairLookup dst k.Value with
    | none =>
      refine ⟨v, ?_, mergeNode_self_of_idem v hp.1.2.1⟩
      simp only
      rw [pairLookup_append_pair _ _ _ _ he, hl]
      simp
    | some dv =>
      refine ⟨(mergeNode v dv).2, ?_, hp.1.2.1 dv (hd dv (pairLookup_mem _ _ _ hl))⟩
      simp only
      rw [pairLookup_pairUpdate]
      simp [hl]

theorem mergePairs_fresh : ∀ (sc acc : List Node), sc.length % 2 = 0 → acc.length % 2 = 0 →
    ((decodePairs sc).map Prod.fst).Nodup →
    (∀ key ∈ (decodePairs sc).map Prod.fst, pairLookup acc key = none) →
    (mergePairs sc acc).2 = acc ++ sc
  | [], acc, _, _, _, _ => by simp [mergePairs]
  | [_], acc, h, _, _, _ => by simp at h
  | k :: v :: rest, acc, hs, ha, hnd, hno => by
    simp only [decodePairs, List.map_cons, List.nodup_cons] at hnd
    have hk : pairLookup acc k.Value = none := hno k.Value (by simp [decodePairs])
    simp only [mergePairs, hk]
    rw [mergePairs_fresh rest (acc ++ [k, v]) (even_tail hs)
      (by simp only [List.length_append, List.length_cons, List.length_nil]; omega) hnd.2]
    · simp
    · intro key hkey
      rw [pairLookup_append_pair _ _ _ _ ha,
        hno key (by simp only [decodePairs, List.map_cons, List.mem_cons]; exact Or.inr hkey)]
      have : k.Value ≠ key := fun e => hnd.1 (e ▸ hkey)
      simp [this]

/-- A mapping with complete pairs, pairwise different keys and good values is a good
source of merges. -/
theorem MergeGood_mapping (s : Node) (hk : s.Kind = MappingNode) (hw : wellPaired s = true)
    (hnd : ((decodePairs s.Content).map Prod.fst).Nodup) (hp : PairsAll MergeGood s.Content) :
    MergeGood s := by
  have hsw := (wellPaired_iff s).mp hw
  have hself : PairsSettled s.Content s.Content := by
    have := PairsSettled_post s.Content [] hsw.2 hnd hp (by simp) (by simp)
    rw [mergePairs_fresh s.Content [] (hsw.1 hk) (by simp) hnd (by simp [pairLookup])] at this
    simpa using this
  refine ⟨hw, ?_, ?_⟩
  · intro d hd
    by_cases hkd : s.Kind = d.Kind
    · have hdk : d.Kind = MappingNode := by rw [← hkd]; exact hk
      have hdw := (wellPaired_iff d).mp hd
      have hpost := PairsSettled_post s.Content d.Content hsw.2 hnd hp hdw.2 (hdw.1 hdk)
      rw [mergeNode_mapping s d hk hdk]
      rw [mergeNode_mapping s _ hk (by simpa using hdk)]
      simp only [Node.Content_setContent, PairsSettled_merge _ _ hpost,
        Node.setContent_setContent]
    · rw [mergeNode_kind_ne s d hkd, mergeNode_mapping s s hk hk,
        PairsSettled_merge _ _ hself]
      simp
  · intro d hf
    by_cases hkd : s.Kind = d.Kind
    · have hdk : d.Kind = MappingNode := by rw [← hkd]; exact hk
      rw [mergeNode_mapping s d hk hdk] at hf ⊢
      simp only at hf ⊢
      rw [mergePairs_stable _ _ (PairsAll_imp (fun x hx => hx.2.2) _ hp) hf]
      simp
    · rw [mergeNode_kind_ne s d hkd] at hf
      cases hf


theorem mergeItems_cons (item : Node) (rest dst : List Node) :
    (mergeItems (item :: rest) dst).2 = (mergeItems rest (itemStep item dst)).2 := by
  simp only [mergeItems, itemStep]
  cases hl : pairLookup item.Content "name" with
  | none => rfl
  | some n =>
    simp only
    cases hi : itemIndex dst n.Value with
    | none => rfl
    | some i =>
      simp only
      cases hg : dst.get? i <;> rfl

theorem wellPaired_itemStep (item : Node) (dst : List Node) (hi : wellPaired item = true)
    (hd : ∀ x ∈ dst, wellPaired x = true) : ∀ x ∈ itemStep item dst, wellPaired x = true := by
  have happ : ∀ x ∈ dst ++ [item], wellPaired x = true := by
    intro x hx
    rcases List.mem_append.mp hx with h | h
    · exact hd x h
    · rw [List.mem_singleton.mp h]; exact hi
  unfold itemStep
  split
  · exact happ
  · split
    · exact happ
    · split
      · exact hd
      · rename_i dv hget
        intro x hx
        rcases List.mem_or_eq_of_mem_set hx with h | h
        · exact hd x h
        · rw [h]
          exact wellPaired_mergeNode item dv hi (hd dv (List.get?_mem hget))

theorem itemIndex_lt (l : List Node) (name : String) (i : Nat)
    (h : itemIndex l name = some i) : i < l.length := by
  obtain ⟨x, _, hx, _⟩ := itemIndex_get l name i h
  rw [List.get?_eq_getElem?] at hx
  exact (List.getElem?_eq_some_iff.mp hx).1

theorem itemIndex_cons (item : Node) (rest : List Node) (name : String) :
    itemIndex (item :: rest) name =
      if nameKey item = some name then some 0 else (itemIndex rest name).map (· + 1) := by
  have key : ∀ o, pairLookup item.Content "name" = o →
      itemIndex (item :: rest) name =
        if nameKey item = some name then some 0 else (itemIndex rest name).map (· + 1) := by
    intro o ho
    simp only [itemIndex, nameKey, ho]
    cases o with
    | none => simp
    | some n => by_cases hv : n.Value = name <;> simp [hv]
  exact key _ rfl

theorem itemIndex_append_found : ∀ (l : List Node) (x : Node) (name : String) (i : Nat),
    itemIndex l name = some i → itemIndex (l ++ [x]) name = some i
  | [], x, name, i, h => by simp [itemIndex] at h
  | item :: rest, x, name, i, h => by
    rw [List.cons_append, itemIndex_cons]
    rw [itemIndex_cons] at h
    split
    · rename_i hn; simpa [hn] using h
    · rename_i hn
      simp only [hn, if_false, Option.map_eq_some'] at h
      obtain ⟨j, hj, rfl⟩ := h
      rw [itemIndex_append_found rest x name j hj]
      rfl

theorem itemIndex_append_none : ∀ (l : List Node) (x : Node) (name : String),
    itemIndex l name = none → nameKey x = some name →
    itemIndex (l ++ [x]) name = some l.length
  | [], x, name, _, hx => by simp [itemIndex_cons, hx]
  | item :: rest, x, name, h, hx => by
    rw [List.cons_append, itemIndex_cons]
    rw [itemIndex_cons] at h
    split
    · rename_i hn; simp [hn] at h
    · rename_i hn
      simp only [hn, if_false, Option.map_eq_none'] at h
      rw [itemIndex_append_none rest x name h hx]
      rfl

theorem itemIndex_set : ∀ (l : List Node) (name : String) (i j : Nat) (y : Node),
    itemIndex l name = some i →
    (j = i → nameKey y = some name) → (j ≠ i → nameKey y ≠ some name) →
    itemIndex (l.set j y) name = some i
  | [], name, i, j, y, h, _, _ => by simp [itemIndex] at h
  | item :: rest, name, i, 0, y, h, h1, h2 => by
    rw [List.set_cons_zero, itemIndex_cons]
    rw [itemIndex_cons] at h
    by_cases hn : nameKey item = some name
    · simp only [hn, if_true, Option.some.injEq] at h
      subst h
      simp [h1 rfl]
    · simp only [hn, if_false, Option.map_eq_some'] at h
      obtain ⟨k, hk, rfl⟩ := h
      have : nameKey y ≠ some name := h2 (by omega)
      simp [this, hk]
  | item :: rest, name, i, j + 1, y, h, h1, h2 => by
    rw [List.set_cons_succ, itemIndex_cons]
    rw [itemIndex_cons] at h
    by_cases hn : nameKey item = some name
    · simpa [hn] using h
    · simp only [hn, if_false, Option.map_eq_some'] at h ⊢
      obtain ⟨k, hk, rfl⟩ := h
      exact ⟨k, itemIndex_set rest name k j y hk (fun e => h1 (by omega))
        (fun e => h2 (by omega)), rfl⟩

theorem nameKey_of_itemIndex (l : List Node) (name : String) (i : Nat) (x : Node)
    (h : itemIndex l name = some i) (hx : l.get? i = some x) : nameKey x = some name := by
  obtain ⟨x1, n, hx1, hn, hv⟩ := itemIndex_get l name i h
  rw [hx] at hx1
  simp only [Option.some.injEq] at hx1
  subst hx1
  simp [nameKey, hn, hv]

theorem itemIndex_append_miss : ∀ (l : List Node) (x : Node) (name : String),
    itemIndex l name = none → nameKey x ≠ some name → itemIndex (l ++ [x]) name = none
  | [], x, name, _, hx => by
    rw [List.nil_append, itemIndex_cons]
    simp [hx, itemIndex]
  | item :: rest, x, name, h, hx => by
    rw [List.cons_append, itemIndex_cons]
    rw [itemIndex_cons] at h
    split
    · rename_i hn; simp [hn] at h
    · rename_i hn
      simp only [hn, if_false, Option.map_eq_none'] at h
      rw [itemIndex_append_miss rest x name h hx]
      rfl

theorem MergeGood_scalarNode (v : String) : MergeGood (Node.mk ScalarNode 0 v []) :=
  MergeGood_scalar _ rfl rfl

theorem wellPaired_scalarNode (v : String) : wellPaired (Node.mk ScalarNode 0 v []) = true := by
  simp [wellPaired, wellPairedList]

theorem MergeGood_encodeDiscovery (d : PluginDiscovery) : MergeGood (encodeDiscovery d) := by
  refine MergeGood_mapping _ rfl ?_ ?_ ?_
  · simp [encodeDiscovery, scalarPair, wellPaired, wellPairedList]
  · simp [encodeDiscovery, scalarPair, decodePairs]
  · exact ⟨MergeGood_scalarNode _, MergeGood_scalarNode _, trivial⟩

theorem nameKey_encodeDiscovery (d : PluginDiscovery) :
    nameKey (encodeDiscovery d) = some d.Name := by
  simp [nameKey, encodeDiscovery, scalarPair, pairLookup]

theorem nameKey_merge_encodeDiscovery (d : PluginDiscovery) (dv : Node)
    (hw : wellPaired dv = true) : nameKey (mergeNode (encodeDiscovery d) dv).2 = some d.Name := by
  by_cases hk : (encodeDiscovery d).Kind = dv.Kind
  · have hdk : dv.Kind = MappingNode := by rw [← hk]; rfl
    rw [mergeNode_mapping (encodeDiscovery d) dv rfl hdk]
    simp only [nameKey, Node.Content_setContent, encodeDiscovery, scalarPair, Node.Content_mk,
      List.cons_append, List.nil_append]
    exact mergePairs_scalar_head (Node.mk ScalarNode 0 "name" []) 0 d.Name _ _
      (((wellPaired_iff dv).mp hw).1 hdk) (by simp [decodePairs])
  · rw [mergeNode_kind_ne _ _ hk]
    exact nameKey_encodeDiscovery d

theorem SettledAt_step (d : PluginDiscovery) (dst : List Node)
    (hw : ∀ x ∈ dst, wellPaired x = true) :
    SettledAt (encodeDiscovery d) d.Name (itemStep (encodeDiscovery d) dst) := by
  have hl : pairLookup (encodeDiscovery d).Content "name" =
      some (Node.mk ScalarNode 0 d.Name []) := by
    simp [encodeDiscovery, scalarPair, pairLookup]
  have hidem := (MergeGood_encodeDiscovery d).2.1
  unfold itemStep
  simp only [hl, Node.Value_mk]
  cases hi : itemIndex dst d.Name with
  | none =>
    refine ⟨dst.length, encodeDiscovery d,
      itemIndex_append_none dst _ _ hi (nameKey_encodeDiscovery d), by simp,
      mergeNode_self_of_idem _ hidem⟩
  | some i =>
    obtain ⟨dv, _, hget, _⟩ := itemIndex_get dst d.Name i hi
    have hlt := itemIndex_lt dst d.Name i hi
    have hwd := hw dv (List.get?_mem hget)
    simp only [hget]
    refine ⟨i, (mergeNode (encodeDiscovery d) dv).2, ?_, ?_, hidem dv hwd⟩
    · exact itemIndex_set dst d.Name i i _ hi
        (fun _ => nameKey_merge_encodeDiscovery d dv hwd) (fun h => absurd rfl h)
    · simp [List.get?_eq_getElem?, hlt]

theorem SettledAt_keep (item0 : Node) (n0 : String) (d : PluginDiscovery) (dst : List Node)
    (h0 : SettledAt item0 n0 dst) (hne : d.Name ≠ n0)
    (hw : ∀ x ∈ dst, wellPaired x = true) :
    SettledAt item0 n0 (itemStep (encodeDiscovery d) dst) := by
  obtain ⟨i0, x0, hi0, hg0, hm0⟩ := h0
  have hl : pairLookup (encodeDiscovery d).Content "name" =
      some (Node.mk ScalarNode 0 d.Name []) := by
    simp [encodeDiscovery, scalarPair, pairLookup]
  have hlt0 := itemIndex_lt dst n0 i0 hi0
  unfold itemStep
  simp only [hl, Node.Value_mk]
  cases hi : itemIndex dst d.Name with
  | none =>
    refine ⟨i0, x0, itemIndex_append_found dst _ _ _ hi0, ?_, hm0⟩
    rw [List.get?_eq_getElem?] at hg0 ⊢
    rw [List.getElem?_append_left hlt0]
    exact hg0
  | some j =>
    obtain ⟨dv, _, hget, _⟩ := itemIndex_get dst d.Name j hi
    have hwd := hw dv (List.get?_mem hget)
    have hji : j ≠ i0 := by
      intro e
      subst e
      have h1 := nameKey_of_itemIndex dst d.Name j dv hi hget
      have h2 := nameKey_of_itemIndex dst n0 j x0 hi0 hg0
      rw [hget] at hg0
      simp only [Option.some.injEq] at hg0
      subst hg0
      rw [h1] at h2
      simp only [Option.some.injEq] at h2
      exact hne h2
    simp only [hget]
    refine ⟨i0, x0, ?_, ?_, hm0⟩
    · apply itemIndex_set dst n0 i0 j _ hi0 (fun e => absurd e hji)
      intro _
      rw [nameKey_merge_encodeDiscovery d dv hwd]
      simp only [ne_eq, Option.some.injEq]
      exact hne
    · rw [List.get?_eq_getElem?] at hg0 ⊢
      rw [List.getElem?_set_ne hji]
      exact hg0


theorem wellPaired_encodeDiscovery (d : PluginDiscovery) :
    wellPaired (encodeDiscovery d) = true := (MergeGood_encodeDiscovery d).1

theorem SettledAt_keep_all (item0 : Node) (n0 : String) :
    ∀ (ds : List PluginDiscovery) (dst : List Node), SettledAt item0 n0 dst →
    (∀ d ∈ ds, d.Name ≠ n0) → (∀ x ∈ dst, wellPaired x = true) →
    SettledAt item0 n0 (mergeItems (ds.map encodeDiscovery) dst).2
  | [], dst, h, _, _ => h
  | d :: rest, dst, h, hne, hw => by
    rw [List.map_cons, mergeItems_cons]
    exact SettledAt_keep_all item0 n0 rest _
      (SettledAt_keep item0 n0 d dst h (hne d (by simp)) hw)
      (fun x hx => hne x (by simp [hx]))
      (wellPaired_itemStep _ dst (wellPaired_encodeDiscovery d) hw)

theorem SourcesSettled_post : ∀ (ds : List PluginDiscovery) (dst : List Node),
    (ds.map (fun d => d.Name)).Nodup → (∀ x ∈ dst, wellPaired x = true) →
    SourcesSettled ds (mergeItems (ds.map encodeDiscovery) dst).2
  | [], dst, _, _ => by intro d hd; cases hd
  | d :: rest, dst, hnd, hw => by
    simp only [List.map_cons, List.nodup_cons, List.mem_map, not_exists, not_and] at hnd
    have hw1 := wellPaired_itemStep _ dst (wellPaired_encodeDiscovery d) hw
    intro d1 hd1
    rw [List.map_cons, mergeItems_cons]
    rcases List.mem_cons.mp hd1 with rfl | hmem
    · exact SettledAt_keep_all _ _ rest _ (SettledAt_step d1 dst hw)
        (fun x hx e => hnd.1 x hx e) hw1
    · exact SourcesSettled_post rest _ hnd.2 hw1 d1 hmem

theorem SourcesSettled_merge : ∀ (ds : List PluginDiscovery) (dst : List Node),
    SourcesSettled ds dst → mergeItems (ds.map encodeDiscovery) dst = (false, dst)
  | [], dst, _ => rfl
  | d :: rest, dst, h => by
    obtain ⟨i, x, hi, hg, hm⟩ := h d (by simp)
    have hl : pairLookup (encodeDiscovery d).Content "name" =
        some (Node.mk ScalarNode 0 d.Name []) := by
      simp [encodeDiscovery, scalarPair, pairLookup]
    have ih := SourcesSettled_merge rest dst (fun y hy => h y (by simp [hy]))
    simp only [List.map_cons, mergeItems, hl, Node.Value_mk, hi, hg, hm,
      list_set_get_self dst i x hg, ih, Bool.or_self]

theorem SourcesSettled_of_false : ∀ (ds : List PluginDiscovery) (dst : List Node),
    (mergeItems (ds.map encodeDiscovery) dst).1 = false → SourcesSettled ds dst
  | [], dst, _ => by intro d hd; cases hd
  | d :: rest, dst, hf => by
    have hl : pairLookup (encodeDiscovery d).Content "name" =
        some (Node.mk ScalarNode 0 d.Name []) := by
      simp [encodeDiscovery, scalarPair, pairLookup]
    simp only [List.map_cons, mergeItems, hl, Node.Value_mk] at hf
    cases hi : itemIndex dst d.Name with
    | none => simp [hi] at hf
    | some i =>
      obtain ⟨dv, _, hget, _⟩ := itemIndex_get dst d.Name i hi
      simp only [hi, hget, Bool.or_eq_false_iff] at hf
      have hst := (MergeGood_encodeDiscovery d).2.2 dv hf.1
      have hm : mergeNode (encodeDiscovery d) dv = (false, dv) := Prod.ext hf.1 hst
      rw [hst, list_set_get_self dst i dv hget] at hf
      have ih := SourcesSettled_of_false rest dst hf.2
      intro d1 hd1
      rcases List.mem_cons.mp hd1 with rfl | hmem
      · exact ⟨i, dv, hi, hget, hm⟩
      · exact ih d1 hmem

theorem mergeItems_fresh : ∀ (ds : List PluginDiscovery) (acc : List Node),
    (ds.map (fun d => d.Name)).Nodup → (∀ d ∈ ds, itemIndex acc d.Name = none) →
    (mergeItems (ds.map encodeDiscovery) acc).2 = acc ++ ds.map encodeDiscovery
  | [], acc, _, _ => by simp [mergeItems]
  | d :: rest, acc, hnd, hno => by
    simp only [List.map_cons, List.nodup_cons, List.mem_map, not_exists, not_and] at hnd
    have hl : pairLookup (encodeDiscovery d).Content "name" =
        some (Node.mk ScalarNode 0 d.Name []) := by
      simp [encodeDiscovery, scalarPair, pairLookup]
    have h0 := hno d (by simp)
    simp only [List.map_cons, mergeItems, hl, Node.Value_mk, h0]
    rw [mergeItems_fresh rest (acc ++ [encodeDiscovery d]) hnd.2]
    · simp
    · intro d1 hd1
      apply itemIndex_append_miss _ _ _ (hno d1 (by simp [hd1]))
      rw [nameKey_encodeDiscovery]
      simp only [ne_eq, Option.some.injEq]
      exact fun e => hnd.1 d1 hd1 e.symm

theorem SourcesSettled_self (ds : List PluginDiscovery)
    (hnd : (ds.map (fun d => d.Name)).Nodup) :
    SourcesSettled ds (ds.map encodeDiscovery) := by
  have := SourcesSettled_post ds [] hnd (by simp)
  rw [mergeItems_fresh ds [] hnd (by simp [itemIndex])] at this
  simpa using this

/-- The sequence of the discovery sources of a context is a good source of merges when
the sources have pairwise different names. -/
theorem MergeGood_sources (ds : List PluginDiscovery)
    (hnd : (ds.map (fun d => d.Name)).Nodup) :
    MergeGood (Node.mk SequenceNode 0 "" (ds.map encodeDiscovery)) := by
  have hw : wellPaired (Node.mk SequenceNode 0 "" (ds.map encodeDiscovery)) = true := by
    rw [wellPaired_iff]
    refine ⟨by simp, ?_⟩
    intro x hx
    obtain ⟨d, _, rfl⟩ := List.mem_map.mp hx
    exact wellPaired_encodeDiscovery d
  have hqk : (Node.mk SequenceNode 0 "" (ds.map encodeDiscovery)).Kind = SequenceNode := rfl
  have hqc : (Node.mk SequenceNode 0 "" (ds.map encodeDiscovery)).Content =
      ds.map encodeDiscovery := rfl
  generalize Node.mk SequenceNode 0 "" (ds.map encodeDiscovery) = sq at hw hqk hqc ⊢
  refine ⟨hw, ?_, ?_⟩
  · intro d hd
    by_cases hk : sq.Kind = d.Kind
    · have hdk : d.Kind = SequenceNode := by rw [← hk]; exact hqk
      have hpost := SourcesSettled_post ds d.Content hnd ((wellPaired_iff d).mp hd).2
      rw [mergeNode_sequence sq d hqk hdk]
      rw [mergeNode_sequence sq _ hqk (by simpa using hdk)]
      simp only [hqc, Node.Content_setContent, SourcesSettled_merge _ _ hpost,
        Node.setContent_setContent]
    · rw [mergeNode_kind_ne sq d hk, mergeNode_sequence sq sq hqk hqk]
      have hself := SourcesSettled_merge _ _ (SourcesSettled_self ds hnd)
      rw [← hqc] at hself
      rw [hself]
      simp
  · intro d hf
    by_cases hk : sq.Kind = d.Kind
    · have hdk : d.Kind = SequenceNode := by rw [← hk]; exact hqk
      rw [mergeNode_sequence sq d hqk hdk] at hf ⊢
      simp only [hqc] at hf ⊢
      rw [SourcesSettled_merge _ _ (SourcesSettled_of_false ds d.Content hf)]
      simp
    · rw [mergeNode_kind_ne sq d hk] at hf
      cases hf

/-- The loop of `setDiscoverySources` on items that hold, under the name of every
source, exactly the node of that source: nothing changes. -/
theorem setDiscoverySourcesLoop_exact (key : Path) (ps : PatchStrategies) :
    ∀ (ds : List PluginDiscovery) (b : Bool) (items : List Node),
    (∀ d ∈ ds, ∃ i, itemIndex items d.Name = some i ∧
      items.get? i = some (encodeDiscovery d)) →
    setDiscoverySourcesLoop key ps ds b items = .ok (b, items)
  | [], b, items, _ => rfl
  | d :: rest, b, items, h => by
    obtain ⟨i, hi, hg⟩ := h d (by simp)
    have ih := setDiscoverySourcesLoop_exact key ps rest b items
      (fun y hy => h y (by simp [hy]))
    have hm := mergeNode_self_of_idem _ (MergeGood_encodeDiscovery d).2.1
    simp only [setDiscoverySourcesLoop, setDiscoverySource, hi, hg, DeleteNodes, MergeNodes,
      deleteTop_self, hm, list_set_get_self items i _ hg, Bool.or_false, ih]

/-- The nodes of discovery sources with pairwise different names hold, under the name
of every source, exactly the node of that source. -/
theorem sources_exact_self : ∀ (ds : List PluginDiscovery),
    (ds.map (fun d => d.Name)).Nodup →
    ∀ d ∈ ds, ∃ i, itemIndex (ds.map encodeDiscovery) d.Name = some i ∧
      (ds.map encodeDiscovery).get? i = some (encodeDiscovery d)
  | [], _, d, hd => by cases hd
  | d0 :: rest, hnd, d, hd => by
    rw [List.map_cons, List.nodup_cons] at hnd
    rcases List.mem_cons.mp hd with h | h
    · subst h
      refine ⟨0, ?_, rfl⟩
      rw [List.map_cons, itemIndex_cons, nameKey_encodeDiscovery]
      simp
    · obtain ⟨i, hi, hg⟩ := sources_exact_self rest hnd.2 d h
      have hne : d0.Name ≠ d.Name := by
        intro heq
        exact hnd.1 (List.mem_map.mpr ⟨d, h, heq.symm⟩)
      refine ⟨i + 1, ?_, ?_⟩
      · rw [List.map_cons, itemIndex_cons, nameKey_encodeDiscovery]
        simp [hne, hi]
      · simpa using hg


theorem MergeGood_encodeGlobalServer (g : GlobalServer) : MergeGood (encodeGlobalServer g) := by
  refine MergeGood_mapping _ rfl ?_ ?_ ?_
  · simp [encodeGlobalServer, scalarPair, wellPaired, wellPairedList]
  · simp [encodeGlobalServer, scalarPair, decodePairs]
  · exact ⟨MergeGood_scalarNode _, trivial⟩

theorem MergeGood_encodeClusterServer (o : ClusterServer) :
    MergeGood (encodeClusterServer o) := by
  refine MergeGood_mapping _ rfl ?_ ?_ ?_
  · simp [encodeClusterServer, scalarPair, wellPaired, wellPairedList]
  · simp [encodeClusterServer, scalarPair, decodePairs]
  · exact ⟨MergeGood_scalarNode _, MergeGood_scalarNode _, trivial⟩

theorem MergeGood_encodeServer (s : Server) : MergeGood (encodeServer s) := by
  refine MergeGood_mapping _ rfl ?_ ?_ ?_
  · simp [encodeServer, scalarPair, wellPaired, wellPairedList]
  · simp [encodeServer, scalarPair, decodePairs]
  · exact ⟨MergeGood_scalarNode _, MergeGood_scalarNode _, MergeGood_scalarNode _, trivial⟩

theorem PairsAll_append {P : Node → Prop} : ∀ (l1 l2 : List Node), l1.length % 2 = 0 →
    PairsAll P l1 → PairsAll P l2 → PairsAll P (l1 ++ l2)
  | [], l2, _, _, h2 => h2
  | [_], l2, he, _, _ => by simp at he
  | k :: v :: rest, l2, he, h1, h2 =>
    ⟨h1.1, PairsAll_append rest l2 (even_tail he) h1.2 h2⟩

/-- The parts of the mapping of a context that make it a good source of merges. -/
theorem encodeContext_parts (c : Context)
    (hnd : (c.DiscoverySources.map (fun d => d.Name)).Nodup) :
    wellPaired (encodeContext c) = true ∧
    ((decodePairs (encodeContext c).Content).map Prod.fst).Nodup ∧
    PairsAll MergeGood (encodeContext c).Content := by
  obtain ⟨n, t, g, o, ds⟩ := c
  simp only at hnd
  have hg : ∀ g : GlobalServer, wellPaired (encodeGlobalServer g) = true :=
    fun g => (MergeGood_encodeGlobalServer g).1
  have ho : ∀ o : ClusterServer, wellPaired (encodeClusterServer o) = true :=
    fun o => (MergeGood_encodeClusterServer o).1
  have hs := MergeGood_sources ds hnd
  refine ⟨?_, ?_, ?_⟩
  · rw [wellPaired_iff]
    constructor
    · intro _
      cases g <;> cases o <;> cases ds <;> simp [encodeContext, scalarPair]
    · intro x hx
      simp only [encodeContext, scalarPair, Node.Content_mk, List.mem_append, List.mem_cons,
        List.mem_singleton, List.not_mem_nil, or_false] at hx
      rcases hx with ((((rfl | rfl) | (rfl | rfl)) | h) | h) | h
      · exact wellPaired_scalarNode _
      · exact wellPaired_scalarNode _
      · exact wellPaired_scalarNode _
      · exact wellPaired_scalarNode _
      · cases g with
        | none => simp at h
        | some g =>
          simp only [List.mem_cons, List.mem_singleton, List.not_mem_nil, or_false] at h
          rcases h with rfl | rfl
          · exact wellPaired_scalarNode _
          · exact hg g
      · cases o with
        | none => simp at h
        | some o =>
          simp only [List.mem_cons, List.mem_singleton, List.not_mem_nil, or_false] at h
          rcases h with rfl | rfl
          · exact wellPaired_scalarNode _
          · exact ho o
      · cases ds with
        | nil => simp at h
        | cons d rest =>
          simp only [List.mem_cons, List.mem_singleton, List.not_mem_nil, or_false] at h
          rcases h with rfl | rfl
          · exact wellPaired_scalarNode _
          · exact hs.1
  · cases g <;> cases o <;> cases ds <;>
      simp [encodeContext, scalarPair, decodePairs, KeyDiscoverySources]
  · simp only [encodeContext, Node.Content_mk]
    refine PairsAll_append _ _ ?_ (PairsAll_append _ _ ?_ (PairsAll_append _ _ ?_
      (PairsAll_append _ _ (by simp [scalarPair])
        ⟨MergeGood_scalarNode _, trivial⟩ ⟨MergeGood_scalarNode _, trivial⟩) ?_) ?_) ?_
    · cases g <;> cases o <;> simp [scalarPair]
    · cases g <;> simp [scalarPair]
    · simp [scalarPair]
    · cases g with
      | none => trivial
      | some g => exact ⟨MergeGood_encodeGlobalServer g, trivial⟩
    · cases o with
      | none => trivial
      | some o => exact ⟨MergeGood_encodeClusterServer o, trivial⟩
    · cases ds with
      | nil => trivial
      | cons d rest => exact ⟨hs, trivial⟩

theorem PairsSettled_self (sc : List Node) (hw : ∀ x ∈ sc, wellPaired x = true)
    (he : sc.length % 2 = 0) (hnd : ((decodePairs sc).map Prod.fst).Nodup)
    (hp : PairsAll MergeGood sc) : PairsSettled sc sc := by
  have := PairsSettled_post sc [] hw hnd hp (by simp) (by simp)
  rw [mergePairs_fresh sc [] he (by simp) hnd (by simp [pairLookup])] at this
  simpa using this

theorem GoodEntry_encodeContext (c : Context)
    (hnd : (c.DiscoverySources.map (fun d => d.Name)).Nodup) :
    GoodEntry c (encodeContext c) := by
  obtain ⟨hw, hk, hp⟩ := encodeContext_parts c hnd
  have hwi := (wellPaired_iff _).mp hw
  exact ⟨rfl, hwi.1 rfl, PairsSettled_self _ hwi.2 (hwi.1 rfl) hk hp⟩

theorem GoodEntry_merge (c : Context) (x : Node) (h : GoodEntry c x) :
    mergeNode (encodeContext c) x = (false, x) := by
  obtain ⟨hk, _, hs⟩ := h
  rw [mergeNode_mapping (encodeContext c) x rfl hk, PairsSettled_merge _ _ hs]
  simp

theorem PairsSettled_lookup : ∀ (sc dst : List Node) (key : String) (v : Node),
    PairsSettled sc dst → pairLookup sc key = some v →
    ∃ dv, pairLookup dst key = some dv ∧ mergeNode v dv = (false, dv)
  | [], _, _, _, _, h => by simp [pairLookup] at h
  | [_], _, _, _, _, h => by simp [pairLookup] at h
  | k :: w :: rest, dst, key, v, hs, h => by
    by_cases hk : k.Value = key
    · simp only [pairLookup, hk, if_true, Option.some.injEq] at h
      subst h
      rw [← hk]
      exact hs.1
    · simp only [pairLookup, hk, if_false] at h
      exact PairsSettled_lookup rest dst key v hs.2 h

theorem encodeContext_sources (c : Context) (d : PluginDiscovery) (rest : List PluginDiscovery)
    (h : c.DiscoverySources = d :: rest) :
    pairLookup (encodeContext c).Content KeyDiscoverySources =
      some (Node.mk SequenceNode 0 "" (c.DiscoverySources.map encodeDiscovery)) := by
  obtain ⟨n, t, g, o, ds⟩ := c
  simp only at h
  subst h
  cases g <;> cases o <;>
    simp [encodeContext, scalarPair, pairLookup, KeyDiscoverySources]

/-- On the node of the context itself `setDiscoverySources` reports no change. -/
theorem setDiscoverySources_encodeContext (c : Context) (ps : PatchStrategies)
    (hnd : (c.DiscoverySources.map (fun d => d.Name)).Nodup) (key : Path) :
    ∃ x1, setDiscoverySources (encodeContext c) c.DiscoverySources key ps =
      .ok (false, x1) := by
  have he : (encodeContext c).Content.length % 2 = 0 := (EntryOf_encodeContext c).1
  unfold setDiscoverySources
  cases hF : FindNode (encodeContext c) true [⟨KeyDiscoverySources, SequenceNode⟩] with
  | none => exact ⟨_, rfl⟩
  | some r =>
    obtain ⟨x0, path⟩ := r
    obtain ⟨sec, hat, hset, _, hcase⟩ := FindNode_focus (encodeContext c) true
      KeyDiscoverySources SequenceNode he x0 path hF
    simp only [hat]
    cases hds : c.DiscoverySources with
    | nil => exact ⟨_, rfl⟩
    | cons d rest =>
      have hlook := encodeContext_sources c d rest hds
      rcases hcase with ⟨hl, _⟩ | ⟨hl, _⟩
      · rw [hlook] at hl
        simp only [Option.some.injEq] at hl
        subst hl
        have hloop : setDiscoverySourcesLoop key ps (d :: rest) false
            (c.DiscoverySources.map encodeDiscovery) =
            .ok (false, c.DiscoverySources.map encodeDiscovery) := by
          rw [← hds]
          exact setDiscoverySourcesLoop_exact key ps _ false _
            (sources_exact_self c.DiscoverySources hnd)
        simp only [Node.Content_mk, hloop]
        exact ⟨_, rfl⟩
      · rw [hlook] at hl
        cases hl

/-- On the node of the context itself the update of `setContext` reports no change, for
the context and for its discovery sources. -/
theorem patchContextNode_encodeContext (c : Context) (ps : PatchStrategies)
    (hnd : (c.DiscoverySources.map (fun d => d.Name)).Nodup) :
    ∃ x1, patchContextNode ps (encodeContext c) c (encodeContext c) =
      .ok (false, false, x1) := by
  obtain ⟨x1, h1⟩ := setDiscoverySources_encodeContext c ps hnd
    [KeyContexts, KeyDiscoverySources]
  refine ⟨x1, ?_⟩
  simp only [patchContextNode, DeleteNodes, MergeNodes, deleteTop_self,
    GoodEntry_merge c _ (GoodEntry_encodeContext c hnd), h1]
  rfl

/-- On the node of the server itself the update of `setServer` reports no change. -/
theorem patchServerOf_self (s : Server) (ps : PatchStrategies) :
    patchServerOf ps s (encodeServer s) = (false, encodeServer s) := by
  simp only [patchServerOf, deleteTop_self,
    mergeNode_self_of_idem _ (MergeGood_encodeServer s).2.1]


/-- The loop of `setContext` on entries whose matching entries are updated without
change: no change is reported. -/
theorem setContextLoop_quiet (ps : PatchStrategies) (c : Context) :
    ∀ (entries : List Node) (st : SetContextState),
    (∀ e ∈ entries, e.Content.length % 2 = 0) →
    (∀ e ∈ entries, nameIs c.Name e = true →
      ∃ x1, patchContextNode ps (encodeContext c) c e = .ok (false, false, x1)) →
    st.persist = false → st.persistDiscoverySources = false →
    ∃ st1, setContextLoop ps (encodeContext c) c entries st = .ok st1 ∧
      st1.found = (st.found || entries.any (nameIs c.Name)) ∧
      st1.persist = false ∧ st1.persistDiscoverySources = false
  | [], st, _, _, h1, h2 => ⟨st, rfl, by simp, h1, h2⟩
  | e :: rest, st, hev, hgood, h1, h2 => by
    have hrest : ∀ x ∈ rest, x.Content.length % 2 = 0 :=
      fun x hx => hev x (List.mem_cons_of_mem _ hx)
    have hgrest : ∀ x ∈ rest, nameIs c.Name x = true →
        ∃ x1, patchContextNode ps (encodeContext c) c x = .ok (false, false, x1) :=
      fun x hx => hgood x (List.mem_cons_of_mem _ hx)
    rcases nameIs_iff c.Name e (hev e (List.mem_cons_self _ _)) with
      ⟨hn, j, v, hg, hget, hv⟩ | ⟨hn, hg | ⟨j, v, hg, hget, hv⟩⟩
    · have hne : ¬ (((j + 1 : Nat) : Int) = -1) := by omega
      obtain ⟨x1, hp⟩ := hgood e (List.mem_cons_self _ _) hn
      obtain ⟨st1, ha, hb, hc, hd⟩ := setContextLoop_quiet ps c rest
        ⟨true, false, false, st.result ++ [x1]⟩ hrest hgrest rfl rfl
      refine ⟨st1, ?_, ?_, hc, hd⟩
      · simp only [setContextLoop, hg, ne_eq, hne, not_false_eq_true, if_true,
          Int.toNat_ofNat, hget, hv, hp, ha]
      · rw [hb]; simp [hn]
    · obtain ⟨st1, ha, hb, hc, hd⟩ := setContextLoop_quiet ps c rest
        { st with result := st.result ++ [e] } hrest hgrest h1 h2
      refine ⟨st1, ?_, ?_, hc, hd⟩
      · simp only [setContextLoop, hg, ne_eq, not_true_eq_false, if_false, ha]
      · rw [hb]; simp [hn]
    · have hne : ¬ (((j + 1 : Nat) : Int) = -1) := by omega
      obtain ⟨st1, ha, hb, hc, hd⟩ := setContextLoop_quiet ps c rest
        { st with result := st.result ++ [e] } hrest hgrest h1 h2
      refine ⟨st1, ?_, ?_, hc, hd⟩
      · simp only [setContextLoop, hg, ne_eq, hne, not_false_eq_true, if_true,
          Int.toNat_ofNat, hget, hv, if_false, ha]
      · rw [hb]; simp [hn]

theorem contextsFlag_quiet (ps : PatchStrategies) (c : Context)
    (entries : List Node) (hev : ∀ e ∈ entries, e.Content.length % 2 = 0)
    (hany : entries.any (nameIs c.Name) = true)
    (hgood : ∀ e ∈ entries, nameIs c.Name e = true →
      ∃ x1, patchContextNode ps (encodeContext c) c e = .ok (false, false, x1)) :
    contextsFlag ps c entries = false := by
  obtain ⟨st1, ha, hb, hc, hd⟩ := setContextLoop_quiet ps c entries
    ⟨false, false, false, []⟩ hev hgood rfl rfl
  simp only [contextsFlag, ha, hb, hany, hc, hd]
  rfl

theorem contextsFlag_found (ps : PatchStrategies) (c : Context) (entries : List Node)
    (hev : ∀ e ∈ entries, e.Content.length % 2 = 0)
    (h : contextsFlag ps c entries = false) : entries.any (nameIs c.Name) = true := by
  obtain ⟨st1, ha, _, hb, _⟩ := setContextLoop_eq ps c entries ⟨false, false, false, []⟩ hev
  simp only [contextsFlag, ha, hb, Bool.false_or] at h
  cases hany : entries.any (nameIs c.Name) with
  | true => rfl
  | false => simp [hany] at h

/-- Without an entry named `c.Name` the flag of `setContext` is true. -/
theorem contextsFlag_fresh (ps : PatchStrategies) (c : Context) (entries : List Node)
    (hev : ∀ e ∈ entries, e.Content.length % 2 = 0)
    (hany : entries.any (nameIs c.Name) = false) : contextsFlag ps c entries = true := by
  cases hf : contextsFlag ps c entries with
  | true => rfl
  | false =>
    have := contextsFlag_found ps c entries hev hf
    rw [hany] at this
    cases this

/-- The entries after `setContext` on entries none of which is named `c.Name`: the
node of the context is appended; the result has complete pairs, holds exactly one
entry named `c.Name`, and `setContext` reports no change on it. -/
theorem contextsAfterSet_fresh (ps : PatchStrategies) (c : Context)
    (hnd : (c.DiscoverySources.map (fun d => d.Name)).Nodup) (entries : List Node)
    (hev : ∀ e ∈ entries, e.Content.length % 2 = 0)
    (hfresh : ∀ e ∈ entries, nameIs c.Name e = false) :
    contextsAfterSet ps c entries = entries ++ [encodeContext c] ∧
    (∀ e ∈ entries ++ [encodeContext c], e.Content.length % 2 = 0) ∧
    ((entries ++ [encodeContext c]).filter (nameIs c.Name)).length = 1 ∧
    contextsFlag ps c (entries ++ [encodeContext c]) = false := by
  have hencn : nameIs c.Name (encodeContext c) = true := by
    simp [nameIs, (EntryOf_encodeContext c).2.1]
  have hany : entries.any (nameIs c.Name) = false := by
    rw [List.any_eq_false]
    intro e he
    simp [hfresh e he]
  have hev2 : ∀ e ∈ entries ++ [encodeContext c], e.Content.length % 2 = 0 := by
    intro e he
    rcases List.mem_append.mp he with h | h
    · exact hev e h
    · rw [List.mem_singleton.mp h]; exact (EntryOf_encodeContext c).1
  refine ⟨?_, hev2, ?_, ?_⟩
  · simp [contextsAfterSet, hany]
  · have hnil : entries.filter (nameIs c.Name) = [] := by
      rw [List.filter_eq_nil_iff]
      intro e he
      simp [hfresh e he]
    simp [List.filter_append, hnil, List.filter_cons, hencn]
  · apply contextsFlag_quiet ps c _ hev2
    · simp [hencn]
    · intro e he hn
      rcases List.mem_append.mp he with h | h
      · rw [hfresh e h] at hn
        cases hn
      · rw [List.mem_singleton.mp h]
        exact patchContextNode_encodeContext c ps hnd

/-- What `setContext` returns, with its persist flag, on a document with complete
pairs whose contexts section, when present, is a sequence. -/
theorem setContext_flag (md : Except Error PatchStrategies) (node : Node) (ctx : Context)
    (hd : DocComplete node)
    (hkind : SectionKind node KeyContexts SequenceNode)
    (hent : EntriesComplete node KeyContexts) :
    ∃ sec1, setContext md node ctx =
        .ok (contextsFlag (strategiesOf md) ctx (sectionItems node KeyContexts),
          putSection node KeyContexts sec1) ∧
      sec1.Kind = SequenceNode ∧
      sec1.Content = contextsAfterSet (strategiesOf md) ctx (sectionItems node KeyContexts) := by
  obtain ⟨p, sec1, h1, hk, hcont, _⟩ := setContext_shape md node ctx hd hkind hent
  refine ⟨sec1, ?_, hk, hcont⟩
  rw [h1]
  obtain ⟨root, rest, hc, hroot⟩ := root_of_complete node hd
  obtain ⟨st1, hloop, _⟩ := setContextLoop_eq (strategiesOf md) ctx
    (sectionItems node KeyContexts) ⟨false, false, false, []⟩ hent
  have hp : p = contextsFlag (strategiesOf md) ctx (sectionItems node KeyContexts) := by
    cases hF : FindNode root true [⟨KeyContexts, SequenceNode⟩] with
    | none =>
      exfalso
      rcases FindNode_none root true KeyContexts SequenceNode hroot hF with
        ⟨sec, hl, _, hk2⟩ | ⟨_, h | h⟩
      · simp only [SectionKind, sectionOf, hc, hl] at hkind
        exact hk2 hkind
      · cases h
      · simp [createNode, CreateSequenceNode] at h
    | some r =>
      obtain ⟨root1, path⟩ := r
      obtain ⟨sec, hat, hset, _, hcase⟩ := focus_doc node root rest true KeyContexts
        SequenceNode hc hroot root1 path hF
      have hitems : sectionItems node KeyContexts = sec.Content := by
        rcases hcase with ⟨hs, _⟩ | ⟨hs, _, hcont2, _⟩
        · simp [sectionItems, hs]
        · simp [sectionItems, hs, hcont2]
      rw [hitems] at hloop
      have hunf : setContext md node ctx =
          .ok (st1.persistDiscoverySources || (if st1.found then st1.persist else true),
            putSection node KeyContexts (sec.setContent
              (if st1.found then st1.result else st1.result ++ [encodeContext ctx]))) := by
        simp only [setContext, convertContextToNode, hc, hF, hat, Node.Content_mk, hset]
        cases md with
        | ok m =>
          simp only [strategiesOf] at hloop
          simp only [hloop]
        | error e =>
          simp only [strategiesOf] at hloop
          simp only [hloop]
      rw [hunf] at h1
      simp only [Except.ok.injEq, Prod.mk.injEq] at h1
      rw [← h1.1, hitems]
      simp only [contextsFlag, hloop]
  rw [hp]


theorem patchServerNode_eq (s : Server) (ps : PatchStrategies) (e : Node) :
    patchServerNode ps (encodeServer s) e = .ok (patchServerOf ps s e) := by
  simp only [patchServerNode, DeleteNodes, MergeNodes, patchServerOf]

/-- The loop of `setServer` on entries with complete pairs. -/
theorem setServerLoop_eq (ps : PatchStrategies) (s : Server) :
    ∀ (entries : List Node) (st : SetContextState),
    (∀ e ∈ entries, e.Content.length % 2 = 0) →
    ∃ st1, setServerLoop ps (encodeServer s) s entries st = .ok st1 ∧
      st1.result = st.result ++
        entries.map (fun e => if nameIs s.Name e then (patchServerOf ps s e).2 else e) ∧
      st1.found = (st.found || entries.any (nameIs s.Name)) ∧
      (st.persist = false →
        (∀ e ∈ entries, nameIs s.Name e = true → patchServerOf ps s e = (false, e)) →
        st1.persist = false)
  | [], st, _ => ⟨st, rfl, by simp, by simp, fun h _ => h⟩
  | e :: rest, st, hev => by
    have hrest : ∀ x ∈ rest, x.Content.length % 2 = 0 :=
      fun x hx => hev x (List.mem_cons_of_mem _ hx)
    rcases nameIs_iff s.Name e (hev e (List.mem_cons_self _ _)) with
      ⟨hn, j, v, hg, hget, hv⟩ | ⟨hn, hg | ⟨j, v, hg, hget, hv⟩⟩
    · have hne : ¬ (((j + 1 : Nat) : Int) = -1) := by omega
      obtain ⟨st1, ha, hb, hc, hd⟩ := setServerLoop_eq ps s rest
        ⟨true, (patchServerOf ps s e).1, false,
          st.result ++ [(patchServerOf ps s e).2]⟩ hrest
      refine ⟨st1, ?_, ?_, ?_, ?_⟩
      · simp only [setServerLoop, hg, ne_eq, hne, not_false_eq_true, if_true,
          Int.toNat_ofNat, hget, hv, patchServerNode_eq s ps e, ha]
      · rw [hb]; simp [hn]
      · rw [hc]; simp [hn]
      · intro _ hall
        apply hd
        · have := hall e (List.mem_cons_self _ _) hn
          simp [this]
        · exact fun x hx => hall x (List.mem_cons_of_mem _ hx)
    · obtain ⟨st1, ha, hb, hc, hd⟩ := setServerLoop_eq ps s rest
        { st with result := st.result ++ [e] } hrest
      refine ⟨st1, ?_, ?_, ?_, ?_⟩
      · simp only [setServerLoop, hg, ne_eq, not_true_eq_false, if_false, ha]
      · rw [hb]; simp [hn]
      · rw [hc]; simp [hn]
      · intro h1 hall
        exact hd h1 (fun x hx => hall x (List.mem_cons_of_mem _ hx))
    · have hne : ¬ (((j + 1 : Nat) : Int) = -1) := by omega
      obtain ⟨st1, ha, hb, hc, hd⟩ := setServerLoop_eq ps s rest
        { st with result := st.result ++ [e] } hrest
      refine ⟨st1, ?_, ?_, ?_, ?_⟩
      · simp only [setServerLoop, hg, ne_eq, hne, not_false_eq_true, if_true,
          Int.toNat_ofNat, hget, hv, if_false, ha]
      · rw [hb]; simp [hn]
      · rw [hc]; simp [hn]
      · intro h1 hall
        exact hd h1 (fun x hx => hall x (List.mem_cons_of_mem _ hx))

theorem serversFlag_good (ps : PatchStrategies) (s : Server)
    (entries : List Node) (hev : ∀ e ∈ entries, e.Content.length % 2 = 0)
    (hany : entries.any (nameIs s.Name) = true)
    (hgood : ∀ e ∈ entries, nameIs s.Name e = true → patchServerOf ps s e = (false, e)) :
    serversFlag ps s entries = false := by
  obtain ⟨st1, ha, _, hc, hd⟩ := setServerLoop_eq ps s entries
    ⟨false, false, false, []⟩ hev
  simp only [serversFlag, ha, hc, hany, hd rfl hgood]
  rfl

/-- Without an entry named `s.Name` the flag of `setServer` is true. -/
theorem serversFlag_fresh (ps : PatchStrategies) (s : Server) (entries : List Node)
    (hev : ∀ e ∈ entries, e.Content.length % 2 = 0)
    (hany : entries.any (nameIs s.Name) = false) : serversFlag ps s entries = true := by
  obtain ⟨st1, ha, _, hc, _⟩ := setServerLoop_eq ps s entries ⟨false, false, false, []⟩ hev
  simp only [serversFlag, ha, hc, hany]
  rfl

/-- The entries after `setServer` on entries none of which is named `s.Name`: the
mirror is appended; the result has complete pairs and `setServer` reports no change
on it. -/
theorem serversAfterSet_fresh (ps : PatchStrategies) (s : Server) (entries : List Node)
    (hev : ∀ e ∈ entries, e.Content.length % 2 = 0)
    (hfresh : ∀ e ∈ entries, nameIs s.Name e = false) :
    serversAfterSet ps s entries = entries ++ [encodeServer s] ∧
    (∀ e ∈ entries ++ [encodeServer s], e.Content.length % 2 = 0) ∧
    serversFlag ps s (entries ++ [encodeServer s]) = false := by
  have hencn : nameIs s.Name (encodeServer s) = true := by
    simp [encodeServer, scalarPair, nameIs, pairLookup]
  have hany : entries.any (nameIs s.Name) = false := by
    rw [List.any_eq_false]
    intro e he
    simp [hfresh e he]
  have hev2 : ∀ e ∈ entries ++ [encodeServer s], e.Content.length % 2 = 0 := by
    intro e he
    rcases List.mem_append.mp he with h | h
    · exact hev e h
    · rw [List.mem_singleton.mp h]; simp [encodeServer, scalarPair]
  refine ⟨?_, hev2, ?_⟩
  · simp [serversAfterSet, hany]
  · apply serversFlag_good ps s _ hev2
    · simp [hencn]
    · intro e he hn
      rcases List.mem_append.mp he with h | h
      · rw [hfresh e h] at hn
        cases hn
      · rw [List.mem_singleton.mp h]
        exact patchServerOf_self s ps

/-- What `setServer` returns, with its persist flag, on a document with complete pairs
whose servers section, when present, is a sequence. -/
theorem setServer_flag (md : Except Error PatchStrategies)
    (node : Node) (s : Server) (hd : DocComplete node)
    (hkind : SectionKind node KeyServers SequenceNode)
    (hent : EntriesComplete node KeyServers) :
    ∃ sec1, setServer md node s =
        .ok (serversFlag (strategiesOf md) s (sectionItems node KeyServers),
          putSection node KeyServers sec1) ∧
      sec1.Kind = SequenceNode ∧
      sec1.Content = serversAfterSet (strategiesOf md) s (sectionItems node KeyServers) := by
  obtain ⟨root, rest, hc, hroot⟩ := root_of_complete node hd
  cases hF : FindNode root true [⟨KeyServers, SequenceNode⟩] with
  | none =>
    exfalso
    rcases FindNode_none root true KeyServers SequenceNode hroot hF with
      ⟨sec, hl, _, hk⟩ | ⟨_, h | h⟩
    · simp only [SectionKind, sectionOf, hc, hl] at hkind
      exact hk hkind
    · cases h
    · simp [createNode, CreateSequenceNode] at h
  | some r =>
    obtain ⟨root1, path⟩ := r
    obtain ⟨sec, hat, hset, _, hcase⟩ := focus_doc node root rest true KeyServers SequenceNode
      hc hroot root1 path hF
    have hitems : sectionItems node KeyServers = sec.Content := by
      rcases hcase with ⟨hs, _⟩ | ⟨hs, _, hcont, _⟩
      · simp [sectionItems, hs]
      · simp [sectionItems, hs, hcont]
    have hkd : sec.Kind = SequenceNode := by
      rcases hcase with ⟨hs, hk⟩ | ⟨_, _, _, hk, _⟩
      · simp only [SectionKind, hs] at hkind; exact hkind
      · exact hk
    have hev : ∀ e ∈ sec.Content, e.Content.length % 2 = 0 := by
      intro e he; exact hent e (by rw [hitems]; exact he)
    obtain ⟨st1, h1, h2, h3, _⟩ := setServerLoop_eq (strategiesOf md) s sec.Content
      ⟨false, false, false, []⟩ hev
    have hunf : setServer md node s =
        .ok ((if st1.found then st1.persist else true),
          putSection node KeyServers (sec.setContent
            (if st1.found then st1.result else st1.result ++ [encodeServer s]))) := by
      simp only [setServer, convertServerToNode, hc, hF, hat, Node.Content_mk, hset]
      cases md with
      | ok m =>
        simp only [strategiesOf] at h1
        simp only [h1]
      | error e =>
        simp only [strategiesOf] at h1
        simp only [h1]
    refine ⟨sec.setContent
      (if st1.found then st1.result else st1.result ++ [encodeServer s]), ?_,
      by simpa using hkd, ?_⟩
    · rw [hunf, hitems]
      simp only [serversFlag, h1]
    · simp only [Node.Content_setContent, serversAfterSet, hitems, h3, Bool.false_or, h2,
        List.nil_append]
      cases hany : sec.Content.any (nameIs s.Name)
      · simp only [Bool.false_eq_true, if_false, List.append_left_inj]
        rw [List.map_congr_left, List.map_id]
        intro e he
        have : nameIs s.Name e = false := by
          have := List.any_eq_false.mp hany e he
          simpa using this
        simp [this]
      · simp


theorem ContextsQuiet_congr (ps : PatchStrategies) (c : Context) (x y : Node)
    (h : sectionOf y KeyContexts = sectionOf x KeyContexts) (hq : ContextsQuiet ps c x) :
    ContextsQuiet ps c y := by
  have hi : sectionItems y KeyContexts = sectionItems x KeyContexts := by
    simp only [sectionItems, h]
  obtain ⟨h1, h2, h3, h4⟩ := hq
  refine ⟨?_, ?_, ?_, ?_⟩
  · simpa only [SectionKind, h] using h1
  · simpa only [EntriesComplete, hi] using h2
  · rw [hi]; exact h3
  · rw [hi]; exact h4

theorem PointerQuiet_congr (c : Context) (x y : Node)
    (h : sectionOf y KeyCurrentContext = sectionOf x KeyCurrentContext)
    (hq : PointerQuiet c x) : PointerQuiet c y := by
  have hi : sectionItems y KeyCurrentContext = sectionItems x KeyCurrentContext := by
    simp only [sectionItems, h]
  obtain ⟨h1, h2, h3⟩ := hq
  refine ⟨?_, ?_, ?_⟩
  · simpa only [SectionKind, h] using h1
  · simpa only [SectionComplete, hi] using h2
  · simpa only [currentContextOf, h] using h3

theorem ServersQuiet_congr (ps : PatchStrategies) (c : Context) (x y : Node)
    (h : sectionOf y KeyServers = sectionOf x KeyServers) (hq : ServersQuiet ps c x) :
    ServersQuiet ps c y := by
  have hi : sectionItems y KeyServers = sectionItems x KeyServers := by
    simp only [sectionItems, h]
  obtain ⟨h1, h2, h3⟩ := hq
  refine ⟨?_, ?_, ?_⟩
  · simpa only [SectionKind, h] using h1
  · simpa only [EntriesComplete, hi] using h2
  · rw [hi]; exact h3

theorem CurrentServerQuiet_congr (c : Context) (x y : Node)
    (h : sectionOf y KeyCurrentServer = sectionOf x KeyCurrentServer)
    (hq : CurrentServerQuiet c x) : CurrentServerQuiet c y := by
  intro hs
  simp only [currentServerOf, SectionKind, h]
  exact hq hs

/-- Step one of `SetContext` on a document without an entry named `c.Name`: what
`setContext` returns, and the contexts section after it is settled; the flag is not
false. -/
theorem setContext_settles (md : Except Error PatchStrategies) (c : Context)
    (hnd : (c.DiscoverySources.map (fun d => d.Name)).Nodup) (x : Node)
    (hd : DocComplete x) (hkind : SectionKind x KeyContexts SequenceNode)
    (hent : EntriesComplete x KeyContexts)
    (hfresh : ∀ e ∈ sectionItems x KeyContexts, nameIs c.Name e = false) :
    ∃ p sec1, setContext md x c = .ok (p, putSection x KeyContexts sec1) ∧
      ContextsQuiet (strategiesOf md) c (putSection x KeyContexts sec1) ∧
      (p = false → ContextsQuiet (strategiesOf md) c x) := by
  obtain ⟨sec1, h1, hk, hcont⟩ := setContext_flag md x c hd hkind hent
  obtain ⟨g0, g1, g2, g3⟩ := contextsAfterSet_fresh (strategiesOf md) c hnd
    (sectionItems x KeyContexts) hent hfresh
  obtain ⟨hs, hi⟩ := sections_after_putSection x KeyContexts sec1 hd
  have hany : (sectionItems x KeyContexts).any (nameIs c.Name) = false := by
    rw [List.any_eq_false]
    intro e he
    simp [hfresh e he]
  refine ⟨_, sec1, h1, ⟨?_, ?_, ?_, ?_⟩, fun hp => ?_⟩
  · simp only [SectionKind, hs]; exact hk
  · simp only [EntriesComplete, hi, hcont, g0]; exact g1
  · rw [hi, hcont, g0]; exact g2
  · rw [hi, hcont, g0]; exact g3
  · rw [contextsFlag_fresh _ c _ hent hany] at hp
    cases hp

/-- Step two of `SetContext`: the current-context section after `setCurrentContext` is
settled; it was settled before when the flag is false. -/
theorem setCurrentContext_settles (c : Context) (x : Node) (hd : DocComplete x)
    (hkind : SectionKind x KeyCurrentContext MappingNode)
    (hcomp : SectionComplete x KeyCurrentContext) :
    ∃ p cc1, setCurrentContext x c = .ok (p, putSection x KeyCurrentContext cc1) ∧
      PointerQuiet c (putSection x KeyCurrentContext cc1) ∧
      (p = false → putSection x KeyCurrentContext cc1 = x) := by
  obtain ⟨p, cc1, h1, hk, hev, hlook, _, hunch, _⟩ := setCurrentContext_shape x c hd hkind hcomp
  obtain ⟨hs, hi⟩ := sections_after_putSection x KeyCurrentContext cc1 hd
  refine ⟨p, cc1, h1, ⟨?_, ?_, ?_⟩, hunch⟩
  · simp only [SectionKind, hs]; exact hk
  · simp only [SectionComplete, hi]; exact hev
  · simp only [currentContextOf, hs]; exact hlook

/-- Step three of `SetContext` on a document without a server entry named `c.Name`:
what `setServer` returns, and the servers section after it is settled; the flag is
not false. -/
theorem setServer_settles (md : Except Error PatchStrategies) (c : Context) (x : Node)
    (hd : DocComplete x) (hkind : SectionKind x KeyServers SequenceNode)
    (hent : EntriesComplete x KeyServers)
    (hfresh : ∀ e ∈ sectionItems x KeyServers, nameIs c.Name e = false) :
    ∃ p sec1, setServer md x (convertContextToServer c) = .ok (p, putSection x KeyServers sec1) ∧
      ServersQuiet (strategiesOf md) c (putSection x KeyServers sec1) ∧
      (p = false → ServersQuiet (strategiesOf md) c x) := by
  obtain ⟨sec1, h1, hk, hcont⟩ := setServer_flag md x (convertContextToServer c) hd hkind
    hent
  have hfresh2 : ∀ e ∈ sectionItems x KeyServers,
      nameIs (convertContextToServer c).Name e = false := hfresh
  obtain ⟨g0, g1, g3⟩ := serversAfterSet_fresh (strategiesOf md) (convertContextToServer c)
    (sectionItems x KeyServers) hent hfresh2
  obtain ⟨hs, hi⟩ := sections_after_putSection x KeyServers sec1 hd
  have hany : (sectionItems x KeyServers).any (nameIs (convertContextToServer c).Name) =
      false := by
    rw [List.any_eq_false]
    intro e he
    simp [hfresh2 e he]
  refine ⟨_, sec1, h1, ⟨?_, ?_, ?_⟩, fun hp => ?_⟩
  · simp only [SectionKind, hs]; exact hk
  · simp only [EntriesComplete, hi, hcont, g0]; exact g1
  · rw [hi, hcont, g0]; exact g3
  · rw [serversFlag_fresh _ _ _ hent hany] at hp
    cases hp

/-- The flag of `setCurrentServer` is false when the value is the name already. -/
theorem setCurrentServer_quiet (node : Node) (name : String) (hd : DocComplete node)
    (hv : currentServerOf node = name)
    (p : Bool) (node1 : Node) (h : setCurrentServer node name = .ok (p, node1)) :
    p = false := by
  obtain ⟨root, rest, hc, hroot⟩ := root_of_complete node hd
  simp only [setCurrentServer, hc] at h
  cases hF : FindNode root true [⟨KeyCurrentServer, ScalarNode⟩] with
  | none => simp [hF] at h
  | some r =>
    obtain ⟨root1, path⟩ := r
    obtain ⟨sec, hat, _, _, hcase⟩ := focus_doc node root rest true KeyCurrentServer
      ScalarNode hc hroot root1 path hF
    simp only [hF, hat] at h
    have hval : currentServerOf node = sec.Value := by
      rcases hcase with ⟨hs, _⟩ | ⟨hs, _, _, _, hv2⟩
      · simp [currentServerOf, hs]
      · simp [currentServerOf, hs, hv2]
    split at h
    · rename_i hne
      exact absurd (hval.symm.trans hv) hne
    · simp only [Except.ok.injEq, Prod.mk.injEq] at h
      exact h.1.symm

/-- On a document with complete root pairs whose current-server section, when present,
is a scalar, `setCurrentServer` succeeds. -/
theorem setCurrentServer_succeeds (node : Node) (name : String) (hd : DocComplete node)
    (hk : SectionKind node KeyCurrentServer ScalarNode) :
    ∃ p node1, setCurrentServer node name = .ok (p, node1) := by
  obtain ⟨root, rest, hc, hroot⟩ := root_of_complete node hd
  simp only [setCurrentServer, hc]
  cases hF : FindNode root true [⟨KeyCurrentServer, ScalarNode⟩] with
  | none =>
    exfalso
    rcases FindNode_none root true KeyCurrentServer ScalarNode hroot hF with
      ⟨sec, hl, _, hne⟩ | ⟨_, h2⟩
    · simp only [SectionKind, sectionOf, hc, hl] at hk
      exact hne hk
    · rcases h2 with h2 | h2
      · cases h2
      · simp [createNode, CreateScalarNode] at h2
  | some r =>
    obtain ⟨root1, path⟩ := r
    obtain ⟨sec, hat, _, _, _⟩ := focus_doc node root rest true KeyCurrentServer
      ScalarNode hc hroot root1 path hF
    simp only [hat]
    split
    · exact ⟨_, _, rfl⟩
    · exact ⟨_, _, rfl⟩

/-- A successful `setCurrentServer` found the current-server section absent or a
scalar, and leaves it a scalar. -/
theorem setCurrentServer_kind (node : Node) (name : String) (hd : DocComplete node)
    (p : Bool) (node1 : Node) (h : setCurrentServer node name = .ok (p, node1)) :
    SectionKind node KeyCurrentServer ScalarNode ∧
    SectionKind node1 KeyCurrentServer ScalarNode := by
  obtain ⟨root, rest, hc, hroot⟩ := root_of_complete node hd
  simp only [setCurrentServer, hc] at h
  cases hF : FindNode root true [⟨KeyCurrentServer, ScalarNode⟩] with
  | none => simp [hF] at h
  | some r =>
    obtain ⟨root1, path⟩ := r
    obtain ⟨sec, hat, hset, hsame, hcase⟩ := focus_doc node root rest true KeyCurrentServer
      ScalarNode hc hroot root1 path hF
    simp only [hF, hat] at h
    have hsk : sec.Kind = ScalarNode := by
      rcases hcase with ⟨_, hk⟩ | ⟨_, _, _, hk, _⟩
      · by_contra hne
        exact hk ⟨by decide, hne⟩
      · exact hk
    have h0 : SectionKind node KeyCurrentServer ScalarNode := by
      rcases hcase with ⟨hs, _⟩ | ⟨hs, _⟩
      · simp only [SectionKind, hs]; exact hsk
      · simp only [SectionKind, hs]
    refine ⟨h0, ?_⟩
    split at h
    · simp only [Except.ok.injEq, Prod.mk.injEq] at h
      obtain ⟨_, rfl⟩ := h
      rw [hset]
      simp only [SectionKind, (sections_after_putSection node KeyCurrentServer _ hd).1,
        Node.Kind_setValue]
      exact hsk
    · simp only [Except.ok.injEq, Prod.mk.injEq] at h
      obtain ⟨_, rfl⟩ := h
      rw [hsame]
      simp only [SectionKind, (sections_after_putSection node KeyCurrentServer _ hd).1]
      exact hsk


/-- On a settled contexts section `setContext` reports no change. -/
theorem setContext_quiet (md : Except Error PatchStrategies) (c : Context) (x : Node)
    (hd : DocComplete x) (hq : ContextsQuiet (strategiesOf md) c x) :
    ∃ sec1, setContext md x c = .ok (false, putSection x KeyContexts sec1) := by
  obtain ⟨sec1, h1, _, _⟩ := setContext_flag md x c hd hq.1 hq.2.1
  exact ⟨sec1, by rw [h1, hq.2.2.2]⟩

/-- On a settled current-context section `setCurrentContext` reports no change and
returns the document as it was. -/
theorem setCurrentContext_quiet (c : Context) (x : Node) (hd : DocComplete x)
    (hq : PointerQuiet c x) : setCurrentContext x c = .ok (false, x) := by
  obtain ⟨root, rest, hc, hroot, _⟩ := hyps_of_complete x KeyCurrentContext hd
  obtain ⟨p, x1, h1, _, hiff, hun, _⟩ := setCurrentContext_effect x root rest c hc hroot
    (section_hyps x root rest _ _ hc hq.1 hq.2.1)
  have hp : p = false := by
    cases p with
    | false => rfl
    | true => exact absurd hq.2.2 (hiff.mp rfl)
  subst hp
  rw [h1, hun rfl]

/-- On a settled servers section `setServer` reports no change. -/
theorem setServer_quiet (md : Except Error PatchStrategies) (c : Context) (x : Node)
    (hd : DocComplete x) (hq : ServersQuiet (strategiesOf md) c x) :
    ∃ sec1, setServer md x (convertContextToServer c) =
      .ok (false, putSection x KeyServers sec1) := by
  obtain ⟨sec1, h1, _, _⟩ := setServer_flag md x (convertContextToServer c) hd hq.1 hq.2.1
  exact ⟨sec1, by rw [h1, hq.2.2]⟩

theorem sectionOf_putSection_ne (x : Node) (K K2 : String) (sec : Node) (hd : DocComplete x)
    (hne : K2 ≠ K) : sectionOf (putSection x K sec) K2 = sectionOf x K2 := by
  rw [sectionOf_putSection_of_complete x K K2 sec hd, if_neg hne]

/-- A settled document: each of the four steps of `SetContext` reports persist =
false. -/
theorem SettledFor_reports (md : Except Error PatchStrategies) (c : Context) (x : Node)
    (hq : SettledFor (strategiesOf md) c x) :
    ∃ y1 y3, setContext md x c = .ok (false, y1) ∧
      setCurrentContext y1 c = .ok (false, y1) ∧
      setServer md y1 (convertContextToServer c) = .ok (false, y3) ∧
      ((convertContextToServer c).ServerType = ManagementClusterServerType →
        ∃ y4, setCurrentServer y3 (convertContextToServer c).Name = .ok (false, y4)) := by
  obtain ⟨hd, hq1, hq2, hq3, hq4⟩ := hq
  obtain ⟨sec1, h1⟩ := setContext_quiet md c x hd hq1
  have hd1 : DocComplete (putSection x KeyContexts sec1) := DocComplete_putSection _ _ _ hd
  have hq2a : PointerQuiet c (putSection x KeyContexts sec1) :=
    PointerQuiet_congr c x _ (sectionOf_putSection_ne x _ _ _ hd (by decide)) hq2
  have hq3a : ServersQuiet (strategiesOf md) c (putSection x KeyContexts sec1) :=
    ServersQuiet_congr _ c x _ (sectionOf_putSection_ne x _ _ _ hd (by decide)) hq3
  have hq4a : CurrentServerQuiet c (putSection x KeyContexts sec1) :=
    CurrentServerQuiet_congr c x _ (sectionOf_putSection_ne x _ _ _ hd (by decide)) hq4
  obtain ⟨sec3, h3⟩ := setServer_quiet md c _ hd1 hq3a
  have hd3 : DocComplete (putSection (putSection x KeyContexts sec1) KeyServers sec3) :=
    DocComplete_putSection _ _ _ hd1
  have hq4b : CurrentServerQuiet c
      (putSection (putSection x KeyContexts sec1) KeyServers sec3) :=
    CurrentServerQuiet_congr c _ _ (sectionOf_putSection_ne _ _ _ _ hd1 (by decide)) hq4a
  refine ⟨_, _, h1, setCurrentContext_quiet c _ hd1 hq2a, h3, ?_⟩
  intro hty
  obtain ⟨p, y4, h4⟩ := setCurrentServer_succeeds _ (convertContextToServer c).Name hd3
    (hq4b hty).1
  have hp : p = false := setCurrentServer_quiet _ _ hd3 (hq4b hty).2 p y4 h4
  subst hp
  exact ⟨y4, h4⟩

/-- The body of `SetContext` on a settled store: the load is its only step. -/
theorem SetContextLocked_quiet (w : World) (c : Context) (hl : w.loadError = none)
    (hq : SettledFor (strategiesOf w.metadata) c w.stored) :
    SetContextLocked w c true =
      ({ w with trace := w.trace ++ [Event.load w.unified] }, .ok ()) := by
  obtain ⟨y1, y3, h1, h2, h3, h4⟩ := SettledFor_reports w.metadata c w.stored hq
  unfold SetContextLocked
  rw [getClientConfigNodeNoLock_eq]
  simp only [hl, andThen, h1, persistWhen, makeCurrent, if_true, h2, backfillServer, h3,
    Bool.false_eq_true, if_false, true_and]
  by_cases hty : (convertContextToServer c).ServerType = ManagementClusterServerType
  · obtain ⟨y4, h5⟩ := h4 hty
    rw [if_pos hty, h5]
    rfl
  · rw [if_neg hty]


theorem sectionItems_congr (x y : Node) (K : String) (h : sectionOf y K = sectionOf x K) :
    sectionItems y K = sectionItems x K := by
  simp only [sectionItems, h]

/-- The steps of `SetContext` after the servers are set: the stored document ends up
settled. -/
theorem currentServer_stage (w : World) (c : Context) (d0 : Node) (w3 : World) (y3 : Node)
    (he : SameEnv w w3) (hl : w.loadError = none)
    (hs : StageC (strategiesOf w.metadata) c d0 w3.stored)
    (hy : StageC (strategiesOf w.metadata) c d0 y3) :
    Outcome (if true = true ∧
          (convertContextToServer c).ServerType = ManagementClusterServerType then
        andThen (w3, setCurrentServer y3 (convertContextToServer c).Name) fun w r4 =>
          andThen (persistWhen r4.1 w r4.2) fun w _ => (w, Except.ok ())
        else (w3, Except.ok ()))
      (fun w1 _ => SameEnv w w1 ∧ w.loadError = none ∧
        SettledFor (strategiesOf w.metadata) c w1.stored)
      (fun _ => True) := by
  obtain ⟨hsd, hs1, hs2, hs3, hs4⟩ := hs
  obtain ⟨hyd, hy1, hy2, hy3, hy4⟩ := hy
  by_cases hty : (convertContextToServer c).ServerType = ManagementClusterServerType
  · rw [if_pos ⟨rfl, hty⟩]
    refine Outcome_pure _ _ _ _ _ (fun _ _ => trivial) ?_
    rintro ⟨p4, y4⟩ h4
    have hon := setCurrentServer_shape _ _ hyd p4 y4 h4
    have hval := setCurrentServer_value _ _ hyd p4 y4 h4
    have hkind := setCurrentServer_kind _ _ hyd p4 y4 h4
    refine Outcome_andThen _ _ _ _ ?_
    refine Outcome_persistWhen _ _ _ _ _ ?_ ?_ (fun _ _ _ => trivial)
    · intro hp
      show SameEnv w w3 ∧ w.loadError = none ∧ SettledFor (strategiesOf w.metadata) c w3.stored
      refine ⟨he, hl, hsd, hs1, hs2, hs3, fun _ => ⟨?_, ?_⟩⟩
      · have := hkind.1
        simpa only [SectionKind, hs4, hy4] using this
      · have := hval.2 hp
        simpa only [currentServerOf, hs4, hy4] using this
    · intro _ w4 he4 hst
      show SameEnv w w4 ∧ w.loadError = none ∧ SettledFor (strategiesOf w.metadata) c w4.stored
      refine ⟨SameEnv_trans he he4, hl, ?_⟩
      rw [hst]
      exact ⟨OnlySection_complete hon hyd,
        ContextsQuiet_congr _ _ y3 y4 (OnlySection_sectionOf hon hyd (by decide)) hy1,
        PointerQuiet_congr _ y3 y4 (OnlySection_sectionOf hon hyd (by decide)) hy2,
        ServersQuiet_congr _ _ y3 y4 (OnlySection_sectionOf hon hyd (by decide)) hy3,
        fun _ => ⟨hkind.2, hval.1⟩⟩
  · rw [if_neg (fun h => hty h.2)]
    exact ⟨he, hl, hsd, hs1, hs2, hs3, fun h => absurd h hty⟩

/-- The steps of `SetContext` after the current context is set: the stored document
ends up settled. -/
theorem backfillServer_stage (w : World) (c : Context) (d0 : Node)
    (hk3 : SectionKind d0 KeyServers SequenceNode) (he3 : EntriesComplete d0 KeyServers)
    (hf3 : ∀ e ∈ sectionItems d0 KeyServers, nameIs c.Name e = false)
    (w2 : World) (y2 : Node)
    (he : SameEnv w w2) (hl : w.loadError = none)
    (hs : StageB (strategiesOf w.metadata) c d0 w2.stored)
    (hy : StageB (strategiesOf w.metadata) c d0 y2) :
    Outcome (backfillServer w2 c true y2)
      (fun w1 _ => SameEnv w w1 ∧ w.loadError = none ∧
        SettledFor (strategiesOf w.metadata) c w1.stored)
      (fun _ => True) := by
  obtain ⟨hsd, hs1, hs2, hs4⟩ := hs
  obtain ⟨hyd, hy1, hy2, hy4⟩ := hy
  have hsec : sectionOf y2 KeyServers = sectionOf d0 KeyServers :=
    hy4 _ (by decide) (by decide)
  have hitems := sectionItems_congr d0 y2 KeyServers hsec
  obtain ⟨p3, sec3, h3, hq3, hq3in⟩ := setServer_settles w.metadata c y2 hyd
    (by simpa only [SectionKind, hsec] using hk3)
    (by simpa only [EntriesComplete, hitems] using he3)
    (by rw [hitems]; exact hf3)
  have hyC : StageC (strategiesOf w.metadata) c d0 (putSection y2 KeyServers sec3) :=
    ⟨DocComplete_putSection _ _ _ hyd,
      ContextsQuiet_congr _ _ y2 _ (sectionOf_putSection_ne y2 _ _ _ hyd (by decide)) hy1,
      PointerQuiet_congr _ y2 _ (sectionOf_putSection_ne y2 _ _ _ hyd (by decide)) hy2,
      hq3,
      (sectionOf_putSection_ne y2 _ _ _ hyd (by decide)).trans
        (hy4 _ (by decide) (by decide))⟩
  unfold backfillServer
  dsimp only
  rw [he.2.1, h3]
  refine Outcome_pure _ _ _ _ _ (fun _ _ => trivial) ?_
  intro a ha
  cases ha
  refine Outcome_andThen _ _ _ _ ?_
  refine Outcome_persistWhen _ _ _ _ _ ?_ ?_ (fun _ _ _ => trivial)
  · intro hp
    have hq : ServersQuiet (strategiesOf w.metadata) c w2.stored :=
      ServersQuiet_congr _ _ y2 _ ((hs4 _ (by decide) (by decide)).trans hsec.symm)
        (hq3in hp)
    exact currentServer_stage w c d0 w2 _ he hl
      ⟨hsd, hs1, hs2, hq, hs4 _ (by decide) (by decide)⟩ hyC
  · intro _ w3 he3 hst
    exact currentServer_stage w c d0 w3 _ (SameEnv_trans he he3) hl (by rw [hst]; exact hyC)
      hyC

/-- The steps of `SetContext` after the context is set: the stored document ends up
settled. -/
theorem makeCurrent_stage (w : World) (c : Context) (d0 : Node)
    (hk2 : SectionKind d0 KeyCurrentContext MappingNode)
    (hc2 : SectionComplete d0 KeyCurrentContext)
    (hk3 : SectionKind d0 KeyServers SequenceNode) (he3 : EntriesComplete d0 KeyServers)
    (hf3 : ∀ e ∈ sectionItems d0 KeyServers, nameIs c.Name e = false)
    (w1 : World) (y1 : Node)
    (he : SameEnv w w1) (hl : w.loadError = none)
    (hs : StageA (strategiesOf w.metadata) c d0 w1.stored)
    (hy : StageA (strategiesOf w.metadata) c d0 y1) :
    Outcome (andThen (makeCurrent w1 c true y1) fun w node2 => backfillServer w c true node2)
      (fun w1 _ => SameEnv w w1 ∧ w.loadError = none ∧
        SettledFor (strategiesOf w.metadata) c w1.stored)
      (fun _ => True) := by
  obtain ⟨hsd, hs1, hs4⟩ := hs
  obtain ⟨hyd, hy1, hy4⟩ := hy
  have hsec : sectionOf y1 KeyCurrentContext = sectionOf d0 KeyCurrentContext :=
    hy4 _ (by decide)
  have hitems := sectionItems_congr d0 y1 KeyCurrentContext hsec
  obtain ⟨p2, cc1, h2, hq2, hun⟩ := setCurrentContext_settles c y1 hyd
    (by simpa only [SectionKind, hsec] using hk2)
    (by simpa only [SectionComplete, hitems] using hc2)
  have hyB : StageB (strategiesOf w.metadata) c d0 (putSection y1 KeyCurrentContext cc1) :=
    ⟨DocComplete_putSection _ _ _ hyd,
      ContextsQuiet_congr _ _ y1 _ (sectionOf_putSection_ne y1 _ _ _ hyd (by decide)) hy1,
      hq2,
      fun K hK1 hK2 => (sectionOf_putSection_ne y1 _ _ _ hyd hK2).trans (hy4 K hK1)⟩
  unfold makeCurrent
  rw [if_pos rfl, h2]
  refine Outcome_andThen _ _ _ _ ?_
  refine Outcome_pure _ _ _ _ _ (fun _ _ => trivial) ?_
  intro a ha
  cases ha
  refine Outcome_andThen _ _ _ _ ?_
  refine Outcome_persistWhen _ _ _ _ _ ?_ ?_ (fun _ _ _ => trivial)
  · intro hp
    have hq : PointerQuiet c w1.stored := by
      have hq2a : PointerQuiet c y1 := by
        have := hq2
        rwa [hun hp] at this
      exact PointerQuiet_congr _ y1 _ ((hs4 _ (by decide)).trans hsec.symm) hq2a
    exact backfillServer_stage w c d0 hk3 he3 hf3 w1 _ he hl
      ⟨hsd, hs1, hq, fun K hK1 _ => hs4 K hK1⟩ hyB
  · intro _ w2 he2 hst
    exact backfillServer_stage w c d0 hk3 he3 hf3 w2 _ (SameEnv_trans he he2) hl
      (by rw [hst]; exact hyB) hyB

/-- The body of `SetContext c true` on a well-formed store without an entry named
`c.Name`: when it succeeds, the stored document is settled for `c`. -/
theorem SetContextLocked_settles (w : World) (c : Context)
    (hwf : StoreWellFormed w.stored) (hfr : FreshFor c w.stored)
    (hds : (c.DiscoverySources.map (fun d => d.Name)).Nodup) :
    Outcome (SetContextLocked w c true)
      (fun w1 _ => SameEnv w w1 ∧ w.loadError = none ∧
        SettledFor (strategiesOf w.metadata) c w1.stored)
      (fun _ => True) := by
  obtain ⟨⟨hd0, hk1, he1, hk2, hc2⟩, hk3, he3⟩ := hwf
  obtain ⟨p1, sec1, h1, hq1, hq1in⟩ := setContext_settles w.metadata c hds w.stored hd0
    hk1 he1 hfr.1
  have hyA : StageA (strategiesOf w.metadata) c w.stored
      (putSection w.stored KeyContexts sec1) :=
    ⟨DocComplete_putSection _ _ _ hd0, hq1,
      fun K hK => sectionOf_putSection_ne w.stored _ _ _ hd0 hK⟩
  unfold SetContextLocked
  refine Outcome_andThen _ _ _ _ ?_
  refine Outcome_load w _ _ ?_ (fun _ _ _ => trivial)
  intro hl w1 he hst
  show Outcome (andThen (w1, setContext w1.metadata w.stored c) _) _ _
  rw [he.2.1, h1]
  refine Outcome_pure _ _ _ _ _ (fun _ _ => trivial) ?_
  intro a ha
  cases ha
  refine Outcome_andThen _ _ _ _ ?_
  refine Outcome_persistWhen _ _ _ _ _ ?_ ?_ (fun _ _ _ => trivial)
  · intro hp
    exact makeCurrent_stage w c w.stored hk2 hc2 hk3 he3 hfr.2 w1 _ he hl
      ⟨by rw [hst]; exact hd0, by rw [hst]; exact hq1in hp, fun K _ => by rw [hst]⟩ hyA
  · intro _ w2 he2 hst2
    exact makeCurrent_stage w c w.stored hk2 hc2 hk3 he3 hfr.2 w2 _ (SameEnv_trans he he2)
      hl (by rw [hst2]; exact hyA) hyA


/-- On a settled store `SetContext c true` takes the lock, loads and releases the lock:
it makes no persist attempt. -/
theorem SetContext_quiet (w : World) (c : Context) (hl : w.loadError = none)
    (hq : SettledFor (strategiesOf w.metadata) c w.stored) :
    SetContext w c true =
      ({ w with trace := w.trace ++ [Event.lock, Event.load w.unified, Event.unlock] },
        .ok ()) := by
  unfold SetContext
  have h := SetContextLocked_quiet (AcquireTanzuConfigLock w) c hl hq
  simp only [h]
  simp [ReleaseTanzuConfigLock, AcquireTanzuConfigLock, World.unified]

/-- A successful `SetContext c true` on a well-formed store without an entry named
`c.Name` leaves the store settled for `c`, its environment as it was. -/
theorem SetContext_settles (w : World) (c : Context)
    (hwf : StoreWellFormed w.stored) (hfr : FreshFor c w.stored)
    (hds : (c.DiscoverySources.map (fun d => d.Name)).Nodup)
    (hok : (SetContext w c true).2 = .ok ()) :
    SameEnv w (SetContext w c true).1 ∧ w.loadError = none ∧
      SettledFor (strategiesOf w.metadata) c (SetContext w c true).1.stored := by
  have hA := SetContextLocked_settles (AcquireTanzuConfigLock w) c hwf hfr hds
  obtain ⟨h1, _⟩ := Outcome_result _ _ _ hA
  have hok2 : (SetContextLocked (AcquireTanzuConfigLock w) c true).2 = .ok () := hok
  obtain ⟨he, hl, hq⟩ := h1 () hok2
  exact ⟨he, hl, hq⟩

/-- C14, counterexample: a second `SetContext` of the identical context persists
again, in two ways. First, on a well-formed store whose document holds an entry
`ctx1` with global options, with a patch-strategy map that replaces the cluster
options of a context: both calls of `SetContext ctx1Cluster true` succeed, and the
second makes one more persist call, because `setContext` reports persist = true on
the document the first call persisted (the stored entry differs from the incoming
one, its replaced subtree is deleted and merged back in). Second, on the empty store
and without a patch strategy, for a context with two discovery sources of the same
name: both calls succeed and the second persists again, because `setContext` reports
persist = true (the second source is merged into the item of the first on every
call). -/
theorem SetContext_persists_again :
    ((SetContext worldReplaceClusterOpts ctx1Cluster true).2 = .ok () ∧
      (SetContext (SetContext worldReplaceClusterOpts ctx1Cluster true).1 ctx1Cluster
        true).2 = .ok () ∧
      (SetContext (SetContext worldReplaceClusterOpts ctx1Cluster true).1 ctx1Cluster
          true).1.trace =
        (SetContext worldReplaceClusterOpts ctx1Cluster true).1.trace ++
          [Event.lock, Event.load false, Event.persist false true, Event.unlock] ∧
      (∃ y, setContext worldReplaceClusterOpts.metadata
          (SetContext worldReplaceClusterOpts ctx1Cluster true).1.stored ctx1Cluster =
            .ok (true, y)) ∧
      StoreWellFormed worldReplaceClusterOpts.stored ∧
      ¬ FreshFor ctx1Cluster worldReplaceClusterOpts.stored) ∧
    ((SetContext (World.fresh emptyDocument) ctx1SameSources true).2 = .ok () ∧
      (SetContext (SetContext (World.fresh emptyDocument) ctx1SameSources true).1
        ctx1SameSources true).2 = .ok () ∧
      (SetContext (SetContext (World.fresh emptyDocument) ctx1SameSources true).1
          ctx1SameSources true).1.trace =
        (SetContext (World.fresh emptyDocument) ctx1SameSources true).1.trace ++
          [Event.lock, Event.load false, Event.persist false true, Event.unlock] ∧
      (∃ y, setContext (World.fresh emptyDocument).metadata
          (SetContext (World.fresh emptyDocument) ctx1SameSources true).1.stored
            ctx1SameSources = .ok (true, y)) ∧
      StoreWellFormed (World.fresh emptyDocument).stored ∧
      FreshFor ctx1SameSources (World.fresh emptyDocument).stored) :=
  ⟨⟨rfl, rfl, by decide, ⟨_, rfl⟩, by decide, by decide⟩,
    ⟨rfl, rfl, by decide, ⟨_, rfl⟩, by decide, by decide⟩⟩

/-- C14, amended: idempotence of `SetContext` for a context that is new to the store.
Let the persisted document be well-formed (complete key/value pairs in every mapping
the operation reads; the contexts and servers sections, when present, sequences; the
current-context section, when present, a mapping), let it hold no context entry and
no server entry named `c.Name`, and let the discovery sources of the context `c` have
pairwise different names; the patch-strategy map is arbitrary. After one successful
`SetContext c true`, a second `SetContext c true` with the identical `c` succeeds and
performs no persistConfig call: its steps are taking the lock, the load and releasing
the lock; `setContext`, `setCurrentContext`, `setServer` and (for a management-cluster
mirror, the only case in which it is called) `setCurrentServer` all report persist =
false; the persisted document is the one of the first call, and its contexts sequence
holds exactly one entry named `c.Name`. -/
theorem SetContext_idempotent (w : World) (c : Context)
    (hwf : StoreWellFormed w.stored) (hfr : FreshFor c w.stored)
    (hds : (c.DiscoverySources.map (fun d => d.Name)).Nodup)
    (hok : (SetContext w c true).2 = .ok ()) :
    (SetContext (SetContext w c true).1 c true).2 = .ok () ∧
    (SetContext (SetContext w c true).1 c true).1.trace =
      (SetContext w c true).1.trace ++ [Event.lock, Event.load w.unified, Event.unlock] ∧
    ReportsNoChange w.metadata c (SetContext w c true).1.stored ∧
    (SetContext (SetContext w c true).1 c true).1.stored = (SetContext w c true).1.stored ∧
    ((sectionItems (SetContext (SetContext w c true).1 c true).1.stored KeyContexts).filter
      (nameIs c.Name)).length = 1 := by
  obtain ⟨he, hl, hq⟩ := SetContext_settles w c hwf hfr hds hok
  have hmd : (SetContext w c true).1.metadata = w.metadata := he.2.1
  have hl1 : (SetContext w c true).1.loadError = none := he.2.2.trans hl
  have hun : (SetContext w c true).1.unified = w.unified := by
    simp only [World.unified, he.1]
  have h2 := SetContext_quiet (SetContext w c true).1 c hl1 (by rw [hmd]; exact hq)
  have hst : (SetContext (SetContext w c true).1 c true).1.stored =
      (SetContext w c true).1.stored := by
    rw [h2]
    rfl
  refine ⟨by rw [h2], by rw [h2, hun], SettledFor_reports w.metadata c _ hq, hst, ?_⟩
  rw [hst]
  exact hq.2.1.2.2.1

/-- C14, witness: the new context `ctx3Full`, with both option blocks and two discovery
sources, set twice on a store that holds `docTwoContexts` and replaces every path of
a context: the first call succeeds, the second succeeds, adds only the lock, the
load and the unlock to the trace, and the contexts sequence holds one entry named
`ctx3`. -/
theorem SetContext_idempotent_witness :
    StoreWellFormed worldReplaceContexts.stored ∧
    FreshFor ctx3Full worldReplaceContexts.stored ∧
    (SetContext worldReplaceContexts ctx3Full true).2 = .ok () ∧
    (SetContext (SetContext worldReplaceContexts ctx3Full true).1 ctx3Full true).2 =
      .ok () ∧
    (SetContext (SetContext worldReplaceContexts ctx3Full true).1 ctx3Full true).1.trace =
      (SetContext worldReplaceContexts ctx3Full true).1.trace ++
        [Event.lock, Event.load false, Event.unlock] ∧
    ((sectionItems (SetContext (SetContext worldReplaceContexts ctx3Full true).1 ctx3Full
        true).1.stored KeyContexts).filter (nameIs "ctx3")).length = 1 :=
  have h := SetContext_idempotent worldReplaceContexts ctx3Full
    (by decide) (by decide) (by decide) rfl
  ⟨by decide, by decide, rfl, h.1, h.2.1, h.2.2.2.2⟩


/-! ## What a merged entry holds -/

theorem mergeStep_lookup_self (k v : Node) (dst : List Node) (h : dst.length % 2 = 0) :
    pairLookup (mergeStep k v dst) k.Value =
      some (match pairLookup dst k.Value with
        | none => v
        | some dv => (mergeNode v dv).2) := by
  unfold mergeStep
  cases hl : pairLookup dst k.Value with
  | none =>
    simp only
    rw [pairLookup_append_pair _ _ _ _ h, hl]
    simp
  | some dv =>
    simp only
    rw [pairLookup_pairUpdate, hl]
    simp

/-- The value a merge leaves under a key of the incoming pairs: the incoming value when
the key was absent, the incoming value merged into the stored one otherwise. -/
theorem mergePairs_lookup_self : ∀ (sc dst : List Node) (K : String) (V : Node),
    dst.length % 2 = 0 → ((decodePairs sc).map Prod.fst).Nodup →
    pairLookup sc K = some V →
    pairLookup (mergePairs sc dst).2 K =
      some (match pairLookup dst K with
        | none => V
        | some dv => (mergeNode V dv).2)
  | [], _, _, _, _, _, h => by simp [pairLookup] at h
  | [_], _, _, _, _, _, h => by simp [pairLookup] at h
  | k :: v :: rest, dst, K, V, he, hnd, h => by
    simp only [decodePairs, List.map_cons, List.nodup_cons] at hnd
    rw [mergePairs_cons]
    by_cases hk : k.Value = K
    · simp only [pairLookup, hk, if_true, Option.some.injEq] at h
      subst h
      rw [mergePairs_lookup_other rest _ K (mergeStep_even _ _ _ he) (by rw [← hk]; exact hnd.1)]
      rw [← hk]
      exact mergeStep_lookup_self k v dst he
    · simp only [pairLookup, hk, if_false] at h
      rw [mergePairs_lookup_self rest _ K V (mergeStep_even _ _ _ he) hnd.2 h,
        mergeStep_lookup_other k v dst K he hk]

theorem scalarField_of_lookup (l : List Node) (key val : String)
    (h : (pairLookup l key).map Node.Value = some val) : scalarField l key = val := by
  unfold scalarField
  cases hl : pairLookup l key with
  | none => simp [hl] at h
  | some v =>
    simp only [hl, Option.map_some', Option.some.injEq] at h
    exact h

/-- A node into which the global options are merged reads back as these options. -/
theorem decode_merge_global (g : GlobalServer) (dv : Node)
    (hd : dv.Kind = MappingNode → dv.Content.length % 2 = 0) :
    decodeGlobalServer (mergeNode (encodeGlobalServer g) dv).2 = g := by
  by_cases hk : (encodeGlobalServer g).Kind = dv.Kind
  · have hdk : dv.Kind = MappingNode := by rw [← hk]; rfl
    rw [mergeNode_mapping (encodeGlobalServer g) dv rfl hdk]
    simp only [decodeGlobalServer, Node.Content_setContent, encodeGlobalServer, scalarPair,
      Node.Content_mk]
    rw [scalarField_of_lookup _ "endpoint" g.Endpoint
      (mergePairs_scalar_head (Node.mk ScalarNode 0 "endpoint" []) 0 g.Endpoint [] _ (hd hdk)
        (by simp [decodePairs]))]
  · rw [mergeNode_kind_ne _ _ hk]
    simp [decodeGlobalServer, encodeGlobalServer, scalarPair, scalarField, pairLookup]

theorem boolText_decide (b : Bool) : decide (boolText b = "true") = b := by
  cases b <;> simp [boolText]

/-- A node into which the cluster options are merged reads back as these options. -/
theorem decode_merge_cluster (o : ClusterServer) (dv : Node)
    (hd : dv.Kind = MappingNode → dv.Content.length % 2 = 0) :
    decodeClusterServer (mergeNode (encodeClusterServer o) dv).2 = o := by
  by_cases hk : (encodeClusterServer o).Kind = dv.Kind
  · have hdk : dv.Kind = MappingNode := by rw [← hk]; rfl
    rw [mergeNode_mapping (encodeClusterServer o) dv rfl hdk]
    simp only [decodeClusterServer, Node.Content_setContent, encodeClusterServer, scalarPair,
      Node.Content_mk, List.cons_append, List.nil_append]
    have h1 := mergePairs_scalar_head (Node.mk ScalarNode 0 "endpoint" []) 0 o.Endpoint
      [Node.mk ScalarNode 0 "isManagementCluster" [],
        Node.mk ScalarNode 0 (boolText o.IsManagementCluster) []] dv.Content (hd hdk)
      (by simp [decodePairs])
    have h2 := mergePairs_scalar_head (Node.mk ScalarNode 0 "isManagementCluster" []) 0
      (boolText o.IsManagementCluster) []
      (mergeStep (Node.mk ScalarNode 0 "endpoint" []) (Node.mk ScalarNode 0 o.Endpoint [])
        dv.Content) (mergeStep_even _ _ _ (hd hdk)) (by simp [decodePairs])
    rw [← mergePairs_cons] at h2
    rw [scalarField_of_lookup _ "endpoint" _ h1,
      scalarField_of_lookup _ "isManagementCluster" _ h2, boolText_decide]
  · rw [mergeNode_kind_ne _ _ hk]
    simp [decodeClusterServer, encodeClusterServer, scalarPair, scalarField, pairLookup,
      boolText_decide]

/-- A node into which a discovery source is merged reads back as this source. -/
theorem decode_merge_discovery (d : PluginDiscovery) (dv : Node)
    (hd : dv.Kind = MappingNode → dv.Content.length % 2 = 0) :
    decodeDiscovery (mergeNode (encodeDiscovery d) dv).2 = d := by
  by_cases hk : (encodeDiscovery d).Kind = dv.Kind
  · have hdk : dv.Kind = MappingNode := by rw [← hk]; rfl
    rw [mergeNode_mapping (encodeDiscovery d) dv rfl hdk]
    simp only [decodeDiscovery, Node.Content_setContent, encodeDiscovery, scalarPair,
      Node.Content_mk, List.cons_append, List.nil_append]
    have h1 := mergePairs_scalar_head (Node.mk ScalarNode 0 "name" []) 0 d.Name
      [Node.mk ScalarNode 0 "image" [], Node.mk ScalarNode 0 d.Image []] dv.Content (hd hdk)
      (by simp [decodePairs])
    have h2 := mergePairs_scalar_head (Node.mk ScalarNode 0 "image" []) 0 d.Image []
      (mergeStep (Node.mk ScalarNode 0 "name" []) (Node.mk ScalarNode 0 d.Name [])
        dv.Content) (mergeStep_even _ _ _ (hd hdk)) (by simp [decodePairs])
    rw [← mergePairs_cons] at h2
    rw [scalarField_of_lookup _ "name" _ h1, scalarField_of_lookup _ "image" _ h2]
  · rw [mergeNode_kind_ne _ _ hk]
    simp [decodeDiscovery, encodeDiscovery, scalarPair, scalarField, pairLookup]

theorem decodeDiscovery_encodeDiscovery (d : PluginDiscovery) :
    decodeDiscovery (encodeDiscovery d) = d := by
  simp [decodeDiscovery, encodeDiscovery, scalarPair, scalarField, pairLookup]

theorem wellPaired_even (x : Node) (h : wellPaired x = true) :
    x.Kind = MappingNode → x.Content.length % 2 = 0 := ((wellPaired_iff x).mp h).1


mutual
theorem wellPaired_deleteNode (m : PatchStrategies) :
    ∀ (src dst : Node) (path : Path), wellPaired dst = true →
      wellPaired (deleteNode m src dst path).2 = true
  | src, Node.mk k s v c, path, hd => by
    simp only [deleteNode]
    split
    · rename_i hk
      have hdc := (wellPaired_iff (Node.mk k s v c)).mp hd
      have := wellPaired_deletePairs m src c path hdc.2 (hdc.1 hk.1)
      exact (wellPaired_iff _).mpr ⟨fun _ => this.1, this.2⟩
    · exact hd
theorem wellPaired_deletePairs (m : PatchStrategies) :
    ∀ (src : Node) (l : List Node) (path : Path), (∀ x ∈ l, wellPaired x = true) →
      l.length % 2 = 0 →
      (deletePairs m src l path).2.length % 2 = 0 ∧
      ∀ x ∈ (deletePairs m src l path).2, wellPaired x = true
  | _, [], _, _, _ => by simp [deletePairs]
  | _, [k], _, _, he => by simp at he
  | src, k :: v :: rest, path, hd, he => by
    have hk : wellPaired k = true := hd k (by simp)
    have hv : wellPaired v = true := hd v (by simp)
    have hrest : ∀ x ∈ rest, wellPaired x = true := fun x hx => hd x (by simp [hx])
    have her : rest.length % 2 = 0 := by
      simp only [List.length_cons] at he
      omega
    have ih := wellPaired_deletePairs m src rest path hrest her
    simp only [deletePairs]
    split
    · split
      · exact ih
      · refine ⟨by simp only [List.length_cons]; omega, ?_⟩
        intro x hx
        simp only [List.mem_cons] at hx
        rcases hx with rfl | rfl | hx
        · exact hk
        · exact wellPaired_deleteNode m _ v _ hv
        · exact ih.2 x hx
    · refine ⟨by simp only [List.length_cons]; omega, ?_⟩
      intro x hx
      simp only [List.mem_cons] at hx
      rcases hx with rfl | rfl | hx
      · exact hk
      · exact hv
      · exact ih.2 x hx
end

theorem wellPaired_deleteTop (m : PatchStrategies) (src dst : Node) (path : Path)
    (h : wellPaired dst = true) : wellPaired (deleteTop m src dst path).2 = true := by
  unfold deleteTop
  split
  · exact h
  · exact wellPaired_deleteNode m src dst path h

theorem encodeContext_keys (c : Context) :
    ((decodePairs (encodeContext c).Content).map Prod.fst).Nodup := by
  obtain ⟨n, t, g, o, ds⟩ := c
  cases g <;> cases o <;> cases ds <;>
    simp [encodeContext, scalarPair, decodePairs, KeyDiscoverySources]

theorem encodeContext_global (c : Context) (g : GlobalServer) (h : c.GlobalOpts = some g) :
    pairLookup (encodeContext c).Content "globalOpts" = some (encodeGlobalServer g) := by
  obtain ⟨n, t, g0, o, ds⟩ := c
  simp only at h
  subst h
  simp [encodeContext, scalarPair, pairLookup]

theorem encodeContext_cluster (c : Context) (o : ClusterServer) (h : c.ClusterOpts = some o) :
    pairLookup (encodeContext c).Content "clusterOpts" = some (encodeClusterServer o) := by
  obtain ⟨n, t, g, o0, ds⟩ := c
  simp only at h
  subst h
  cases g <;> simp [encodeContext, scalarPair, pairLookup]

theorem wellPaired_child (x v : Node) (K : String) (hw : wellPaired x = true)
    (hl : pairLookup x.Content K = some v) : wellPaired v = true :=
  ((wellPaired_iff x).mp hw).2 v (pairLookup_mem _ _ _ hl)

theorem decodeGlobalServer_encode (g : GlobalServer) :
    decodeGlobalServer (encodeGlobalServer g) = g := by
  simp [decodeGlobalServer, encodeGlobalServer, scalarPair, scalarField, pairLookup]

theorem decodeClusterServer_encode (o : ClusterServer) :
    decodeClusterServer (encodeClusterServer o) = o := by
  simp [decodeClusterServer, encodeClusterServer, scalarPair, scalarField, pairLookup,
    boolText_decide]

theorem HoldsOptionsOf_of_lookups (c : Context) (e : Node) (he : EntryOf c e)
    (hg : ∀ g, c.GlobalOpts = some g →
      (pairLookup e.Content "globalOpts").map decodeGlobalServer = some g)
    (ho : ∀ o, c.ClusterOpts = some o →
      (pairLookup e.Content "clusterOpts").map decodeClusterServer = some o) :
    HoldsOptionsOf c e :=
  ⟨scalarField_of_lookup _ "name" _ he.2.1, scalarField_of_lookup _ "target" _ he.2.2, hg, ho⟩

/-- The node of the context holds its scalars and option blocks. -/
theorem HoldsOptionsOf_encodeContext (c : Context) : HoldsOptionsOf c (encodeContext c) := by
  refine HoldsOptionsOf_of_lookups c _ (EntryOf_encodeContext c) ?_ ?_
  · intro g hg
    rw [encodeContext_global c g hg]
    simp [decodeGlobalServer_encode]
  · intro o ho
    rw [encodeContext_cluster c o ho]
    simp [decodeClusterServer_encode]

/-- An entry into which the node of the context is merged holds its scalars and
option blocks. -/
theorem HoldsOptionsOf_mergeNode (c : Context) (x : Node) (hx : x.Content.length % 2 = 0)
    (hw : wellPaired x = true) : HoldsOptionsOf c (mergeNode (encodeContext c) x).2 := by
  by_cases hk : (encodeContext c).Kind = x.Kind
  · have hxk : x.Kind = MappingNode := by rw [← hk]; rfl
    refine HoldsOptionsOf_of_lookups c _ (EntryOf_mergeNode c x hx) ?_ ?_
    · intro g hg
      rw [mergeNode_mapping (encodeContext c) x rfl hxk]
      simp only [Node.Content_setContent]
      rw [mergePairs_lookup_self _ _ _ _ hx (encodeContext_keys c) (encodeContext_global c g hg)]
      cases hl : pairLookup x.Content "globalOpts" with
      | none => simp [decodeGlobalServer_encode]
      | some dv =>
        simp only [Option.map_some', Option.some.injEq]
        exact decode_merge_global g dv (wellPaired_even dv (wellPaired_child x dv _ hw hl))
    · intro o ho
      rw [mergeNode_mapping (encodeContext c) x rfl hxk]
      simp only [Node.Content_setContent]
      rw [mergePairs_lookup_self _ _ _ _ hx (encodeContext_keys c)
        (encodeContext_cluster c o ho)]
      cases hl : pairLookup x.Content "clusterOpts" with
      | none => simp [decodeClusterServer_encode]
      | some dv =>
        simp only [Option.map_some', Option.some.injEq]
        exact decode_merge_cluster o dv (wellPaired_even dv (wellPaired_child x dv _ hw hl))
  · rw [mergeNode_kind_ne _ _ hk]
    exact HoldsOptionsOf_encodeContext c

theorem mem_decode_sources (ds : List PluginDiscovery) (d : PluginDiscovery) (hd : d ∈ ds) :
    d ∈ (ds.map encodeDiscovery).map decodeDiscovery := by
  rw [List.map_map]
  exact List.mem_map.mpr ⟨d, hd, decodeDiscovery_encodeDiscovery d⟩

theorem HoldsSourcesOf_of_lookup (c : Context) (e s : Node)
    (hl : pairLookup e.Content KeyDiscoverySources = some s)
    (h : ∀ d ∈ c.DiscoverySources, d ∈ s.Content.map decodeDiscovery) :
    HoldsSourcesOf c e := by
  intro d hd
  simp only [decodeContext, hl]
  exact h d hd

/-- The node of the context holds its discovery sources. -/
theorem HoldsSourcesOf_encodeContext (c : Context) : HoldsSourcesOf c (encodeContext c) := by
  cases hds : c.DiscoverySources with
  | nil => intro d hd; rw [hds] at hd; cases hd
  | cons d0 rest =>
    refine HoldsSourcesOf_of_lookup c _ _ (encodeContext_sources c d0 rest hds) ?_
    intro d hd
    exact mem_decode_sources _ d hd

/-- Items into which discovery sources with pairwise different names are merged hold
every one of the sources. -/
theorem mem_decode_mergeItems (ds : List PluginDiscovery) (dst : List Node)
    (hnd : (ds.map (fun d => d.Name)).Nodup) (hw : ∀ x ∈ dst, wellPaired x = true) :
    ∀ d ∈ ds, d ∈ (mergeItems (ds.map encodeDiscovery) dst).2.map decodeDiscovery := by
  intro d hd
  obtain ⟨i, x, _, hg, hm⟩ := SourcesSettled_post ds dst hnd hw d hd
  have hxm : x ∈ (mergeItems (ds.map encodeDiscovery) dst).2 := List.get?_mem hg
  have hxw : wellPaired x = true :=
    wellPaired_mergeItems _ dst
      (by
        intro y hy
        obtain ⟨d1, _, rfl⟩ := List.mem_map.mp hy
        exact wellPaired_encodeDiscovery d1) hw x hxm
  have := decode_merge_discovery d x (wellPaired_even x hxw)
  rw [hm] at this
  exact List.mem_map.mpr ⟨x, hxm, this⟩

/-- An entry into which the node of a context with pairwise different source names is
merged holds its discovery sources. -/
theorem HoldsSourcesOf_mergeNode (c : Context)
    (hnd : (c.DiscoverySources.map (fun d => d.Name)).Nodup) (x : Node)
    (hx : x.Content.length % 2 = 0) (hw : wellPaired x = true) :
    HoldsSourcesOf c (mergeNode (encodeContext c) x).2 := by
  by_cases hk : (encodeContext c).Kind = x.Kind
  · have hxk : x.Kind = MappingNode := by rw [← hk]; rfl
    cases hds : c.DiscoverySources with
    | nil => intro d hd; rw [hds] at hd; cases hd
    | cons d0 rest =>
      have hlook := mergePairs_lookup_self _ x.Content _ _ hx (encodeContext_keys c)
        (encodeContext_sources c d0 rest hds)
      rw [mergeNode_mapping (encodeContext c) x rfl hxk]
      refine HoldsSourcesOf_of_lookup c _ _ (by simpa only [Node.Content_setContent] using hlook)
        ?_
      intro d hd
      cases hl : pairLookup x.Content KeyDiscoverySources with
      | none => exact mem_decode_sources _ d hd
      | some dv =>
        simp only
        by_cases hdk : dv.Kind = SequenceNode
        · rw [mergeNode_sequence
            (Node.mk SequenceNode 0 "" (c.DiscoverySources.map encodeDiscovery)) dv rfl hdk]
          simp only [Node.Content_setContent, Node.Content_mk]
          exact mem_decode_mergeItems _ _ hnd
            ((wellPaired_iff dv).mp (wellPaired_child x dv _ hw hl)).2 d hd
        · rw [mergeNode_kind_ne
            (Node.mk SequenceNode 0 "" (c.DiscoverySources.map encodeDiscovery)) dv
            (by simpa using Ne.symm hdk)]
          exact mem_decode_sources _ d hd
  · rw [mergeNode_kind_ne _ _ hk]
    exact HoldsSourcesOf_encodeContext c


/-! ## What `setDiscoverySources` leaves in an entry -/

theorem mem_set_of_ne {α : Type} : ∀ (l : List α) (i : Nat) (x y z : α),
    x ∈ l → l.get? i = some y → x ≠ y → x ∈ l.set i z
  | [], _, _, _, _, h, _, _ => by cases h
  | a :: as, 0, x, y, z, h, hg, hne => by
    simp only [List.get?_cons_zero, Option.some.injEq] at hg
    subst hg
    simp only [List.set_cons_zero, List.mem_cons]
    rcases List.mem_cons.mp h with h1 | h1
    · exact absurd h1 hne
    · exact Or.inr h1
  | a :: as, i + 1, x, y, z, h, hg, hne => by
    simp only [List.get?_cons_succ] at hg
    simp only [List.set_cons_succ, List.mem_cons]
    rcases List.mem_cons.mp h with h1 | h1
    · exact Or.inl h1
    · exact Or.inr (mem_set_of_ne as i x y z h1 hg hne)

/-- What one step of `setDiscoverySources` returns. -/
theorem setDiscoverySource_eq (items : List Node) (d : PluginDiscovery) (key : Path)
    (ps : PatchStrategies) :
    (∃ p, setDiscoverySource items d key ps = .ok (p, items ++ [encodeDiscovery d])) ∨
    (∃ p i x, setDiscoverySource items d key ps =
        .ok (p, items.set i (mergeNode (encodeDiscovery d)
          (deleteTop ps (encodeDiscovery d) x key).2).2) ∧
      itemIndex items d.Name = some i ∧ items.get? i = some x) := by
  unfold setDiscoverySource
  cases hi : itemIndex items d.Name with
  | none => exact Or.inl ⟨true, rfl⟩
  | some i =>
    cases hg : items.get? i with
    | none => exact Or.inl ⟨true, by simp only [hg]⟩
    | some x =>
      refine Or.inr ⟨(mergeNode (encodeDiscovery d)
        (deleteTop ps (encodeDiscovery d) x key).2).1, i, x, ?_, rfl, hg⟩
      simp only [hg, DeleteNodes, MergeNodes]

theorem setDiscoverySource_wellPaired (items : List Node) (d : PluginDiscovery) (key : Path)
    (ps : PatchStrategies) (hw : ∀ x ∈ items, wellPaired x = true) (r : Bool × List Node)
    (h : setDiscoverySource items d key ps = .ok r) : ∀ x ∈ r.2, wellPaired x = true := by
  rcases setDiscoverySource_eq items d key ps with ⟨p, h1⟩ | ⟨p, i, x, h1, _, hg⟩
  · rw [h1] at h
    cases h
    intro y hy
    rcases List.mem_append.mp hy with h2 | h2
    · exact hw y h2
    · rw [List.mem_singleton.mp h2]; exact wellPaired_encodeDiscovery d
  · rw [h1] at h
    cases h
    intro y hy
    rcases List.mem_or_eq_of_mem_set hy with h2 | h2
    · exact hw y h2
    · rw [h2]
      exact wellPaired_mergeNode _ _ (wellPaired_encodeDiscovery d)
        (wellPaired_deleteTop ps _ x key (hw x (List.get?_mem hg)))

/-- After its step a discovery source is among the items, under its name. -/
theorem setDiscoverySource_holds (items : List Node) (d : PluginDiscovery) (key : Path)
    (ps : PatchStrategies) (hw : ∀ x ∈ items, wellPaired x = true) (r : Bool × List Node)
    (h : setDiscoverySource items d key ps = .ok r) :
    ∃ item ∈ r.2, nameKey item = some d.Name ∧ decodeDiscovery item = d := by
  rcases setDiscoverySource_eq items d key ps with ⟨p, h1⟩ | ⟨p, i, x, h1, hi, hg⟩
  · rw [h1] at h
    cases h
    exact ⟨encodeDiscovery d, by simp, nameKey_encodeDiscovery d,
      decodeDiscovery_encodeDiscovery d⟩
  · rw [h1] at h
    cases h
    have hxw : wellPaired (deleteTop ps (encodeDiscovery d) x key).2 = true :=
      wellPaired_deleteTop ps _ x key (hw x (List.get?_mem hg))
    refine ⟨_, List.mem_set items i (itemIndex_lt items d.Name i hi) _,
      nameKey_merge_encodeDiscovery d _ hxw, decode_merge_discovery d _ (wellPaired_even _ hxw)⟩

/-- The step of a discovery source keeps the items of other names. -/
theorem setDiscoverySource_keep (items : List Node) (d : PluginDiscovery) (key : Path)
    (ps : PatchStrategies) (item0 : Node) (n0 : String) (h0 : item0 ∈ items)
    (hn0 : nameKey item0 = some n0) (hne : d.Name ≠ n0) (r : Bool × List Node)
    (h : setDiscoverySource items d key ps = .ok r) : item0 ∈ r.2 := by
  rcases setDiscoverySource_eq items d key ps with ⟨p, h1⟩ | ⟨p, i, x, h1, hi, hg⟩
  · rw [h1] at h
    cases h
    exact List.mem_append_left _ h0
  · rw [h1] at h
    cases h
    have hx : nameKey x = some d.Name := nameKey_of_itemIndex items d.Name i x hi hg
    apply mem_set_of_ne items i item0 x _ h0 hg
    intro heq
    rw [heq, hx] at hn0
    simp only [Option.some.injEq] at hn0
    exact hne hn0

theorem setDiscoverySourcesLoop_wellPaired (key : Path) (ps : PatchStrategies) :
    ∀ (ds : List PluginDiscovery) (b : Bool) (items : List Node),
    (∀ x ∈ items, wellPaired x = true) → ∀ r, setDiscoverySourcesLoop key ps ds b items = .ok r →
    ∀ x ∈ r.2, wellPaired x = true
  | [], b, items, hw, r, h => by
    simp only [setDiscoverySourcesLoop, Except.ok.injEq] at h
    subst h
    exact hw
  | d :: rest, b, items, hw, r, h => by
    obtain ⟨r1, h1⟩ := setDiscoverySource_ok items d key ps
    simp only [setDiscoverySourcesLoop, h1] at h
    exact setDiscoverySourcesLoop_wellPaired key ps rest _ r1.2
      (setDiscoverySource_wellPaired items d key ps hw r1 h1) r h

theorem setDiscoverySourcesLoop_keep (key : Path) (ps : PatchStrategies) (item0 : Node)
    (n0 : String) (hn0 : nameKey item0 = some n0) :
    ∀ (ds : List PluginDiscovery) (b : Bool) (items : List Node),
    item0 ∈ items → (∀ d ∈ ds, d.Name ≠ n0) →
    ∀ r, setDiscoverySourcesLoop key ps ds b items = .ok r → item0 ∈ r.2
  | [], b, items, h0, _, r, h => by
    simp only [setDiscoverySourcesLoop, Except.ok.injEq] at h
    subst h
    exact h0
  | d :: rest, b, items, h0, hne, r, h => by
    obtain ⟨r1, h1⟩ := setDiscoverySource_ok items d key ps
    simp only [setDiscoverySourcesLoop, h1] at h
    exact setDiscoverySourcesLoop_keep key ps item0 n0 hn0 rest _ r1.2
      (setDiscoverySource_keep items d key ps item0 n0 h0 hn0 (hne d (by simp)) r1 h1)
      (fun y hy => hne y (by simp [hy])) r h

/-- After the loop of `setDiscoverySources` over sources with pairwise different
names, every source is among the items. -/
theorem setDiscoverySourcesLoop_holds (key : Path) (ps : PatchStrategies) :
    ∀ (ds : List PluginDiscovery) (b : Bool) (items : List Node),
    (ds.map (fun d => d.Name)).Nodup → (∀ x ∈ items, wellPaired x = true) →
    ∀ r, setDiscoverySourcesLoop key ps ds b items = .ok r →
    ∀ d ∈ ds, d ∈ r.2.map decodeDiscovery
  | [], _, _, _, _, _, _, d, hd => by cases hd
  | d0 :: rest, b, items, hnd, hw, r, h, d, hd => by
    rw [List.map_cons, List.nodup_cons] at hnd
    obtain ⟨r1, h1⟩ := setDiscoverySource_ok items d0 key ps
    have h2 := h
    simp only [setDiscoverySourcesLoop, h1] at h2
    have hw1 := setDiscoverySource_wellPaired items d0 key ps hw r1 h1
    rcases List.mem_cons.mp hd with heq | hmem
    · subst heq
      obtain ⟨item, hi, hn, hdec⟩ := setDiscoverySource_holds items d key ps hw r1 h1
      have hkeep := setDiscoverySourcesLoop_keep key ps item d.Name hn rest _ r1.2 hi
        (fun y hy heq => hnd.1 (List.mem_map.mpr ⟨y, hy, heq⟩)) r h2
      exact List.mem_map.mpr ⟨item, hkeep, hdec⟩
    · exact setDiscoverySourcesLoop_holds key ps rest _ r1.2 hnd.2 hw1 r h2 d hmem

theorem wellPaired_putPair (x : Node) (K : String) (new : Node)
    (hx : x.Content.length % 2 = 0) (hw : wellPaired x = true)
    (hn : wellPaired new = true) : wellPaired (putPair x K new) = true := by
  have hxc := ((wellPaired_iff x).mp hw).2
  unfold putPair
  cases hl : pairLookup x.Content K with
  | some v =>
    simp only
    apply wellPaired_setContent
    · intro _; rw [pairUpdate_length]; exact hx
    · intro y hy
      rcases mem_pairUpdate _ _ _ _ hy with h | ⟨_, _, rfl⟩
      · exact hxc y h
      · exact hn
  | none =>
    simp only
    apply wellPaired_setContent
    · intro _
      simp only [List.length_append, List.length_cons, List.length_nil]
      omega
    · intro y hy
      rcases List.mem_append.mp hy with h | h
      · exact hxc y h
      · simp only [List.mem_cons, List.mem_singleton, List.not_mem_nil, or_false] at h
        rcases h with rfl | rfl
        · exact wellPaired_scalarNode K
        · exact hn

/-- What `setDiscoverySources` leaves of an entry with complete pairs: complete
pairs again, the other keys as they were, and, for sources with pairwise different
names on an entry that held them, every source. -/
theorem setDiscoverySources_holds (c : Context) (x : Node) (key : Path)
    (ps : PatchStrategies) (hx : x.Content.length % 2 = 0) (hw : wellPaired x = true)
    (r : Bool × Node) (h : setDiscoverySources x c.DiscoverySources key ps = .ok r) :
    wellPaired r.2 = true ∧
    (∀ K, K ≠ KeyDiscoverySources → pairLookup r.2.Content K = pairLookup x.Content K) ∧
    ((c.DiscoverySources.map (fun d => d.Name)).Nodup → HoldsSourcesOf c x →
      HoldsSourcesOf c r.2) := by
  unfold setDiscoverySources at h
  cases hF : FindNode x true [⟨KeyDiscoverySources, SequenceNode⟩] with
  | none =>
    simp only [hF, Except.ok.injEq] at h
    subst h
    exact ⟨hw, fun _ _ => rfl, fun _ hs => hs⟩
  | some f =>
    obtain ⟨x1, path⟩ := f
    obtain ⟨sec, hat, hset, _, hcase⟩ := FindNode_focus x true KeyDiscoverySources
      SequenceNode hx x1 path hF
    simp only [hF, hat] at h
    obtain ⟨r1, hloop⟩ := setDiscoverySourcesLoop_ok key ps c.DiscoverySources false sec.Content
    simp only [hloop, Except.ok.injEq] at h
    subst h
    simp only [hset]
    have hsk : sec.Kind = SequenceNode := by
      rcases hcase with ⟨_, hk⟩ | ⟨_, _, _, hk, _⟩
      · by_contra hne
        exact hk ⟨by decide, hne⟩
      · exact hk
    have hsw : ∀ y ∈ sec.Content, wellPaired y = true := by
      rcases hcase with ⟨hl, _⟩ | ⟨_, _, hc, _⟩
      · exact ((wellPaired_iff sec).mp (wellPaired_child x sec _ hw hl)).2
      · rw [hc]; intro y hy; cases hy
    have hrw := setDiscoverySourcesLoop_wellPaired key ps _ _ _ hsw r1 hloop
    refine ⟨?_, ?_, ?_⟩
    · apply wellPaired_putPair x _ _ hx hw
      apply wellPaired_setContent _ _ _ hrw
      intro hm
      rw [hsk] at hm
      cases hm
    · intro K hK
      rw [pairLookup_putPair _ _ _ _ hx, if_neg hK]
    · intro hnd _
      refine HoldsSourcesOf_of_lookup c _ (sec.setContent r1.2)
        (by rw [pairLookup_putPair _ _ _ _ hx, if_pos rfl]) ?_
      simp only [Node.Content_setContent]
      exact setDiscoverySourcesLoop_holds key ps _ _ _ hnd hsw r1 hloop

theorem encodeContext_wellPaired (c : Context) : wellPaired (encodeContext c) = true := by
  obtain ⟨n, t, g, o, ds⟩ := c
  have hg : ∀ g : GlobalServer, wellPaired (encodeGlobalServer g) = true :=
    fun g => (MergeGood_encodeGlobalServer g).1
  have ho : ∀ o : ClusterServer, wellPaired (encodeClusterServer o) = true :=
    fun o => (MergeGood_encodeClusterServer o).1
  have hs : wellPaired (Node.mk SequenceNode 0 "" (ds.map encodeDiscovery)) = true := by
    rw [wellPaired_iff]
    have hkm : ¬ (SequenceNode = MappingNode) := by decide
    refine ⟨(fun h => absurd h hkm), ?_⟩
    intro x hx
    obtain ⟨d, _, rfl⟩ := List.mem_map.mp hx
    exact wellPaired_encodeDiscovery d
  rw [wellPaired_iff]
  constructor
  · intro _
    cases g <;> cases o <;> cases ds <;> simp [encodeContext, scalarPair]
  · intro x hx
    simp only [encodeContext, scalarPair, Node.Content_mk, List.mem_append, List.mem_cons,
      List.mem_singleton, List.not_mem_nil, or_false] at hx
    rcases hx with ((((rfl | rfl) | (rfl | rfl)) | h) | h) | h
    · exact wellPaired_scalarNode _
    · exact wellPaired_scalarNode _
    · exact wellPaired_scalarNode _
    · exact wellPaired_scalarNode _
    · cases g with
      | none => simp at h
      | some g =>
        simp only [List.mem_cons, List.mem_singleton, List.not_mem_nil, or_false] at h
        rcases h with rfl | rfl
        · exact wellPaired_scalarNode _
        · exact hg g
    · cases o with
      | none => simp at h
      | some o =>
        simp only [List.mem_cons, List.mem_singleton, List.not_mem_nil, or_false] at h
        rcases h with rfl | rfl
        · exact wellPaired_scalarNode _
        · exact ho o
    · cases ds with
      | nil => simp at h
      | cons d rest =>
        simp only [List.mem_cons, List.mem_singleton, List.not_mem_nil, or_false] at h
        rcases h with rfl | rfl
        · exact wellPaired_scalarNode _
        · exact hs

theorem HoldsOptionsOf_congr (c : Context) (x y : Node)
    (h : ∀ K, K ≠ KeyDiscoverySources → pairLookup y.Content K = pairLookup x.Content K)
    (hx : HoldsOptionsOf c x) : HoldsOptionsOf c y := by
  obtain ⟨h1, h2, h3, h4⟩ := hx
  simp only [decodeContext, scalarField] at h1 h2 h3 h4
  refine ⟨?_, ?_, ?_, ?_⟩
  · simp only [decodeContext, scalarField, h "name" (by decide)]; exact h1
  · simp only [decodeContext, scalarField, h "target" (by decide)]; exact h2
  · simp only [decodeContext, h "globalOpts" (by decide)]; exact h3
  · simp only [decodeContext, h "clusterOpts" (by decide)]; exact h4

/-- The entry after the update of `setContext`, for an entry with complete pairs in
every mapping: it holds the scalars and option blocks of the context and, when the
sources of the context have pairwise different names, its discovery sources. -/
theorem patchOf_holds (ps : PatchStrategies) (c : Context) (e : Node)
    (he : e.Content.length % 2 = 0) (hw : wellPaired e = true) :
    HoldsOptionsOf c (patchOf ps c e) ∧
    ((c.DiscoverySources.map (fun d => d.Name)).Nodup → HoldsSourcesOf c (patchOf ps c e)) := by
  have h1 := deleteTop_even ps (encodeContext c) e [KeyContexts] he
  have hw1 := wellPaired_deleteTop ps (encodeContext c) e [KeyContexts] hw
  have hw2 := wellPaired_mergeNode (encodeContext c) _ (encodeContext_wellPaired c) hw1
  have h2 := EntryOf_mergeNode c _ h1
  have ho2 := HoldsOptionsOf_mergeNode c _ h1 hw1
  obtain ⟨r, hr⟩ := setDiscoverySources_ok (mergeNode (encodeContext c)
    (deleteTop ps (encodeContext c) e [KeyContexts]).2).2 c.DiscoverySources
    [KeyContexts, KeyDiscoverySources] ps
  have h3 := EntryOf_setDiscoverySources c _ _ _ _ h2 r hr
  obtain ⟨hw3, hkeep, hsrc⟩ := setDiscoverySources_holds c _ _ ps h2.1 hw2 r hr
  obtain ⟨pds, c3⟩ := r
  cases pds
  · have hp : patchOf ps c e = c3 := by
      simp only [patchOf, patchContextNode, DeleteNodes, MergeNodes, hr]
      rfl
    rw [hp]
    exact ⟨HoldsOptionsOf_congr c _ c3 hkeep ho2,
      fun hnd => hsrc hnd (HoldsSourcesOf_mergeNode c hnd _ h1 hw1)⟩
  · have hp : patchOf ps c e = (mergeNode (encodeContext c) c3).2 := by
      simp only [patchOf, patchContextNode, DeleteNodes, MergeNodes, hr]
      rfl
    rw [hp]
    exact ⟨HoldsOptionsOf_mergeNode c c3 h3.1 hw3,
      fun hnd => HoldsSourcesOf_mergeNode c hnd c3 h3.1 hw3⟩


/-- C12: on a document with complete pairs whose contexts section is a sequence holding
an entry with `name` equal to `ctx.Name`, a successful `setContext` leaves the contexts
sequence with the same length; at every position an entry with another name is
unchanged, and an entry named `ctx.Name` is replaced, at its position, by its updated
form. The updated entry is still named `ctx.Name` and holds the target of `ctx`; when
the mappings nested in the stored entry have complete pairs, the updated entry, read
back as a context, also holds each option block that `ctx` sets, with the values of
`ctx`, and, when the discovery sources of `ctx` have pairwise different names, every
discovery source of `ctx`. -/
theorem setContext_updates_in_place (md : Except Error PatchStrategies) (node : Node)
    (ctx : Context) (hd : DocComplete node)
    (hkind : SectionKind node KeyContexts SequenceNode)
    (hent : EntriesComplete node KeyContexts)
    (hsome : ∃ e ∈ sectionItems node KeyContexts, nameIs ctx.Name e = true)
    (p : Bool) (node1 : Node) (h : setContext md node ctx = .ok (p, node1)) :
    (sectionItems node1 KeyContexts).length = (sectionItems node KeyContexts).length ∧
    ∀ i e, (sectionItems node KeyContexts).get? i = some e →
      ∃ e1, (sectionItems node1 KeyContexts).get? i = some e1 ∧
        (nameIs ctx.Name e = false → e1 = e) ∧
        (nameIs ctx.Name e = true →
          e1 = patchOf (strategiesOf md) ctx e ∧ nameIs ctx.Name e1 = true ∧
          (decodeContext e1).Name = ctx.Name ∧ (decodeContext e1).Target = ctx.Target ∧
          (wellPaired e = true →
            HoldsOptionsOf ctx e1 ∧
            ((ctx.DiscoverySources.map (fun d => d.Name)).Nodup → HoldsSourcesOf ctx e1))) := by
  obtain ⟨p1, sec1, h1, hk, hcont, _⟩ := setContext_shape md node ctx hd hkind hent
  rw [h1] at h
  simp only [Except.ok.injEq, Prod.mk.injEq] at h
  obtain ⟨_, rfl⟩ := h
  obtain ⟨e0, he0, hn0⟩ := hsome
  have hany : (sectionItems node KeyContexts).any (nameIs ctx.Name) = true :=
    List.any_eq_true.mpr ⟨e0, he0, hn0⟩
  obtain ⟨_, hi⟩ := sections_after_putSection node KeyContexts sec1 hd
  rw [hi, hcont]
  simp only [contextsAfterSet, hany, if_true]
  refine ⟨by simp, ?_⟩
  intro i e hget
  refine ⟨_, by simp only [List.get?_eq_getElem?, List.getElem?_map] at hget ⊢; rw [hget]; rfl, ?_, ?_⟩
  · intro hf; simp [hf]
  · intro ht
    simp only [ht, if_true, true_and]
    have he : e ∈ sectionItems node KeyContexts := List.get?_mem hget
    have hE := EntryOf_patchOf (strategiesOf md) ctx e (hent e he)
    refine ⟨by simp [nameIs, hE.2.1], scalarField_of_lookup _ "name" _ hE.2.1,
      scalarField_of_lookup _ "target" _ hE.2.2, ?_⟩
    intro hw
    exact patchOf_holds (strategiesOf md) ctx e (hent e he) hw

/-- C12, witness: `ctx1Sources` (cluster options, two discovery sources) is set on
`docTwoContexts`, whose first entry is a bare `ctx1`: the sequence keeps its two
positions, the second entry is the stored one, and the first, read back as a context,
holds the target, the cluster options and the discovery sources of `ctx1Sources`. -/
theorem setContext_updates_in_place_witness :
    ∃ p node1, setContext (.ok []) docTwoContexts ctx1Sources = .ok (p, node1) ∧
      (sectionItems node1 KeyContexts).length = 2 ∧
      (sectionItems node1 KeyContexts).get? 1 = (sectionItems docTwoContexts KeyContexts).get? 1 ∧
      ∃ e1, (sectionItems node1 KeyContexts).get? 0 = some e1 ∧
        (decodeContext e1).Name = "ctx1" ∧ (decodeContext e1).Target = TargetK8s ∧
        (decodeContext e1).ClusterOpts = some ⟨"https://x", false⟩ ∧
        (⟨"d1", "i1"⟩ : PluginDiscovery) ∈ (decodeContext e1).DiscoverySources ∧
        (⟨"d2", "i2"⟩ : PluginDiscovery) ∈ (decodeContext e1).DiscoverySources :=
  have H := setContext_updates_in_place (.ok []) docTwoContexts ctx1Sources (by decide)
    (by decide) (by decide) (by decide) true _ rfl
  have H0 := H.2 0 _ rfl
  have H1 := H.2 1 _ rfl
  Exists.elim H0 fun e1 h0 =>
  Exists.elim H1 fun e2 h1 =>
    have hu := h0.2.2 (by decide)
    have hh := hu.2.2.2.2 (by decide)
    ⟨true, _, rfl, H.1, h1.1.trans (congrArg some (h1.2.1 (by decide))), e1, h0.1, hu.2.2.1,
      hu.2.2.2.1, hh.1.2.2.2 _ rfl, hh.2 (by decide) _ (by decide), hh.2 (by decide) _ (by decide)⟩


theorem splitDots_dotfree : ∀ (x : List Char), '.' ∉ x → splitDots x = [x]
  | [], _ => rfl
  | c :: cs, h => by
    have hc : c ≠ '.' := fun e => h (by simp [e])
    have hcs : '.' ∉ cs := fun e => h (List.mem_cons_of_mem _ e)
    simp [splitDots, hc, splitDots_dotfree cs hcs]

theorem splitDots_append : ∀ (x rest : List Char), '.' ∉ x →
    splitDots (x ++ '.' :: rest) = x :: splitDots rest
  | [], rest, _ => by simp [splitDots]
  | c :: cs, rest, h => by
    have hc : c ≠ '.' := fun e => h (by simp [e])
    have hcs : '.' ∉ cs := fun e => h (List.mem_cons_of_mem _ e)
    simp [splitDots, hc, splitDots_append cs rest hcs]

theorem stringsSplitDot_features (a b : String) (ha : '.' ∉ a.data) (hb : '.' ∉ b.data) :
    stringsSplitDot ("features." ++ a ++ "." ++ b) = ["features", a, b] := by
  have hd : ("features." ++ a ++ "." ++ b).data =
      ['f', 'e', 'a', 't', 'u', 'r', 'e', 's'] ++ '.' :: (a.data ++ '.' :: b.data) := by
    simp [String.data_append]
  have hf : '.' ∉ ['f', 'e', 'a', 't', 'u', 'r', 'e', 's'] := by decide
  unfold stringsSplitDot
  rw [hd, splitDots_append _ _ hf, splitDots_append _ _ ha, splitDots_dotfree _ hb]
  rfl

/-- C21: `SplitFeaturePath` succeeds exactly when splitting the path on the dot gives
three parts of which the first is "features"; then it returns the second and the third
part as plugin and feature, so "features." + a + "." + b gives a and b for dot-free a
and b ("features.management-cluster.dual-stack" gives "management-cluster" and
"dual-stack"); otherwise it returns two empty strings and an error. -/
theorem SplitFeaturePath_spec (c : ClientConfig) (p : String) :
    ((c.SplitFeaturePath p).2.2 = none ↔
      (stringsSplitDot p).length = 3 ∧ (stringsSplitDot p).head? = some "features") ∧
    (∀ a b, stringsSplitDot p = ["features", a, b] → c.SplitFeaturePath p = (a, b, none)) ∧
    ((c.SplitFeaturePath p).2.2 ≠ none →
      (c.SplitFeaturePath p).1 = "" ∧ (c.SplitFeaturePath p).2.1 = "") ∧
    (∀ a b : String, '.' ∉ a.data → '.' ∉ b.data →
      c.SplitFeaturePath ("features." ++ a ++ "." ++ b) = (a, b, none)) ∧
    c.SplitFeaturePath "features.management-cluster.dual-stack" =
      ("management-cluster", "dual-stack", none) := by
  have key : ∀ q a b, stringsSplitDot q = ["features", a, b] →
      c.SplitFeaturePath q = (a, b, none) := by
    intro q a b h
    simp [ClientConfig.SplitFeaturePath, h]
  refine ⟨?_, key p, ?_, fun a b ha hb => key _ a b (stringsSplitDot_features a b ha hb), ?_⟩
  · rcases h : stringsSplitDot p with _ | ⟨x, _ | ⟨y, _ | ⟨z, _ | ⟨u, r⟩⟩⟩⟩
    · simp [ClientConfig.SplitFeaturePath, h]
    · simp [ClientConfig.SplitFeaturePath, h]
    · simp [ClientConfig.SplitFeaturePath, h]
    · by_cases hx : x = "features"
      · simp [ClientConfig.SplitFeaturePath, h, hx]
      · simp [ClientConfig.SplitFeaturePath, h, hx]
    · simp [ClientConfig.SplitFeaturePath, h]
  · rcases h : stringsSplitDot p with _ | ⟨x, _ | ⟨y, _ | ⟨z, _ | ⟨u, r⟩⟩⟩⟩
    · simp [ClientConfig.SplitFeaturePath, h]
    · simp [ClientConfig.SplitFeaturePath, h]
    · simp [ClientConfig.SplitFeaturePath, h]
    · by_cases hx : x = "features"
      · simp [ClientConfig.SplitFeaturePath, h, hx]
      · simp [ClientConfig.SplitFeaturePath, h, hx]
    · simp [ClientConfig.SplitFeaturePath, h]
  · exact key _ _ _ (stringsSplitDot_features "management-cluster" "dual-stack"
      (by decide) (by decide))

theorem ParseBool_true (v : String) :
    ParseBool v = .ok true ↔ v ∈ ["1", "t", "T", "TRUE", "true", "True"] := by
  unfold ParseBool
  split
  · rename_i h
    simpa using h
  · rename_i h
    split
    · rename_i h2
      simpa using h
    · simpa using h

theorem ParseBool_false (v : String) :
    ParseBool v = .ok false ↔ v ∈ ["0", "f", "F", "FALSE", "false", "False"] := by
  unfold ParseBool
  split
  · rename_i h
    simp only [Except.ok.injEq, Bool.true_eq_false, false_iff]
    rcases h with h | h | h | h | h | h <;> subst h <;> decide
  · rename_i h
    split
    · rename_i h2
      simpa using h2
    · rename_i h2
      simpa using h2

theorem ParseBool_empty : ParseBool "" =
    .error (.Errorf "strconv.ParseBool: parsing %q: invalid syntax" "") := by
  simp [ParseBool]

/-- What `IsConfigFeatureActivated` computes on a well-formed path, in terms of the
stored value. -/
theorem IsConfigFeatureActivated_eq (c : ClientConfig) (p plugin flag : String)
    (h : c.SplitFeaturePath p = (plugin, flag, none)) :
    c.IsConfigFeatureActivated p =
      if c.featureValue plugin flag = "" then (false, none)
      else
        match ParseBool (c.featureValue plugin flag) with
        | .error err =>
          (false, some (.Wrapf ("error converting " ++ p ++ " entry '" ++
            c.featureValue plugin flag ++ "' to boolean value: %s") err))
        | .ok b => (b, none) := by
  unfold ClientConfig.IsConfigFeatureActivated ClientConfig.featureValue
  rw [h]
  rcases c.ClientOptions with _ | o
  · simp
  rcases hf : o.Features with _ | fs
  · simp [hf]
  rcases hm : featureMap fs plugin with _ | m
  · simp [hf, hm]
  · by_cases hv : mapGet m flag = ""
    · simp [hf, hm, hv]
    · cases hp : ParseBool (mapGet m flag) <;> simp [hf, hm, hv, hp]

/-- C22: `IsConfigFeatureActivated` returns false and the error of `SplitFeaturePath`
on a malformed path; on a well-formed path it returns false and no error when the
client options, the feature maps, the map of the plugin or the value of the flag is
missing or empty, the boolean and no error when the stored value parses as a boolean
(1, t, T, TRUE, true, True give true; 0, f, F, FALSE, false, False give false), and
false and an error for every other stored value. It returns true only when the stored
value parses to true. -/
theorem IsConfigFeatureActivated_cases (c : ClientConfig) (p : String) :
    (∀ err, (c.SplitFeaturePath p).2.2 = some err →
      c.IsConfigFeatureActivated p = (false, some err)) ∧
    (∀ plugin flag, c.SplitFeaturePath p = (plugin, flag, none) →
      (c.ClientOptions = none → c.IsConfigFeatureActivated p = (false, none)) ∧
      (∀ o, c.ClientOptions = some o → o.Features = none →
        c.IsConfigFeatureActivated p = (false, none)) ∧
      (∀ o fs, c.ClientOptions = some o → o.Features = some fs →
        featureMap fs plugin = none → c.IsConfigFeatureActivated p = (false, none)) ∧
      (∀ o fs m, c.ClientOptions = some o → o.Features = some fs →
        featureMap fs plugin = some m → mapGet m flag = "" →
        c.IsConfigFeatureActivated p = (false, none)) ∧
      (∀ b, ParseBool (c.featureValue plugin flag) = .ok b →
        c.IsConfigFeatureActivated p = (b, none)) ∧
      (c.featureValue plugin flag ≠ "" →
        (∀ b, ParseBool (c.featureValue plugin flag) ≠ .ok b) →
        ∃ err, c.IsConfigFeatureActivated p = (false, some err))) ∧
    (∀ v, ParseBool v = .ok true ↔ v ∈ ["1", "t", "T", "TRUE", "true", "True"]) ∧
    (∀ v, ParseBool v = .ok false ↔ v ∈ ["0", "f", "F", "FALSE", "false", "False"]) ∧
    ((c.IsConfigFeatureActivated p).1 = true →
      ∃ plugin flag, c.SplitFeaturePath p = (plugin, flag, none) ∧
        ParseBool (c.featureValue plugin flag) = .ok true) := by
  refine ⟨?_, ?_, ParseBool_true, ParseBool_false, ?_⟩
  · intro err h
    unfold ClientConfig.IsConfigFeatureActivated
    rcases hs : c.SplitFeaturePath p with ⟨a, b, e⟩
    rw [hs] at h
    simp only at h
    subst h
    rfl
  · intro plugin flag h
    have heq := IsConfigFeatureActivated_eq c p plugin flag h
    refine ⟨?_, ?_, ?_, ?_, ?_, ?_⟩
    · intro h1
      rw [heq]
      simp [ClientConfig.featureValue, h1]
    · intro o h1 h2
      rw [heq]
      simp [ClientConfig.featureValue, h1, h2]
    · intro o fs h1 h2 h3
      rw [heq]
      simp [ClientConfig.featureValue, h1, h2, h3]
    · intro o fs m h1 h2 h3 h4
      rw [heq]
      simp [ClientConfig.featureValue, h1, h2, h3, h4]
    · intro b hb
      have hne : c.featureValue plugin flag ≠ "" := by
        intro he
        rw [he, ParseBool_empty] at hb
        cases hb
      rw [heq, if_neg hne, hb]
    · intro hne hno
      rw [heq, if_neg hne]
      cases hp : ParseBool (c.featureValue plugin flag) with
      | error e => exact ⟨_, rfl⟩
      | ok b => exact absurd hp (hno b)
  · intro ht
    rcases hs : c.SplitFeaturePath p with ⟨a, b, e⟩
    cases e with
    | some err =>
      have : c.IsConfigFeatureActivated p = (false, some err) := by
        unfold ClientConfig.IsConfigFeatureActivated
        rw [hs]
      rw [this] at ht
      cases ht
    | none =>
      refine ⟨a, b, rfl, ?_⟩
      have heq := IsConfigFeatureActivated_eq c p a b hs
      rw [heq] at ht
      by_cases hv : c.featureValue a b = ""
      · rw [if_pos hv] at ht
        cases ht
      · rw [if_neg hv] at ht
        cases hp : ParseBool (c.featureValue a b) with
        | error e =>
          rw [hp] at ht
          cases ht
        | ok bv =>
          rw [hp] at ht
          simp only at ht
          rw [ht]


/-- Concrete runs of `IsConfigFeatureActivated` on `cfgFeatures`: a true flag, a false
flag, a value that is no boolean, an empty value, an absent flag, an absent plugin and
a malformed path. -/
theorem IsConfigFeatureActivated_examples :
    cfgFeatures.IsConfigFeatureActivated "features.management-cluster.dual-stack" =
      (true, none) ∧
    cfgFeatures.IsConfigFeatureActivated "features.management-cluster.custom" =
      (false, none) ∧
    (cfgFeatures.IsConfigFeatureActivated "features.management-cluster.broken").1 = false ∧
    (cfgFeatures.IsConfigFeatureActivated "features.management-cluster.broken").2 ≠ none ∧
    cfgFeatures.IsConfigFeatureActivated "features.management-cluster.empty" =
      (false, none) ∧
    cfgFeatures.IsConfigFeatureActivated "features.management-cluster.absent" =
      (false, none) ∧
    cfgFeatures.IsConfigFeatureActivated "features.cluster.dual-stack" = (false, none) ∧
    (cfgFeatures.IsConfigFeatureActivated "management-cluster.dual-stack").2 ≠ none := by
  decide

/-- What `SetEditionSelector` does: a known edition is stored as the edition and the
unstable-version selector is kept; for every other edition the edition is kept and
the unstable-version selector becomes "tkg". -/
theorem SetEditionSelector_effect (c : ClientConfig) (e : String) :
    ((e = EditionCommunity ∨ e = EditionStandard) →
      (c.SetEditionSelector e).edition = e ∧
      (c.SetEditionSelector e).unstableVersionSelector = c.unstableVersionSelector) ∧
    (¬ (e = EditionCommunity ∨ e = EditionStandard) →
      (c.SetEditionSelector e).edition = c.edition ∧
      (c.SetEditionSelector e).unstableVersionSelector = EditionStandard) := by
  obtain ⟨ks, cs, kc, cc, co⟩ := c
  constructor
  · intro h
    rcases co with _ | ⟨cli, f, env⟩
    · simp [ClientConfig.SetEditionSelector, h, ClientConfig.edition,
        ClientConfig.unstableVersionSelector, ClientConfig.cliOrNew,
        ClientConfig.optionsOrNew]
    · rcases cli with _ | ⟨u, ed⟩ <;>
        simp [ClientConfig.SetEditionSelector, h, ClientConfig.edition,
          ClientConfig.unstableVersionSelector, ClientConfig.cliOrNew,
          ClientConfig.optionsOrNew]
  · intro h
    rcases co with _ | ⟨cli, f, env⟩
    · simp [ClientConfig.SetEditionSelector, h, ClientConfig.edition,
        ClientConfig.unstableVersionSelector, ClientConfig.cliOrNew,
        ClientConfig.optionsOrNew]
    · rcases cli with _ | ⟨u, ed⟩ <;>
        simp [ClientConfig.SetEditionSelector, h, ClientConfig.edition,
          ClientConfig.unstableVersionSelector, ClientConfig.cliOrNew,
          ClientConfig.optionsOrNew]

/-- C23, the code at the failing input: `SetEditionSelector` with the edition
"enterprise", which is neither "tce" nor "tkg". On the empty configuration the edition
stays empty and the unstable-version selector becomes "tkg"; on a configuration whose
selector is "none" the selector is overwritten with "tkg" and the edition stays empty:
the default branch assigns `UnstableVersionSelector`, where the doc comment of the
function names `EditionStandard` as the default edition. C23 has the edition "tkg" and
the selector unchanged in both. A known edition is stored as the edition. -/
theorem SetEditionSelector_default_writes_selector :
    (ClientConfig.empty.SetEditionSelector "enterprise").edition = "" ∧
    (ClientConfig.empty.SetEditionSelector "enterprise").unstableVersionSelector = "tkg" ∧
    cfgSelectorNone.unstableVersionSelector = "none" ∧
    (cfgSelectorNone.SetEditionSelector "enterprise").edition = "" ∧
    (cfgSelectorNone.SetEditionSelector "enterprise").unstableVersionSelector = "tkg" ∧
    (cfgSelectorNone.SetEditionSelector "tce").edition = "tce" ∧
    (cfgSelectorNone.SetEditionSelector "tce").unstableVersionSelector = "none" := by
  decide

theorem lookup_mapSet_self (m : List (String × String)) (k v : String) :
    (mapSet m k v).lookup k = some v := by
  simp [mapSet, List.lookup]

theorem lookup_filter_ne : ∀ (m : List (String × String)) (k k2 : String), k2 ≠ k →
    (m.filter (fun p => p.1 ≠ k)).lookup k2 = m.lookup k2
  | [], _, _, _ => rfl
  | (a, b) :: rest, k, k2, h => by
    have ih := lookup_filter_ne rest k k2 h
    by_cases ha : a = k
    · subst ha
      have h2 : (k2 == a) = false := by simpa using h
      simpa [List.filter, List.lookup, h2] using ih
    · by_cases hk : k2 = a
      · subst hk
        simp [List.filter, List.lookup, ha]
      · have h2 : (k2 == a) = false := by simpa using hk
        simpa [List.filter, List.lookup, ha, h2] using ih

theorem lookup_mapSet_other (m : List (String × String)) (k k2 v : String) (h : k2 ≠ k) :
    (mapSet m k v).lookup k2 = m.lookup k2 := by
  have h2 : (k2 == k) = false := by simpa using h
  simp only [mapSet, List.lookup, h2]
  exact lookup_filter_ne m k k2 h

/-- C25: when a context named `n` exists, the typed `SetCurrentContext t n` returns no
error; afterwards the current context of `t` is `n`, the entries of all other targets
are unchanged, and the current server is `n` if the context found is a management
cluster (target kubernetes, cluster options present, management-cluster flag set) or
has the target mission-control, and is unchanged otherwise. The known contexts and
servers and the client options are unchanged. -/
theorem ClientConfig_SetCurrentContext_found (c : ClientConfig) (t : Target) (n : String)
    (ctx : Context) (hfound : c.GetContext n = .ok ctx) :
    (c.SetCurrentContext t n).2 = none ∧
    (c.SetCurrentContext t n).1.CurrentContext.lookup t = some n ∧
    (∀ t2, t2 ≠ t →
      (c.SetCurrentContext t n).1.CurrentContext.lookup t2 = c.CurrentContext.lookup t2) ∧
    (((ctx.Target = TargetK8s ∧
        ∃ o, ctx.ClusterOpts = some o ∧ o.IsManagementCluster = true) ∨
        ctx.Target = TargetTMC) →
      (c.SetCurrentContext t n).1.CurrentServer = n) ∧
    (¬ ((ctx.Target = TargetK8s ∧
        ∃ o, ctx.ClusterOpts = some o ∧ o.IsManagementCluster = true) ∨
        ctx.Target = TargetTMC) →
      (c.SetCurrentContext t n).1.CurrentServer = c.CurrentServer) ∧
    (c.SetCurrentContext t n).1.KnownContexts = c.KnownContexts ∧
    (c.SetCurrentContext t n).1.KnownServers = c.KnownServers ∧
    (c.SetCurrentContext t n).1.ClientOptions = c.ClientOptions := by
  have hg : ({ c with CurrentContext := mapSet c.CurrentContext t n } : ClientConfig).GetContext
      n = .ok ctx := hfound
  have hm : ctx.IsManagementCluster = true ↔
      (ctx.Target = TargetK8s ∧
        ∃ o, ctx.ClusterOpts = some o ∧ o.IsManagementCluster = true) := by
    unfold Context.IsManagementCluster
    cases ctx.ClusterOpts with
    | none => simp
    | some o => simp
  have heq : c.SetCurrentContext t n =
      if ctx.IsManagementCluster = true ∨ ctx.Target = TargetTMC then
        ({ c with CurrentContext := mapSet c.CurrentContext t n, CurrentServer := n }, none)
      else ({ c with CurrentContext := mapSet c.CurrentContext t n }, none) := by
    unfold ClientConfig.SetCurrentContext
    simp only [hg]
  rw [heq]
  by_cases hcase : ctx.IsManagementCluster = true ∨ ctx.Target = TargetTMC
  · rw [if_pos hcase]
    refine ⟨rfl, lookup_mapSet_self _ _ _, fun t2 h => lookup_mapSet_other _ _ _ _ h,
      fun _ => rfl, fun h => ?_, rfl, rfl, rfl⟩
    exact absurd (hcase.imp hm.mp id) h
  · rw [if_neg hcase]
    refine ⟨rfl, lookup_mapSet_self _ _ _, fun t2 h => lookup_mapSet_other _ _ _ _ h,
      fun h => ?_, fun _ => rfl, rfl, rfl, rfl⟩
    exact absurd (h.imp hm.mpr id) hcase

/-- C25, witness: making `ctx1` current in `cfgTwoContexts`. -/
theorem ClientConfig_SetCurrentContext_found_witness :
    (cfgTwoContexts.SetCurrentContext TargetK8s "ctx1").2 = none ∧
    (cfgTwoContexts.SetCurrentContext TargetK8s "ctx1").1.CurrentContext.lookup TargetK8s =
      some "ctx1" :=
  have h := ClientConfig_SetCurrentContext_found cfgTwoContexts TargetK8s "ctx1" ctx1 rfl
  ⟨h.1, h.2.1⟩

/-- C26: when no context named `n` exists, the typed `SetCurrentContext t n` returns
the error "could not find context <n>", and the current context of `t` is `n` all the
same: the pointer is written before the lookup. The entries of the other targets, the
current server, the known contexts and servers and the client options are
unchanged. -/
theorem ClientConfig_SetCurrentContext_missing (c : ClientConfig) (t : Target) (n : String)
    (hno : ∀ ctx ∈ c.KnownContexts, ctx.Name ≠ n) :
    (c.SetCurrentContext t n).2 = some (.Errorf "could not find context %q" n) ∧
    (c.SetCurrentContext t n).1.CurrentContext.lookup t = some n ∧
    (∀ t2, t2 ≠ t →
      (c.SetCurrentContext t n).1.CurrentContext.lookup t2 = c.CurrentContext.lookup t2) ∧
    (c.SetCurrentContext t n).1.CurrentServer = c.CurrentServer ∧
    (c.SetCurrentContext t n).1.KnownContexts = c.KnownContexts ∧
    (c.SetCurrentContext t n).1.KnownServers = c.KnownServers ∧
    (c.SetCurrentContext t n).1.ClientOptions = c.ClientOptions := by
  have hfind : c.KnownContexts.find? (fun ctx => ctx.Name = n) = none := by
    rw [List.find?_eq_none]
    intro x hx
    simpa using hno x hx
  have hg : ({ c with CurrentContext := mapSet c.CurrentContext t n } : ClientConfig).GetContext
      n = .error (.Errorf "could not find context %q" n) := by
    simp only [ClientConfig.GetContext, hfind]
  have heq : c.SetCurrentContext t n =
      ({ c with CurrentContext := mapSet c.CurrentContext t n },
        some (.Errorf "could not find context %q" n)) := by
    unfold ClientConfig.SetCurrentContext
    simp only [hg]
  rw [heq]
  exact ⟨rfl, lookup_mapSet_self _ _ _, fun t2 h => lookup_mapSet_other _ _ _ _ h, rfl, rfl,
    rfl, rfl⟩

/-- C26, witness: `ctx3` is not among the contexts of `cfgTwoContexts`. -/
theorem ClientConfig_SetCurrentContext_missing_witness :
    (cfgTwoContexts.SetCurrentContext TargetK8s "ctx3").2 =
      some (.Errorf "could not find context %q" "ctx3") ∧
    (cfgTwoContexts.SetCurrentContext TargetK8s "ctx3").1.CurrentContext.lookup TargetK8s =
      some "ctx3" :=
  have h := ClientConfig_SetCurrentContext_missing cfgTwoContexts TargetK8s "ctx3"
    (by decide)
  ⟨h.1, h.2.1⟩

/-- What `EndpointFromContext` returns when the option block it reads is present, and
for the other targets. -/
theorem EndpointFromContext_present (s : Context) :
    (∀ o, s.Target = TargetK8s → s.ClusterOpts = some o →
      EndpointFromContext s = .ok o.Endpoint) ∧
    (∀ g, s.Target = TargetTMC → s.GlobalOpts = some g →
      EndpointFromContext s = .ok g.Endpoint) ∧
    (s.Target ≠ TargetK8s → s.Target ≠ TargetTMC →
      EndpointFromContext s = .error (.Errorf "unknown server type %q" s.Target)) := by
  refine ⟨?_, ?_, ?_⟩
  · intro o ht ho
    simp [EndpointFromContext, ht, ho]
  · intro g ht hg
    have hne : s.Target ≠ TargetK8s := by rw [ht]; decide
    simp [EndpointFromContext, ht, hg]
    intro h
    rw [ht] at hne
    exact absurd h hne
  · intro h1 h2
    simp [EndpointFromContext, h1, h2]

/-- C27, the code at the failing input: for the context built by
`DefaultSetContextInputOptions` (target kubernetes, global options only)
`EndpointFromContext` reads the endpoint of the absent cluster options, and for a
mission-control context without global options that of the absent global options:
both are nil dereferences, neither an endpoint nor an error is returned. -/
theorem EndpointFromContext_absent_block :
    EndpointFromContext (ctxDefaultInput "ctx") =
      .error (.panic "invalid memory address or nil pointer dereference") ∧
    EndpointFromContext ctxTMCNoOpts =
      .error (.panic "invalid memory address or nil pointer dereference") :=
  ⟨rfl, rfl⟩

/-- A parsed node without children makes `getClientConfigNoLock` index past the end,
whatever the file holds; `newClientConfigNode` looks at the node before the error of
the conversion. -/
theorem getClientConfigNoLock_no_children (fs : ConfigFile) (path bytes : String)
    (node : Node) (hp : fs.ClientConfigPath = .ok path) (hr : fs.ReadFile path = .ok bytes)
    (hb : bytes.length ≠ 0) (hu : fs.Unmarshal bytes = .ok node) (hc : node.Content = []) :
    getClientConfigNoLock fs = .error (.panic "index out of range [0] with length 0") := by
  simp [getClientConfigNoLock, hp, hr, hb, hu, hc]

/-- C28, the code at the failing input: on a file holding a comment only, for which
the parser returns no error and a node without children, `getClientConfigNoLock`
indexes `node.Content[0]` out of range; and when `convertClientConfigToNode` returns
an error and no node, `newClientConfigNode` dereferences the node before it looks at
the error, and the panic unwinds through `getClientConfigNoLock`, which returns
nothing. -/
theorem getClientConfigNoLock_indexes_past_end :
    getClientConfigNoLock fileCommentOnly =
      .error (.panic "index out of range [0] with length 0") ∧
    newClientConfigNode fileConvertFails =
      .error (.panic "invalid memory address or nil pointer dereference") ∧
    getClientConfigNoLock fileConvertFails =
      .error (.panic "invalid memory address or nil pointer dereference") :=
  ⟨rfl, rfl, rfl⟩


theorem removeCurrentServer_ok (node : Node) (name : String) (hd : DocComplete node) :
    ∃ node1, removeCurrentServer node name = .ok node1 := by
  obtain ⟨root, rest, hc, _⟩ := root_of_complete node hd
  simp only [removeCurrentServer, hc]
  cases hF : FindNode root false [⟨KeyCurrentServer, 0⟩] with
  | none => simp
  | some r =>
    obtain ⟨root1, path⟩ := r
    cases hat : nodeAt root1 path with
    | none => simp [hat]
    | some s => by_cases hv : s.Value = name <;> simp [hat, hv]

theorem lookup_currentContext (node : Node) (t : Target) :
    (decodePairs (sectionItems node KeyCurrentContext)).lookup t = currentContextOf node t := by
  unfold sectionItems currentContextOf
  cases sectionOf node KeyCurrentContext with
  | none => rfl
  | some cc => exact decodePairs_lookup cc.Content t

/-- A successful `persistConfig`: one persist event, the document stored. -/
theorem persistConfig_ok (w : World) (node : Node) (h : w.persistFails.head? ≠ some true) :
    (persistConfig w node).2 = .ok () ∧
    (persistConfig w node).1.trace = w.trace ++ [Event.persist w.unified true] ∧
    (persistConfig w node).1.stored = node := by
  have hs1 : ∀ tr pf, w.unified = true →
      ({ w with persistFails := pf, trace := tr, nextGen := node } : World).stored = node := by
    intro tr pf hu
    simp only [World.stored, World.unified] at hu ⊢
    simp [hu]
  have hs2 : ∀ tr pf, w.unified = false →
      ({ w with persistFails := pf, trace := tr, legacy := node } : World).stored = node := by
    intro tr pf hu
    simp only [World.stored, World.unified] at hu ⊢
    simp [hu]
  unfold persistConfig
  cases hf : w.persistFails with
  | nil =>
    cases hu : w.unified
    · simpa [hu] using hs2 _ _ hu
    · simpa [hu] using hs1 _ _ hu
  | cons b bs =>
    cases b with
    | true => simp [hf] at h
    | false =>
      cases hu : w.unified
      · simpa [hu] using hs2 _ _ hu
      · simpa [hu] using hs1 _ _ hu

/-- C24: `RemoveCurrentContext t` on a store whose load succeeds. When no current
context is set for `t` (no entry, or an empty name), it returns the error "no current
context set for target <t>", makes no persist attempt (the trace gains the lock, the
load and the unlock) and leaves both stored documents unchanged. When a current
context named `n` is set for `t` and a context of that name exists (the document has
complete key/value pairs in its root and in its current-context section, and the
persist attempt does not fail), it returns no error, persists exactly once, and the
persisted current-context section is the former one without the entry of `t`, whatever
name that entry held; the contexts and servers sections are unchanged. -/
theorem RemoveCurrentContext_cases (w : World) (t : Target) (hload : w.loadError = none) :
    ((currentContextOf w.stored t = none ∨ currentContextOf w.stored t = some "") →
      (RemoveCurrentContext w t).2 =
        .error (.Errorf "no current context set for target %q" t) ∧
      (RemoveCurrentContext w t).1.trace =
        w.trace ++ [Event.lock, Event.load w.unified, Event.unlock] ∧
      (RemoveCurrentContext w t).1.legacy = w.legacy ∧
      (RemoveCurrentContext w t).1.nextGen = w.nextGen) ∧
    (∀ n, currentContextOf w.stored t = some n → n ≠ "" →
      (∃ c ∈ (sectionItems w.stored KeyContexts).map decodeContext, c.Name = n) →
      DocComplete w.stored → SectionComplete w.stored KeyCurrentContext →
      w.persistFails.head? ≠ some true →
      (RemoveCurrentContext w t).2 = .ok () ∧
      (RemoveCurrentContext w t).1.trace =
        w.trace ++ [Event.lock, Event.load w.unified, Event.persist w.unified true,
          Event.unlock] ∧
      sectionItems (RemoveCurrentContext w t).1.stored KeyCurrentContext =
        pairErase (sectionItems w.stored KeyCurrentContext) t ∧
      sectionOf (RemoveCurrentContext w t).1.stored KeyContexts =
        sectionOf w.stored KeyContexts ∧
      sectionOf (RemoveCurrentContext w t).1.stored KeyServers =
        sectionOf w.stored KeyServers) := by
  have hstored : (AcquireTanzuConfigLock w).stored = w.stored := rfl
  have hunif : (AcquireTanzuConfigLock w).unified = w.unified := rfl
  have hle : (AcquireTanzuConfigLock w).loadError = none := hload
  have h1 : getClientConfigNodeNoLock (AcquireTanzuConfigLock w) =
      ({ AcquireTanzuConfigLock w with
          trace := (AcquireTanzuConfigLock w).trace ++ [Event.load w.unified] },
        .ok w.stored) := by
    rw [getClientConfigNodeNoLock_eq]
    simp only [hle, hstored, hunif]
  constructor
  · intro hnone
    have hget : mapGet (decodePairs (sectionItems w.stored KeyCurrentContext)) t = "" := by
      unfold mapGet
      rw [lookup_currentContext]
      rcases hnone with h | h <;> rw [h]
    have hg : getCurrentContext w.stored t =
        .error (.Errorf "no current context set for target %q" t) := by
      simp only [getCurrentContext, convertNodeToClientConfig,
        ClientConfig.GetCurrentContext, hget, if_true]
    have h2 : RemoveCurrentContextLocked (AcquireTanzuConfigLock w) t =
        ({ AcquireTanzuConfigLock w with
            trace := (AcquireTanzuConfigLock w).trace ++ [Event.load w.unified] },
          .error (.Errorf "no current context set for target %q" t)) := by
      unfold RemoveCurrentContextLocked
      rw [h1]
      simp only [andThen, hg]
    unfold RemoveCurrentContext
    rw [h2]
    simp [ReleaseTanzuConfigLock, AcquireTanzuConfigLock]
  · intro n hset hn hex hd hcomp hpf
    -- the current context is found
    have hget : mapGet (decodePairs (sectionItems w.stored KeyCurrentContext)) t = n := by
      unfold mapGet
      rw [lookup_currentContext, hset]
    obtain ⟨ctx, hfind⟩ : ∃ ctx, ((sectionItems w.stored KeyContexts).map decodeContext).find?
        (fun c => c.Name = n) = some ctx := by
      cases hf : ((sectionItems w.stored KeyContexts).map decodeContext).find?
          (fun c => c.Name = n) with
      | some ctx => exact ⟨ctx, rfl⟩
      | none =>
        exfalso
        rw [List.find?_eq_none] at hf
        obtain ⟨c, hc, hcn⟩ := hex
        exact hf c hc (by simpa using hcn)
    have hg : getCurrentContext w.stored t = .ok ctx := by
      simp only [getCurrentContext, convertNodeToClientConfig,
        ClientConfig.GetCurrentContext, hget, hn, if_false, ClientConfig.GetContext, hfind]
    -- the pointer is removed
    obtain ⟨root, rest, hc, hroot, _⟩ := hyps_of_complete w.stored KeyCurrentContext hd
    have hso : sectionOf w.stored KeyCurrentContext =
        pairLookup root.Content KeyCurrentContext := by
      simp [sectionOf, hc]
    obtain ⟨cc, hcc, v, hv⟩ : ∃ cc, pairLookup root.Content KeyCurrentContext = some cc ∧
        ∃ v, pairLookup cc.Content t = some v := by
      simp only [currentContextOf, hso] at hset
      cases hl : pairLookup root.Content KeyCurrentContext with
      | none => simp [hl] at hset
      | some cc =>
        simp only [hl] at hset
        cases hv : pairLookup cc.Content t with
        | none => simp [hv] at hset
        | some v => exact ⟨cc, rfl, v, hv⟩
    have hitems : sectionItems w.stored KeyCurrentContext = cc.Content := by
      simp [sectionItems, hso, hcc]
    have hrem : removeCurrentContext w.stored ⟨"", t, none, none, []⟩ =
        .ok (putSection w.stored KeyCurrentContext
          (cc.setContent (pairErase cc.Content t))) := by
      rw [removeCurrentContext_eq w.stored root rest _ hc hroot]
      · simp [hcc, hv]
      · intro cc2 h2
        rw [hcc] at h2
        cases h2
        simpa [SectionComplete, hitems] using hcomp
    have hd1 : DocComplete (putSection w.stored KeyCurrentContext
        (cc.setContent (pairErase cc.Content t))) := DocComplete_putSection _ _ _ hd
    obtain ⟨node2, hsrv⟩ := removeCurrentServer_ok _ ctx.Name hd1
    have hon := removeCurrentServer_shape _ _ hd1 node2 hsrv
    have h2 : RemoveCurrentContextLocked (AcquireTanzuConfigLock w) t =
        persistConfig { AcquireTanzuConfigLock w with
            trace := (AcquireTanzuConfigLock w).trace ++ [Event.load w.unified] } node2 := by
      unfold RemoveCurrentContextLocked
      rw [h1]
      simp only [andThen, hg, hrem, hsrv]
    obtain ⟨p1, p2, p3⟩ := persistConfig_ok { AcquireTanzuConfigLock w with
        trace := (AcquireTanzuConfigLock w).trace ++ [Event.load w.unified] } node2 hpf
    have hst : (RemoveCurrentContext w t).1.stored = node2 := by
      unfold RemoveCurrentContext
      rw [h2]
      exact p3
    refine ⟨?_, ?_, ?_, ?_, ?_⟩
    · unfold RemoveCurrentContext
      rw [h2]
      exact p1
    · unfold RemoveCurrentContext
      rw [h2]
      simp only [ReleaseTanzuConfigLock, p2]
      simp [AcquireTanzuConfigLock, World.unified]
    · rw [hst, sectionItems_OnlySection hon hd1 (by decide), hitems]
      simp [sectionItems, sectionOf_putSection_of_complete _ _ _ _ hd]
    · rw [hst, OnlySection_sectionOf hon hd1 (by decide),
        sectionOf_putSection_ne _ _ _ _ hd (by decide)]
    · rw [hst, OnlySection_sectionOf hon hd1 (by decide),
        sectionOf_putSection_ne _ _ _ _ hd (by decide)]

/-- C24, witness: on a store holding `docTwoContexts` the kubernetes pointer is removed
with one persist; on the empty store and on `docEmptyPointer` the call fails without a
persist. -/
theorem RemoveCurrentContext_cases_witness :
    ((RemoveCurrentContext (World.fresh docTwoContexts) TargetK8s).2 = .ok () ∧
      (RemoveCurrentContext (World.fresh docTwoContexts) TargetK8s).1.trace =
        [Event.lock, Event.load false, Event.persist false true, Event.unlock] ∧
      currentContextOf (RemoveCurrentContext (World.fresh docTwoContexts) TargetK8s).1.stored
        TargetK8s = none) ∧
    ((RemoveCurrentContext (World.fresh emptyDocument) TargetK8s).2 =
        .error (.Errorf "no current context set for target %q" TargetK8s) ∧
      (RemoveCurrentContext (World.fresh emptyDocument) TargetK8s).1.trace =
        [Event.lock, Event.load false, Event.unlock]) ∧
    (RemoveCurrentContext (World.fresh docEmptyPointer) TargetK8s).2 =
      .error (.Errorf "no current context set for target %q" TargetK8s) :=
  have h1 := (RemoveCurrentContext_cases (World.fresh docTwoContexts) TargetK8s rfl).2 "ctx1"
    (by decide) (by decide) (by decide) (by decide) (by decide) (by decide)
  have h2 := (RemoveCurrentContext_cases (World.fresh emptyDocument) TargetK8s rfl).1
    (Or.inl (by decide))
  have h3 := (RemoveCurrentContext_cases (World.fresh docEmptyPointer) TargetK8s rfl).1
    (Or.inr (by decide))
  ⟨⟨h1.1, h1.2.1, by decide⟩, ⟨h2.1, h2.2.1⟩, h3.1⟩

end TanzuConfig
